import Mathlib

/-!
# Image2Ico: the raster image engine (`src/Image/Image.cpp`)

A shallow embedding of `X::CImage` and of the operations on it, of the colour
ramp `X::CColourRamp` (`src/Core/DataStructures/ColourRamp.cpp`), and of the
functions of `src/Core/StringUtils.cpp` and `src/Core/Utilities.cpp` that the
statements are about, followed by theorems about them.

Conventions of the embedding

* A byte is a natural number; a byte sequence is a `List Nat`.
* `int` members and locals are `Int`; `unsigned int`, `unsigned short`,
  `unsigned char` and `size_t` values are `Nat`, and every conversion between
  them is written out (`toUInt`, `toInt`, `toUShort`, `toUChar`, `toSizeT`).
  Unsigned arithmetic is reduced modulo the width of its type. Sums and
  products of `int`s are exact where the values stay in the range of `int`;
  a sum or a counter that the arguments can take out of that range is
  written out with `addInt`, the sum reduced to 32 bits: the far edges of
  `copyRectTo` and the source index of `removeAlphaChannel`. A read outside
  the storage has no defined result, which is `none`.
* The owning pointer `_mpData` is an `Option`: `none` is the null pointer,
  `some d` is storage holding the bytes `d`.
* A C++ member function that may throw returns an `Outcome`: either it
  returned a value, or it threw; in both cases the object it was mutating is
  reported in the state in which the call left it.
* A `float` of the colour ramp and of the hue is a `CFloat` (a rational, an
  infinity or a NaN), and the operators on it round to the nearest binary32
  number; a `float` of the greyscale and normal-map computations is a
  rational, and there the rounding of the operations is left out.
  Functions whose bodies are outside the sources (the resampler, the PNG
  encoder, `sqrtf`, the colour computations of `CColourf` and `CVector2f`)
  are parameters.
* A `std::string` is a `String`; a character is a `Char`.
-/

namespace X

/-! ## Machine integers -/

/-- Conversion of an integer value to `unsigned int` (32 bits): reduction modulo `2^32`. -/
def toUInt (z : Int) : Nat := (z % 4294967296).toNat

/-- Conversion of an unsigned value to `int` (32 bits, two's complement). -/
def toInt (n : Nat) : Int :=
  if n % 4294967296 < 2147483648 then ((n % 4294967296 : Nat) : Int)
  else ((n % 4294967296 : Nat) : Int) - 4294967296

/-- The sum of two `int`s as the compiled program computes it: the exact sum reduced to 32
bits in two's complement. (C++ gives a signed sum outside the range of `int` no defined
result; inside the range this is the exact sum.) -/
def addInt (a b : Int) : Int := toInt (toUInt (a + b))

/-- Conversion of an integer value to `unsigned short` (16 bits). -/
def toUShort (z : Int) : Nat := (z % 65536).toNat

/-- Conversion of an integer value to `unsigned char` (8 bits). -/
def toUChar (z : Int) : Nat := (z % 256).toNat

/-! ## The image object -/

/-- The data members of `X::CImage`. -/
structure CImage where
  /-- The member `unsigned char* _mpData`: `none` is the null pointer. -/
  _mpData : Option (List Nat)
  /-- The member `unsigned int _muiDataSize`. -/
  _muiDataSize : Nat
  /-- The member `int _miWidth`. -/
  _miWidth : Int
  /-- The member `int _miHeight`. -/
  _miHeight : Int
  /-- The member `int _miNumChannels`. -/
  _miNumChannels : Int
deriving DecidableEq, Repr

/-- The result of calling a member function that may throw: the returned value,
or the message of the exception, each with the mutated object as the call left it. -/
inductive Outcome (α : Type) where
  | returned (val : α) (img : CImage)
  | thrown (what : String) (img : CImage)
deriving DecidableEq, Repr

/-- The object the call left behind, whether it returned or threw. -/
def Outcome.image {α : Type} : Outcome α → CImage
  | .returned _ img => img
  | .thrown _ img => img

/-- `CImage::free`: storage, when present, is released and the recorded size reset;
the three dimensions are reset in every case. -/
def free (self : CImage) : CImage :=
  match self._mpData with
  | some _ =>
    { _mpData := none, _muiDataSize := 0, _miWidth := 0, _miHeight := 0, _miNumChannels := 0 }
  | none =>
    { self with _miWidth := 0, _miHeight := 0, _miNumChannels := 0 }

/-- `CImage::CImage()`: pointer and size are cleared, then `free()` is called. -/
def CImage.new : CImage :=
  free { _mpData := none, _muiDataSize := 0, _miWidth := 0, _miHeight := 0, _miNumChannels := 0 }

/-- `CImage::createBlank(unsigned int iWidth, unsigned int iHeight, unsigned short iNumChannels)`
when the allocation yields storage (`createBlankAlloc` below has the allocation that
fails). The object is freed first; the four `ThrowIfTrue` checks follow in source order;
then the members are set, the size is the `int` product converted to `unsigned int`, and
the new storage is filled with zero. -/
def createBlank (iWidth iHeight iNumChannels : Nat) (self : CImage) : Outcome Unit :=
  let s := free self
  if iWidth < 1 then .thrown "Given width < 1." s
  else if iHeight < 1 then .thrown "Given height < 1." s
  else if iNumChannels < 3 then .thrown "Given number of channels < 1. (Only 3 or 4 is valid)" s
  else if iNumChannels > 4 then .thrown "Given number of channels > 4. (Only 3 or 4 is valid)" s
  else
    let w := toInt iWidth
    let h := toInt iHeight
    let c : Int := (iNumChannels : Int)
    let size := toUInt (w * h * c)
    .returned ()
      { _mpData := some (List.replicate size 0), _muiDataSize := size,
        _miWidth := w, _miHeight := h, _miNumChannels := c }

/-- `CImage::createBlank` with both outcomes of the allocation. `bNewReturnsNull` tells
whether `new unsigned char[_muiDataSize]` left a null pointer in `_mpData`; the fifth
`ThrowIfTrue` then fires, the members having been set already. With storage allocated the
function is `createBlank`. (An allocator that signals failure by an exception of its own
ends the call at the same place, with that exception.) -/
def createBlankAlloc (bNewReturnsNull : Bool) (iWidth iHeight iNumChannels : Nat)
    (self : CImage) : Outcome Unit :=
  let s := free self
  if iWidth < 1 then .thrown "Given width < 1." s
  else if iHeight < 1 then .thrown "Given height < 1." s
  else if iNumChannels < 3 then .thrown "Given number of channels < 1. (Only 3 or 4 is valid)" s
  else if iNumChannels > 4 then .thrown "Given number of channels > 4. (Only 3 or 4 is valid)" s
  else
    let w := toInt iWidth
    let h := toInt iHeight
    let c : Int := (iNumChannels : Int)
    let size := toUInt (w * h * c)
    if bNewReturnsNull then
      .thrown "Failed to allocate memory."
        { _mpData := none, _muiDataSize := size, _miWidth := w, _miHeight := h,
          _miNumChannels := c }
    else
      .returned ()
        { _mpData := some (List.replicate size 0), _muiDataSize := size,
          _miWidth := w, _miHeight := h, _miNumChannels := c }

/-- The two messages with which `createBlank` rejects a dimension. -/
def isInvalidDimension (what : String) : Prop :=
  what = "Given width < 1." ∨ what = "Given height < 1."

/-- The two messages with which `createBlank` rejects a channel count. -/
def isInvalidChannelCount (what : String) : Prop :=
  what = "Given number of channels < 1. (Only 3 or 4 is valid)" ∨
  what = "Given number of channels > 4. (Only 3 or 4 is valid)"

/-- A non-empty buffer of the data model: storage is present, width and
height are at least 1, the channel count is 3 or 4, and the recorded size, the length of
the byte sequence and `width * height * channels` agree (the product being representable
as an `int`, as `createBlank` computes it). -/
def IsImage (img : CImage) : Prop :=
  1 ≤ img._miWidth ∧ 1 ≤ img._miHeight ∧
  (img._miNumChannels = 3 ∨ img._miNumChannels = 4) ∧
  (img._muiDataSize : Int) = img._miWidth * img._miHeight * img._miNumChannels ∧
  img._muiDataSize < 2147483648 ∧
  img._mpData.map List.length = some img._muiDataSize

instance (img : CImage) : Decidable (IsImage img) := by
  unfold IsImage
  infer_instance

/-! ## Pixel access -/

/-- Byte offset of pixel `(iX, iY)` in the interleaved, row-major byte sequence. -/
def pixelIndex (self : CImage) (iX iY : Nat) : Nat :=
  (iX + iY * self._miWidth.toNat) * self._miNumChannels.toNat

/-- Modelled from the spec: `CImage::getPixel`, whose definition is in the absent
`Image.h`. Spec 4.1: it fails with `OutOfBounds` if x ≥ width or y ≥ height and never
clamps; the coordinates are unsigned. On a 4-channel buffer the four bytes of the pixel are
returned; otherwise red, green and blue are returned and `a` stays the caller-supplied
value. -/
def getPixel (self : CImage) (iX iY : Nat) (a : Nat) : Outcome (Nat × Nat × Nat × Nat) :=
  if self._miWidth ≤ (iX : Int) ∨ self._miHeight ≤ (iY : Int) then .thrown "OutOfBounds" self
  else
    let d := self._mpData.getD []
    let i := pixelIndex self iX iY
    .returned (d.getD i 0, d.getD (i + 1) 0, d.getD (i + 2) 0,
      if self._miNumChannels = 4 then d.getD (i + 3) 0 else a) self

/-- The bytes of storage after a pixel is stored at offset `i`: red, green and blue, and
`a` as well when the channel count is 4. -/
def storePixel (numChannels : Int) (i r g b a : Nat) (d : List Nat) : List Nat :=
  let d3 := ((d.set i r).set (i + 1) g).set (i + 2) b
  if numChannels = 4 then d3.set (i + 3) a else d3

/-- Modelled from the spec: `CImage::setPixel`, whose definition is in the absent
`Image.h`. Spec 4.1: it fails with `OutOfBounds` if x ≥ width or y ≥ height; red, green and
blue are stored, and `a` is stored on a 4-channel buffer and ignored otherwise. -/
def setPixel (self : CImage) (iX iY r g b a : Nat) : Outcome Unit :=
  if self._miWidth ≤ (iX : Int) ∨ self._miHeight ≤ (iY : Int) then .thrown "OutOfBounds" self
  else
    let store := storePixel self._miNumChannels (pixelIndex self iX iY) r g b a
    .returned () { self with _mpData := self._mpData.map store }

/-- The channel bytes of pixel `(x, y)` in the byte sequence of an image. -/
def pixelBytes (img : CImage) (x y : Nat) : List Nat :=
  ((img._mpData.getD []).drop (pixelIndex img x y)).take img._miNumChannels.toNat

/-! ## Vertical flip -/

/-- The rows copied by the loop of `flipVertically`: iteration `iRow` copies `iRowSize`
bytes that start `iRow` rows before the last row of the old storage. -/
def flippedRows (d : List Nat) (iRowSize : Nat) (iHeight : Nat) : List (List Nat) :=
  (List.range iHeight).map
    (fun iRow => (d.drop (iRowSize * (iHeight - 1) - iRow * iRowSize)).take iRowSize)

/-- `CImage::flipVertically`: throws without storage; otherwise the rows of the old storage
are copied, last row first, to consecutive positions of new storage, which replaces the
old. (The new storage has `_muiDataSize` bytes; the loop writes `height * rowsize` of them,
which is all of them whenever the recorded size is `width * height * channels`.) -/
def flipVertically (self : CImage) : Outcome Unit :=
  match self._mpData with
  | none => .thrown "Image not yet created." self
  | some d =>
    let iRowSize := toUInt (self._miWidth * self._miNumChannels)
    .returned ()
      { self with _mpData := some (flippedRows d iRowSize self._miHeight.toNat).flatten }

/-! ## Copying -/

/-- `CImage::copyTo`. `bSameStorage` is the outcome of the pointer comparison
`destImage._mpData == this->_mpData`; storage is owned by one object only, so with a
non-null source pointer it is true exactly when the destination is the source object
itself. Otherwise the destination is freed and recreated with the source's dimensions
(converted to the parameter types of `createBlank`), and `_muiDataSize` bytes are copied
over the start of its storage. The source is `const` and is not changed. -/
def copyTo (self : CImage) (bSameStorage : Bool) (destImage : CImage) : Outcome Unit :=
  match self._mpData with
  | none => .thrown "Source image not yet created." destImage
  | some d =>
    if bSameStorage then .returned () destImage
    else
      match createBlank (toUInt self._miWidth) (toUInt self._miHeight)
          (toUShort self._miNumChannels) (free destImage) with
      | .thrown what img => .thrown what img
      | .returned _ img =>
        let memcpy (dd : List Nat) : List Nat :=
          d.take self._muiDataSize ++ dd.drop self._muiDataSize
        .returned () { img with _mpData := img._mpData.map memcpy }

/-- The template function `clamp` of `Core/Utilities.h`, at type `int`: the smaller of the two
bounds is the minimum, the other the maximum. -/
def clamp (valueToClamp valueA valueB : Int) : Int :=
  let min := if valueA < valueB then valueA else valueB
  let max := if valueA < valueB then valueB else valueA
  if valueToClamp < min then min
  else if valueToClamp > max then max
  else valueToClamp

/-- The index pairs `(ix, iy)` in the order in which the two nested loops of `copyRectTo`
visit them: `ix` is the outer loop, `iy` the inner. -/
def rectPairs (iMinWidth iMinHeight : Nat) : List (Nat × Nat) :=
  (List.range iMinWidth).flatMap (fun ix => (List.range iMinHeight).map (fun iy => (ix, iy)))

/-- The body of the loops of `copyRectTo`, run over the index pairs still to be visited:
the source pixel is read into `colTmp` and written to the destination; an exception thrown
by either call ends the copy. `a` is the current content of `colTmp[3]`. -/
def copyRectLoop (self : CImage) (iSrcLeft iSrcBot iDstLeft iDstBot : Int) :
    List (Nat × Nat) → Nat → CImage → Outcome Unit
  | [], _, dest => .returned () dest
  | (ix, iy) :: rest, a, dest =>
    let isx := toUInt (iSrcLeft + ix)
    let isy := toUInt (iSrcBot + iy)
    let idx := toUInt (iDstLeft + ix)
    let idy := toUInt (iDstBot + iy)
    match getPixel self isx isy a with
    | .thrown what _ => .thrown what dest
    | .returned col _ =>
      match setPixel dest idx idy col.1 col.2.1 col.2.2.1 col.2.2.2 with
      | .thrown what dest1 => .thrown what dest1
      | .returned _ dest1 => copyRectLoop self iSrcLeft iSrcBot iDstLeft iDstBot rest col.2.2.2 dest1

/-- `CImage::copyRectTo`, for a destination object other than the source. `colTmp3` is the
indeterminate initial content of the local `colTmp[3]`. The reported object is the
destination. The four sums that give the far edges are `int` sums of arguments and are
taken with `addInt`. -/
def copyRectTo (self destImage : CImage)
    (iSrcPosX iSrcPosY iSrcWidth iSrcHeight iDestPosX iDestPosY : Int) (colTmp3 : Nat) :
    Outcome Unit :=
  if self._mpData.isNone then .thrown "Source image not yet created." destImage
  else if destImage._mpData.isNone then .thrown "Destination image not yet created." destImage
  else
    let iSrcLeft := iSrcPosX
    let iSrcBot := iSrcPosY
    let iSrcRight := addInt iSrcLeft iSrcWidth
    let iSrcTop := addInt iSrcBot iSrcHeight
    let iDstLeft := iDestPosX
    let iDstBot := iDestPosY
    let iDstRight := addInt iDstLeft iSrcWidth
    let iDstTop := addInt iDstBot iSrcHeight
    if iSrcLeft ≥ self._miWidth then .returned () destImage
    else if iSrcBot ≥ self._miHeight then .returned () destImage
    else if iDstLeft ≥ destImage._miWidth then .returned () destImage
    else if iDstBot ≥ destImage._miHeight then .returned () destImage
    else
      let iSrcRight := clamp iSrcRight iSrcLeft self._miWidth
      let iSrcTop := clamp iSrcTop iSrcBot self._miHeight
      let iDstRight := clamp iDstRight iDstLeft destImage._miWidth
      let iDstTop := clamp iDstTop iDstBot destImage._miHeight
      let iSrcRectWidth := toUInt (iSrcRight - iSrcLeft)
      let iSrcRectHeight := toUInt (iSrcTop - iSrcBot)
      let iDstRectWidth := toUInt (iDstRight - iDstLeft)
      let iDstRectHeight := toUInt (iDstTop - iDstBot)
      let iMinWidth := if iSrcRectWidth > iDstRectWidth then iDstRectWidth else iSrcRectWidth
      let iMinHeight := if iSrcRectHeight > iDstRectHeight then iDstRectHeight else iSrcRectHeight
      if iMinWidth = 0 then .returned () destImage
      else if iMinHeight = 0 then .returned () destImage
      else
        copyRectLoop self iSrcLeft iSrcBot iDstLeft iDstBot (rectPairs iMinWidth iMinHeight)
          colTmp3 destImage

/-! ## The DIF container -/

/-- Conversion of an integer value to `size_t`, a word of `ws` bytes. -/
def toSizeT (ws : Nat) (z : Int) : Nat := (z % ((256 : Int) ^ ws)).toNat

/-- The `n` bytes of the object representation of an unsigned value, least significant
byte first. -/
def objectBytes : Nat → Nat → List Nat
  | 0, _ => []
  | n + 1, v => v % 256 :: objectBytes n (v / 256)

/-- The unsigned value whose object representation is the given bytes, least significant
byte first. -/
def objectValue : List Nat → Nat
  | [] => 0
  | b :: bs => b % 256 + 256 * objectValue bs

/-- The marker `{ 'D', 'I', 'F', 0 }`. -/
def cMagicDIF : List Nat := [68, 73, 70, 0]

/-- The test `cMagic[0] != 'D' || cMagic[1] != 'I' || cMagic[2] != 'F' || cMagic[3] != 0`. -/
def badMagic (cMagic : List Nat) : Bool :=
  cMagic.getD 0 0 != 68 || cMagic.getD 1 0 != 73 || cMagic.getD 2 0 != 70 || cMagic.getD 3 0 != 0

/-- A `std::ifstream` opened on a file: the bytes not yet extracted, and whether no failure
bit is set. -/
structure IfStream where
  rest : List Nat
  good : Bool
deriving DecidableEq, Repr

/-- The call `file.read(dst, n)`, `old` being the `n` bytes `dst` held before. On a good
stream with at least `n` bytes left they are extracted into `dst`. With fewer left, those
are stored at the start of `dst`, the remainder of `dst` keeps its content, and the stream
fails. On a failed stream nothing is extracted and `dst` keeps its content. -/
def IfStream.read (s : IfStream) (old : List Nat) (n : Nat) : List Nat × IfStream :=
  if s.good then
    if n ≤ s.rest.length then (s.rest.take n, { s with rest := s.rest.drop n })
    else (s.rest ++ old.drop s.rest.length, { rest := [], good := false })
  else (old, s)

/-- The indeterminate bytes that the locals of `_loadDIF` and the storage it allocates hold
before anything is read into them, each as a map from byte offset to byte. -/
structure Indeterminate where
  cMagic : Nat → Nat
  width : Nat → Nat
  height : Nat → Nat
  numChannels : Nat → Nat
  dataSize : Nat → Nat
  heap : Nat → Nat

/-- The first `n` bytes of an indeterminate region. -/
def Indeterminate.bytes (f : Nat → Nat) (n : Nat) : List Nat := (List.range n).map f

/-- The header check of `_loadDIF`, on the values read:
`width == 0 || height == 0 || numChannels < 1 || numChannels > 4 ||
dataSize != width * height * numChannels`, the product being taken in `size_t`. -/
def headerRejected (ws width height numChannels dataSize : Nat) : Prop :=
  width = 0 ∨ height = 0 ∨ numChannels < 1 ∨ numChannels > 4 ∨
    dataSize ≠ (width * height * numChannels) % 256 ^ ws

instance (ws width height numChannels dataSize : Nat) :
    Decidable (headerRejected ws width height numChannels dataSize) := by
  unfold headerRejected
  infer_instance

/-- `CImage::_loadDIF`. `ws` is `sizeof(size_t)`, `file` the content of the named file
(`none` when it cannot be opened). The header is validated in `size_t` arithmetic; the
members are then set by the casts of the source, storage of `_muiDataSize` bytes is
allocated and read, and the trailing marker is read into the array that still holds the
leading one. On a bad trailer only the storage is released. -/
def _loadDIF (ws : Nat) (mem : Indeterminate) (file : Option (List Nat))
    (bFlipForOpenGL : Bool) (self : CImage) : Outcome Bool :=
  match file with
  | none => .returned false self
  | some content =>
    let file0 : IfStream := { rest := content, good := true }
    let (cMagic, file1) := file0.read (Indeterminate.bytes mem.cMagic 4) 4
    if badMagic cMagic then .returned false self
    else
      let (widthBytes, file2) := file1.read (Indeterminate.bytes mem.width ws) ws
      let (heightBytes, file3) := file2.read (Indeterminate.bytes mem.height ws) ws
      let (numChannelsBytes, file4) := file3.read (Indeterminate.bytes mem.numChannels 1) 1
      let (dataSizeBytes, file5) := file4.read (Indeterminate.bytes mem.dataSize ws) ws
      let width := objectValue widthBytes
      let height := objectValue heightBytes
      let numChannels := objectValue numChannelsBytes
      let dataSize := objectValue dataSizeBytes
      if headerRejected ws width height numChannels dataSize then .returned false self
      else
        let uiDataSize := toUInt (dataSize : Int)
        let (data, file6) := file5.read (Indeterminate.bytes mem.heap uiDataSize) uiDataSize
        let (cMagic2, _) := file6.read cMagic 4
        let loaded : CImage :=
          { _mpData := some data, _muiDataSize := uiDataSize, _miWidth := toInt width,
            _miHeight := toInt height, _miNumChannels := (numChannels : Int) }
        if badMagic cMagic2 then .returned false { loaded with _mpData := none }
        else if bFlipForOpenGL then
          match flipVertically loaded with
          | .thrown what img => .thrown what img
          | .returned _ img => .returned true img
        else .returned true loaded

/-- `CImage::load`: the object is freed, then a file name with the extension `dif`
(`bHasDifExtension`, the outcome of `StringUtils::hasFilenameExtension`) is handed to
`_loadDIF`. Every other file goes to the stb_image decoder, which is outside this
repository and is the parameter `stbLoad`. -/
def load (ws : Nat) (mem : Indeterminate) (stbLoad : CImage → Outcome Bool)
    (bHasDifExtension : Bool) (file : Option (List Nat)) (bFlipForOpenGL : Bool)
    (self : CImage) : Outcome Bool :=
  let s := free self
  if bHasDifExtension then _loadDIF ws mem file bFlipForOpenGL s
  else stbLoad s

/-- The bytes `saveAsDIF` writes for an object in the state `img`: marker, width, height,
channel count (one byte), size, `_muiDataSize` bytes of storage, marker. -/
def difBytes (ws : Nat) (img : CImage) : List Nat :=
  cMagicDIF
    ++ objectBytes ws (toSizeT ws img._miWidth)
    ++ objectBytes ws (toSizeT ws img._miHeight)
    ++ objectBytes 1 (toUChar img._miNumChannels)
    ++ objectBytes ws (toSizeT ws (img._muiDataSize : Int))
    ++ (img._mpData.getD []).take img._muiDataSize
    ++ cMagicDIF

/-- `CImage::saveAsDIF`. `bCanOpen` tells whether the output file can be opened. The value
returned is the content of the file written. With `bFlipOnSave` the storage is flipped
before writing and flipped back afterwards. -/
def saveAsDIF (ws : Nat) (strFilename : String) (bCanOpen : Bool) (bFlipOnSave : Bool)
    (self : CImage) : Outcome (List Nat) :=
  match self._mpData with
  | none => .thrown "CImage::saveAsDIF() failed. Image not yet created." self
  | some _ =>
    match (if bFlipOnSave then flipVertically self else .returned () self) with
    | .thrown what img => .thrown what img
    | .returned _ img =>
      if !bCanOpen then .thrown ("Failed to open file: " ++ strFilename) img
      else
        let written := difBytes ws img
        if bFlipOnSave then
          match flipVertically img with
          | .thrown what img2 => .thrown what img2
          | .returned _ img2 => .returned written img2
        else .returned written img

/-! ## Resizing -/

/-- `CImage::resize`. The resampler `stbir_resize_uint8_srgb` is outside this repository
and is the parameter `stbir`: from the source bytes, the source and destination dimensions
and the channel count it gives the bytes written to the destination storage, or `none`
when it returns 0. The comparison of the `unsigned int` arguments with the `int` members
is made in `unsigned int`. -/
def resize (stbir : List Nat → Int → Int → Int → Int → Int → Option (List Nat))
    (iNewWidth iNewHeight : Nat) (self : CImage) : Outcome Bool :=
  match self._mpData with
  | none => .returned false self
  | some d =>
    if iNewWidth = toUInt self._miWidth ∧ iNewHeight = toUInt self._miHeight then
      .returned true self
    else if iNewWidth < 1 ∨ iNewHeight < 1 then .returned false self
    else if self._miNumChannels = 3 ∨ self._miNumChannels = 4 then
      match createBlank iNewWidth iNewHeight (toUShort self._miNumChannels) CImage.new with
      | .thrown what _ => .thrown what self
      | .returned _ newImage =>
        match stbir d self._miWidth self._miHeight (toInt iNewWidth) (toInt iNewHeight)
            self._miNumChannels with
        | none => .returned false self
        | some resized =>
          match copyTo { newImage with _mpData := some resized } false self with
          | .thrown what img => .thrown what img
          | .returned _ img => .returned true img
    else .returned false self

/-! ## Sequencing and loops over pixels -/

/-- The next call on the object, made only when the call before it returned. -/
def Outcome.andThen (o : Outcome Unit) (next : CImage → Outcome Unit) : Outcome Unit :=
  match o with
  | .thrown what img => .thrown what img
  | .returned _ img => next img

/-- The pixels `(x, y)` in the order in which `for y ... for x ...` visits them: row by
row, each row from left to right. -/
def scanPairs (iWidth iHeight : Nat) : List (Nat × Nat) :=
  (List.range iHeight).flatMap (fun y => (List.range iWidth).map (fun x => (x, y)))

/-- A loop body run at each pixel of a list in turn; an exception ends the loop. -/
def forPixels (body : Nat → Nat → CImage → Outcome Unit) : List (Nat × Nat) → CImage →
    Outcome Unit
  | [], self => .returned () self
  | (x, y) :: rest, self => (body x y self).andThen (forPixels body rest)

/-- The indices `0, step, 2 * step, ...` below `n`: the values `i` takes in a loop
`while (i < n) { ...; i += step; }` with a positive step. -/
def strideIndices (n step : Nat) : List Nat :=
  (List.range ((n + step - 1) / step)).map (fun k => k * step)

/-- `std::clamp(v, lo, hi)`. -/
def stdClamp (v lo hi : Int) : Int :=
  if v < lo then lo else if hi < v then hi else v

/-! ## Dithering -/

/-- The array `bayerMatrix` of `ditherBayerMatrix`. -/
def bayerMatrix : List (List Int) :=
  [[0, 8, 2, 10], [12, 4, 14, 6], [3, 11, 1, 9], [15, 7, 13, 5]]

/-- The body of the loops of `ditherBayerMatrix` at pixel `(x, y)`; `a0` is the
indeterminate content of the local `a`. The comparison and the `int` expression
`threshold * 255 / matrixMaxValue` are those of the source. -/
def ditherBayerPixel (a0 : Nat) (x y : Nat) (self : CImage) : Outcome Unit :=
  match getPixel self x y a0 with
  | .thrown what img => .thrown what img
  | .returned col _ =>
    let threshold : Int := (bayerMatrix.getD (y % 4) []).getD (x % 4) 0
    let r : Nat := if (col.1 : Int) > Int.tdiv (threshold * 255) 16 then 255 else 0
    let g : Nat := if (col.2.1 : Int) > Int.tdiv (threshold * 255) 16 then 255 else 0
    let b : Nat := if (col.2.2.1 : Int) > Int.tdiv (threshold * 255) 16 then 255 else 0
    setPixel self x y r g b col.2.2.2

/-- `CImage::ditherBayerMatrix`. -/
def ditherBayerMatrix (a0 : Nat) (self : CImage) : Outcome Unit :=
  match self._mpData with
  | none => .thrown "Image data is not available." self
  | some _ =>
    forPixels (ditherBayerPixel a0) (scanPairs self._miWidth.toNat self._miHeight.toNat) self

/-- `CImage::_ditherFloydSteinbergAddError`. The `double` factor is `factorNum / 16`; the
four factors of the caller are multiples of 1/16, so the product with the `int` error is
exact in `double` and the cast to `int` is the quotient truncated toward zero. -/
def _ditherFloydSteinbergAddError (a0 : Nat) (x y : Nat) (errR errG errB : Int)
    (factorNum : Int) (self : CImage) : Outcome Unit :=
  match getPixel self x y a0 with
  | .thrown what img => .thrown what img
  | .returned col _ =>
    let newR := stdClamp ((col.1 : Int) + Int.tdiv (errR * factorNum) 16) 0 255
    let newG := stdClamp ((col.2.1 : Int) + Int.tdiv (errG * factorNum) 16) 0 255
    let newB := stdClamp ((col.2.2.1 : Int) + Int.tdiv (errB * factorNum) 16) 0 255
    setPixel self x y (toUChar newR) (toUChar newG) (toUChar newB) col.2.2.2

/-- The four guarded calls of `_ditherFloydSteinbergAddError` in the body of the loops of
`ditherFloydSteinberg`, in source order: right (7/16), below-left (3/16), below (5/16) and
below-right (1/16). -/
def diffuseError (a0 : Nat) (x y : Nat) (errR errG errB : Int) (s1 : CImage) : Outcome Unit :=
  (if (x : Int) + 1 < s1._miWidth then
      _ditherFloydSteinbergAddError a0 (x + 1) y errR errG errB 7 s1
    else .returned () s1).andThen fun s2 =>
  (if (x : Int) - 1 ≥ 0 ∧ (y : Int) + 1 < s2._miHeight then
      _ditherFloydSteinbergAddError a0 (toUInt ((x : Int) - 1)) (y + 1) errR errG errB 3 s2
    else .returned () s2).andThen fun s3 =>
  (if (y : Int) + 1 < s3._miHeight then
      _ditherFloydSteinbergAddError a0 x (y + 1) errR errG errB 5 s3
    else .returned () s3).andThen fun s4 =>
  (if (x : Int) + 1 < s4._miWidth ∧ (y : Int) + 1 < s4._miHeight then
      _ditherFloydSteinbergAddError a0 (x + 1) (y + 1) errR errG errB 1 s4
    else .returned () s4)

/-- The body of the loops of `ditherFloydSteinberg` at pixel `(x, y)`: the pixel is read,
each colour byte is quantised to 0 or 255, the quantised pixel is stored, and the three
errors are handed to the neighbours. -/
def ditherFloydSteinbergPixel (a0 : Nat) (x y : Nat) (self : CImage) : Outcome Unit :=
  match getPixel self x y a0 with
  | .thrown what img => .thrown what img
  | .returned col _ =>
    let newR : Nat := if col.1 > 127 then 255 else 0
    let newG : Nat := if col.2.1 > 127 then 255 else 0
    let newB : Nat := if col.2.2.1 > 127 then 255 else 0
    let errR : Int := (col.1 : Int) - (newR : Int)
    let errG : Int := (col.2.1 : Int) - (newG : Int)
    let errB : Int := (col.2.2.1 : Int) - (newB : Int)
    (setPixel self x y newR newG newB col.2.2.2).andThen (diffuseError a0 x y errR errG errB)

/-- `CImage::ditherFloydSteinberg`. -/
def ditherFloydSteinberg (a0 : Nat) (self : CImage) : Outcome Unit :=
  match self._mpData with
  | none => .thrown "Image data is not available." self
  | some _ =>
    forPixels (ditherFloydSteinbergPixel a0)
      (scanPairs self._miWidth.toNat self._miHeight.toNat) self

/-! ## Brightness -/

/-- One iteration of the loop of `adjustBrightness` at index `i`: red, green and blue are
each read, offset by `iAmount`, clamped to `[0, 255]` with `clamp` and stored as a byte. -/
def adjustBrightnessStep (iAmount : Int) (d : List Nat) (i : Nat) : List Nat :=
  let d1 := d.set i (toUChar (clamp ((d.getD i 0 : Nat) + iAmount) 0 255))
  let d2 := d1.set (i + 1) (toUChar (clamp ((d1.getD (i + 1) 0 : Nat) + iAmount) 0 255))
  d2.set (i + 2) (toUChar (clamp ((d2.getD (i + 2) 0 : Nat) + iAmount) 0 255))

/-- `CImage::adjustBrightness`: the loop `while (i < _muiDataSize)` advances by the
channel count. -/
def adjustBrightness (iAmount : Int) (self : CImage) : Outcome Unit :=
  match self._mpData with
  | none => .thrown "Image not yet created." self
  | some d =>
    let indices := strideIndices self._muiDataSize (toUInt self._miNumChannels)
    .returned () { self with _mpData := some (indices.foldl (adjustBrightnessStep iAmount) d) }

/-! ## Rows -/

/-- The bytes of row `y` of an image. -/
def rowBytes (img : CImage) (y : Nat) : List Nat :=
  ((img._mpData.getD []).drop (y * (img._miWidth * img._miNumChannels).toNat)).take
    (img._miWidth * img._miNumChannels).toNat

/-! ## Rotation -/

/-- The body of the loops of `rotateClockwise`, run over the source pixels still to be
visited: source pixel `(isrcX, isrcY)` of the copy `oldImage` goes to column `isrcY` and
row `_miHeight - isrcX - 1` of this image. `a` is the current content of `col[3]`. -/
def rotateLoop (oldImage : CImage) : List (Nat × Nat) → Nat → CImage → Outcome Unit
  | [], _, self => .returned () self
  | (isrcX, isrcY) :: rest, a, self =>
    let idstY : Int := self._miHeight - (isrcX : Int) - 1
    let idstX : Int := (isrcY : Int)
    match getPixel oldImage isrcX isrcY a with
    | .thrown what _ => .thrown what self
    | .returned col _ =>
      match setPixel self (toUInt idstX) (toUInt idstY) col.1 col.2.1 col.2.2.1 col.2.2.2 with
      | .thrown what self1 => .thrown what self1
      | .returned _ self1 => rotateLoop oldImage rest col.2.2.2 self1

/-- `CImage::rotateClockwise`. The image is copied to the local `oldImage`; a non-square
image is recreated with width and height exchanged; then every pixel of the copy is
written to its place. `col3` is the indeterminate initial content of `col[3]`. -/
def rotateClockwise (col3 : Nat) (self : CImage) : Outcome Unit :=
  match copyTo self false CImage.new with
  | .thrown what _ => .thrown what self
  | .returned _ oldImage =>
    (if self._miWidth ≠ self._miHeight then
        createBlank (toUInt self._miHeight) (toUInt self._miWidth)
          (toUShort self._miNumChannels) self
      else .returned () self).andThen fun s =>
    rotateLoop oldImage (rectPairs oldImage._miWidth.toNat oldImage._miHeight.toNat) col3 s

/-! ## Alpha channel -/

/-- One iteration of the copying loop of `addAlphaChannel` on a 3-channel image: the state
is the counter `iIndexOld` and the new storage; `iIndex` is the index into the new
storage. -/
def addAlphaStep (old : List Nat) (ucAlpha : Nat) (st : Nat × List Nat) (iIndex : Nat) :
    Nat × List Nat :=
  let d1 := st.2.set iIndex (old.getD st.1 0)
  let d2 := d1.set (iIndex + 1) (old.getD (st.1 + 1) 0)
  let d3 := d2.set (iIndex + 2) (old.getD (st.1 + 2) 0)
  (st.1 + 3, d3.set (iIndex + 3) ucAlpha)

/-- `CImage::addAlphaChannel`. With 4 channels every fourth byte is overwritten. With 3
channels the image is copied to the local `old`, recreated with 4 channels and filled from
the copy. Any other channel count throws. -/
def addAlphaChannel (ucAlpha : Nat) (self : CImage) : Outcome Unit :=
  match self._mpData with
  | none => .thrown "Image data doesn't exist." self
  | some d =>
    if self._miNumChannels = 4 then
      let indices := strideIndices self._muiDataSize 4
      .returned ()
        { self with _mpData := some (indices.foldl (fun dd i => dd.set (i + 3) ucAlpha) d) }
    else if self._miNumChannels = 3 then
      match copyTo self false CImage.new with
      | .thrown what _ => .thrown what self
      | .returned _ old =>
        match createBlank (toUInt old._miWidth) (toUInt old._miHeight) 4 self with
        | .thrown what img => .thrown what img
        | .returned _ img =>
          let indices := strideIndices img._muiDataSize 4
          let fill (nd : List Nat) : List Nat :=
            (indices.foldl (addAlphaStep (old._mpData.getD []) ucAlpha) (0, nd)).2
          .returned () { img with _mpData := img._mpData.map fill }
    else .thrown "Image doesn't have 3 or 4 channels." self

/-! ## The icon file -/

/-- The structure `ICONDIRENTRY` (packed, 16 bytes). -/
structure ICONDIRENTRY where
  bWidth : Nat
  bHeight : Nat
  bColorCount : Nat
  bReserved : Nat
  wPlanes : Nat
  wBitCount : Nat
  dwBytesInRes : Nat
  dwImageOffset : Nat
deriving DecidableEq, Repr

/-- The 16 bytes written for an `ICONDIRENTRY`. -/
def ICONDIRENTRY.bytes (e : ICONDIRENTRY) : List Nat :=
  [e.bWidth, e.bHeight, e.bColorCount, e.bReserved] ++ objectBytes 2 e.wPlanes
    ++ objectBytes 2 e.wBitCount ++ objectBytes 4 e.dwBytesInRes
    ++ objectBytes 4 e.dwImageOffset

/-- The entries built by the directory loop of `saveAsICO` for the images from index `i`
on, `imageOffset` being the `uint32_t` offset accumulated so far. -/
def icoEntries (iconSizes : List Int) : Nat → Nat → List (List Nat) → List ICONDIRENTRY
  | _, _, [] => []
  | i, imageOffset, img :: rest =>
    let size := iconSizes.getD i 0
    let dwBytesInRes := img.length % 4294967296
    { bWidth := if size = 256 then 0 else toUChar size,
      bHeight := if size = 256 then 0 else toUChar size,
      bColorCount := 0, bReserved := 0, wPlanes := 1, wBitCount := 32,
      dwBytesInRes := dwBytesInRes, dwImageOffset := imageOffset }
      :: icoEntries iconSizes (i + 1) ((imageOffset + dwBytesInRes) % 4294967296) rest

/-- The bytes `saveAsICO` writes for the encoded images `vecIcoDataForImages`: the
`ICONDIR` header (6 bytes), one `ICONDIRENTRY` for each image, then the images. -/
def icoFileBytes (iconSizes : List Int) (vecIcoDataForImages : List (List Nat)) : List Nat :=
  let n := vecIcoDataForImages.length
  let imageOffset := (6 + 16 * n) % 4294967296
  objectBytes 2 0 ++ objectBytes 2 1 ++ objectBytes 2 (n % 65536)
    ++ ((icoEntries iconSizes 0 imageOffset vecIcoDataForImages).map ICONDIRENTRY.bytes).flatten
    ++ vecIcoDataForImages.flatten

/-! ## Notions used in the statements about loops -/

/-- The store `setPixel` makes at offset `i` when its alpha argument is the one `getPixel`
returned for the same pixel of the same storage: on four channels the alpha byte read, on
three the caller's `a`. -/
def storeRGB (numChannels : Int) (i r g b a : Nat) (d : List Nat) : List Nat :=
  storePixel numChannels i r g b (if numChannels = 4 then d.getD (i + 3) 0 else a) d

/-- The red, green and blue bytes of the pixel at offset `i`. -/
def rgbAt (i : Nat) (q : Nat) : Prop := i ≤ q ∧ q < i + 3

/-- The storage `d1` differs from `d` at most in red, green and blue bytes of pixels whose
index is at least `lo`, `C` being the channel count. -/
def RGBFrom (C lo : Nat) (d d1 : List Nat) : Prop :=
  d1.length = d.length ∧ ∀ q, (∀ m, lo ≤ m → ¬ rgbAt (m * C) q) → d1[q]? = d[q]?

/-- The byte `ditherBayerMatrix` stores at pixel `(x, y)` for a colour byte `v`. -/
def bayerByte (x y v : Nat) : Nat :=
  if (v : Int) > Int.tdiv ((bayerMatrix.getD (y % 4) []).getD (x % 4) 0 * 255) 16 then 255 else 0

/-- The storage after the body of `ditherBayerMatrix` has run at pixel `p` of an image of
width `W` and `C` channels. -/
def bayerStep (W C a0 : Nat) (d : List Nat) (p : Nat × Nat) : List Nat :=
  storeRGB (C : Int) ((p.1 + p.2 * W) * C)
    (bayerByte p.1 p.2 (d.getD ((p.1 + p.2 * W) * C) 0))
    (bayerByte p.1 p.2 (d.getD ((p.1 + p.2 * W) * C + 1) 0))
    (bayerByte p.1 p.2 (d.getD ((p.1 + p.2 * W) * C + 2) 0)) a0 d

/-! ## The Mandelbrot set -/

/-- The stores made for pixel `p = (x, y)` by the loop bodies of `fillMandelbrot` and of
`_fillMandelbrotMT_threadMain`: `iIndex = x + (y * _miWidth); iIndex *= _miNumChannels;` in
`unsigned int`, then the red, green and blue bytes, and the alpha byte in the four-channel
loop. `colour x y` stands for the four bytes `unsigned char(colour.red * 255.0f)`, ... of
the ramp colour found for the pixel: a floating-point computation that depends on `x`, on
`y` and on values that are the same in every iteration of every loop (the arguments of the
call and the width and height of the image). -/
def mandelbrotStore (colour : Nat → Nat → Nat × Nat × Nat × Nat) (iWidth iNumChannels : Int)
    (d : List Nat) (p : Nat × Nat) : List Nat :=
  let iIndex := toUInt ((toUInt ((p.1 : Int) + (p.2 : Int) * iWidth) : Int) * iNumChannels)
  let col := colour p.1 p.2
  storePixel iNumChannels iIndex col.1 col.2.1 col.2.2.1 col.2.2.2 d

/-- The pixels a worker visits, in its order: the rows from `uiYFirst` up to, not
including, `uiYLast`, each from left to right. -/
def bandPairs (iWidth uiYFirst uiYLast : Nat) : List (Nat × Nat) :=
  (List.range' uiYFirst (uiYLast - uiYFirst)).flatMap
    (fun y => (List.range iWidth).map (fun x => (x, y)))

/-- `CImage::_fillMandelbrotMT_threadMain`, the work of one worker on its band of rows. -/
def _fillMandelbrotMT_threadMain (colour : Nat → Nat → Nat × Nat × Nat × Nat)
    (uiYFirst uiYLast : Nat) (self : CImage) : CImage :=
  if self._miNumChannels = 3 ∨ self._miNumChannels = 4 then
    let pixels := bandPairs self._miWidth.toNat uiYFirst uiYLast
    { self with
      _mpData := self._mpData.map
        (fun d => pixels.foldl (mandelbrotStore colour self._miWidth self._miNumChannels) d) }
  else self

/-- One iteration of the loop of `fillMandelbrotMT` that starts the workers: the state is
the bands handed out so far and the `unsigned int` counters `uiYFirst` and `uiYLast`. -/
def mtBandsStep (iStep : Nat) (st : List (Nat × Nat) × Nat × Nat) :
    List (Nat × Nat) × Nat × Nat :=
  let uiYLast := (st.2.2 + iStep) % 4294967296
  (st.1 ++ [(st.2.1, uiYLast)], (st.2.1 + iStep) % 4294967296, uiYLast)

/-- The bands `(uiYFirst, uiYLast)` that `fillMandelbrotMT` hands to its workers, in the
order in which the workers are created, for `num_threads` the value of
`std::thread::hardware_concurrency()`. The division `_miHeight / num_threads` is made in
`unsigned int`; with `num_threads` 0 it has no defined result, which is `none`. -/
def mtBands (iHeight : Int) (num_threads : Nat) : Option (List (Nat × Nat)) :=
  if num_threads = 0 then none
  else
    let iStep := toUInt iHeight / num_threads
    let st := (List.range num_threads).foldl (fun st _ => mtBandsStep iStep st) ([], 0, 0)
    if st.2.2 < toUInt iHeight then some (st.1 ++ [(st.2.1, toUInt iHeight)])
    else some st.1

/-- `CImage::fillMandelbrotMT`, every worker joined. The workers are run one after the
other in the order of their creation; `none` is the division by zero. -/
def fillMandelbrotMT (colour : Nat → Nat → Nat × Nat × Nat × Nat)
    (uiMaxIterations num_threads : Nat) (self : CImage) : Option (Outcome Unit) :=
  match self._mpData with
  | none => some (.thrown "Image not yet created." self)
  | some _ =>
    if uiMaxIterations = 0 then some (.thrown "uiMaxIterations must be at least one." self)
    else
      match mtBands self._miHeight num_threads with
      | none => none
      | some bands =>
        some (.returned ()
          (bands.foldl (fun img b => _fillMandelbrotMT_threadMain colour b.1 b.2 img) self))

/-- The byte of channel `k` of a four-byte colour. -/
def colourByte (col : Nat × Nat × Nat × Nat) (k : Nat) : Nat :=
  if k = 0 then col.1 else if k = 1 then col.2.1 else if k = 2 then col.2.2.1 else col.2.2.2


/-! ## Removing the alpha channel -/

/-- One iteration of the copying loop of `removeAlphaChannel`: the state is the `int`
counter `iIndexOld` and the new storage; `iIndex` is the index into the new storage. The
counter is advanced with `addInt`. The three reads `old._mpData[iIndexOld + k]` are made
inside the storage of `old`, or the step has no defined result, which is `none`. -/
def removeAlphaStep (old : List Nat) (st : Int × List Nat) (iIndex : Nat) :
    Option (Int × List Nat) :=
  if 0 ≤ st.1 ∧ st.1 + 2 < (old.length : Int) then
    let iIndexOld := st.1.toNat
    let d1 := st.2.set iIndex (old.getD iIndexOld 0)
    let d2 := d1.set (iIndex + 1) (old.getD (iIndexOld + 1) 0)
    some (addInt st.1 4, d2.set (iIndex + 2) (old.getD (iIndexOld + 2) 0))
  else none

/-- The copying loop of `removeAlphaChannel`, run over the values `iIndex` still to be
taken. -/
def removeAlphaLoop (old : List Nat) : List Nat → Int × List Nat → Option (Int × List Nat)
  | [], st => some st
  | iIndex :: rest, st =>
    match removeAlphaStep old st iIndex with
    | none => none
    | some st1 => removeAlphaLoop old rest st1

/-- `CImage::removeAlphaChannel`: the image is copied to the local `old`, recreated with 3
channels and filled with the red, green and blue bytes of the copy. The value is `none`
when the copying loop reads outside the storage of `old`. -/
def removeAlphaChannel (self : CImage) : Option (Outcome Unit) :=
  match self._mpData with
  | none => some (.thrown "Image data doesn't exist." self)
  | some _ =>
    if self._miNumChannels ≠ 4 then
      some (.thrown
        "Some image data exists, but the alpha data doesn't exist (Image doesn't hold 4 channels)"
        self)
    else
      match copyTo self false CImage.new with
      | .thrown what _ => some (.thrown what self)
      | .returned _ old =>
        match createBlank (toUInt old._miWidth) (toUInt old._miHeight) 3 self with
        | .thrown what img => some (.thrown what img)
        | .returned _ img =>
          match removeAlphaLoop (old._mpData.getD []) (strideIndices img._muiDataSize 3)
              (0, img._mpData.getD []) with
          | none => none
          | some st => some (.returned () { img with _mpData := some st.2 })

/-! ## Saving an icon -/

/-- The vector `iconSizes` of `saveAsICO`. -/
def iconSizes : List Int := [16, 32, 48, 64, 128, 256]

/-- The loop `for (int size : iconSizes)` of `saveAsICO`, run over the sizes still to be
treated: the source is copied, the copy resized to `size` x `size` and encoded. The value
is `none` when a `resize` returned false, otherwise the encoded images. The encoder
`stbi_write_png_to_func` is outside this repository and is the parameter `stbiWritePng`
(pixels, width, height). `self` is the object `saveAsICO` was called on, which is `const`. -/
def icoEncodeLoop (stbir : List Nat → Int → Int → Int → Int → Int → Option (List Nat))
    (stbiWritePng : List Nat → Int → Int → List Nat) (self imageSourceWithAlpha : CImage) :
    List Int → Outcome (Option (List (List Nat)))
  | [] => .returned (some []) self
  | size :: rest =>
    match copyTo imageSourceWithAlpha false CImage.new with
    | .thrown what _ => .thrown what self
    | .returned _ imageResized =>
      match resize stbir (toUInt size) (toUInt size) imageResized with
      | .thrown what _ => .thrown what self
      | .returned false _ => .returned none self
      | .returned true resized =>
        match icoEncodeLoop stbir stbiWritePng self imageSourceWithAlpha rest with
        | .returned (some vec) _ =>
          .returned (some (stbiWritePng (resized._mpData.getD []) size size :: vec)) self
        | other => other

/-- `CImage::saveAsICO`. `bCanOpen` tells whether the output file can be opened. The value
is the content of the file written, `none` when the function returns false and writes no
file. The throw on an empty file name is that of `StringUtils::addFilenameExtension`. -/
def saveAsICO (stbir : List Nat → Int → Int → Int → Int → Int → Option (List Nat))
    (stbiWritePng : List Nat → Int → Int → List Nat) (strFilename : String) (bCanOpen : Bool)
    (self : CImage) : Outcome (Option (List Nat)) :=
  match self._mpData with
  | none => .returned none self
  | some _ =>
    match copyTo self false CImage.new with
    | .thrown what _ => .thrown what self
    | .returned _ copied =>
      match (if copied._miNumChannels = 3 then addAlphaChannel 255 copied
        else .returned () copied) with
      | .thrown what _ => .thrown what self
      | .returned _ imageSourceWithAlpha =>
        match icoEncodeLoop stbir stbiWritePng self imageSourceWithAlpha iconSizes with
        | .thrown what _ => .thrown what self
        | .returned none _ => .returned none self
        | .returned (some vecIcoDataForImages) _ =>
          if strFilename.length = 0 then .thrown "Given file name of zero length." self
          else if !bCanOpen then .returned none self
          else .returned (some (icoFileBytes iconSizes vecIcoDataForImages)) self


/-! ## Sequences of operations on a buffer -/

/-- The property of a buffer that the data model states as its invariant: the recorded
size is `width * height * channels` and is the length of the byte sequence, and storage is
absent exactly when width, height and channel count are all 0. -/
def WellFormed (img : CImage) : Prop :=
  (img._muiDataSize : Int) = img._miWidth * img._miHeight * img._miNumChannels ∧
  (img._mpData.getD []).length = img._muiDataSize ∧
  (img._mpData = none ↔ (img._miWidth = 0 ∧ img._miHeight = 0 ∧ img._miNumChannels = 0))

instance (img : CImage) : Decidable (WellFormed img) := by
  unfold WellFormed
  infer_instance

/-- The header fields `width`, `height`, `numChannels` and `dataSize` as `_loadDIF` reads
them from a file with the given content: the same five `read` calls, in the same order. -/
def difHeader (ws : Nat) (mem : Indeterminate) (content : List Nat) : Nat × Nat × Nat × Nat :=
  let file0 : IfStream := { rest := content, good := true }
  let r1 := file0.read (Indeterminate.bytes mem.cMagic 4) 4
  let r2 := r1.2.read (Indeterminate.bytes mem.width ws) ws
  let r3 := r2.2.read (Indeterminate.bytes mem.height ws) ws
  let r4 := r3.2.read (Indeterminate.bytes mem.numChannels 1) 1
  let r5 := r4.2.read (Indeterminate.bytes mem.dataSize ws) ws
  (objectValue r2.1, objectValue r3.1, objectValue r4.1, objectValue r5.1)

/-- A call on a buffer: the operations that create, release, copy into, transform, resize
or load it. `copyFrom src` is `src.copyTo(buffer)` for another object `src`; `copySelf` is
`buffer.copyTo(buffer)`; `loadDIF` is `load` on a file whose name has the extension `dif`
(`ws` is `sizeof(size_t)`, `mem` the indeterminate memory met by the decoder). -/
inductive BufferOp where
  | createBlank (iWidth iHeight iNumChannels : Nat)
  | free
  | copyFrom (src : CImage)
  | copySelf
  | flipVertically
  | rotateClockwise (col3 : Nat)
  | addAlphaChannel (ucAlpha : Nat)
  | removeAlphaChannel
  | resize (iNewWidth iNewHeight : Nat)
  | loadDIF (ws : Nat) (mem : Indeterminate) (content : List Nat) (bFlipForOpenGL : Bool)

/-- The buffer after a call that completed successfully (it returned, and returned true when
it reports success by a `bool`); `none` when the call threw, returned false or has no
defined result. -/
def BufferOp.apply (stbir : List Nat → Int → Int → Int → Int → Int → Option (List Nat))
    (op : BufferOp) (self : CImage) : Option CImage :=
  let done (o : Outcome Unit) : Option CImage :=
    match o with
    | .returned _ img => some img
    | .thrown _ _ => none
  let succeeded (o : Outcome Bool) : Option CImage :=
    match o with
    | .returned true img => some img
    | _ => none
  match op with
  | .createBlank iWidth iHeight iNumChannels => done (X.createBlank iWidth iHeight iNumChannels self)
  | .free => some (X.free self)
  | .copyFrom src => done (copyTo src false self)
  | .copySelf => done (copyTo self true self)
  | .flipVertically => done (X.flipVertically self)
  | .rotateClockwise col3 => done (X.rotateClockwise col3 self)
  | .addAlphaChannel ucAlpha => done (X.addAlphaChannel ucAlpha self)
  | .removeAlphaChannel =>
    match X.removeAlphaChannel self with
    | none => none
    | some o => done o
  | .resize iNewWidth iNewHeight => succeeded (X.resize stbir iNewWidth iNewHeight self)
  | .loadDIF ws mem content bFlipForOpenGL =>
    succeeded (load ws mem (fun s => .returned false s) true (some content) bFlipForOpenGL self)

/-- A sequence of calls, each of which completed successfully, run from the given buffer. -/
def runOps (stbir : List Nat → Int → Int → Int → Int → Int → Option (List Nat)) :
    List BufferOp → CImage → Option CImage
  | [], self => some self
  | op :: rest, self =>
    match op.apply stbir self with
    | none => none
    | some img => runOps stbir rest img

/-- A buffer that is empty, or holds an image of 1 to 4 channels with fewer than `2^29`
pixels whose recorded size and byte sequence agree with its dimensions. -/
def Sound (img : CImage) : Prop :=
  img = ⟨none, 0, 0, 0, 0⟩ ∨
  (1 ≤ img._miWidth ∧ 1 ≤ img._miHeight ∧ 1 ≤ img._miNumChannels ∧ img._miNumChannels ≤ 4 ∧
    (img._muiDataSize : Int) = img._miWidth * img._miHeight * img._miNumChannels ∧
    img._miWidth * img._miHeight * 4 < 2147483648 ∧
    img._mpData.map List.length = some img._muiDataSize)

instance (img : CImage) : Decidable (Sound img) := by
  unfold Sound
  infer_instance

/-- The sizes met by a call stay below `2^29` pixels, so that no byte count computed from
them overflows an `int`: the arguments of `createBlank` and `resize`, the source of a copy,
and the width and height in the header of a DIF file (read in words of at least 4 bytes). -/
def BufferOp.small : BufferOp → Prop
  | .createBlank iWidth iHeight _ => iWidth * iHeight * 4 < 2147483648
  | .copyFrom src => Sound src
  | .resize iNewWidth iNewHeight => iNewWidth * iNewHeight * 4 < 2147483648
  | .loadDIF ws mem content _ =>
    4 ≤ ws ∧ (difHeader ws mem content).1 * (difHeader ws mem content).2.1 * 4 < 2147483648
  | _ => True


/-! ## Floating-point values and the colour ramp (`Core/DataStructures/ColourRamp.cpp`) -/

/-- A value of type `float` as the comparison operators see it: not-a-number, an infinity,
or a finite value, given by the rational number it denotes (both zeros are `fin 0`). -/
inductive CFloat where
  | nan
  | negInf
  | fin (q : Rat)
  | posInf
deriving DecidableEq

/-- The operator `<` on `float`: false as soon as an operand is not a number. -/
def CFloat.lt : CFloat → CFloat → Bool
  | .nan, _ => false
  | _, .nan => false
  | .negInf, .negInf => false
  | .negInf, _ => true
  | .fin _, .negInf => false
  | .fin a, .fin b => decide (a < b)
  | .fin _, .posInf => true
  | .posInf, _ => false

/-- The operator `<=` on `float`: false as soon as an operand is not a number. -/
def CFloat.le : CFloat → CFloat → Bool
  | .nan, _ => false
  | _, .nan => false
  | .negInf, _ => true
  | .fin _, .negInf => false
  | .fin a, .fin b => decide (a ≤ b)
  | .fin _, .posInf => true
  | .posInf, .posInf => true
  | .posInf, _ => false

/-- The template function `clamp` of `Core/Utilities.h`, at type `float`: the smaller of the
two bounds is the minimum, the other the maximum; the value is replaced by the minimum when
it is less than the minimum, else by the maximum when it is greater than the maximum. -/
def clampFloat (valueToClamp valueA valueB : CFloat) : CFloat :=
  let min := if valueA.lt valueB then valueA else valueB
  let max := if valueA.lt valueB then valueB else valueA
  if valueToClamp.lt min then min
  else if max.lt valueToClamp then max
  else valueToClamp

/-- The class `CColourf`: four `float` components. -/
structure CColourf where
  red : CFloat
  green : CFloat
  blue : CFloat
  alpha : CFloat
deriving DecidableEq

/-- The structure `CColourRamp::SPoint`. -/
structure SPoint where
  colour : CColourf
  fPosition : CFloat
deriving DecidableEq

/-- The insertion of `CColourRamp::addPoint`: the iterator advances while the position of the
element it points to is less than the new position, and the new point is inserted before
the element it stops at. -/
def insertPoint (newPoint : SPoint) : List SPoint → List SPoint
  | [] => [newPoint]
  | it :: rest =>
    if it.fPosition.lt newPoint.fPosition then it :: insertPoint newPoint rest
    else newPoint :: it :: rest

/-- The call `_mlistPoints.sort(...)` with the comparison `a.fPosition < b.fPosition`.
`std::list::sort` is a stable sort; the stable rearrangement is computed here by inserting
the elements, last one first, each before the first element that is not less than it. -/
def sortPoints (points : List SPoint) : List SPoint :=
  points.foldr insertPoint []

/-- The element at index `uiPointIndex` replaced by its image under `f`. -/
def modifyPoint (f : SPoint → SPoint) : Nat → List SPoint → List SPoint
  | _, [] => []
  | 0, p :: rest => f p :: rest
  | i + 1, p :: rest => p :: modifyPoint f i rest

/-- `CColourRamp::setupColourRamp`. -/
def setupColourRamp (colourLeftEdge colourRightEdge : CColourf) : List SPoint :=
  [⟨colourLeftEdge, .fin 0⟩, ⟨colourRightEdge, .fin 1⟩]

/-- `CColourRamp::CColourRamp()`: `setupColourRamp()` with its default arguments, black at
the left edge and white at the right. -/
def CColourRamp.new : List SPoint :=
  setupColourRamp ⟨.fin 0, .fin 0, .fin 0, .fin 1⟩ ⟨.fin 1, .fin 1, .fin 1, .fin 1⟩

/-- `CColourRamp::setupColourRampFire`. -/
def setupColourRampFire : List SPoint :=
  [⟨⟨.fin 1, .fin 0, .fin 0, .fin 1⟩, .fin 0⟩, ⟨⟨.fin 1, .fin 1, .fin 0, .fin 1⟩, .fin (1 / 2)⟩,
    ⟨⟨.fin 0, .fin 0, .fin 0, .fin 1⟩, .fin 1⟩]

/-- `CColourRamp::setupColourRampRGB`. -/
def setupColourRampRGB : List SPoint :=
  [⟨⟨.fin 1, .fin 0, .fin 0, .fin 1⟩, .fin 0⟩, ⟨⟨.fin 0, .fin 1, .fin 0, .fin 1⟩, .fin (1 / 2)⟩,
    ⟨⟨.fin 0, .fin 0, .fin 1, .fin 1⟩, .fin 1⟩]

/-- `CColourRamp::addPoint`. -/
def addPoint (fPointPosition : CFloat) (pointColour : CColourf) (points : List SPoint) :
    List SPoint :=
  insertPoint ⟨pointColour, clampFloat fPointPosition (.fin 0) (.fin 1)⟩ points

/-- `CColourRamp::removePoint`. -/
def removePoint (uiPointIndex : Nat) (points : List SPoint) : Except String (List SPoint) :=
  if uiPointIndex ≥ points.length then .error "Invalid point index given."
  else .ok (points.eraseIdx uiPointIndex)

/-- `CColourRamp::modifyPointColour`. -/
def modifyPointColour (uiPointIndex : Nat) (newColour : CColourf) (points : List SPoint) :
    Except String (List SPoint) :=
  if uiPointIndex ≥ points.length then .error "Invalid point index given."
  else .ok (modifyPoint (fun p => { p with colour := newColour }) uiPointIndex points)

/-- `CColourRamp::modifyPointPosition`: the new position is clamped and stored, then the
list is sorted. -/
def modifyPointPosition (uiPointIndex : Nat) (fPointNewPosition : CFloat)
    (points : List SPoint) : Except String (List SPoint) :=
  if uiPointIndex ≥ points.length then .error "Invalid point index given."
  else
    let fNew := clampFloat fPointNewPosition (.fin 0) (.fin 1)
    .ok (sortPoints (modifyPoint (fun p => { p with fPosition := fNew }) uiPointIndex points))

/-- A call that changes the points of a colour ramp. -/
inductive RampOp where
  | setupColourRamp (colourLeftEdge colourRightEdge : CColourf)
  | setupColourRampFire
  | setupColourRampRGB
  | removeAllPoints
  | addPoint (fPointPosition : CFloat) (pointColour : CColourf)
  | removePoint (uiPointIndex : Nat)
  | modifyPointColour (uiPointIndex : Nat) (newColour : CColourf)
  | modifyPointPosition (uiPointIndex : Nat) (fPointNewPosition : CFloat)
deriving DecidableEq

/-- The points of the ramp after a call, or the message of the exception it threw. -/
def RampOp.apply (op : RampOp) (points : List SPoint) : Except String (List SPoint) :=
  match op with
  | .setupColourRamp colourLeftEdge colourRightEdge =>
    .ok (X.setupColourRamp colourLeftEdge colourRightEdge)
  | .setupColourRampFire => .ok X.setupColourRampFire
  | .setupColourRampRGB => .ok X.setupColourRampRGB
  | .removeAllPoints => .ok []
  | .addPoint fPointPosition pointColour => .ok (X.addPoint fPointPosition pointColour points)
  | .removePoint uiPointIndex => X.removePoint uiPointIndex points
  | .modifyPointColour uiPointIndex newColour => X.modifyPointColour uiPointIndex newColour points
  | .modifyPointPosition uiPointIndex fPointNewPosition =>
    X.modifyPointPosition uiPointIndex fPointNewPosition points

/-- A sequence of calls on a ramp, each made when the one before it returned. -/
def runRamp : List RampOp → List SPoint → Except String (List SPoint)
  | [], points => .ok points
  | op :: rest, points =>
    match op.apply points with
    | .error what => .error what
    | .ok points1 => runRamp rest points1

/-- The positions passed to a call are numbers. -/
def RampOp.numeric : RampOp → Prop
  | .addPoint fPointPosition _ => fPointPosition ≠ .nan
  | .modifyPointPosition _ fPointNewPosition => fPointNewPosition ≠ .nan
  | _ => True

/-- The ordering invariant of a colour ramp: the points are sorted by non-decreasing
position, and every position lies in `[0, 1]`. -/
def RampOrdered (points : List SPoint) : Prop :=
  points.Pairwise (fun a b => a.fPosition.le b.fPosition = true) ∧
  ∀ p ∈ points, (CFloat.fin 0).le p.fPosition = true ∧ p.fPosition.le (.fin 1) = true

instance (points : List SPoint) : Decidable (RampOrdered points) := by
  unfold RampOrdered
  infer_instance


/-! ## The colour wheel -/

/-- One iteration of the inner loop of `createColourWheel`: the state is the counter
`iPixelIndex` and the storage; the four bytes of the colour found for the position
`(iPosX, iPosY)` are stored at `iPixelIndex`, which advances by 4. The colour is computed
from the polar offset of the position from the centre by `CVector2f` and `CColourf`
arithmetic in `float`, whose definitions are not part of the sources at hand: the parameter
`wheelColour iPosX iPosY` is the four bytes `unsigned char(colour.red * 255)`, ... of that
colour. -/
def colourWheelStep (wheelColour : Nat → Nat → Nat × Nat × Nat × Nat)
    (st : Nat × List Nat) (p : Nat × Nat) : Nat × List Nat :=
  let col := wheelColour p.1 p.2
  ((st.1 + 4) % 4294967296, storePixel 4 st.1 col.1 col.2.1 col.2.2.1 col.2.2.2 st.2)

/-- `CImage::createColourWheel`: the image is recreated with four channels; then
`for iPosX ... for iPosY ...` (`iPosX` is the outer loop) stores one colour after the
other from the start of the storage. -/
def createColourWheel (wheelColour : Nat → Nat → Nat × Nat × Nat × Nat)
    (iWidthAndHeightOfImage : Nat) (self : CImage) : Outcome Unit :=
  if iWidthAndHeightOfImage < 1 then
    .thrown "Parsed iWidthAndHeightOfImage must be at least 1" self
  else
    match createBlank iWidthAndHeightOfImage iWidthAndHeightOfImage 4 self with
    | .thrown what img => .thrown what img
    | .returned _ img =>
      let positions := rectPairs (toUInt img._miWidth) (toUInt img._miHeight)
      .returned ()
        { img with
          _mpData := img._mpData.map
            (fun d => (positions.foldl (colourWheelStep wheelColour) (0, d)).2) }

/-- `CImage::getColourWheelColour`, as the four bytes of the colour it returns: the
computation of the body of the loops of `createColourWheel`, made for the position
`(iPositionX, iPositionY)` (it divides the angle by `360.0f` where the loop multiplies by
`1.0f / 360.0f`). -/
def getColourWheelColour (wheelColour : Nat → Nat → Nat × Nat × Nat × Nat)
    (iPositionX iPositionY iWidthAndHeightOfImage : Nat) :
    Except String (Nat × Nat × Nat × Nat) :=
  if iWidthAndHeightOfImage < 1 then .error "Parsed iWidthAndHeightOfImage must be at least 1"
  else .ok (wheelColour iPositionX iPositionY)


/-! ## Copy with a border -/

/-- A sequence of calls `getPixel(sx, sy, r, g, b, a); outputImage.setPixel(dx, dy, r, g, b, a);`
with the given source and destination positions; `a` is the current content of the local
`a`. The reported object is the output image. -/
def copyPixels (self : CImage) : List ((Nat × Nat) × (Nat × Nat)) → Nat → CImage → Outcome Unit
  | [], _, out => .returned () out
  | (s, t) :: rest, a, out =>
    match getPixel self s.1 s.2 a with
    | .thrown what _ => .thrown what out
    | .returned col _ =>
      match setPixel out t.1 t.2 col.1 col.2.1 col.2.2.1 col.2.2.2 with
      | .thrown what out1 => .thrown what out1
      | .returned _ out1 => copyPixels self rest col.2.2.2 out1

/-- The copies of the loop `for (int iX = 0; iX < _miWidth; iX++)` of `copyToAddBorder`:
source `(iX, 0)` to `(iX + 1, 0)`, then source `(iX, _miHeight - 1)` to
`(iX + 1, heightOfOutputImageMinusOne)`; the `int` arguments are converted to the
`unsigned int` parameters of `getPixel` and `setPixel`. -/
def borderRowCopies (iWidth iHeight : Int) : List ((Nat × Nat) × (Nat × Nat)) :=
  (List.range iWidth.toNat).flatMap (fun iX =>
    [((toUInt (iX : Int), 0), (toUInt ((iX : Int) + 1), 0)),
      ((toUInt (iX : Int), toUInt (iHeight - 1)),
        (toUInt ((iX : Int) + 1), toUInt (iHeight + 2 - 1)))])

/-- The copies of the loop `for (int iY = 0; iY < _miHeight; iY++)` of `copyToAddBorder`:
source `(0, iY)` to `(0, iY + 1)`, then source `(_miWidth - 1, iY)` to
`(widthOfOutputImageMinusOne, iY + 1)`. -/
def borderColumnCopies (iWidth iHeight : Int) : List ((Nat × Nat) × (Nat × Nat)) :=
  (List.range iHeight.toNat).flatMap (fun iY =>
    [((0, toUInt (iY : Int)), (0, toUInt ((iY : Int) + 1))),
      ((toUInt (iWidth - 1), toUInt (iY : Int)),
        (toUInt (iWidth + 2 - 1), toUInt ((iY : Int) + 1)))])

/-- `CImage::copyToAddBorder`, for an output object other than the source: the output is
recreated two pixels wider and higher, the image is copied to position `(1, 1)` with
`copyRectTo`, then the two loops copy the top and bottom rows and the left and right
columns: their calls are made one after the other on the same locals. `a0` and
`colTmp3` are the indeterminate initial contents of the local `a` and of the
`colTmp[3]` of `copyRectTo`. -/
def copyToAddBorder (a0 colTmp3 : Nat) (self outputImage : CImage) : Outcome Unit :=
  match self._mpData with
  | none => .thrown "Image data doesn't exist." outputImage
  | some _ =>
    let newWidth := self._miWidth + 2
    let newHeight := self._miHeight + 2
    (createBlank (toUInt newWidth) (toUInt newHeight) (toUShort self._miNumChannels)
      outputImage).andThen fun o1 =>
    (copyRectTo self o1 0 0 self._miWidth self._miHeight 1 1 colTmp3).andThen fun o2 =>
    copyPixels self
      (borderRowCopies self._miWidth self._miHeight
        ++ borderColumnCopies self._miWidth self._miHeight) a0 o2


/-! ## Greyscale and normal map

In these two functions a `float` that is a number is the rational number it denotes, and
sums, differences, products and quotients are the exact ones: the rounding of a result to
the nearest `float` is left out. The square root is a parameter. -/

/-- The value of the local `f1Over3 = 1.0f / 3.0f` of `greyscaleSimple`: the `float` nearest
to one third. -/
def f1Over3 : Rat := 11184811 / 33554432

/-- The value of the constant `kfEpsilon = 0.0000001f` of `Core/Utilities.h`. -/
def kfEpsilon : Rat := 14073749 / 140737488355328

/-- The function `areFloatsEqual` of `Core/Utilities.h`: `fabsf(A - B) < kfEpsilon`. -/
def areFloatsEqual (A B : Rat) : Bool := decide (|A - B| < kfEpsilon)

/-- The conversion of a `float` to an integer type: the fraction is discarded. -/
def truncRat (q : Rat) : Int := Int.tdiv q.num q.den

/-- The template function `clamp` of `Core/Utilities.h`, at type `float`, on numbers. -/
def clampRat (valueToClamp valueA valueB : Rat) : Rat :=
  let min := if valueA < valueB then valueA else valueB
  let max := if valueA < valueB then valueB else valueA
  if valueToClamp < min then min
  else if valueToClamp > max then max
  else valueToClamp

/-- One iteration of the loop of `greyscaleSimple` at index `i`: the three colour bytes are
added, multiplied by `f1Over3`, converted to a byte, and the byte is stored three times. -/
def greyscaleStep (d : List Nat) (i : Nat) : List Nat :=
  let fTmp : Rat :=
    ((d.getD i 0 : Nat) + (d.getD (i + 1) 0 : Nat) + (d.getD (i + 2) 0 : Nat)) * f1Over3
  let cTmp := toUChar (truncRat fTmp)
  ((d.set i cTmp).set (i + 1) cTmp).set (i + 2) cTmp

/-- `CImage::greyscaleSimple`: the loop `while (i < _muiDataSize)` advances by the channel
count. -/
def greyscaleSimple (self : CImage) : Outcome Unit :=
  match self._mpData with
  | none => .thrown "Image not yet created." self
  | some d =>
    let indices := strideIndices self._muiDataSize (toUInt self._miNumChannels)
    .returned () { self with _mpData := some (indices.foldl greyscaleStep d) }

/-- The conversion of a component of the normal to a byte in `normalmap`, under the
comment `// Convert from -1, +1 to 0, 255`: `fX += 1.0f; fX *= 127.0f;` and
`unsigned char(fX)`. -/
def normalByte (f : Rat) : Nat := toUChar (truncRat ((f + 1) * 127))

/-- The three bytes that the body of the loops of `normalmap` computes from the height
values `r0` (current pixel), `r1` (left) and `r2` (above): the normal
`(float(r1 - r0) / 255, float(r2 - r0) / 255, fScale)` is divided by its length, or set to
`(0, 0, fScale)` when the length is nearly zero; then each component is converted to a
byte. -/
def normalBytes (sqrtf : Rat → Rat) (fScale : Rat) (r0 r1 r2 : Nat) : Nat × Nat × Nat :=
  let fX : Rat := (((r1 : Int) - (r0 : Int) : Int) : Rat) / 255
  let fY : Rat := (((r2 : Int) - (r0 : Int) : Int) : Rat) / 255
  let fZ : Rat := fScale
  let fLength := sqrtf (fX * fX + fY * fY + fZ * fZ)
  let n : Rat × Rat × Rat :=
    if areFloatsEqual fLength 0 then (0, 0, fScale)
    else (fX / fLength, fY / fLength, fZ / fLength)
  (normalByte n.1, normalByte n.2.1, normalByte n.2.2)

/-- The body of the loops of `normalmap`, run over the pixels `(ix, y)` still to be
visited: the current, the left and the above pixel of the bordered greyscale image are
read, and the bytes of the normal are stored in the output image. `a` is the current
content of the local `a`. -/
def normalLoop (sqrtf : Rat → Rat) (fScale : Rat) (imageGreyscale : CImage) :
    List (Nat × Nat) → Nat → CImage → Outcome Unit
  | [], _, out => .returned () out
  | (ix, y) :: rest, a, out =>
    match getPixel imageGreyscale (toUInt ((ix : Int) + 1)) (toUInt ((y : Int) + 1)) a with
    | .thrown what _ => .thrown what out
    | .returned c0 _ =>
      match getPixel imageGreyscale (toUInt (ix : Int)) (toUInt ((y : Int) + 1)) c0.2.2.2 with
      | .thrown what _ => .thrown what out
      | .returned c1 _ =>
        match getPixel imageGreyscale (toUInt ((ix : Int) + 1)) (toUInt ((y : Int) + 2))
            c1.2.2.2 with
        | .thrown what _ => .thrown what out
        | .returned c2 _ =>
          let n := normalBytes sqrtf fScale c0.1 c1.1 c2.1
          match setPixel out (toUInt (ix : Int)) (toUInt (y : Int)) n.1 n.2.1 n.2.2 c2.2.2.2 with
          | .thrown what out1 => .thrown what out1
          | .returned _ out1 => normalLoop sqrtf fScale imageGreyscale rest c2.2.2.2 out1

/-- `CImage::normalmap`, for an output object other than the source: the scale is clamped
to `[0, 1]`, the image is copied with a border into the local `imageGreyscale`, which is
greyscaled; the output is recreated with 3 channels and the size of the source, and the
loops `for y ... for ix ...` store the normals. `a0` is the indeterminate initial content
of the local `a`; `aB` and `colTmp3` are those of the locals of `copyToAddBorder` and
`copyRectTo`. -/
def normalmap (sqrtf : Rat → Rat) (a0 aB colTmp3 : Nat) (fScale : Rat)
    (self outputImage : CImage) : Outcome Unit :=
  match self._mpData with
  | none => .thrown "Image data doesn't exist." outputImage
  | some _ =>
    let fScale1 := clampRat fScale 0 1
    match copyToAddBorder aB colTmp3 self CImage.new with
    | .thrown what _ => .thrown what outputImage
    | .returned _ bordered =>
      match greyscaleSimple bordered with
      | .thrown what _ => .thrown what outputImage
      | .returned _ imageGreyscale =>
        (createBlank (toUInt self._miWidth) (toUInt self._miHeight) 3 outputImage).andThen
          fun out =>
            normalLoop sqrtf fScale1 imageGreyscale
              (scanPairs self._miWidth.toNat self._miHeight.toNat) a0 out


/-! ## Strings (`Core/StringUtils.cpp`)

A `std::string` is a `String`, its characters being `String.data`. -/

/-- The call `s.find(str)` of `std::string`, on the characters of the two strings: the
lowest position at which `str` occurs in `s`, `none` standing for `std::string::npos`. -/
def stdFind : List Char → List Char → Option Nat
  | [], str => if str.isEmpty then some 0 else none
  | c :: rest, str =>
    if str.isPrefixOf (c :: rest) then some 0 else (stdFind rest str).map (fun pos => pos + 1)

/-- `StringUtils::partialMatch`. -/
def partialMatch (strFullWord strPartialWord : String) : Bool :=
  if strPartialWord.length = 0 then false
  else
    match stdFind strFullWord.data strPartialWord.data with
    | none => false
    | some pos => if pos ≠ 0 then false else true

/-- The call `s.find_last_of(c)` of `std::string`, on the characters of the string: the
highest position at which `c` occurs, `none` standing for `std::string::npos`. -/
def findLastOf (c : Char) : List Char → Option Nat
  | [] => none
  | x :: rest =>
    match findLastOf c rest with
    | some pos => some (pos + 1)
    | none => if x = c then some 0 else none

/-- `StringUtils::stringToLowercase`: `std::tolower` is applied to every character. The
program never changes the locale, and in the locale "C" `std::tolower` changes the letters
`A` to `Z` only, as `Char.toLower` does. -/
def stringToLowercase (str : String) : String :=
  String.mk (str.data.map Char.toLower)

/-- `StringUtils::addFilenameExtension`: the string returned, or the message of the
exception thrown. -/
def addFilenameExtension (strFilenameExtension strFilename : String) : Except String String :=
  if strFilenameExtension.length = 0 then .error "Given extension name of zero length."
  else if strFilename.length = 0 then .error "Given file name of zero length."
  else
    let strExt : List Char :=
      if strFilenameExtension.data.head? ≠ some '.' then '.' :: strFilenameExtension.data
      else strFilenameExtension.data
    let strFile : List Char :=
      match findLastOf '.' strFilename.data with
      | some pos => strFilename.data.take pos
      | none => strFilename.data
    .ok (stringToLowercase (String.mk (strFile ++ strExt)))

/-- The value of `strParam` in `main` after line 103, for the program argument `argv1`:
the argument in lower case with the extension `.ico`. It is the name `main` prints and hands
to `writeAutorunFile`. -/
def mainIconName (argv1 : String) : Except String String :=
  addFilenameExtension ".ico" (stringToLowercase argv1)

/-- The local `strOutputFilename` of `saveAsICO`: the name of the file it opens. -/
def strOutputFilename (strFilename : String) : Except String String :=
  addFilenameExtension ".ico" strFilename

/-! ## Floating-point arithmetic and the hue (`Core/Utilities.cpp`)

The arithmetic operators on `float`, on the values of `CFloat`. A `float` is a binary32
number (24 significant bits, exponents from -126 to 127), and the result of an operation on
numbers is the exact result rounded to the nearest `float`, a tie going to the even
significand, or an infinity when the rounded result has no exponent left. A zero has no
sign, so that a quotient of a number other than zero by zero is the infinity with the sign
of the dividend. -/

/-- Rounding of a rational number to the nearest integer, a tie going to the even one. -/
def roundHalfEven (q : Rat) : Int :=
  if q - ⌊q⌋ < 1 / 2 then ⌊q⌋
  else if 1 / 2 < q - ⌊q⌋ then ⌊q⌋ + 1
  else if ⌊q⌋ % 2 = 0 then ⌊q⌋ else ⌊q⌋ + 1

/-- The exponent of the unit in the last place of a `float` of the magnitude of `q`: 23
below the exponent of `q`, which is taken to be at least -126 (below it the numbers are
subnormal). -/
def ulpExponent (q : Rat) : Int := max (Int.log 2 |q|) (-126) - 23

/-- The multiple of the unit in the last place nearest to `q`, a tie going to the even
multiple. -/
def roundFloat (q : Rat) : Rat :=
  (roundHalfEven (q / 2 ^ ulpExponent q) : Rat) * 2 ^ ulpExponent q

/-- The `float` that an operation with the exact result `q` yields. -/
def CFloat.round (q : Rat) : CFloat :=
  if 2 ^ 128 ≤ roundFloat q then .posInf
  else if roundFloat q ≤ -(2 ^ 128) then .negInf
  else .fin (roundFloat q)

/-- The operator `*` on `float`. -/
def CFloat.mul : CFloat → CFloat → CFloat
  | .nan, _ => .nan
  | _, .nan => .nan
  | .fin a, .fin b => CFloat.round (a * b)
  | .fin a, .posInf => if a = 0 then .nan else if 0 < a then .posInf else .negInf
  | .fin a, .negInf => if a = 0 then .nan else if 0 < a then .negInf else .posInf
  | .posInf, .fin b => if b = 0 then .nan else if 0 < b then .posInf else .negInf
  | .negInf, .fin b => if b = 0 then .nan else if 0 < b then .negInf else .posInf
  | .posInf, .posInf => .posInf
  | .posInf, .negInf => .negInf
  | .negInf, .posInf => .negInf
  | .negInf, .negInf => .posInf

/-- The operator `-` on `float`. -/
def CFloat.sub : CFloat → CFloat → CFloat
  | .nan, _ => .nan
  | _, .nan => .nan
  | .fin a, .fin b => CFloat.round (a - b)
  | .fin _, .posInf => .negInf
  | .fin _, .negInf => .posInf
  | .posInf, .posInf => .nan
  | .posInf, _ => .posInf
  | .negInf, .negInf => .nan
  | .negInf, _ => .negInf

/-- The operator `/` on `float`. -/
def CFloat.div : CFloat → CFloat → CFloat
  | .nan, _ => .nan
  | _, .nan => .nan
  | .fin a, .fin b =>
    if b = 0 then (if a = 0 then .nan else if 0 < a then .posInf else .negInf)
    else CFloat.round (a / b)
  | .fin _, .posInf => .fin 0
  | .fin _, .negInf => .fin 0
  | .posInf, .fin b => if 0 ≤ b then .posInf else .negInf
  | .negInf, .fin b => if 0 ≤ b then .negInf else .posInf
  | .posInf, _ => .nan
  | .negInf, _ => .nan

/-- The assignments to `fRed`, `fGreen` and `fBlue` in the `k`-th of the six branches of
`getHueColour`, counted from 0, `fHueAmount` being the hue in degrees. -/
def hueSector (k : Nat) (fHueAmount : CFloat) : CFloat × CFloat × CFloat :=
  match k with
  | 0 => (.fin 1, fHueAmount.div (.fin 60), .fin 0)
  | 1 => ((CFloat.fin 1).sub ((fHueAmount.sub (.fin 60)).div (.fin 60)), .fin 1, .fin 0)
  | 2 => (.fin 0, .fin 1, (fHueAmount.sub (.fin 120)).div (.fin 60))
  | 3 => (.fin 0, (CFloat.fin 1).sub ((fHueAmount.sub (.fin 180)).div (.fin 60)), .fin 1)
  | 4 => ((fHueAmount.sub (.fin 240)).div (.fin 60), .fin 0, .fin 1)
  | _ => (.fin 1, .fin 0, (CFloat.fin 1).sub ((fHueAmount.sub (.fin 300)).div (.fin 60)))

/-- `getHueColour`: the values left in `fRed`, `fGreen` and `fBlue`. -/
def getHueColour (fHueAmount : CFloat) : CFloat × CFloat × CFloat :=
  let f := (clampFloat fHueAmount (.fin 0) (.fin 1)).mul (.fin 360)
  if f.le (.fin 60) then hueSector 0 f
  else if f.le (.fin 120) then hueSector 1 f
  else if f.le (.fin 180) then hueSector 2 f
  else if f.le (.fin 240) then hueSector 3 f
  else if f.le (.fin 300) then hueSector 4 f
  else hueSector 5 f

/-! ## Evaluating the colour ramp -/

/-- The loop of `getAdjacentPointIndicies`: the iterator advances while it is not at the end
and the position of the element it points to is less than the ramp position. The value is
`std::distance(_mlistPoints.begin(), it)` when the loop ends. -/
def rampScan (fRampPosition : CFloat) : List SPoint → Nat
  | [] => 0
  | it :: rest => if it.fPosition.lt fRampPosition then rampScan fRampPosition rest + 1 else 0

/-- `CColourRamp::getAdjacentPointIndicies`: the values left in `uiPointIndexLeft` and
`uiPointIndexRight`, or the message of the exception. The indices are `unsigned int`. -/
def getAdjacentPointIndicies (fRampPosition : CFloat) (points : List SPoint) :
    Except String (Nat × Nat) :=
  if points.length < 2 then .error "Less than two points in the ramp"
  else
    let uiPointIndexRight := toUInt (rampScan fRampPosition points : Int)
    let uiPointIndexLeft := toUInt ((uiPointIndexRight : Int) - 1)
    if uiPointIndexRight = 0 then .ok (0, toUInt ((uiPointIndexRight : Int) + 1))
    else if uiPointIndexRight ≥ points.length then
      let uiPointIndexRight1 := toUInt ((toUInt (points.length : Int) : Int) - 1)
      .ok (toUInt ((uiPointIndexRight1 : Int) - 1), uiPointIndexRight1)
    else .ok (uiPointIndexLeft, uiPointIndexRight)

/-- `CColourRamp::getRampColour`. `CColourf::interpolate`, whose definition is outside the
sources, is the parameter `interpolate`. The value is `none` when an iterator is advanced
past the end of the list, which has no defined result; otherwise it is the colour returned
or the message of the exception thrown. -/
def getRampColour (interpolate : CColourf → CColourf → CFloat → CColourf)
    (fRampPosition : CFloat) (points : List SPoint) : Option (Except String CColourf) :=
  let fPos := clampFloat fRampPosition (.fin 0) (.fin 1)
  if points.length = 0 then some (.ok ⟨.fin 1, .fin 1, .fin 1, .fin 1⟩)
  else
    match getAdjacentPointIndicies fPos points with
    | .error what => some (.error what)
    | .ok (uiPointIndexLeft, _) =>
      match points[uiPointIndexLeft]?, points[uiPointIndexLeft + 1]? with
      | some pointLeft, some pointRight =>
        let t := (fPos.sub pointLeft.fPosition).div
          (pointRight.fPosition.sub pointLeft.fPosition)
        some (.ok (interpolate pointLeft.colour pointRight.colour t))
      | _, _ => none

/-- The local `imageSourceWithAlpha` of `saveAsICO`: the copy of the image, to which an
opaque alpha channel is added when it has three channels. -/
def icoSourceWithAlpha (self : CImage) : Outcome Unit :=
  match copyTo self false CImage.new with
  | .thrown what img => .thrown what img
  | .returned _ copied =>
    if copied._miNumChannels = 3 then addAlphaChannel 255 copied else .returned () copied

/-! ## Concrete objects used to run the definitions -/

/-- Indeterminate memory that happens to hold zero everywhere. -/
def Indeterminate.zero : Indeterminate :=
  { cMagic := fun _ => 0, width := fun _ => 0, height := fun _ => 0,
    numChannels := fun _ => 0, dataSize := fun _ => 0, heap := fun _ => 0 }

/-- A decoder for the other formats that refuses every file. -/
def stbLoadNone (s : CImage) : Outcome Bool := .returned false s

/-- A 1 x 2 image of three channels. -/
def sampleImage : CImage := ⟨some [1, 2, 3, 4, 5, 6], 6, 1, 2, 3⟩

/-- A well-formed DIF stream of a 1 x 1 three-channel image, the last byte of its trailing
marker changed from 0 to 1. -/
def tamperedTrailer : List Nat :=
  [68, 73, 70, 0] ++ [1, 0, 0, 0, 0, 0, 0, 0] ++ [1, 0, 0, 0, 0, 0, 0, 0] ++ [3]
    ++ [3, 0, 0, 0, 0, 0, 0, 0] ++ [10, 20, 30] ++ [68, 73, 70, 1]

/-- A DIF stream with 8-byte words whose header says width `2^32`, height `2^32`, one
channel and payload length 0, followed at once by the trailing marker. -/
def wrappedHeader : List Nat :=
  [68, 73, 70, 0] ++ [0, 0, 0, 0, 1, 0, 0, 0] ++ [0, 0, 0, 0, 1, 0, 0, 0] ++ [1]
    ++ [0, 0, 0, 0, 0, 0, 0, 0] ++ [68, 73, 70, 0]

/-- A resampler that always reports failure. -/
def stbirNone (_ : List Nat) (_ _ _ _ _ : Int) : Option (List Nat) := none

/-- A 2 x 2 image of three channels. -/
def sampleSquare : CImage := ⟨some [1, 2, 3, 4, 5, 6, 7, 8, 9, 10, 11, 12], 12, 2, 2, 3⟩

/-- A 2 x 2 image of three channels, every byte 0. -/
def blankSquare : CImage := ⟨some [0, 0, 0, 0, 0, 0, 0, 0, 0, 0, 0, 0], 12, 2, 2, 3⟩

/-- The 2 x 2 image of three channels whose four pixels are all (127, 127, 127). -/
def midGrey : CImage :=
  ⟨some [127, 127, 127, 127, 127, 127, 127, 127, 127, 127, 127, 127], 12, 2, 2, 3⟩

/-- A 2 x 1 image of four channels. -/
def sampleAlpha : CImage := ⟨some [10, 200, 130, 7, 250, 0, 128, 9], 8, 2, 1, 4⟩

/-- A resampler that succeeds on every input and writes zero bytes only. -/
def stbirBlack (_ : List Nat) (_ _ : Int) (w2 h2 c : Int) : Option (List Nat) :=
  some (List.replicate (w2 * h2 * c).toNat 0)

/-- An encoder that emits the pixel bytes as they are. -/
def stbiWriteRaw (pixels : List Nat) (_ _ : Int) : List Nat := pixels

/-- A DIF stream with 8-byte words whose header says width 65536, height 65536, three
channels and payload length `3 * 2^32`, followed at once by the trailing marker. -/
def overflowDif : List Nat :=
  [68, 73, 70, 0] ++ [0, 0, 1, 0, 0, 0, 0, 0] ++ [0, 0, 1, 0, 0, 0, 0, 0] ++ [3]
    ++ [0, 0, 0, 0, 3, 0, 0, 0] ++ [68, 73, 70, 0]

/-- A DIF stream with 8-byte words holding a 1 x 1 image of one channel. -/
def greyDif : List Nat :=
  [68, 73, 70, 0] ++ [1, 0, 0, 0, 0, 0, 0, 0] ++ [1, 0, 0, 0, 0, 0, 0, 0] ++ [1]
    ++ [1, 0, 0, 0, 0, 0, 0, 0] ++ [77] ++ [68, 73, 70, 0]

/-- A sequence of calls that all succeed from the empty buffer. -/
def sampleOps : List BufferOp :=
  [.createBlank 2 1 3, .addAlphaChannel 255, .flipVertically, .rotateClockwise 0,
    .removeAlphaChannel, .resize 1 1, .copySelf, .free,
    .loadDIF 8 Indeterminate.zero (difBytes 8 sampleImage) true, .copyFrom sampleSquare]

/-- Calls on a colour ramp with valid indices and positions that are numbers. -/
def sampleRampOps : List RampOp :=
  [.addPoint (.fin 2) ⟨.fin 1, .fin 0, .fin 0, .fin 1⟩, .modifyPointPosition 0 .negInf,
    .removePoint 1, .modifyPointColour 0 ⟨.fin 1, .fin 0, .fin 0, .fin 1⟩]

/-- A colour computation that tells the positions apart: red is the column, green the row. -/
def wheelProbe (x y : Nat) : Nat × Nat × Nat × Nat := (x, y, 0, 255)

/-- A stand-in for the square root that is exact at 0 and at 1. -/
def sqrtUnit (q : Rat) : Rat := q

/-- An interpolation function for running `getRampColour`: the left colour. -/
def interpolateLeft (a _ : CColourf) (_ : CFloat) : CColourf := a

/-- A three-channel image of `2^29 + 1` pixels in one row (1610612739 bytes, all 0). -/
def wideImage : CImage :=
  ⟨some (List.replicate 1610612739 0), 1610612739, 536870913, 1, 3⟩

/-! # Theorems -/

/-! ## Conversions inside their range -/

theorem toInt_of_lt (n : Nat) (h : n < 2147483648) : toInt n = (n : Int) := by
  unfold toInt
  have h1 : n % 4294967296 = n := Nat.mod_eq_of_lt (by omega)
  rw [h1, if_pos h]

theorem toUInt_of_lt (n : Nat) (h : n < 4294967296) : toUInt (n : Int) = n := by
  unfold toUInt
  have h1 : ((n : Int) % 4294967296) = (n : Int) := Int.emod_eq_of_lt (by omega) (by omega)
  rw [h1]
  exact Int.toNat_natCast n

theorem toUShort_of_lt (n : Nat) (h : n < 65536) : toUShort (n : Int) = n := by
  unfold toUShort
  have h1 : ((n : Int) % 65536) = (n : Int) := Int.emod_eq_of_lt (by omega) (by omega)
  rw [h1]
  exact Int.toNat_natCast n

/-! ## createBlank -/

/-- What `createBlank` leaves when none of its checks fires. -/
theorem createBlank_returned (w h c : Nat) (self : CImage) (hw : 1 ≤ w) (hh : 1 ≤ h)
    (hc : c = 3 ∨ c = 4) :
    createBlank w h c self = .returned ()
      { _mpData := some (List.replicate (toUInt (toInt w * toInt h * (c : Int))) 0),
        _muiDataSize := toUInt (toInt w * toInt h * (c : Int)),
        _miWidth := toInt w, _miHeight := toInt h, _miNumChannels := (c : Int) } := by
  unfold createBlank
  have h1 : ¬ w < 1 := by omega
  have h2 : ¬ h < 1 := by omega
  have h3 : ¬ c < 3 := by omega
  have h4 : ¬ c > 4 := by omega
  simp only [h1, h2, h3, h4, if_false]

/-- The size `createBlank` computes, when the product is representable as an `int`. -/
theorem createBlank_size (w h c : Nat) (hw : 1 ≤ w) (hh : 1 ≤ h) (hc : c = 3 ∨ c = 4)
    (hrep : w * h * c < 2147483648) :
    toInt w = (w : Int) ∧ toInt h = (h : Int) ∧
      toUInt (toInt w * toInt h * (c : Int)) = w * h * c := by
  have hc1 : 1 ≤ c := by omega
  have hwlt : w < 2147483648 := by
    have : w * 1 ≤ w * (h * c) := Nat.mul_le_mul_left w (Nat.mul_pos hh hc1)
    rw [← Nat.mul_assoc] at this
    omega
  have hhlt : h < 2147483648 := by
    have : 1 * h ≤ (w * c) * h := Nat.mul_le_mul_right h (Nat.mul_pos hw hc1)
    have e : w * c * h = w * h * c := by ring
    omega
  have e1 := toInt_of_lt w hwlt
  have e2 := toInt_of_lt h hhlt
  refine ⟨e1, e2, ?_⟩
  rw [e1, e2]
  have e3 : (w : Int) * (h : Int) * (c : Int) = ((w * h * c : Nat) : Int) := by push_cast; ring
  rw [e3]
  exact toUInt_of_lt _ (by omega)

/-- C1: for width ≥ 1, height ≥ 1 and 3 or 4 channels, with `width * height * channels`
representable as an `int`, `createBlank` returns, whatever the object held before, and leaves
exactly those dimensions, a recorded size and a byte sequence of length
`width * height * channels`, and every byte 0. -/
theorem createBlank_zero_filled (w h c : Nat) (self : CImage) (hw : 1 ≤ w) (hh : 1 ≤ h)
    (hc : c = 3 ∨ c = 4) (hrep : w * h * c < 2147483648) :
    ∃ img d, createBlank w h c self = .returned () img ∧
      img._miWidth = (w : Int) ∧ img._miHeight = (h : Int) ∧ img._miNumChannels = (c : Int) ∧
      img._muiDataSize = w * h * c ∧ img._mpData = some d ∧
      d.length = w * h * c ∧ ∀ b ∈ d, b = 0 := by
  obtain ⟨e1, e2, e3⟩ := createBlank_size w h c hw hh hc hrep
  refine ⟨_, _, createBlank_returned w h c self hw hh hc, e1, e2, rfl, e3, rfl, ?_, ?_⟩
  · rw [List.length_replicate, e3]
  · intro b hb
    exact List.eq_of_mem_replicate hb

theorem createBlank_zero_filled_witness :
    ∃ img d, createBlank 2 1 3 ⟨some [9, 9], 2, 7, 7, 7⟩ = .returned () img ∧
      img._miWidth = ((2 : Nat) : Int) ∧ img._miHeight = ((1 : Nat) : Int) ∧
      img._miNumChannels = ((3 : Nat) : Int) ∧
      img._muiDataSize = 2 * 1 * 3 ∧ img._mpData = some d ∧
      d.length = 2 * 1 * 3 ∧ ∀ b ∈ d, b = 0 :=
  createBlank_zero_filled 2 1 3 ⟨some [9, 9], 2, 7, 7, 7⟩ (by decide) (by decide)
    (Or.inl rfl) (by decide)

/-- With storage allocated, `createBlankAlloc` is `createBlank`. -/
theorem createBlankAlloc_false (w h c : Nat) (self : CImage) :
    createBlankAlloc false w h c self = createBlank w h c self := by
  unfold createBlankAlloc createBlank
  simp only [Bool.false_eq_true, if_false]

/-- C2, counterexample: width 1, height 1 and three channels are valid arguments, and
`createBlank` fails on them when the allocation fails. -/
theorem createBlank_allocation_failure :
    ¬ ((1 : Nat) < 1 ∨ (1 : Nat) < 1 ∨ ¬ ((3 : Nat) = 3 ∨ (3 : Nat) = 4)) ∧
      createBlankAlloc true 1 1 3 CImage.new =
        .thrown "Failed to allocate memory." ⟨none, 3, 1, 1, 3⟩ := by
  decide

/-- C2, amended: `createBlank` throws exactly when width < 1, or height < 1, or the channel
count is neither 3 nor 4, or the allocation fails; the exception is a dimension error
whenever width < 1 or height < 1, a channel-count error when both dimensions are valid and
the channel count is not, and the allocation failure when the arguments are valid and the
allocation fails. -/
theorem createBlank_throws_iff (bNewReturnsNull : Bool) (w h c : Nat) (self : CImage) :
    ((∃ what img, createBlankAlloc bNewReturnsNull w h c self = .thrown what img) ↔
        (w < 1 ∨ h < 1 ∨ ¬ (c = 3 ∨ c = 4) ∨ bNewReturnsNull = true)) ∧
    ((w < 1 ∨ h < 1) →
        ∃ what img, createBlankAlloc bNewReturnsNull w h c self = .thrown what img ∧
          isInvalidDimension what) ∧
    ((1 ≤ w ∧ 1 ≤ h ∧ ¬ (c = 3 ∨ c = 4)) →
        ∃ what img, createBlankAlloc bNewReturnsNull w h c self = .thrown what img ∧
          isInvalidChannelCount what) ∧
    ((1 ≤ w ∧ 1 ≤ h ∧ (c = 3 ∨ c = 4) ∧ bNewReturnsNull = true) →
        ∃ img, createBlankAlloc bNewReturnsNull w h c self =
          .thrown "Failed to allocate memory." img) := by
  by_cases h1 : w < 1
  · have e : createBlankAlloc bNewReturnsNull w h c self =
        .thrown "Given width < 1." (free self) := by
      unfold createBlankAlloc
      simp only [h1, if_true]
    refine ⟨⟨fun _ => Or.inl h1, fun _ => ⟨_, _, e⟩⟩, fun _ => ⟨_, _, e, Or.inl rfl⟩, ?_, ?_⟩
    · intro hh
      omega
    · intro hh
      omega
  by_cases h2 : h < 1
  · have e : createBlankAlloc bNewReturnsNull w h c self =
        .thrown "Given height < 1." (free self) := by
      unfold createBlankAlloc
      simp only [h1, h2, if_true, if_false]
    refine ⟨⟨fun _ => Or.inr (Or.inl h2), fun _ => ⟨_, _, e⟩⟩,
      fun _ => ⟨_, _, e, Or.inr rfl⟩, ?_, ?_⟩
    · intro hh
      omega
    · intro hh
      omega
  by_cases h3 : c < 3
  · have e : createBlankAlloc bNewReturnsNull w h c self =
        .thrown "Given number of channels < 1. (Only 3 or 4 is valid)" (free self) := by
      unfold createBlankAlloc
      simp only [h1, h2, h3, if_true, if_false]
    refine ⟨⟨fun _ => Or.inr (Or.inr (Or.inl (by omega))), fun _ => ⟨_, _, e⟩⟩, ?_,
      fun _ => ⟨_, _, e, Or.inl rfl⟩, ?_⟩
    · intro hh
      omega
    · intro hh
      omega
  by_cases h4 : c > 4
  · have e : createBlankAlloc bNewReturnsNull w h c self =
        .thrown "Given number of channels > 4. (Only 3 or 4 is valid)" (free self) := by
      unfold createBlankAlloc
      simp only [h1, h2, h3, h4, if_true, if_false]
    refine ⟨⟨fun _ => Or.inr (Or.inr (Or.inl (by omega))), fun _ => ⟨_, _, e⟩⟩, ?_,
      fun _ => ⟨_, _, e, Or.inr rfl⟩, ?_⟩
    · intro hh
      omega
    · intro hh
      omega
  have hc : c = 3 ∨ c = 4 := by omega
  cases bNewReturnsNull with
  | true =>
    have e : createBlankAlloc true w h c self =
        .thrown "Failed to allocate memory."
          ⟨none, toUInt (toInt w * toInt h * (c : Int)), toInt w, toInt h, (c : Int)⟩ := by
      unfold createBlankAlloc
      simp only [h1, h2, h3, h4, if_true, if_false]
    refine ⟨⟨fun _ => Or.inr (Or.inr (Or.inr rfl)), fun _ => ⟨_, _, e⟩⟩, ?_, ?_,
      fun _ => ⟨_, e⟩⟩
    · intro hh
      omega
    · intro hh
      exact absurd hc hh.2.2
  | false =>
    have e := createBlank_returned w h c self (by omega) (by omega) hc
    rw [createBlankAlloc_false]
    refine ⟨⟨?_, ?_⟩, ?_, ?_, ?_⟩
    · rintro ⟨what, img, hthr⟩
      rw [e] at hthr
      exact Outcome.noConfusion hthr
    · intro hh
      rcases hh with hh | hh | hh | hh
      · omega
      · omega
      · exact absurd hc hh
      · exact absurd hh (by decide)
    · intro hh
      omega
    · intro hh
      exact absurd hc hh.2.2
    · intro hh
      exact absurd hh.2.2.2 (by decide)

/-! ## Rows and the vertical flip -/

/-- In a concatenation of rows of one length, row `i` is found at offset `i * rowsize`. -/
theorem flatten_row (rs : Nat) (R : List (List Nat)) (hR : ∀ r ∈ R, r.length = rs)
    (i : Nat) (hi : i < R.length) :
    (R.flatten.drop (i * rs)).take rs = R[i] := by
  induction R generalizing i with
  | nil => simp at hi
  | cons r R ih =>
    have hr : r.length = rs := hR r (List.mem_cons_self _ _)
    cases i with
    | zero =>
      simp only [Nat.zero_mul, List.drop_zero, List.flatten_cons, List.getElem_cons_zero]
      exact List.take_left' hr
    | succ j =>
      have e : (j + 1) * rs = r.length + j * rs := by rw [hr]; ring
      simp only [List.flatten_cons, List.getElem_cons_succ, e, List.drop_append]
      exact ih (fun r' h' => hR r' (List.mem_cons_of_mem _ h')) j
        (by simpa using hi)

/-- The loop of `flipVertically` run on a concatenation of rows yields the rows in reverse. -/
theorem flippedRows_flatten (rs : Nat) (R : List (List Nat)) (hR : ∀ r ∈ R, r.length = rs) :
    flippedRows R.flatten rs R.length = R.reverse := by
  apply List.ext_getElem
  · simp [flippedRows]
  · intro i h1 h2
    have hi : i < R.length := by simpa [flippedRows] using h1
    have hj : R.length - 1 - i < R.length := by omega
    have e : rs * (R.length - 1) - i * rs = (R.length - 1 - i) * rs := by
      rw [Nat.sub_mul, Nat.mul_comm rs]
    simp only [flippedRows, List.getElem_map, List.getElem_range, e]
    rw [flatten_row rs R hR _ hj, List.getElem_reverse]

/-- A byte sequence of length `h * rowsize` is a concatenation of `h` rows. -/
theorem exists_rows (rs : Nat) (h : Nat) (d : List Nat) (hd : d.length = h * rs) :
    ∃ R : List (List Nat), R.flatten = d ∧ R.length = h ∧ ∀ r ∈ R, r.length = rs := by
  induction h generalizing d with
  | zero =>
    refine ⟨[], ?_, rfl, by simp⟩
    have : d.length = 0 := by simpa using hd
    simp [List.length_eq_zero.mp this]
  | succ h ih =>
    have hl : rs ≤ d.length := by rw [hd]; nlinarith
    obtain ⟨R, hR1, hR2, hR3⟩ := ih (d.drop rs) (by
      rw [List.length_drop, hd]
      have : (h + 1) * rs = h * rs + rs := by ring
      omega)
    refine ⟨d.take rs :: R, ?_, by simp [hR2], ?_⟩
    · simp [hR1]
    · intro r hr
      rcases List.mem_cons.mp hr with h1 | h1
      · rw [h1, List.length_take]
        omega
      · exact hR3 r h1

/-- Flipping twice restores a byte sequence of `h` rows. -/
theorem flippedRows_flippedRows (rs h : Nat) (d : List Nat) (hd : d.length = h * rs) :
    (flippedRows (flippedRows d rs h).flatten rs h).flatten = d := by
  obtain ⟨R, hR1, hR2, hR3⟩ := exists_rows rs h d hd
  subst hR1
  subst hR2
  rw [flippedRows_flatten rs R hR3]
  have hrev : ∀ r ∈ R.reverse, r.length = rs := fun r hr => hR3 r (List.mem_reverse.mp hr)
  have := flippedRows_flatten rs R.reverse hrev
  rw [List.length_reverse] at this
  rw [this, List.reverse_reverse]

/-- Flipping keeps the length of a byte sequence of `h` rows. -/
theorem flippedRows_length (rs h : Nat) (d : List Nat) (hd : d.length = h * rs) :
    (flippedRows d rs h).flatten.length = d.length := by
  obtain ⟨R, hR1, hR2, hR3⟩ := exists_rows rs h d hd
  subst hR1
  subst hR2
  rw [flippedRows_flatten rs R hR3]
  simp [List.length_flatten, List.map_reverse, List.sum_reverse]

/-- Every non-empty buffer is given by natural numbers `W`, `H`, `C` and `W * H * C` bytes. -/
theorem IsImage.exists_nat {img : CImage} (hi : IsImage img) :
    ∃ (d : List Nat) (W H C : Nat),
      img = ⟨some d, W * H * C, (W : Int), (H : Int), (C : Int)⟩ ∧ 1 ≤ W ∧ 1 ≤ H ∧
      (C = 3 ∨ C = 4) ∧ W * H * C < 2147483648 ∧ d.length = W * H * C := by
  obtain ⟨d0, n, w, h, c⟩ := img
  obtain ⟨h1, h2, h3, h4, h5, h6⟩ := hi
  simp only at h1 h2 h3 h4 h5 h6
  cases d0 with
  | none => simp at h6
  | some d =>
    simp only [Option.map_some', Option.some.injEq] at h6
    obtain ⟨W, rfl⟩ := Int.eq_ofNat_of_zero_le (by omega : 0 ≤ w)
    obtain ⟨H, rfl⟩ := Int.eq_ofNat_of_zero_le (by omega : 0 ≤ h)
    obtain ⟨C, rfl⟩ := Int.eq_ofNat_of_zero_le (by omega : 0 ≤ c)
    have hn : n = W * H * C := by exact_mod_cast h4
    subst hn
    exact ⟨d, W, H, C, rfl, by omega, by omega, by omega, h5, h6⟩

/-- The converse: such numbers and bytes make a non-empty buffer. -/
theorem IsImage.of_nat (d : List Nat) (W H C : Nat) (hW : 1 ≤ W) (hH : 1 ≤ H)
    (hC : C = 3 ∨ C = 4) (hlt : W * H * C < 2147483648) (hd : d.length = W * H * C) :
    IsImage ⟨some d, W * H * C, (W : Int), (H : Int), (C : Int)⟩ := by
  refine ⟨by simp; omega, by simp; omega, ?_, by push_cast; ring, hlt, by simp [hd]⟩
  rcases hC with h | h
  · exact Or.inl (by simp [h])
  · exact Or.inr (by simp [h])

/-- Bounds on the factors of a representable product. -/
theorem factors_lt (W H C : Nat) (hW : 1 ≤ W) (hH : 1 ≤ H) (hC : 1 ≤ C)
    (hlt : W * H * C < 2147483648) :
    W < 2147483648 ∧ H < 2147483648 ∧ W * C < 2147483648 := by
  have h1 : W * 1 ≤ W * (H * C) := Nat.mul_le_mul_left W (Nat.mul_pos hH hC)
  have h2 : 1 * H ≤ (W * C) * H := Nat.mul_le_mul_right H (Nat.mul_pos hW hC)
  have h3 : (W * C) * 1 ≤ (W * C) * H := Nat.mul_le_mul_left (W * C) hH
  have e1 : W * (H * C) = W * H * C := by ring
  have e2 : W * C * H = W * H * C := by ring
  omega

/-- `flipVertically` on a non-empty buffer given by natural numbers. -/
theorem flipVertically_nat (d : List Nat) (W H C : Nat) (hlt : W * C < 4294967296) :
    flipVertically ⟨some d, W * H * C, (W : Int), (H : Int), (C : Int)⟩ =
      .returned () ⟨some (flippedRows d (W * C) H).flatten, W * H * C, (W : Int), (H : Int),
        (C : Int)⟩ := by
  have e : toUInt ((W : Int) * (C : Int)) = W * C := by
    have : (W : Int) * (C : Int) = ((W * C : Nat) : Int) := by push_cast; ring
    rw [this]
    exact toUInt_of_lt _ hlt
  simp only [flipVertically, e, Int.toNat_ofNat]

/-! ## Object representations and the input stream -/

theorem objectBytes_length (n v : Nat) : (objectBytes n v).length = n := by
  induction n generalizing v with
  | zero => rfl
  | succ n ih => simp [objectBytes, ih]

theorem objectValue_objectBytes (n v : Nat) : objectValue (objectBytes n v) = v % 256 ^ n := by
  induction n generalizing v with
  | zero => simp [objectBytes, objectValue, Nat.mod_one]
  | succ n ih =>
    simp only [objectBytes, objectValue, ih, Nat.mod_mod]
    rw [pow_succ', Nat.mod_mul]

theorem toSizeT_natCast (ws v : Nat) : toSizeT ws (v : Int) = v % 256 ^ ws := by
  unfold toSizeT
  have : ((v : Int) % (256 : Int) ^ ws) = ((v % 256 ^ ws : Nat) : Int) := by push_cast; rfl
  rw [this]
  exact Int.toNat_natCast _

theorem toUChar_natCast (v : Nat) : toUChar (v : Int) = v % 256 := by
  unfold toUChar
  have : ((v : Int) % 256) = ((v % 256 : Nat) : Int) := by push_cast; rfl
  rw [this]
  exact Int.toNat_natCast _

/-- A value of at most 32 bits fits a word of at least four bytes. -/
theorem lt_word (ws v : Nat) (hws : 4 ≤ ws) (hv : v < 4294967296) : v < 256 ^ ws := by
  have h1 : 256 ^ 4 ≤ 256 ^ ws := Nat.pow_le_pow_right (by decide) hws
  have h2 : 256 ^ 4 = 4294967296 := by norm_num
  omega

/-- Reading the bytes at the front of a good stream. -/
theorem IfStream.read_append (a r old : List Nat) (n : Nat) (hn : a.length = n) :
    IfStream.read { rest := a ++ r, good := true } old n = (a, { rest := r, good := true }) := by
  have h : n ≤ (a ++ r).length := by rw [List.length_append]; omega
  simp only [IfStream.read, if_true, h, List.take_left' hn, List.drop_left' hn]

theorem badMagic_cMagicDIF : badMagic cMagicDIF = false := by decide

/-! ## Decoding a stream that holds marker, header, payload and trailer -/

/-- A stream with the leading marker and a full header that the check rejects is refused,
and the object is not touched by `_loadDIF`. -/
theorem loadDIF_header_rejected (ws : Nat) (mem : Indeterminate) (f : Bool) (self : CImage)
    (W H S rest : List Nat) (c : Nat) (hW : W.length = ws) (hH : H.length = ws)
    (hS : S.length = ws)
    (hrej : headerRejected ws (objectValue W) (objectValue H) (objectValue [c]) (objectValue S)) :
    _loadDIF ws mem (some (cMagicDIF ++ (W ++ (H ++ ([c] ++ (S ++ rest)))))) f self =
      .returned false self := by
  have h4 : cMagicDIF.length = 4 := rfl
  have h1 : [c].length = 1 := rfl
  simp only [_loadDIF, IfStream.read_append _ _ _ _ h4, IfStream.read_append _ _ _ _ hW,
    IfStream.read_append _ _ _ _ hH, IfStream.read_append _ _ _ _ hS,
    IfStream.read_append _ _ _ _ h1, badMagic_cMagicDIF, Bool.false_eq_true, if_false, hrej,
    if_true]

/-- A stream with the leading marker, a full header that passes the check, the payload and
four trailer bytes. -/
theorem loadDIF_stream (ws : Nat) (mem : Indeterminate) (f : Bool) (self : CImage)
    (W H S D T : List Nat) (c : Nat) (hW : W.length = ws) (hH : H.length = ws)
    (hS : S.length = ws) (hD : D.length = toUInt ((objectValue S : Nat) : Int))
    (hT : T.length = 4)
    (hok : ¬ headerRejected ws (objectValue W) (objectValue H) (objectValue [c])
      (objectValue S)) :
    _loadDIF ws mem (some (cMagicDIF ++ (W ++ (H ++ ([c] ++ (S ++ (D ++ T))))))) f self =
      if badMagic T then
        .returned false ⟨none, toUInt ((objectValue S : Nat) : Int), toInt (objectValue W),
          toInt (objectValue H), ((objectValue [c] : Nat) : Int)⟩
      else if f then
        match flipVertically ⟨some D, toUInt ((objectValue S : Nat) : Int),
            toInt (objectValue W), toInt (objectValue H), ((objectValue [c] : Nat) : Int)⟩ with
        | .thrown what img => .thrown what img
        | .returned _ img => .returned true img
      else
        .returned true ⟨some D, toUInt ((objectValue S : Nat) : Int), toInt (objectValue W),
          toInt (objectValue H), ((objectValue [c] : Nat) : Int)⟩ := by
  have h4 : cMagicDIF.length = 4 := rfl
  have h1 : [c].length = 1 := rfl
  have hT' : IfStream.read { rest := T, good := true } cMagicDIF 4 =
      (T, { rest := [], good := true }) := by
    have := IfStream.read_append T [] cMagicDIF 4 hT
    simpa using this
  simp only [_loadDIF, IfStream.read_append _ _ _ _ h4, IfStream.read_append _ _ _ _ hW,
    IfStream.read_append _ _ _ _ hH, IfStream.read_append _ _ _ _ hS,
    IfStream.read_append _ _ _ _ h1, IfStream.read_append _ _ _ _ hD,
    badMagic_cMagicDIF, Bool.false_eq_true, if_false, hok, hT']

/-- The bytes written for a non-empty buffer given by natural numbers. -/
theorem difBytes_nat (ws : Nat) (d : List Nat) (W H C : Nat) (hd : d.length = W * H * C) :
    difBytes ws ⟨some d, W * H * C, (W : Int), (H : Int), (C : Int)⟩ =
      cMagicDIF ++ (objectBytes ws (W % 256 ^ ws) ++ (objectBytes ws (H % 256 ^ ws) ++
        ([C % 256] ++ (objectBytes ws ((W * H * C) % 256 ^ ws) ++ (d ++ cMagicDIF))))) := by
  have e : List.take (W * H * C) d = d := List.take_of_length_le (by omega)
  simp only [difBytes, toSizeT_natCast, toUChar_natCast, Option.getD_some, e, objectBytes,
    Nat.mod_mod, List.append_assoc, List.singleton_append, List.cons_append, List.nil_append]

/-- Decoding the bytes written for a non-empty buffer: the buffer itself comes back before
the optional flip. -/
theorem loadDIF_difBytes (ws : Nat) (hws : 4 ≤ ws) (mem : Indeterminate) (f : Bool)
    (s : CImage) (d : List Nat) (W H C : Nat) (hW : 1 ≤ W) (hH : 1 ≤ H) (hC : C = 3 ∨ C = 4)
    (hlt : W * H * C < 2147483648) (hd : d.length = W * H * C) :
    _loadDIF ws mem (some (difBytes ws ⟨some d, W * H * C, (W : Int), (H : Int), (C : Int)⟩))
        f s =
      if f then
        match flipVertically ⟨some d, W * H * C, (W : Int), (H : Int), (C : Int)⟩ with
        | .thrown what img => .thrown what img
        | .returned _ img => .returned true img
      else .returned true ⟨some d, W * H * C, (W : Int), (H : Int), (C : Int)⟩ := by
  obtain ⟨hWlt, hHlt, _⟩ := factors_lt W H C hW hH (by omega) hlt
  have eW : W % 256 ^ ws = W := Nat.mod_eq_of_lt (lt_word ws W hws (by omega))
  have eH : H % 256 ^ ws = H := Nat.mod_eq_of_lt (lt_word ws H hws (by omega))
  have eS : (W * H * C) % 256 ^ ws = W * H * C :=
    Nat.mod_eq_of_lt (lt_word ws _ hws (by omega))
  have eC : C % 256 = C := Nat.mod_eq_of_lt (by omega)
  have vC : objectValue [C] = C := by simp [objectValue, eC]
  have vW : objectValue (objectBytes ws W) = W := by rw [objectValue_objectBytes, eW]
  have vH : objectValue (objectBytes ws H) = H := by rw [objectValue_objectBytes, eH]
  have vS : objectValue (objectBytes ws (W * H * C)) = W * H * C := by
    rw [objectValue_objectBytes, eS]
  have uS : toUInt ((W * H * C : Nat) : Int) = W * H * C := toUInt_of_lt _ (by omega)
  have hok : ¬ headerRejected ws (objectValue (objectBytes ws W))
      (objectValue (objectBytes ws H)) (objectValue [C])
      (objectValue (objectBytes ws (W * H * C))) := by
    rw [vW, vH, vC, vS]
    unfold headerRejected
    rw [eS]
    omega
  rw [difBytes_nat ws d W H C hd, eW, eH, eS, eC]
  rw [loadDIF_stream ws mem f s _ _ _ d cMagicDIF C (objectBytes_length _ _)
    (objectBytes_length _ _) (objectBytes_length _ _) (by rw [vS, uS, hd]) rfl hok]
  rw [vW, vH, vC, vS, uS, toInt_of_lt W hWlt, toInt_of_lt H hHlt]
  simp only [badMagic_cMagicDIF, Bool.false_eq_true, if_false]

/-- C3: DIF round trip. For a non-empty buffer (3 or 4 channels, width and height at least
1), a word of at least four bytes and either value `f` of the flip flag, `saveAsDIF` with
flip-on-save `f` returns, and `load` of the bytes it wrote under a name with extension `dif`
with flip-on-load `f` returns true and leaves exactly the saved buffer: the same width,
height, channel count, size and bytes, whatever the loading object held before. -/
theorem dif_round_trip (ws : Nat) (hws : 4 ≤ ws) (mem : Indeterminate)
    (stbLoad : CImage → Outcome Bool) (strFilename : String) (f : Bool)
    (self prev : CImage) (hi : IsImage self) :
    ∃ written, saveAsDIF ws strFilename true f self = .returned written self ∧
      load ws mem stbLoad true (some written) f prev = .returned true self := by
  obtain ⟨d, W, H, C, rfl, hW, hH, hC, hlt, hd⟩ := hi.exists_nat
  obtain ⟨_, _, hWC⟩ := factors_lt W H C hW hH (by omega) hlt
  have hrows : d.length = H * (W * C) := by rw [hd]; ring
  cases f with
  | false =>
    refine ⟨difBytes ws ⟨some d, W * H * C, (W : Int), (H : Int), (C : Int)⟩, ?_, ?_⟩
    · simp [saveAsDIF]
    · simp only [load, if_true]
      rw [loadDIF_difBytes ws hws mem false _ d W H C hW hH hC hlt hd]
      simp
  | true =>
    have hfl : ((flippedRows d (W * C) H).flatten).length = W * H * C := by
      rw [flippedRows_length (W * C) H d hrows, hd]
    have hback := flippedRows_flippedRows (W * C) H d hrows
    refine ⟨difBytes ws ⟨some (flippedRows d (W * C) H).flatten, W * H * C, (W : Int),
      (H : Int), (C : Int)⟩, ?_, ?_⟩
    · simp [saveAsDIF, flipVertically_nat _ W H C (by omega : W * C < 4294967296), hback]
    · simp only [load, if_true]
      rw [loadDIF_difBytes ws hws mem true _ _ W H C hW hH hC hlt hfl]
      simp [flipVertically_nat _ W H C (by omega : W * C < 4294967296), hback]

theorem dif_round_trip_witness :
    4 ≤ 8 ∧ IsImage sampleImage ∧
    ∃ written, saveAsDIF 8 "a.dif" true true sampleImage = .returned written sampleImage ∧
      load 8 Indeterminate.zero stbLoadNone true (some written) true CImage.new =
        .returned true sampleImage :=
  ⟨by decide, by decide,
    dif_round_trip 8 (by decide) Indeterminate.zero stbLoadNone "a.dif" true sampleImage
      CImage.new (by decide)⟩

/-- C4: on a stream that is well formed up to a tampered trailing marker, `load` returns
false and releases the storage, but the object keeps the width, height, channel count and
size of the rejected image; it is not the empty buffer. -/
theorem load_tampered_trailer :
    load 8 Indeterminate.zero stbLoadNone true (some tamperedTrailer) false CImage.new =
      .returned false ⟨none, 3, 1, 1, 3⟩ := by
  decide

/-! ## Rejected headers -/

theorem free_empty (self : CImage) :
    (free self)._miWidth = 0 ∧ (free self)._miHeight = 0 ∧ (free self)._miNumChannels = 0 ∧
      (free self)._mpData = none := by
  unfold free
  cases h : self._mpData with
  | none => simp [h]
  | some d => simp

/-- C5: with 8-byte words, a header with width `2^32`, height `2^32`, one channel and length
field 0 has a length field different from width * height * channels (which is `2^64`), yet
the header check of `_loadDIF` lets it pass: `load` returns true and leaves an object with
storage, width 0 and height 0, the values the check `width == 0 || height == 0` is there to
refuse. -/
theorem load_wrapped_header_accepted :
    objectValue [0, 0, 0, 0, 0, 0, 0, 0] ≠
        objectValue [0, 0, 0, 0, 1, 0, 0, 0] * objectValue [0, 0, 0, 0, 1, 0, 0, 0] *
          objectValue [1] ∧
      load 8 Indeterminate.zero stbLoadNone true (some wrappedHeader) false CImage.new =
        .returned true ⟨some [], 0, 0, 0, 1⟩ := by
  decide

/-- The headers that the check of `_loadDIF` does refuse: for every stream that starts with
the marker and a full header in which width = 0, or height = 0, or the channel count is
outside 1..4, or the length field differs from the `size_t` product of width, height and
channel count, `load` returns false and leaves the object as `free` left it. -/
theorem load_corrupt_header (ws : Nat) (mem : Indeterminate) (stbLoad : CImage → Outcome Bool)
    (f : Bool) (prev : CImage) (W H S rest : List Nat) (c : Nat)
    (hW : W.length = ws) (hH : H.length = ws) (hS : S.length = ws)
    (hbad : objectValue W = 0 ∨ objectValue H = 0 ∨ objectValue [c] < 1 ∨ objectValue [c] > 4 ∨
      objectValue S ≠ (objectValue W * objectValue H * objectValue [c]) % 256 ^ ws) :
    ∃ img, load ws mem stbLoad true (some (cMagicDIF ++ W ++ H ++ [c] ++ S ++ rest)) f prev =
        .returned false img ∧
      img._miWidth = 0 ∧ img._miHeight = 0 ∧ img._miNumChannels = 0 ∧ img._mpData = none := by
  refine ⟨free prev, ?_, free_empty prev⟩
  have e : cMagicDIF ++ W ++ H ++ [c] ++ S ++ rest =
      cMagicDIF ++ (W ++ (H ++ ([c] ++ (S ++ rest)))) := by
    simp only [List.append_assoc]
  rw [e]
  simp only [load, if_true]
  exact loadDIF_header_rejected ws mem f (free prev) W H S rest c hW hH hS hbad

theorem load_corrupt_header_witness :
    ∃ img, load 8 Indeterminate.zero stbLoadNone true
        (some (cMagicDIF ++ [0, 0, 0, 0, 0, 0, 0, 0] ++ [1, 0, 0, 0, 0, 0, 0, 0] ++ [3]
          ++ [0, 0, 0, 0, 0, 0, 0, 0] ++ [68, 73, 70, 0])) true sampleImage =
        .returned false img ∧
      img._miWidth = 0 ∧ img._miHeight = 0 ∧ img._miNumChannels = 0 ∧ img._mpData = none :=
  load_corrupt_header 8 Indeterminate.zero stbLoadNone true sampleImage
    [0, 0, 0, 0, 0, 0, 0, 0] [1, 0, 0, 0, 0, 0, 0, 0] [0, 0, 0, 0, 0, 0, 0, 0] [68, 73, 70, 0] 3
    rfl rfl rfl (Or.inl (by decide))

/-! ## The bytes written -/

theorem objectBytes_mod (n v : Nat) : objectBytes n (v % 256 ^ n) = objectBytes n v := by
  induction n generalizing v with
  | zero => rfl
  | succ n ih =>
    have e1 : v % 256 ^ (n + 1) % 256 = v % 256 := by
      rw [pow_succ']
      exact Nat.mod_mul_right_mod v 256 (256 ^ n)
    have e2 : v % 256 ^ (n + 1) / 256 = v / 256 % 256 ^ n := by
      rw [pow_succ']
      exact Nat.mod_mul_right_div_self v 256 (256 ^ n)
    simp only [objectBytes, e1, e2, ih]

/-- C6: for a non-empty buffer `saveAsDIF` without flip returns, leaves the buffer as it
was, and writes exactly the marker, the width and the height as words, the channel count as
one byte, width * height * channels as a word, the bytes of the buffer in order, and the
marker again; with 8-byte words that is 33 + width * height * channels bytes. -/
theorem saveAsDIF_layout (ws : Nat) (strFilename : String) (self : CImage) (hi : IsImage self) :
    ∃ d written, self._mpData = some d ∧
      saveAsDIF ws strFilename true false self = .returned written self ∧
      written = cMagicDIF ++ objectBytes ws self._miWidth.toNat
        ++ objectBytes ws self._miHeight.toNat ++ [self._miNumChannels.toNat]
        ++ objectBytes ws (self._miWidth * self._miHeight * self._miNumChannels).toNat
        ++ d ++ cMagicDIF ∧
      (ws = 8 →
        written.length = 33 + (self._miWidth * self._miHeight * self._miNumChannels).toNat) := by
  obtain ⟨d, W, H, C, rfl, hW, hH, hC, hlt, hd⟩ := hi.exists_nat
  have eC : C % 256 = C := Nat.mod_eq_of_lt (by omega)
  have eP : ((W : Int) * (H : Int) * (C : Int)).toNat = W * H * C := by
    have : (W : Int) * (H : Int) * (C : Int) = ((W * H * C : Nat) : Int) := by push_cast; ring
    rw [this]
    exact Int.toNat_natCast _
  refine ⟨d, _, rfl, ?_, rfl, ?_⟩
  · simp only [saveAsDIF, Bool.false_eq_true, if_false, Bool.not_true, eP, Int.toNat_ofNat]
    rw [difBytes_nat ws d W H C hd, objectBytes_mod, objectBytes_mod, objectBytes_mod, eC]
    simp only [List.append_assoc]
  · intro h8
    simp only [eP, Int.toNat_ofNat, List.length_append, objectBytes_length, hd, h8,
      List.length_singleton]
    have : cMagicDIF.length = 4 := rfl
    omega

theorem saveAsDIF_layout_witness :
    IsImage sampleImage ∧
    ∃ d written, sampleImage._mpData = some d ∧
      saveAsDIF 8 "a.dif" true false sampleImage = .returned written sampleImage ∧
      written = cMagicDIF ++ objectBytes 8 sampleImage._miWidth.toNat
        ++ objectBytes 8 sampleImage._miHeight.toNat ++ [sampleImage._miNumChannels.toNat]
        ++ objectBytes 8
          (sampleImage._miWidth * sampleImage._miHeight * sampleImage._miNumChannels).toNat
        ++ d ++ cMagicDIF ∧
      (8 = 8 →
        written.length = 33 +
          (sampleImage._miWidth * sampleImage._miHeight * sampleImage._miNumChannels).toNat) :=
  ⟨by decide, saveAsDIF_layout 8 "a.dif" sampleImage (by decide)⟩

/-! ## copyTo and resize -/

/-- `createBlank` called with the dimensions of a non-empty buffer, as `copyTo` calls it. -/
theorem createBlank_of_dims (W H C : Nat) (hW : 1 ≤ W) (hH : 1 ≤ H) (hC : C = 3 ∨ C = 4)
    (hlt : W * H * C < 2147483648) (s : CImage) :
    createBlank (toUInt (W : Int)) (toUInt (H : Int)) (toUShort (C : Int)) s =
      .returned () ⟨some (List.replicate (W * H * C) 0), W * H * C, (W : Int), (H : Int),
        (C : Int)⟩ := by
  obtain ⟨hWlt, hHlt, _⟩ := factors_lt W H C hW hH (by omega) hlt
  rw [toUInt_of_lt W (by omega), toUInt_of_lt H (by omega), toUShort_of_lt C (by omega)]
  obtain ⟨e1, e2, e3⟩ := createBlank_size W H C hW hH hC hlt
  rw [e1, e2] at e3
  rw [createBlank_returned W H C s hW hH hC, e1, e2, e3]

/-- C9: for a non-empty source (3 or 4 channels) and a destination that is another object,
`copyTo` returns and leaves the destination with the source's width, height, channel count,
size and bytes, whatever the destination held before. The source is an argument that
`copyTo` only reads. -/
theorem copyTo_deep_copy (self destImage : CImage) (hi : IsImage self) :
    copyTo self false destImage = .returned () self := by
  obtain ⟨d, W, H, C, rfl, hW, hH, hC, hlt, hd⟩ := hi.exists_nat
  have e : List.take (W * H * C) d = d := List.take_of_length_le (by omega)
  simp only [copyTo, Bool.false_eq_true, if_false,
    createBlank_of_dims W H C hW hH hC hlt, Option.map_some', e, List.drop_replicate,
    Nat.sub_self, List.replicate_zero, List.append_nil]

theorem copyTo_deep_copy_witness :
    IsImage sampleImage ∧
      copyTo sampleImage false ⟨some [7, 7, 7], 3, 1, 1, 3⟩ = .returned () sampleImage :=
  ⟨by decide, copyTo_deep_copy sampleImage ⟨some [7, 7, 7], 3, 1, 1, 3⟩ (by decide)⟩

/-- C10: on a buffer with storage, `resize` called with the buffer's own width and height
returns true and leaves every member and every byte as it was, whatever the resampler
is: the resampler has no part in the result. -/
theorem resize_same_dimensions
    (stbir : List Nat → Int → Int → Int → Int → Int → Option (List Nat))
    (self : CImage) (hdata : self._mpData ≠ none) :
    resize stbir (toUInt self._miWidth) (toUInt self._miHeight) self = .returned true self := by
  unfold resize
  cases h : self._mpData with
  | none => exact absurd h hdata
  | some d => simp

theorem resize_same_dimensions_witness :
    sampleImage._mpData ≠ none ∧
      resize stbirNone (toUInt sampleImage._miWidth) (toUInt sampleImage._miHeight)
        sampleImage = .returned true sampleImage :=
  ⟨by decide, resize_same_dimensions stbirNone sampleImage (by decide)⟩

/-! ## copyRectTo -/

/-- C7: a rectangle of width 1 and height 1 at source position (-1, 0) lies fully outside
the source (its right edge is at 0), yet `copyRectTo` does not return: the position passes
the four guards, the clamped width is 1, and `getPixel` is called with the coordinate
`4294967295` and throws. -/
theorem copyRectTo_negative_position_throws :
    (-1 : Int) + 1 ≤ 0 ∧ IsImage sampleSquare ∧ IsImage blankSquare ∧
      copyRectTo sampleSquare blankSquare (-1) 0 1 1 0 0 0 =
        .thrown "OutOfBounds" blankSquare := by
  decide

/-- A quotient and a remainder determine a number: the byte offset fixes pixel and channel. -/
theorem offset_unique (a a' k k' C : Nat) (hk : k < C) (hk' : k' < C)
    (h : a * C + k = a' * C + k') : a = a' ∧ k = k' := by
  have key : a = a' := by
    rcases Nat.lt_trichotomy a a' with h1 | h1 | h1
    · have : (a + 1) * C ≤ a' * C := Nat.mul_le_mul_right C h1
      rw [Nat.add_mul] at this
      omega
    · exact h1
    · have : (a' + 1) * C ≤ a * C := Nat.mul_le_mul_right C h1
      rw [Nat.add_mul] at this
      omega
  subst key
  exact ⟨rfl, by omega⟩

/-- The byte offset of a pixel determines the pixel. -/
theorem pixel_unique (x y x' y' k k' W C : Nat) (hx : x < W) (hx' : x' < W) (hk : k < C)
    (hk' : k' < C) (h : (x + y * W) * C + k = (x' + y' * W) * C + k') :
    x = x' ∧ y = y' ∧ k = k' := by
  obtain ⟨h1, h2⟩ := offset_unique _ _ k k' C hk hk' h
  have h3 : y * W + x = y' * W + x' := by omega
  obtain ⟨h4, h5⟩ := offset_unique _ _ x x' W hx hx' h3
  exact ⟨h5, h4, h2⟩

/-- The bytes of a pixel inside the image lie inside the byte sequence. -/
theorem pixel_in_bounds (x y W H C : Nat) (hx : x < W) (hy : y < H) :
    (x + y * W) * C + C ≤ W * H * C := by
  have h1 : (y + 1) * W ≤ H * W := Nat.mul_le_mul_right W hy
  have h2 : x + y * W + 1 ≤ H * W := by rw [Nat.add_mul] at h1; omega
  have h3 : (x + y * W + 1) * C ≤ (H * W) * C := Nat.mul_le_mul_right C h2
  have e1 : (x + y * W + 1) * C = (x + y * W) * C + C := by ring
  have e2 : H * W * C = W * H * C := by ring
  omega

theorem getD_eq_getElem? (l : List Nat) (j : Nat) (h : j < l.length) :
    some (l.getD j 0) = l[j]? := by
  rw [List.getD_eq_getElem?_getD, List.getElem?_eq_getElem h, Option.getD_some]

/-- Storing at offset `i` the pixel read at offset `j` of `ds`: the channel bytes at `i`
become those at `j`, every other byte stays. -/
theorem storePixel_spec (cur ds : List Nat) (C i j a : Nat) (hC : C = 3 ∨ C = 4)
    (hi : i + C ≤ cur.length) (hj : j + C ≤ ds.length) :
    (storePixel (C : Int) i (ds.getD j 0) (ds.getD (j + 1) 0) (ds.getD (j + 2) 0)
        (if (C : Int) = 4 then ds.getD (j + 3) 0 else a) cur).length = cur.length ∧
    (∀ k, k < C →
      (storePixel (C : Int) i (ds.getD j 0) (ds.getD (j + 1) 0) (ds.getD (j + 2) 0)
        (if (C : Int) = 4 then ds.getD (j + 3) 0 else a) cur)[i + k]? = ds[j + k]?) ∧
    (∀ q, (q < i ∨ i + C ≤ q) →
      (storePixel (C : Int) i (ds.getD j 0) (ds.getD (j + 1) 0) (ds.getD (j + 2) 0)
        (if (C : Int) = 4 then ds.getD (j + 3) 0 else a) cur)[q]? = cur[q]?) := by
  rcases hC with rfl | rfl
  · have n4 : ¬ (((3 : Nat) : Int) = 4) := by decide
    simp only [storePixel, n4, if_false]
    refine ⟨by simp, ?_, ?_⟩
    · intro k hk
      have hk' : k = 0 ∨ k = 1 ∨ k = 2 := by omega
      rcases hk' with rfl | rfl | rfl
      · rw [← getD_eq_getElem? ds (j + 0) (by omega)]
        simp only [List.getElem?_set, List.length_set, Nat.add_zero]
        rw [if_neg (by omega), if_neg (by omega), if_pos trivial, if_pos (by omega)]
      · rw [← getD_eq_getElem? ds (j + 1) (by omega)]
        simp only [List.getElem?_set, List.length_set]
        rw [if_neg (by omega), if_pos trivial, if_pos (by omega)]
      · rw [← getD_eq_getElem? ds (j + 2) (by omega)]
        simp only [List.getElem?_set, List.length_set]
        rw [if_pos trivial, if_pos (by omega)]
    · intro q hq
      simp only [List.getElem?_set, List.length_set]
      rw [if_neg (by omega), if_neg (by omega), if_neg (by omega)]
  · have e4 : (((4 : Nat) : Int) = 4) := by decide
    simp only [storePixel, e4, if_true]
    refine ⟨by simp, ?_, ?_⟩
    · intro k hk
      have hk' : k = 0 ∨ k = 1 ∨ k = 2 ∨ k = 3 := by omega
      rcases hk' with rfl | rfl | rfl | rfl
      · rw [← getD_eq_getElem? ds (j + 0) (by omega)]
        simp only [List.getElem?_set, List.length_set, Nat.add_zero]
        rw [if_neg (by omega), if_neg (by omega), if_neg (by omega), if_pos trivial,
          if_pos (by omega)]
      · rw [← getD_eq_getElem? ds (j + 1) (by omega)]
        simp only [List.getElem?_set, List.length_set]
        rw [if_neg (by omega), if_neg (by omega), if_pos trivial, if_pos (by omega)]
      · rw [← getD_eq_getElem? ds (j + 2) (by omega)]
        simp only [List.getElem?_set, List.length_set]
        rw [if_neg (by omega), if_pos trivial, if_pos (by omega)]
      · rw [← getD_eq_getElem? ds (j + 3) (by omega)]
        simp only [List.getElem?_set, List.length_set]
        rw [if_pos trivial, if_pos (by omega)]
    · intro q hq
      simp only [List.getElem?_set, List.length_set]
      rw [if_neg (by omega), if_neg (by omega), if_neg (by omega), if_neg (by omega)]

theorem toUInt_add (a b : Nat) (h : a + b < 4294967296) :
    toUInt ((a : Int) + (b : Int)) = a + b := by
  have : (a : Int) + (b : Int) = ((a + b : Nat) : Int) := by push_cast; rfl
  rw [this]
  exact toUInt_of_lt _ h

/-- `getPixel` inside the bounds of an image given by natural numbers. -/
theorem getPixel_nat (ds : List Nat) (n W H C x y a : Nat) (hx : x < W) (hy : y < H) :
    getPixel ⟨some ds, n, (W : Int), (H : Int), (C : Int)⟩ x y a =
      .returned (ds.getD ((x + y * W) * C) 0, ds.getD ((x + y * W) * C + 1) 0,
        ds.getD ((x + y * W) * C + 2) 0,
        if (C : Int) = 4 then ds.getD ((x + y * W) * C + 3) 0 else a)
        ⟨some ds, n, (W : Int), (H : Int), (C : Int)⟩ := by
  have h1 : ¬ ((W : Int) ≤ (x : Int) ∨ (H : Int) ≤ (y : Int)) := by omega
  simp only [getPixel, h1, if_false, pixelIndex, Int.toNat_ofNat, Option.getD_some]

/-- `setPixel` inside the bounds of an image given by natural numbers. -/
theorem setPixel_nat (cur : List Nat) (n W H C x y r g b a : Nat) (hx : x < W) (hy : y < H) :
    setPixel ⟨some cur, n, (W : Int), (H : Int), (C : Int)⟩ x y r g b a =
      .returned ()
        ⟨some (storePixel (C : Int) ((x + y * W) * C) r g b a cur), n, (W : Int), (H : Int),
          (C : Int)⟩ := by
  have h1 : ¬ ((W : Int) ≤ (x : Int) ∨ (H : Int) ≤ (y : Int)) := by omega
  simp only [setPixel, h1, if_false, pixelIndex, Int.toNat_ofNat, Option.map_some']

/-- The loop of `copyRectTo` over index pairs that stay inside both images: it returns, the
destination keeps its length, a byte no visited pixel covers keeps its value, and every
channel byte of a visited pixel holds the byte of the source pixel. -/
theorem copyRectLoop_spec (ds : List Nat) (ns nd Ws Hs Wd Hd C sx sy dx dy : Nat)
    (hC : C = 3 ∨ C = 4) (hds : ds.length = Ws * Hs * C)
    (hWs : Ws < 2147483648) (hHs : Hs < 2147483648) (hWd : Wd < 2147483648)
    (hHd : Hd < 2147483648) (L : List (Nat × Nat))
    (hL : ∀ p ∈ L, sx + p.1 < Ws ∧ sy + p.2 < Hs ∧ dx + p.1 < Wd ∧ dy + p.2 < Hd)
    (a : Nat) (cur : List Nat) (hcur : cur.length = Wd * Hd * C) :
    ∃ out, copyRectLoop ⟨some ds, ns, (Ws : Int), (Hs : Int), (C : Int)⟩ (sx : Int) (sy : Int)
        (dx : Int) (dy : Int) L a ⟨some cur, nd, (Wd : Int), (Hd : Int), (C : Int)⟩ =
        .returned () ⟨some out, nd, (Wd : Int), (Hd : Int), (C : Int)⟩ ∧
      out.length = cur.length ∧
      (∀ q, (∀ p ∈ L, ∀ k, k < C → q ≠ ((dx + p.1) + (dy + p.2) * Wd) * C + k) →
        out[q]? = cur[q]?) ∧
      (∀ p ∈ L, ∀ k, k < C →
        out[((dx + p.1) + (dy + p.2) * Wd) * C + k]? =
          ds[((sx + p.1) + (sy + p.2) * Ws) * C + k]?) := by
  induction L generalizing a cur with
  | nil =>
    exact ⟨cur, rfl, rfl, fun _ _ => rfl, fun p hp => absurd hp (List.not_mem_nil p)⟩
  | cons p L ih =>
    obtain ⟨ix, iy⟩ := p
    obtain ⟨b1, b2, b3, b4⟩ := hL (ix, iy) (List.mem_cons_self _ _)
    simp only at b1 b2 b3 b4
    have bS := pixel_in_bounds (sx + ix) (sy + iy) Ws Hs C b1 b2
    have bD := pixel_in_bounds (dx + ix) (dy + iy) Wd Hd C b3 b4
    obtain ⟨s1, s2, s3⟩ := storePixel_spec cur ds C (((dx + ix) + (dy + iy) * Wd) * C)
      (((sx + ix) + (sy + iy) * Ws) * C) a hC (by omega) (by omega)
    obtain ⟨out, e, o1, o2, o3⟩ := ih (fun p hp => hL p (List.mem_cons_of_mem _ hp))
      (if (C : Int) = 4 then ds.getD (((sx + ix) + (sy + iy) * Ws) * C + 3) 0 else a)
      _ (by rw [s1]; exact hcur)
    refine ⟨out, ?_, by rw [o1, s1], ?_, ?_⟩
    · simp only [copyRectLoop, toUInt_add sx ix (by omega), toUInt_add sy iy (by omega),
        toUInt_add dx ix (by omega), toUInt_add dy iy (by omega),
        getPixel_nat ds ns Ws Hs C _ _ a b1 b2, setPixel_nat cur nd Wd Hd C _ _ _ _ _ _ b3 b4]
      exact e
    · intro q hq
      rw [o2 q (fun p hp k hk => hq p (List.mem_cons_of_mem _ hp) k hk)]
      apply s3
      by_contra hcon
      have hk : q - ((dx + ix) + (dy + iy) * Wd) * C < C := by omega
      exact hq (ix, iy) (List.mem_cons_self _ _) _ hk (by simp only; omega)
    · intro p hp k hk
      rcases List.mem_cons.mp hp with h1 | h1
      · subst h1
        by_cases touched : ∃ p' ∈ L, ∃ k', k' < C ∧
            ((dx + ix) + (dy + iy) * Wd) * C + k = ((dx + p'.1) + (dy + p'.2) * Wd) * C + k'
        · obtain ⟨p', hp', k', hk', heq⟩ := touched
          obtain ⟨c1, c2, c3, c4⟩ := hL p' (List.mem_cons_of_mem _ hp')
          obtain ⟨u1, u2, u3⟩ := pixel_unique _ _ _ _ k k' Wd C b3 c3 hk hk' heq
          have e1 : p'.1 = ix := by omega
          have e2 : p'.2 = iy := by omega
          have := o3 p' hp' k' hk'
          rw [e1, e2, ← u3] at this
          exact this
        · rw [o2 _ (fun p' hp' k' hk' heq => touched ⟨p', hp', k', hk', heq⟩)]
          exact s2 k hk
      · exact o3 p h1 k hk

theorem mem_rectPairs (cw ch : Nat) (p : Nat × Nat) :
    p ∈ rectPairs cw ch ↔ p.1 < cw ∧ p.2 < ch := by
  obtain ⟨i, j⟩ := p
  simp only [rectPairs, List.mem_flatMap, List.mem_map, List.mem_range, Prod.mk.injEq]
  constructor
  · rintro ⟨a, ha, b, hb, rfl, rfl⟩
    exact ⟨ha, hb⟩
  · rintro ⟨h1, h2⟩
    exact ⟨i, h1, j, h2, rfl, rfl⟩

/-- The width left of a requested width `w` at position `a` after clamping the far edge to
the image edge `b`. -/
theorem clamp_extent (a b w : Nat) (hab : a < b) (hb : b < 2147483648)
    (hw : a + w < 2147483648) :
    toUInt (clamp (addInt (a : Int) (w : Int)) (a : Int) (b : Int) - (a : Int)) =
      min w (b - a) := by
  have hsum : addInt (a : Int) (w : Int) = (a : Int) + (w : Int) := by
    unfold addInt
    have e : (a : Int) + (w : Int) = ((a + w : Nat) : Int) := by push_cast; rfl
    rw [e, toUInt_of_lt _ (by omega), toInt_of_lt _ hw]
  have key : clamp (addInt (a : Int) (w : Int)) (a : Int) (b : Int) - (a : Int) =
      ((min w (b - a) : Nat) : Int) := by
    rw [hsum]
    unfold clamp
    have h1 : (a : Int) < (b : Int) := by omega
    simp only [h1, if_true]
    split_ifs <;> omega
  rw [key]
  exact toUInt_of_lt _ (by omega)

/-- `copyRectTo` with positions inside both images and far edges that are representable:
either the clipped rectangle is empty and the destination is returned as it is, or the
loop runs over the clipped rectangle. -/
theorem copyRectTo_nat (ds dd : List Nat) (ns nd Ws Hs Wd Hd Cs Cd sx sy w h dx dy a : Nat)
    (hsx : sx < Ws) (hsy : sy < Hs) (hdx : dx < Wd) (hdy : dy < Hd)
    (hWs : Ws < 2147483648) (hHs : Hs < 2147483648) (hWd : Wd < 2147483648)
    (hHd : Hd < 2147483648) (hsw : sx + w < 2147483648) (hsh : sy + h < 2147483648)
    (hdw : dx + w < 2147483648) (hdh : dy + h < 2147483648) :
    copyRectTo ⟨some ds, ns, (Ws : Int), (Hs : Int), (Cs : Int)⟩
        ⟨some dd, nd, (Wd : Int), (Hd : Int), (Cd : Int)⟩ (sx : Int) (sy : Int) (w : Int)
        (h : Int) (dx : Int) (dy : Int) a =
      if min w (min (Ws - sx) (Wd - dx)) = 0 ∨ min h (min (Hs - sy) (Hd - dy)) = 0 then
        .returned () ⟨some dd, nd, (Wd : Int), (Hd : Int), (Cd : Int)⟩
      else
        copyRectLoop ⟨some ds, ns, (Ws : Int), (Hs : Int), (Cs : Int)⟩ (sx : Int) (sy : Int)
          (dx : Int) (dy : Int)
          (rectPairs (min w (min (Ws - sx) (Wd - dx))) (min h (min (Hs - sy) (Hd - dy)))) a
          ⟨some dd, nd, (Wd : Int), (Hd : Int), (Cd : Int)⟩ := by
  have g1 : ¬ ((sx : Int) ≥ (Ws : Int)) := by omega
  have g2 : ¬ ((sy : Int) ≥ (Hs : Int)) := by omega
  have g3 : ¬ ((dx : Int) ≥ (Wd : Int)) := by omega
  have g4 : ¬ ((dy : Int) ≥ (Hd : Int)) := by omega
  have m1 : (if min w (Ws - sx) > min w (Wd - dx) then min w (Wd - dx) else min w (Ws - sx)) =
      min w (min (Ws - sx) (Wd - dx)) := by
    split_ifs <;> omega
  have m2 : (if min h (Hs - sy) > min h (Hd - dy) then min h (Hd - dy) else min h (Hs - sy)) =
      min h (min (Hs - sy) (Hd - dy)) := by
    split_ifs <;> omega
  simp only [copyRectTo, Option.isNone_some, Bool.false_eq_true, if_false, g1, g2, g3, g4,
    clamp_extent sx Ws w hsx hWs hsw, clamp_extent sy Hs h hsy hHs hsh,
    clamp_extent dx Wd w hdx hWd hdw, clamp_extent dy Hd h hdy hHd hdh, m1, m2]
  by_cases c1 : min w (min (Ws - sx) (Wd - dx)) = 0
  · simp only [c1, if_true, true_or]
  · by_cases c2 : min h (min (Hs - sy) (Hd - dy)) = 0
    · simp only [c1, c2, if_true, if_false, or_true]
    · simp only [c1, c2, if_false, or_self]

/-- Two windows of `C` bytes that agree byte for byte are equal. -/
theorem window_ext (l1 l2 : List Nat) (i j C : Nat)
    (h : ∀ k, k < C → l1[i + k]? = l2[j + k]?) :
    (l1.drop i).take C = (l2.drop j).take C := by
  apply List.ext_getElem?
  intro n
  simp only [List.getElem?_take, List.getElem?_drop]
  split_ifs with hn
  · exact h n hn
  · rfl

/-- C8, counterexample: source and destination are 2 x 2 images of three channels, the
positions `(1, 0)` and `(0, 1)` lie inside them, and the requested width is `2147483647`
with height 1, so that `cw = ch = 1`. The sum `1 + 2147483647` passes the range of `int`,
the source rectangle is clamped to width 0, and `copyRectTo` returns the destination as it
was: destination pixel `(0, 1)` is not source pixel `(1, 0)`. -/
theorem copyRectTo_width_overflow :
    min 2147483647
        (min (sampleSquare._miWidth.toNat - 1) (blankSquare._miWidth.toNat - 0)) = 1 ∧
    min 1 (min (sampleSquare._miHeight.toNat - 0) (blankSquare._miHeight.toNat - 1)) = 1 ∧
    copyRectTo sampleSquare blankSquare 1 0 2147483647 1 0 1 0 =
      .returned () blankSquare ∧
    pixelBytes blankSquare 0 1 ≠ pixelBytes sampleSquare 1 0 := by
  decide

/-- C8, amended: for non-empty source and destination buffers of equal channel count,
positions inside both images and a requested width and height `w, h ≥ 0` for which the
four sums `srcX + w`, `srcY + h`, `dstX + w` and `dstY + h` are representable as `int`, let
`cw = min w (srcWidth - srcX) (dstWidth - dstX)` and
`ch = min h (srcHeight - srcY) (dstHeight - dstY)`. `copyRectTo` returns; the destination
keeps its dimensions and stays a well-formed buffer; destination pixel
`(dstX + i, dstY + j)` equals source pixel `(srcX + i, srcY + j)` for all `i < cw`, `j < ch`;
every other destination pixel is unchanged; and when `cw = 0` or `ch = 0` the destination
is returned exactly as it was. -/
theorem copyRectTo_clipped (self destImage : CImage) (hs : IsImage self)
    (hd : IsImage destImage) (hc : self._miNumChannels = destImage._miNumChannels)
    (srcX srcY w h dstX dstY colTmp3 : Nat)
    (hsx : (srcX : Int) < self._miWidth) (hsy : (srcY : Int) < self._miHeight)
    (hdx : (dstX : Int) < destImage._miWidth) (hdy : (dstY : Int) < destImage._miHeight)
    (hsw : srcX + w < 2147483648) (hsh : srcY + h < 2147483648)
    (hdw : dstX + w < 2147483648) (hdh : dstY + h < 2147483648) :
    ∃ out, copyRectTo self destImage (srcX : Int) (srcY : Int) (w : Int) (h : Int)
        (dstX : Int) (dstY : Int) colTmp3 = .returned () out ∧
      IsImage out ∧ out._miWidth = destImage._miWidth ∧
      out._miHeight = destImage._miHeight ∧
      out._miNumChannels = destImage._miNumChannels ∧
      (∀ i j : Nat, i < min w (min (self._miWidth.toNat - srcX) (destImage._miWidth.toNat - dstX)) →
        j < min h (min (self._miHeight.toNat - srcY) (destImage._miHeight.toNat - dstY)) →
        pixelBytes out (dstX + i) (dstY + j) = pixelBytes self (srcX + i) (srcY + j)) ∧
      (∀ x y : Nat, (x : Int) < destImage._miWidth → (y : Int) < destImage._miHeight →
        ¬ (dstX ≤ x ∧
            x < dstX + min w (min (self._miWidth.toNat - srcX) (destImage._miWidth.toNat - dstX)) ∧
            dstY ≤ y ∧
            y < dstY +
              min h (min (self._miHeight.toNat - srcY) (destImage._miHeight.toNat - dstY))) →
        pixelBytes out x y = pixelBytes destImage x y) ∧
      ((min w (min (self._miWidth.toNat - srcX) (destImage._miWidth.toNat - dstX)) = 0 ∨
          min h (min (self._miHeight.toNat - srcY) (destImage._miHeight.toNat - dstY)) = 0) →
        out = destImage) := by
  obtain ⟨ds, Ws, Hs, C, rfl, hWs, hHs, hC, hlts, hds⟩ := hs.exists_nat
  obtain ⟨dd, Wd, Hd, C', rfl, hWd, hHd, hC', hltd, hdd⟩ := hd.exists_nat
  simp only at hc hsx hsy hdx hdy
  have hCC : C = C' := by omega
  subst hCC
  obtain ⟨bWs, bHs, _⟩ := factors_lt Ws Hs C hWs hHs (by omega) hlts
  obtain ⟨bWd, bHd, _⟩ := factors_lt Wd Hd C hWd hHd (by omega) hltd
  simp only [Int.toNat_ofNat]
  rw [copyRectTo_nat ds dd _ _ Ws Hs Wd Hd C C srcX srcY w h dstX dstY colTmp3 (by omega)
    (by omega) (by omega) (by omega) bWs bHs bWd bHd hsw hsh hdw hdh]
  by_cases hz : min w (min (Ws - srcX) (Wd - dstX)) = 0 ∨ min h (min (Hs - srcY) (Hd - dstY)) = 0
  · refine ⟨_, by rw [if_pos hz], IsImage.of_nat dd Wd Hd C hWd hHd hC hltd hdd, rfl, rfl, rfl,
      ?_, fun _ _ _ _ _ => rfl, fun _ => rfl⟩
    intro i j hi hj
    omega
  · have hL : ∀ p ∈ rectPairs (min w (min (Ws - srcX) (Wd - dstX)))
        (min h (min (Hs - srcY) (Hd - dstY))),
        srcX + p.1 < Ws ∧ srcY + p.2 < Hs ∧ dstX + p.1 < Wd ∧ dstY + p.2 < Hd := by
      intro p hp
      obtain ⟨p1, p2⟩ := (mem_rectPairs _ _ p).mp hp
      omega
    obtain ⟨out, e, o1, o2, o3⟩ := copyRectLoop_spec ds (Ws * Hs * C) (Wd * Hd * C) Ws Hs Wd Hd
      C srcX srcY dstX dstY hC hds bWs bHs bWd bHd _ hL colTmp3 dd hdd
    refine ⟨_, by rw [if_neg hz]; exact e,
      IsImage.of_nat out Wd Hd C hWd hHd hC hltd (by rw [o1, hdd]), rfl, rfl, rfl, ?_, ?_, ?_⟩
    · intro i j hi hj
      simp only [pixelBytes, pixelIndex, Option.getD_some, Int.toNat_ofNat]
      apply window_ext
      intro k hk
      exact o3 (i, j) ((mem_rectPairs _ _ (i, j)).mpr ⟨hi, hj⟩) k hk
    · intro x y hx hy hout
      simp only [pixelBytes, pixelIndex, Option.getD_some, Int.toNat_ofNat]
      apply window_ext
      intro k hk
      apply o2
      intro p hp k' hk' heq
      obtain ⟨p1, p2⟩ := (mem_rectPairs _ _ p).mp hp
      obtain ⟨q1, q2, q3, q4⟩ := hL p hp
      obtain ⟨u1, u2, _⟩ := pixel_unique x y _ _ k k' Wd C (by omega) q3 hk hk' heq
      exact hout (by omega)
    · intro hzero
      exact absurd hzero hz

theorem copyRectTo_clipped_witness :
    IsImage sampleSquare ∧ IsImage blankSquare ∧
    sampleSquare._miNumChannels = blankSquare._miNumChannels ∧
    ((1 : Nat) : Int) < sampleSquare._miWidth ∧ ((0 : Nat) : Int) < sampleSquare._miHeight ∧
    ((0 : Nat) : Int) < blankSquare._miWidth ∧ ((1 : Nat) : Int) < blankSquare._miHeight ∧
    1 + 5 < 2147483648 ∧ 0 + 1 < 2147483648 ∧ 0 + 5 < 2147483648 ∧ 1 + 1 < 2147483648 ∧
    ∃ out, copyRectTo sampleSquare blankSquare ((1 : Nat) : Int) ((0 : Nat) : Int)
        ((5 : Nat) : Int) ((1 : Nat) : Int) ((0 : Nat) : Int) ((1 : Nat) : Int) 0 =
        .returned () out ∧
      pixelBytes out 0 1 = pixelBytes sampleSquare 1 0 ∧
      pixelBytes out 1 1 = pixelBytes blankSquare 1 1 :=
  ⟨by decide, by decide, rfl, by decide, by decide, by decide, by decide,
    by decide, by decide, by decide, by decide,
    match copyRectTo_clipped sampleSquare blankSquare (by decide) (by decide) rfl 1 0 5 1 0 1 0
      (by decide) (by decide) (by decide) (by decide) (by decide) (by decide) (by decide)
      (by decide) with
    | ⟨out, e, _, _, _, _, hin, hout, _⟩ =>
      ⟨out, e, hin 0 0 (by decide) (by decide),
        hout 1 1 (by decide) (by decide) (by decide)⟩⟩

/-! ## resize with an invalid dimension -/

/-- C11: on a non-empty buffer, `resize` with a new width or a new height below 1 returns
false (it does not throw) and leaves every member and every byte as it was, whatever the
resampler is. -/
theorem resize_invalid_dimensions
    (stbir : List Nat → Int → Int → Int → Int → Int → Option (List Nat))
    (self : CImage) (iNewWidth iNewHeight : Nat) (hi : IsImage self)
    (hbad : iNewWidth < 1 ∨ iNewHeight < 1) :
    resize stbir iNewWidth iNewHeight self = .returned false self := by
  obtain ⟨d, W, H, C, rfl, hW, hH, hC, hlt, hd⟩ := hi.exists_nat
  obtain ⟨hWlt, hHlt, _⟩ := factors_lt W H C hW hH (by omega) hlt
  have h1 : ¬ (iNewWidth = W ∧ iNewHeight = H) := by omega
  simp only [resize, toUInt_of_lt W (by omega), toUInt_of_lt H (by omega), h1, if_false, hbad,
    if_true]

theorem resize_invalid_dimensions_witness :
    IsImage sampleImage ∧ ((0 : Nat) < 1 ∨ (5 : Nat) < 1) ∧
      resize stbirNone 0 5 sampleImage = .returned false sampleImage :=
  ⟨by decide, by decide,
    resize_invalid_dimensions stbirNone sampleImage 0 5 (by decide) (by decide)⟩

/-! ## Floyd–Steinberg on the mid-grey 2 x 2 image -/

/-- C13: `ditherFloydSteinberg` on the 2 x 2 three-channel image whose pixels are all
(127, 127, 127) returns and leaves, in row-major order, the pixels (0, 0, 0),
(255, 255, 255), (255, 255, 255), (0, 0, 0). -/
theorem ditherFloydSteinberg_midGrey :
    ditherFloydSteinberg 0 midGrey =
      .returned () ⟨some [0, 0, 0, 255, 255, 255, 255, 255, 255, 0, 0, 0], 12, 2, 2, 3⟩ := by
  decide

/-! ## Rows of the flipped image -/

/-- C16: on a non-empty buffer `flipVertically` returns, keeps width, height, channel count
and size, and row `y` of the result is row `height - 1 - y` of the original, for every
`y` below the height. -/
theorem flipVertically_rows (self : CImage) (hi : IsImage self) :
    ∃ img, flipVertically self = .returned () img ∧ IsImage img ∧
      img._miWidth = self._miWidth ∧ img._miHeight = self._miHeight ∧
      img._miNumChannels = self._miNumChannels ∧ img._muiDataSize = self._muiDataSize ∧
      ∀ y : Nat, (y : Int) < self._miHeight →
        rowBytes img y = rowBytes self (self._miHeight.toNat - 1 - y) := by
  obtain ⟨d, W, H, C, rfl, hW, hH, hC, hlt, hd⟩ := hi.exists_nat
  obtain ⟨_, _, hWC⟩ := factors_lt W H C hW hH (by omega) hlt
  have hrows : d.length = H * (W * C) := by rw [hd]; ring
  have hlen := flippedRows_length (W * C) H d hrows
  refine ⟨_, flipVertically_nat d W H C (by omega), ?_, rfl, rfl, rfl, rfl, ?_⟩
  · exact IsImage.of_nat _ W H C hW hH hC hlt (by rw [hlen, hd])
  · intro y hy
    simp only at hy
    have hyH : y < H := by omega
    have eWC : ((W : Int) * (C : Int)).toNat = W * C := by
      have : (W : Int) * (C : Int) = ((W * C : Nat) : Int) := by push_cast; ring
      rw [this]
      exact Int.toNat_natCast _
    obtain ⟨R, hR1, hR2, hR3⟩ := exists_rows (W * C) H d hrows
    subst hR1
    subst hR2
    simp only [rowBytes, Option.getD_some, eWC, Int.toNat_ofNat]
    rw [flippedRows_flatten (W * C) R hR3]
    have hrev : ∀ r ∈ R.reverse, r.length = W * C :=
      fun r hr => hR3 r (List.mem_reverse.mp hr)
    rw [flatten_row (W * C) R.reverse hrev y (by simpa using hyH),
      flatten_row (W * C) R hR3 (R.length - 1 - y) (by omega), List.getElem_reverse]

theorem flipVertically_rows_witness :
    IsImage sampleImage ∧
    ∃ img, flipVertically sampleImage = .returned () img ∧ IsImage img ∧
      img._miWidth = sampleImage._miWidth ∧ img._miHeight = sampleImage._miHeight ∧
      img._miNumChannels = sampleImage._miNumChannels ∧
      img._muiDataSize = sampleImage._muiDataSize ∧
      ∀ y : Nat, (y : Int) < sampleImage._miHeight →
        rowBytes img y = rowBytes sampleImage (sampleImage._miHeight.toNat - 1 - y) :=
  ⟨by decide, flipVertically_rows sampleImage (by decide)⟩

/-! ## saveAsDIF leaves the buffer as it was -/

/-- C17: for a non-empty buffer and either value of `bFlipOnSave`, a `saveAsDIF` call that
returns leaves the object with the width, height, channel count, size and bytes it had
before the call; and the call does return when the file can be opened. -/
theorem saveAsDIF_keeps_buffer (ws : Nat) (strFilename : String) (bCanOpen bFlipOnSave : Bool)
    (self : CImage) (hi : IsImage self) :
    (bCanOpen = true →
        ∃ written, saveAsDIF ws strFilename bCanOpen bFlipOnSave self = .returned written self) ∧
      ∀ written img,
        saveAsDIF ws strFilename bCanOpen bFlipOnSave self = .returned written img →
          img = self := by
  obtain ⟨d, W, H, C, rfl, hW, hH, hC, hlt, hd⟩ := hi.exists_nat
  obtain ⟨_, _, hWC⟩ := factors_lt W H C hW hH (by omega) hlt
  have hrows : d.length = H * (W * C) := by rw [hd]; ring
  have hback := flippedRows_flippedRows (W * C) H d hrows
  have hfl := flipVertically_nat d W H C (by omega : W * C < 4294967296)
  have hfl2 := flipVertically_nat (flippedRows d (W * C) H).flatten W H C
    (by omega : W * C < 4294967296)
  cases bCanOpen <;> cases bFlipOnSave <;>
    simp [saveAsDIF, hfl, hfl2, hback]

theorem saveAsDIF_keeps_buffer_witness :
    IsImage sampleImage ∧
    ((true = true →
        ∃ written, saveAsDIF 8 "a.dif" true true sampleImage = .returned written sampleImage) ∧
      ∀ written img,
        saveAsDIF 8 "a.dif" true true sampleImage = .returned written img →
          img = sampleImage) :=
  ⟨by decide, saveAsDIF_keeps_buffer 8 "a.dif" true true sampleImage (by decide)⟩

/-! ## Loops that update disjoint parts of the storage -/

/-- A loop whose iterations each rewrite their own positions `F j` of the storage, as
`g j q` of the byte found there, and keep every other byte: after the loop the positions of
every iteration hold `g j q` of the original byte, and all other bytes are the original
ones. -/
theorem foldl_pointwise {ι : Type} (n : Nat) (step : List Nat → ι → List Nat)
    (F : ι → Nat → Prop) (g : ι → Nat → Nat → Nat) (L : List ι)
    (hstep : ∀ j ∈ L, ∀ d : List Nat, d.length = n →
      (step d j).length = n ∧
      (∀ q, q < n → F j q → (step d j)[q]? = some (g j q (d.getD q 0))) ∧
      (∀ q, ¬ F j q → (step d j)[q]? = d[q]?))
    (hdisj : L.Pairwise (fun a b => ∀ q, ¬ (F a q ∧ F b q)))
    (d : List Nat) (hd : d.length = n) :
    (L.foldl step d).length = n ∧
      (∀ j ∈ L, ∀ q, q < n → F j q → (L.foldl step d)[q]? = some (g j q (d.getD q 0))) ∧
      (∀ q, (∀ j ∈ L, ¬ F j q) → (L.foldl step d)[q]? = d[q]?) := by
  induction L generalizing d with
  | nil =>
    exact ⟨hd, fun j hj => absurd hj (List.not_mem_nil j), fun _ _ => rfl⟩
  | cons j L ih =>
    obtain ⟨s1, s2, s3⟩ := hstep j (List.mem_cons_self _ _) d hd
    obtain ⟨hhead, htail⟩ := List.pairwise_cons.mp hdisj
    obtain ⟨r1, r2, r3⟩ := ih (fun j' hj' => hstep j' (List.mem_cons_of_mem _ hj')) htail
      (step d j) s1
    simp only [List.foldl_cons]
    refine ⟨r1, ?_, ?_⟩
    · intro j0 hj0 q hq hF
      rcases List.mem_cons.mp hj0 with h | h
      · subst h
        rw [r3 q (fun j' hj' hF' => hhead j' hj' q ⟨hF, hF'⟩)]
        exact s2 q hq hF
      · have hnot : ¬ F j q := fun hF' => hhead j0 h q ⟨hF', hF⟩
        rw [r2 j0 h q hq hF]
        have e : (step d j).getD q 0 = d.getD q 0 := by
          rw [List.getD_eq_getElem?_getD, List.getD_eq_getElem?_getD, s3 q hnot]
        rw [e]
    · intro q hq
      rw [r3 q (fun j' hj' => hq j' (List.mem_cons_of_mem _ hj'))]
      exact s3 q (hq j (List.mem_cons_self _ _))

/-- The indices of a stride loop over `N` pixels of `C` bytes. -/
theorem strideIndices_pixels (N C : Nat) (hC : 0 < C) :
    strideIndices (N * C) C = (List.range N).map (fun k => k * C) := by
  unfold strideIndices
  have e : (N * C + C - 1) / C = N := by
    have h1 : N * C + C - 1 = (C - 1) + C * N := by
      rw [Nat.mul_comm C N]
      omega
    rw [h1, Nat.add_mul_div_left _ _ hC, Nat.div_eq_of_lt (by omega)]
    omega
  rw [e]

/-- Pixels at distinct indices of a stride loop have disjoint red, green and blue bytes. -/
theorem stride_disjoint (N C : Nat) (hC : 3 ≤ C) :
    ((List.range N).map (fun k => k * C)).Pairwise
      (fun a b => ∀ q, ¬ (rgbAt a q ∧ rgbAt b q)) := by
  rw [List.pairwise_map]
  refine List.Pairwise.imp ?_ (List.pairwise_lt_range N)
  intro a b hab q hq
  obtain ⟨⟨h1, h2⟩, ⟨h3, h4⟩⟩ := hq
  have : (a + 1) * C ≤ b * C := Nat.mul_le_mul_right C hab
  rw [Nat.add_mul] at this
  omega

/-- The offset of a pixel index below `N` leaves room for the whole pixel. -/
theorem stride_in_bounds (N C k : Nat) (hk : k < N) : k * C + C ≤ N * C := by
  have : (k + 1) * C ≤ N * C := Nat.mul_le_mul_right C hk
  rw [Nat.add_mul] at this
  omega

/-! ## adjustBrightness -/

/-- The byte stored for an original byte `v`: the offset value clamped to `[0, 255]`. -/
theorem toUChar_clamp (z : Int) :
    ((toUChar (clamp z 0 255) : Nat) : Int) = min 255 (max 0 z) := by
  unfold toUChar clamp
  simp only [show (0 : Int) < 255 by decide, if_true]
  split_ifs <;> omega

/-- One iteration of the loop of `adjustBrightness` rewrites the red, green and blue bytes
at its index, each from its own value, and nothing else. -/
theorem adjustBrightnessStep_spec (iAmount : Int) (n i : Nat) (hi : i + 3 ≤ n)
    (d : List Nat) (hd : d.length = n) :
    (adjustBrightnessStep iAmount d i).length = n ∧
      (∀ q, q < n → rgbAt i q → (adjustBrightnessStep iAmount d i)[q]? =
        some (toUChar (clamp ((d.getD q 0 : Nat) + iAmount) 0 255))) ∧
      (∀ q, ¬ rgbAt i q → (adjustBrightnessStep iAmount d i)[q]? = d[q]?) := by
  refine ⟨by simp [adjustBrightnessStep, hd], ?_, ?_⟩
  · intro q hq hF
    obtain ⟨h1, h2⟩ := hF
    have hcase : q = i ∨ q = i + 1 ∨ q = i + 2 := by omega
    rcases hcase with rfl | rfl | rfl
    · simp [adjustBrightnessStep, List.getElem?_set, hd, hq]
    · have : i + 1 < d.length := by omega
      simp [adjustBrightnessStep, List.getElem?_set, hd, hq, List.getD_eq_getElem?_getD]
    · have : i + 2 < d.length := by omega
      simp [adjustBrightnessStep, List.getElem?_set, hd, hq, List.getD_eq_getElem?_getD]
  · intro q hF
    have h : ¬ (i ≤ q ∧ q < i + 3) := hF
    simp only [adjustBrightnessStep, List.getElem?_set, List.length_set]
    rw [if_neg (by omega), if_neg (by omega), if_neg (by omega)]

/-- C15: on a non-empty buffer `adjustBrightness` returns and changes nothing but the
bytes: for every pixel `p`, each of the red, green and blue bytes becomes
`min 255 (max 0 (v + amount))` of its original value `v`, and on a 4-channel buffer the
alpha byte keeps its value. -/
theorem adjustBrightness_clamps (iAmount : Int) (self : CImage) (hi : IsImage self) :
    ∃ d d', self._mpData = some d ∧
      adjustBrightness iAmount self = .returned () { self with _mpData := some d' } ∧
      d'.length = d.length ∧
      ∀ p : Nat, (p : Int) < self._miWidth * self._miHeight →
        (∀ k, k < 3 →
          ((d'.getD (p * self._miNumChannels.toNat + k) 0 : Nat) : Int) =
            min 255 (max 0 ((d.getD (p * self._miNumChannels.toNat + k) 0 : Nat) + iAmount))) ∧
        (self._miNumChannels = 4 → d'.getD (p * 4 + 3) 0 = d.getD (p * 4 + 3) 0) := by
  obtain ⟨d, W, H, C, rfl, hW, hH, hC, hlt, hd⟩ := hi.exists_nat
  have hidx : strideIndices (W * H * C) (toUInt (C : Int)) =
      (List.range (W * H)).map (fun k => k * C) := by
    rw [toUInt_of_lt C (by omega)]
    exact strideIndices_pixels (W * H) C (by omega)
  obtain ⟨r1, r2, r3⟩ := foldl_pointwise (W * H * C) (adjustBrightnessStep iAmount) rgbAt
    (fun _ _ v => toUChar (clamp ((v : Nat) + iAmount) 0 255))
    ((List.range (W * H)).map (fun k => k * C))
    (by
      intro j hj dd hdd
      obtain ⟨k, hk, rfl⟩ := List.mem_map.mp hj
      have := stride_in_bounds (W * H) C k (List.mem_range.mp hk)
      exact adjustBrightnessStep_spec iAmount (W * H * C) (k * C) (by omega) dd hdd)
    (stride_disjoint (W * H) C (by omega)) d hd
  refine ⟨d, _, rfl, ?_, by rw [r1, hd], ?_⟩
  · simp only [adjustBrightness, hidx]
  · intro p hp
    simp only [Int.toNat_ofNat] at hp ⊢
    have hpN : p < W * H := by exact_mod_cast hp
    have hb := stride_in_bounds (W * H) C p hpN
    have hmem : p * C ∈ (List.range (W * H)).map (fun k => k * C) :=
      List.mem_map.mpr ⟨p, List.mem_range.mpr hpN, rfl⟩
    constructor
    · intro k hk
      rw [List.getD_eq_getElem?_getD, r2 (p * C) hmem (p * C + k) (by omega) ⟨by omega, by omega⟩,
        Option.getD_some]
      exact toUChar_clamp _
    · intro h4
      have hC4 : C = 4 := by exact_mod_cast h4
      subst hC4
      rw [List.getD_eq_getElem?_getD, List.getD_eq_getElem?_getD, r3 (p * 4 + 3)]
      intro j hj hF
      obtain ⟨k, _, rfl⟩ := List.mem_map.mp hj
      obtain ⟨h1, h2⟩ := hF
      omega

theorem adjustBrightness_clamps_witness :
    IsImage sampleAlpha ∧
    ∃ d d', sampleAlpha._mpData = some d ∧
      adjustBrightness 100 sampleAlpha = .returned () { sampleAlpha with _mpData := some d' } ∧
      d'.length = d.length ∧
      ∀ p : Nat, (p : Int) < sampleAlpha._miWidth * sampleAlpha._miHeight →
        (∀ k, k < 3 →
          ((d'.getD (p * sampleAlpha._miNumChannels.toNat + k) 0 : Nat) : Int) =
            min 255 (max 0 (((d.getD (p * sampleAlpha._miNumChannels.toNat + k) 0 : Nat) : Int)
              + (100 : Int)))) ∧
        (sampleAlpha._miNumChannels = 4 → d'.getD (p * 4 + 3) 0 = d.getD (p * 4 + 3) 0) :=
  ⟨by decide, adjustBrightness_clamps 100 sampleAlpha (by decide)⟩

/-! ## Loops over pixels -/

/-- A store of red, green and blue with the alpha byte read from the same pixel: the three
bytes hold the new values, every other byte keeps its value. -/
theorem storeRGB_spec (d : List Nat) (C i r g b a : Nat) (hC : C = 3 ∨ C = 4)
    (hi : i + C ≤ d.length) :
    (storeRGB (C : Int) i r g b a d).length = d.length ∧
      (storeRGB (C : Int) i r g b a d)[i]? = some r ∧
      (storeRGB (C : Int) i r g b a d)[i + 1]? = some g ∧
      (storeRGB (C : Int) i r g b a d)[i + 2]? = some b ∧
      (∀ q, ¬ rgbAt i q → (storeRGB (C : Int) i r g b a d)[q]? = d[q]?) := by
  rcases hC with rfl | rfl
  · have n4 : ¬ (((3 : Nat) : Int) = 4) := by decide
    simp only [storeRGB, storePixel, n4, if_false]
    refine ⟨by simp, ?_, ?_, ?_, ?_⟩
    · simp only [List.getElem?_set, List.length_set]
      rw [if_neg (by omega), if_neg (by omega), if_pos trivial, if_pos (by omega)]
    · simp only [List.getElem?_set, List.length_set]
      rw [if_neg (by omega), if_pos trivial, if_pos (by omega)]
    · simp only [List.getElem?_set, List.length_set]
      rw [if_pos trivial, if_pos (by omega)]
    · intro q hq
      have h : ¬ (i ≤ q ∧ q < i + 3) := hq
      simp only [List.getElem?_set, List.length_set]
      rw [if_neg (by omega), if_neg (by omega), if_neg (by omega)]
  · have e4 : (((4 : Nat) : Int) = 4) := by decide
    simp only [storeRGB, storePixel, e4, if_true]
    refine ⟨by simp, ?_, ?_, ?_, ?_⟩
    · simp only [List.getElem?_set, List.length_set]
      rw [if_neg (by omega), if_neg (by omega), if_neg (by omega), if_pos trivial,
        if_pos (by omega)]
    · simp only [List.getElem?_set, List.length_set]
      rw [if_neg (by omega), if_neg (by omega), if_pos trivial, if_pos (by omega)]
    · simp only [List.getElem?_set, List.length_set]
      rw [if_neg (by omega), if_pos trivial, if_pos (by omega)]
    · intro q hq
      have h : ¬ (i ≤ q ∧ q < i + 3) := hq
      simp only [List.getElem?_set, List.length_set]
      by_cases h3 : i + 3 = q
      · subst h3
        rw [if_pos rfl, if_pos (by omega), getD_eq_getElem? d (i + 3) (by omega)]
      · rw [if_neg h3, if_neg (by omega), if_neg (by omega), if_neg (by omega)]

/-- A loop over pixels whose body, at every pixel of the list, returns with the storage
rewritten by `step` and everything else kept, is the fold of `step` over the list. -/
theorem forPixels_fold (body : Nat → Nat → CImage → Outcome Unit)
    (step : List Nat → Nat × Nat → List Nat) (n : Nat) (w h c : Int) (L : List (Nat × Nat))
    (hbody : ∀ p ∈ L, ∀ d : List Nat, d.length = n →
      body p.1 p.2 ⟨some d, n, w, h, c⟩ = .returned () ⟨some (step d p), n, w, h, c⟩ ∧
        (step d p).length = n)
    (d : List Nat) (hd : d.length = n) :
    forPixels body L ⟨some d, n, w, h, c⟩ = .returned () ⟨some (L.foldl step d), n, w, h, c⟩ := by
  induction L generalizing d with
  | nil => rfl
  | cons p L ih =>
    obtain ⟨x, y⟩ := p
    obtain ⟨e, hl⟩ := hbody (x, y) (List.mem_cons_self _ _) d hd
    simp only at e
    simp only [forPixels, e, Outcome.andThen, List.foldl_cons]
    exact ih (fun p hp => hbody p (List.mem_cons_of_mem _ hp)) _ hl

theorem mem_scanPairs (W H : Nat) (p : Nat × Nat) :
    p ∈ scanPairs W H ↔ p.1 < W ∧ p.2 < H := by
  obtain ⟨i, j⟩ := p
  simp only [scanPairs, List.mem_flatMap, List.mem_map, List.mem_range, Prod.mk.injEq]
  constructor
  · rintro ⟨a, ha, b, hb, rfl, rfl⟩
    exact ⟨hb, ha⟩
  · rintro ⟨h1, h2⟩
    exact ⟨j, h2, i, h1, rfl, rfl⟩

/-- The scan visits the pixels in the order of their index `x + y * W`. -/
theorem scanPairs_sorted (W H : Nat) :
    (scanPairs W H).Pairwise (fun a b => a.1 + a.2 * W < b.1 + b.2 * W) := by
  unfold scanPairs
  rw [List.pairwise_flatMap]
  constructor
  · intro y _
    rw [List.pairwise_map]
    refine List.Pairwise.imp ?_ (List.pairwise_lt_range W)
    intro a b hab
    simp only
    omega
  · refine List.Pairwise.imp ?_ (List.pairwise_lt_range H)
    intro y1 y2 hy p1 hp1 p2 hp2
    obtain ⟨x1, hx1, rfl⟩ := List.mem_map.mp hp1
    obtain ⟨x2, hx2, rfl⟩ := List.mem_map.mp hp2
    have h1 := List.mem_range.mp hx1
    have : (y1 + 1) * W ≤ y2 * W := Nat.mul_le_mul_right W hy
    rw [Nat.add_mul] at this
    simp only
    omega

/-- Pixels visited at different times of the scan have disjoint colour bytes. -/
theorem scanPairs_disjoint (W H C : Nat) (hC : 3 ≤ C) :
    (scanPairs W H).Pairwise
      (fun a b => ∀ q, ¬ (rgbAt ((a.1 + a.2 * W) * C) q ∧ rgbAt ((b.1 + b.2 * W) * C) q)) := by
  refine List.Pairwise.imp ?_ (scanPairs_sorted W H)
  intro a b hab q hq
  obtain ⟨⟨h1, h2⟩, ⟨h3, h4⟩⟩ := hq
  have : (a.1 + a.2 * W + 1) * C ≤ (b.1 + b.2 * W) * C := Nat.mul_le_mul_right C hab
  rw [Nat.add_mul] at this
  omega

/-! ## ditherBayerMatrix -/

/-- The threshold of the source, an `int` quotient of non-negative numbers, is the floor. -/
theorem bayer_floor : ∀ i, i < 4 → ∀ j, j < 4 →
    Int.tdiv ((bayerMatrix.getD i []).getD j 0 * 255) 16 =
      (bayerMatrix.getD i []).getD j 0 * 255 / 16 := by
  decide

theorem ditherBayerPixel_nat (d : List Nat) (n W H C x y a0 : Nat) (hx : x < W) (hy : y < H) :
    ditherBayerPixel a0 x y ⟨some d, n, (W : Int), (H : Int), (C : Int)⟩ =
      .returned () ⟨some (bayerStep W C a0 d (x, y)), n, (W : Int), (H : Int), (C : Int)⟩ := by
  simp only [ditherBayerPixel, getPixel_nat d n W H C x y a0 hx hy,
    setPixel_nat d n W H C x y _ _ _ _ hx hy, bayerStep, storeRGB, bayerByte]

/-- C14: on a non-empty buffer `ditherBayerMatrix` returns and changes nothing but the
bytes: each colour byte of pixel `(x, y)` becomes 255 if its original value `v` satisfies
`v > floor(M[y mod 4][x mod 4] * 255 / 16)` and 0 otherwise, `M` being the matrix with rows
(0, 8, 2, 10), (12, 4, 14, 6), (3, 11, 1, 9), (15, 7, 13, 5); on a 4-channel buffer the alpha
byte keeps its value. -/
theorem ditherBayerMatrix_threshold (a0 : Nat) (self : CImage) (hi : IsImage self) :
    bayerMatrix = [[0, 8, 2, 10], [12, 4, 14, 6], [3, 11, 1, 9], [15, 7, 13, 5]] ∧
    ∃ d d', self._mpData = some d ∧
      ditherBayerMatrix a0 self = .returned () { self with _mpData := some d' } ∧
      d'.length = d.length ∧
      ∀ x y : Nat, (x : Int) < self._miWidth → (y : Int) < self._miHeight →
        (∀ k, k < 3 →
          d'.getD (pixelIndex self x y + k) 0 =
            if ((d.getD (pixelIndex self x y + k) 0 : Nat) : Int) >
                (bayerMatrix.getD (y % 4) []).getD (x % 4) 0 * 255 / 16 then 255 else 0) ∧
        (self._miNumChannels = 4 →
          d'.getD (pixelIndex self x y + 3) 0 = d.getD (pixelIndex self x y + 3) 0) := by
  refine ⟨rfl, ?_⟩
  obtain ⟨d, W, H, C, rfl, hW, hH, hC, hlt, hd⟩ := hi.exists_nat
  have hstep : ∀ p ∈ scanPairs W H, ∀ dd : List Nat, dd.length = W * H * C →
      (bayerStep W C a0 dd p).length = W * H * C ∧
      (∀ q, q < W * H * C → rgbAt ((p.1 + p.2 * W) * C) q →
        (bayerStep W C a0 dd p)[q]? = some (bayerByte p.1 p.2 (dd.getD q 0))) ∧
      (∀ q, ¬ rgbAt ((p.1 + p.2 * W) * C) q → (bayerStep W C a0 dd p)[q]? = dd[q]?) := by
    intro p hp dd hdd
    obtain ⟨p1, p2⟩ := (mem_scanPairs W H p).mp hp
    have hb := pixel_in_bounds p.1 p.2 W H C p1 p2
    obtain ⟨s1, s2, s3, s4, s5⟩ := storeRGB_spec dd C ((p.1 + p.2 * W) * C)
      (bayerByte p.1 p.2 (dd.getD ((p.1 + p.2 * W) * C) 0))
      (bayerByte p.1 p.2 (dd.getD ((p.1 + p.2 * W) * C + 1) 0))
      (bayerByte p.1 p.2 (dd.getD ((p.1 + p.2 * W) * C + 2) 0)) a0 hC (by omega)
    refine ⟨by rw [bayerStep, s1, hdd], ?_, s5⟩
    intro q _ hF
    obtain ⟨h1, h2⟩ := hF
    have hcase : q = (p.1 + p.2 * W) * C ∨ q = (p.1 + p.2 * W) * C + 1 ∨
        q = (p.1 + p.2 * W) * C + 2 := by omega
    rcases hcase with h | h | h
    · rw [h]; exact s2
    · rw [h]; exact s3
    · rw [h]; exact s4
  obtain ⟨r1, r2, r3⟩ := foldl_pointwise (W * H * C) (bayerStep W C a0)
    (fun p q => rgbAt ((p.1 + p.2 * W) * C) q) (fun p _ v => bayerByte p.1 p.2 v)
    (scanPairs W H) hstep (scanPairs_disjoint W H C (by omega)) d hd
  refine ⟨d, _, rfl, ?_, by rw [r1, hd], ?_⟩
  · simp only [ditherBayerMatrix, Int.toNat_ofNat]
    exact forPixels_fold (ditherBayerPixel a0) (bayerStep W C a0) (W * H * C) W H C
      (scanPairs W H)
      (fun p hp dd hdd =>
        ⟨ditherBayerPixel_nat dd _ W H C p.1 p.2 a0 ((mem_scanPairs W H p).mp hp).1
          ((mem_scanPairs W H p).mp hp).2, (hstep p hp dd hdd).1⟩) d hd
  · intro x y hx hy
    simp only [pixelIndex, Int.toNat_ofNat] at hx hy ⊢
    have hxW : x < W := by omega
    have hyH : y < H := by omega
    have hb := pixel_in_bounds x y W H C hxW hyH
    have hmem : (x, y) ∈ scanPairs W H := (mem_scanPairs W H (x, y)).mpr ⟨hxW, hyH⟩
    constructor
    · intro k hk
      rw [List.getD_eq_getElem?_getD,
        r2 (x, y) hmem ((x + y * W) * C + k) (by omega) ⟨by simp only; omega, by simp only; omega⟩,
        Option.getD_some]
      simp only [bayerByte]
      rw [bayer_floor (y % 4) (Nat.mod_lt y (by decide)) (x % 4) (Nat.mod_lt x (by decide))]
    · intro h4
      have hC4 : C = 4 := by exact_mod_cast h4
      subst hC4
      rw [List.getD_eq_getElem?_getD, List.getD_eq_getElem?_getD, r3 ((x + y * W) * 4 + 3)]
      intro p hp hF
      obtain ⟨h1, h2⟩ := hF
      omega

theorem ditherBayerMatrix_threshold_witness :
    IsImage sampleAlpha ∧
    (bayerMatrix = [[0, 8, 2, 10], [12, 4, 14, 6], [3, 11, 1, 9], [15, 7, 13, 5]] ∧
    ∃ d d', sampleAlpha._mpData = some d ∧
      ditherBayerMatrix 0 sampleAlpha = .returned () { sampleAlpha with _mpData := some d' } ∧
      d'.length = d.length ∧
      ∀ x y : Nat, (x : Int) < sampleAlpha._miWidth → (y : Int) < sampleAlpha._miHeight →
        (∀ k, k < 3 →
          d'.getD (pixelIndex sampleAlpha x y + k) 0 =
            if ((d.getD (pixelIndex sampleAlpha x y + k) 0 : Nat) : Int) >
                (bayerMatrix.getD (y % 4) []).getD (x % 4) 0 * 255 / 16 then 255 else 0) ∧
        (sampleAlpha._miNumChannels = 4 →
          d'.getD (pixelIndex sampleAlpha x y + 3) 0 =
            d.getD (pixelIndex sampleAlpha x y + 3) 0)) :=
  ⟨by decide, ditherBayerMatrix_threshold 0 sampleAlpha (by decide)⟩

/-! ## addAlphaChannel -/

/-- `copyTo` into a freshly constructed local image gives a copy equal to the source. -/
theorem copyTo_local (d : List Nat) (W H C : Nat) (hW : 1 ≤ W) (hH : 1 ≤ H)
    (hC : C = 3 ∨ C = 4) (hlt : W * H * C < 2147483648) (hd : d.length = W * H * C)
    (dest : CImage) :
    copyTo ⟨some d, W * H * C, (W : Int), (H : Int), (C : Int)⟩ false dest =
      .returned () ⟨some d, W * H * C, (W : Int), (H : Int), (C : Int)⟩ := by
  have e : List.take (W * H * C) d = d := List.take_of_length_le (by omega)
  simp only [copyTo, Bool.false_eq_true, if_false,
    createBlank_of_dims W H C hW hH hC hlt, Option.map_some', e, List.drop_replicate,
    Nat.sub_self, List.replicate_zero, List.append_nil]

/-- The overwriting loop of `addAlphaChannel` on four channels, after `N` pixels. -/
theorem setAlpha_fold (a M : Nat) (d : List Nat) (hd : d.length = M * 4) (N : Nat)
    (hN : N ≤ M) :
    (((List.range N).map (fun k => k * 4)).foldl (fun dd i => dd.set (i + 3) a) d).length
        = M * 4 ∧
      (∀ p, p < N →
        (((List.range N).map (fun k => k * 4)).foldl (fun dd i => dd.set (i + 3) a) d)[p * 4 + 3]?
          = some a) ∧
      (∀ q, (∀ p, p < N → q ≠ p * 4 + 3) →
        (((List.range N).map (fun k => k * 4)).foldl (fun dd i => dd.set (i + 3) a) d)[q]?
          = d[q]?) := by
  induction N with
  | zero => exact ⟨hd, fun p hp => absurd hp (Nat.not_lt_zero p), fun _ _ => rfl⟩
  | succ N ih =>
    obtain ⟨i1, i2, i3⟩ := ih (by omega)
    simp only [List.range_succ, List.map_append, List.foldl_append, List.map_cons, List.map_nil,
      List.foldl_cons, List.foldl_nil]
    refine ⟨by rw [List.length_set]; exact i1, ?_, ?_⟩
    · intro p hp
      rw [List.getElem?_set]
      by_cases h : N * 4 + 3 = p * 4 + 3
      · rw [if_pos h, if_pos (by omega)]
      · rw [if_neg h]
        exact i2 p (by omega)
    · intro q hq
      rw [List.getElem?_set, if_neg (fun h => hq N (by omega) h.symm)]
      exact i3 q (fun p hp => hq p (by omega))

/-- The copying loop of `addAlphaChannel` on three channels, after `N` pixels: the counter
is `3 * N`, the first `N` pixels of the new storage hold the colour bytes of the old
pixels and the alpha value, and the rest of the new storage is untouched. -/
theorem addAlpha_fold (old : List Nat) (a M : Nat) (nd : List Nat) (hnd : nd.length = M * 4)
    (N : Nat) (hN : N ≤ M) :
    (((List.range N).map (fun k => k * 4)).foldl (addAlphaStep old a) (0, nd)).1 = N * 3 ∧
      (((List.range N).map (fun k => k * 4)).foldl (addAlphaStep old a) (0, nd)).2.length
        = M * 4 ∧
      (∀ p, p < N →
        (∀ k, k < 3 →
          (((List.range N).map (fun k => k * 4)).foldl (addAlphaStep old a) (0, nd)).2[p * 4 + k]?
            = some (old.getD (p * 3 + k) 0)) ∧
        (((List.range N).map (fun k => k * 4)).foldl (addAlphaStep old a) (0, nd)).2[p * 4 + 3]?
          = some a) := by
  induction N with
  | zero => exact ⟨rfl, hnd, fun p hp => absurd hp (Nat.not_lt_zero p)⟩
  | succ N ih =>
    obtain ⟨i1, i2, i3⟩ := ih (by omega)
    simp only [List.range_succ, List.map_append, List.foldl_append, List.map_cons, List.map_nil,
      List.foldl_cons, List.foldl_nil]
    generalize ((List.range N).map (fun k => k * 4)).foldl (addAlphaStep old a) (0, nd) = st
      at i1 i2 i3
    obtain ⟨c, D⟩ := st
    simp only at i1 i2 i3
    subst i1
    simp only [addAlphaStep]
    refine ⟨by omega, by simp [i2], ?_⟩
    intro p hp
    by_cases hpN : p = N
    · subst hpN
      constructor
      · intro k hk
        have hk' : k = 0 ∨ k = 1 ∨ k = 2 := by omega
        rcases hk' with rfl | rfl | rfl
        · simp only [List.getElem?_set, List.length_set, Nat.add_zero]
          rw [if_neg (by omega), if_neg (by omega), if_neg (by omega), if_pos trivial,
            if_pos (by omega)]
        · simp only [List.getElem?_set, List.length_set]
          rw [if_neg (by omega), if_neg (by omega), if_pos trivial, if_pos (by omega)]
        · simp only [List.getElem?_set, List.length_set]
          rw [if_neg (by omega), if_pos trivial, if_pos (by omega)]
      · simp only [List.getElem?_set, List.length_set]
        rw [if_pos trivial, if_pos (by omega)]
    · obtain ⟨j1, j2⟩ := i3 p (by omega)
      constructor
      · intro k hk
        simp only [List.getElem?_set, List.length_set]
        rw [if_neg (by omega), if_neg (by omega), if_neg (by omega), if_neg (by omega)]
        exact j1 k hk
      · simp only [List.getElem?_set, List.length_set]
        rw [if_neg (by omega), if_neg (by omega), if_neg (by omega), if_neg (by omega)]
        exact j2

/-- C19: on a non-empty buffer `addAlphaChannel a` returns and leaves a 4-channel buffer of
the same width and height with `width * height * 4` bytes, in which every pixel keeps its
red, green and blue bytes and has alpha `a`: on three channels the image is rebuilt, on
four channels only the alpha bytes are overwritten. -/
theorem addAlphaChannel_spec (ucAlpha : Nat) (self : CImage) (hi : IsImage self) :
    ∃ d d', self._mpData = some d ∧
      addAlphaChannel ucAlpha self =
        .returned () ⟨some d', (self._miWidth * self._miHeight * 4).toNat, self._miWidth,
          self._miHeight, 4⟩ ∧
      d'.length = (self._miWidth * self._miHeight * 4).toNat ∧
      ∀ p : Nat, (p : Int) < self._miWidth * self._miHeight →
        (∀ k, k < 3 →
          d'.getD (p * 4 + k) 0 = d.getD (p * self._miNumChannels.toNat + k) 0) ∧
        d'.getD (p * 4 + 3) 0 = ucAlpha := by
  obtain ⟨d, W, H, C, rfl, hW, hH, hC, hlt, hd⟩ := hi.exists_nat
  obtain ⟨hWlt, hHlt, _⟩ := factors_lt W H C hW hH (by omega) hlt
  have eP : ((W : Int) * (H : Int) * 4).toNat = W * H * 4 := by
    have : (W : Int) * (H : Int) * 4 = ((W * H * 4 : Nat) : Int) := by push_cast; ring
    rw [this]
    exact Int.toNat_natCast _
  rcases hC with rfl | rfl <;>
    simp only [eP, Int.toNat_ofNat, Nat.cast_ofNat, show Int.toNat (3 : Int) = 3 from rfl,
      show Int.toNat (4 : Int) = 4 from rfl]
  · -- three channels: the image is rebuilt
    have n4 : ¬ ((3 : Int) = 4) := by decide
    have hbig : W * H * 4 < 4294967296 := by omega
    have hcopy := copyTo_local d W H 3 hW hH (Or.inl rfl) hlt hd CImage.new
    simp only [Nat.cast_ofNat] at hcopy
    have hcb : createBlank (toUInt (W : Int)) (toUInt (H : Int)) 4
        ⟨some d, W * H * 3, (W : Int), (H : Int), 3⟩ =
        .returned () ⟨some (List.replicate (W * H * 4) 0), W * H * 4, (W : Int), (H : Int),
          4⟩ := by
      rw [toUInt_of_lt W (by omega), toUInt_of_lt H (by omega),
        createBlank_returned W H 4 _ hW hH (Or.inr rfl), toInt_of_lt W hWlt,
        toInt_of_lt H hHlt]
      have : (W : Int) * (H : Int) * ((4 : Nat) : Int) = ((W * H * 4 : Nat) : Int) := by
        push_cast; ring
      rw [this, toUInt_of_lt _ hbig]
      rfl
    obtain ⟨f1, f2, f3⟩ := addAlpha_fold d ucAlpha (W * H) (List.replicate (W * H * 4) 0)
      (by simp) (W * H) (Nat.le_refl _)
    refine ⟨d, _, rfl, ?_, f2, ?_⟩
    · simp only [addAlphaChannel, n4, if_false, if_true, hcopy, hcb, Option.map_some',
        Option.getD_some, strideIndices_pixels (W * H) 4 (by decide)]
    · intro p hp
      have hpN : p < W * H := by exact_mod_cast hp
      obtain ⟨g1, g2⟩ := f3 p hpN
      constructor
      · intro k hk
        rw [List.getD_eq_getElem?_getD, g1 k hk, Option.getD_some]
      · rw [List.getD_eq_getElem?_getD, g2, Option.getD_some]
  · -- four channels: the alpha bytes are overwritten
    obtain ⟨f1, f2, f3⟩ := setAlpha_fold ucAlpha (W * H) d hd (W * H) (Nat.le_refl _)
    refine ⟨d, _, rfl, ?_, f1, ?_⟩
    · simp only [addAlphaChannel, if_true, strideIndices_pixels (W * H) 4 (by decide)]
    · intro p hp
      have hpN : p < W * H := by exact_mod_cast hp
      constructor
      · intro k hk
        rw [List.getD_eq_getElem?_getD, f3 (p * 4 + k) (fun p' _ => by omega),
          ← List.getD_eq_getElem?_getD]
      · rw [List.getD_eq_getElem?_getD, f2 p hpN, Option.getD_some]

theorem addAlphaChannel_spec_witness :
    IsImage sampleImage ∧
    ∃ d d', sampleImage._mpData = some d ∧
      addAlphaChannel 9 sampleImage =
        .returned () ⟨some d', (sampleImage._miWidth * sampleImage._miHeight * 4).toNat,
          sampleImage._miWidth, sampleImage._miHeight, 4⟩ ∧
      d'.length = (sampleImage._miWidth * sampleImage._miHeight * 4).toNat ∧
      ∀ p : Nat, (p : Int) < sampleImage._miWidth * sampleImage._miHeight →
        (∀ k, k < 3 →
          d'.getD (p * 4 + k) 0 = d.getD (p * sampleImage._miNumChannels.toNat + k) 0) ∧
        d'.getD (p * 4 + 3) 0 = 9 :=
  ⟨by decide, addAlphaChannel_spec 9 sampleImage (by decide)⟩

/-! ## rotateClockwise -/

/-- The loop of `rotateClockwise` over source pixels inside the copy, the destination
having the exchanged dimensions: it returns, the destination keeps its length, a byte no
visited pixel is sent to keeps its value, and the pixel at column `y` and row
`Hd - 1 - x` holds the bytes of source pixel `(x, y)`. -/
theorem rotateLoop_spec (ds : List Nat) (ns nd Wo Ho Wd Hd C : Nat)
    (hC : C = 3 ∨ C = 4) (hds : ds.length = Wo * Ho * C)
    (hWd : Wd < 2147483648) (hHd : Hd < 2147483648) (L : List (Nat × Nat))
    (hL : ∀ p ∈ L, p.1 < Wo ∧ p.2 < Ho ∧ p.2 < Wd ∧ p.1 < Hd)
    (a : Nat) (cur : List Nat) (hcur : cur.length = Wd * Hd * C) :
    ∃ out, rotateLoop ⟨some ds, ns, (Wo : Int), (Ho : Int), (C : Int)⟩ L a
        ⟨some cur, nd, (Wd : Int), (Hd : Int), (C : Int)⟩ =
        .returned () ⟨some out, nd, (Wd : Int), (Hd : Int), (C : Int)⟩ ∧
      out.length = cur.length ∧
      (∀ q, (∀ p ∈ L, ∀ k, k < C → q ≠ (p.2 + (Hd - 1 - p.1) * Wd) * C + k) →
        out[q]? = cur[q]?) ∧
      (∀ p ∈ L, ∀ k, k < C →
        out[(p.2 + (Hd - 1 - p.1) * Wd) * C + k]? = ds[(p.1 + p.2 * Wo) * C + k]?) := by
  induction L generalizing a cur with
  | nil =>
    exact ⟨cur, rfl, rfl, fun _ _ => rfl, fun p hp => absurd hp (List.not_mem_nil p)⟩
  | cons p L ih =>
    obtain ⟨x, y⟩ := p
    obtain ⟨b1, b2, b3, b4⟩ := hL (x, y) (List.mem_cons_self _ _)
    simp only at b1 b2 b3 b4
    have bS := pixel_in_bounds x y Wo Ho C b1 b2
    have bD := pixel_in_bounds y (Hd - 1 - x) Wd Hd C b3 (by omega)
    obtain ⟨s1, s2, s3⟩ := storePixel_spec cur ds C ((y + (Hd - 1 - x) * Wd) * C)
      ((x + y * Wo) * C) a hC (by omega) (by omega)
    obtain ⟨out, e, o1, o2, o3⟩ := ih (fun p hp => hL p (List.mem_cons_of_mem _ hp))
      (if (C : Int) = 4 then ds.getD ((x + y * Wo) * C + 3) 0 else a)
      _ (by rw [s1]; exact hcur)
    have ty : toUInt ((Hd : Int) - (x : Int) - 1) = Hd - 1 - x := by
      have : (Hd : Int) - (x : Int) - 1 = ((Hd - 1 - x : Nat) : Int) := by omega
      rw [this]
      exact toUInt_of_lt _ (by omega)
    have tx : toUInt (y : Int) = y := toUInt_of_lt y (by omega)
    refine ⟨out, ?_, by rw [o1, s1], ?_, ?_⟩
    · simp only [rotateLoop, ty, tx, getPixel_nat ds ns Wo Ho C _ _ a b1 b2,
        setPixel_nat cur nd Wd Hd C _ _ _ _ _ _ b3 (by omega : Hd - 1 - x < Hd)]
      exact e
    · intro q hq
      rw [o2 q (fun p hp k hk => hq p (List.mem_cons_of_mem _ hp) k hk)]
      apply s3
      by_contra hcon
      have hk : q - (y + (Hd - 1 - x) * Wd) * C < C := by omega
      exact hq (x, y) (List.mem_cons_self _ _) _ hk (by simp only; omega)
    · intro p hp k hk
      rcases List.mem_cons.mp hp with h1 | h1
      · subst h1
        by_cases touched : ∃ p' ∈ L, ∃ k', k' < C ∧
            (y + (Hd - 1 - x) * Wd) * C + k = (p'.2 + (Hd - 1 - p'.1) * Wd) * C + k'
        · obtain ⟨p', hp', k', hk', heq⟩ := touched
          obtain ⟨c1, c2, c3, c4⟩ := hL p' (List.mem_cons_of_mem _ hp')
          obtain ⟨u1, u2, u3⟩ := pixel_unique _ _ _ _ k k' Wd C b3 c3 hk hk' heq
          have e1 : p'.1 = x := by omega
          have e2 : p'.2 = y := by omega
          have := o3 p' hp' k' hk'
          rw [e1, e2, ← u3] at this
          exact this
        · rw [o2 _ (fun p' hp' k' hk' heq => touched ⟨p', hp', k', hk', heq⟩)]
          exact s2 k hk
      · exact o3 p h1 k hk

/-- The two nested loops visit no pixel twice. -/
theorem rectPairs_nodup (cw ch : Nat) : (rectPairs cw ch).Nodup := by
  unfold rectPairs
  rw [List.nodup_flatMap]
  constructor
  · intro x _
    exact List.Nodup.map_on (fun a _ b _ h => (Prod.mk.injEq _ _ _ _ ▸ h : _ ∧ _).2)
      (List.nodup_range ch)
  · refine List.Pairwise.imp ?_ (List.pairwise_lt_range cw)
    intro a b hab
    simp only [Function.onFun, List.Disjoint, List.mem_map, List.mem_range]
    rintro p ⟨y1, _, rfl⟩ ⟨y2, _, h2⟩
    have := (Prod.mk.injEq _ _ _ _ ▸ h2 : _ ∧ _).1
    omega

/-- C18: on a non-empty `W x H` buffer `rotateClockwise` returns and leaves a non-empty
buffer of width `H` and height `W` with the same channel count, in which the source pixel
at column `x`, row `y` is found at column `y`, row `W - 1 - x`; and the destinations `(y, W - 1 - x)` of
the stores the loop makes are without repetition and include every destination pixel, so
every destination pixel is written exactly once. -/
theorem rotateClockwise_spec (col3 : Nat) (self : CImage) (hi : IsImage self) :
    ∃ out, rotateClockwise col3 self = .returned () out ∧ IsImage out ∧
      out._miWidth = self._miHeight ∧ out._miHeight = self._miWidth ∧
      out._miNumChannels = self._miNumChannels ∧
      (∀ x y : Nat, (x : Int) < self._miWidth → (y : Int) < self._miHeight →
        pixelBytes out y (out._miHeight.toNat - 1 - x) = pixelBytes self x y) ∧
      ((rectPairs self._miWidth.toNat self._miHeight.toNat).map
          (fun p => (p.2, out._miHeight.toNat - 1 - p.1))).Nodup ∧
      (∀ X Y : Nat, (X : Int) < out._miWidth → (Y : Int) < out._miHeight →
        (X, Y) ∈ (rectPairs self._miWidth.toNat self._miHeight.toNat).map
          (fun p => (p.2, out._miHeight.toNat - 1 - p.1))) := by
  obtain ⟨d, W, H, C, rfl, hW, hH, hC, hlt, hd⟩ := hi.exists_nat
  obtain ⟨hWlt, hHlt, _⟩ := factors_lt W H C hW hH (by omega) hlt
  have hlt' : H * W * C < 2147483648 := by rw [Nat.mul_comm H W]; exact hlt
  have hL : ∀ p ∈ rectPairs W H, p.1 < W ∧ p.2 < H ∧ p.2 < H ∧ p.1 < W := by
    intro p hp
    obtain ⟨p1, p2⟩ := (mem_rectPairs W H p).mp hp
    exact ⟨p1, p2, p2, p1⟩
  -- the destination before the loop: `cur` of length `H * W * C`, recorded size `nd`
  have hdest : ∃ cur nd, cur.length = H * W * C ∧ nd = H * W * C ∧
      rotateClockwise col3 ⟨some d, W * H * C, (W : Int), (H : Int), (C : Int)⟩ =
        rotateLoop ⟨some d, W * H * C, (W : Int), (H : Int), (C : Int)⟩ (rectPairs W H) col3
          ⟨some cur, nd, (H : Int), (W : Int), (C : Int)⟩ := by
    by_cases hsq : W = H
    · subst hsq
      refine ⟨d, W * W * C, hd, rfl, ?_⟩
      simp only [rotateClockwise, copyTo_local d W W C hW hH hC hlt hd, ne_eq,
        not_true_eq_false, if_false, Outcome.andThen, Int.toNat_ofNat]
    · have hne : (W : Int) ≠ (H : Int) := by omega
      refine ⟨List.replicate (H * W * C) 0, H * W * C, by simp, rfl, ?_⟩
      simp only [rotateClockwise, copyTo_local d W H C hW hH hC hlt hd, hne, ne_eq,
        not_false_eq_true, if_true, createBlank_of_dims H W C hH hW hC hlt', Outcome.andThen,
        Int.toNat_ofNat]
  obtain ⟨cur, nd, hcur, hnd, hrot⟩ := hdest
  subst hnd
  obtain ⟨out, e, o1, o2, o3⟩ := rotateLoop_spec d (W * H * C) (H * W * C) W H H W C hC hd
    hHlt hWlt (rectPairs W H) hL col3 cur hcur
  refine ⟨_, by rw [hrot]; exact e,
    IsImage.of_nat out H W C hH hW hC hlt' (by rw [o1, hcur]), rfl, rfl, rfl, ?_, ?_, ?_⟩
  · intro x y hx hy
    simp only at hx hy
    simp only [pixelBytes, pixelIndex, Option.getD_some, Int.toNat_ofNat]
    apply window_ext
    intro k hk
    exact o3 (x, y) ((mem_rectPairs W H (x, y)).mpr ⟨by omega, by omega⟩) k hk
  · simp only [Int.toNat_ofNat]
    refine List.Nodup.map_on ?_ (rectPairs_nodup W H)
    intro p hp p' hp' heq
    obtain ⟨p1, _⟩ := (mem_rectPairs W H p).mp hp
    obtain ⟨p1', _⟩ := (mem_rectPairs W H p').mp hp'
    obtain ⟨a1, a2⟩ := p
    obtain ⟨b1, b2⟩ := p'
    simp only [Prod.mk.injEq] at heq p1 p1' ⊢
    omega
  · intro X Y hX hY
    simp only at hX hY
    simp only [Int.toNat_ofNat]
    refine List.mem_map.mpr ⟨(W - 1 - Y, X),
      (mem_rectPairs W H _).mpr ⟨by simp only; omega, by simp only; omega⟩, ?_⟩
    simp only [Prod.mk.injEq, true_and]
    omega

theorem rotateClockwise_spec_witness :
    IsImage sampleImage ∧
    ∃ out, rotateClockwise 0 sampleImage = .returned () out ∧ IsImage out ∧
      out._miWidth = sampleImage._miHeight ∧ out._miHeight = sampleImage._miWidth ∧
      out._miNumChannels = sampleImage._miNumChannels ∧
      (∀ x y : Nat, (x : Int) < sampleImage._miWidth → (y : Int) < sampleImage._miHeight →
        pixelBytes out y (out._miHeight.toNat - 1 - x) = pixelBytes sampleImage x y) ∧
      ((rectPairs sampleImage._miWidth.toNat sampleImage._miHeight.toNat).map
          (fun p => (p.2, out._miHeight.toNat - 1 - p.1))).Nodup ∧
      (∀ X Y : Nat, (X : Int) < out._miWidth → (Y : Int) < out._miHeight →
        (X, Y) ∈ (rectPairs sampleImage._miWidth.toNat sampleImage._miHeight.toNat).map
          (fun p => (p.2, out._miHeight.toNat - 1 - p.1))) :=
  ⟨by decide, rotateClockwise_spec 0 sampleImage (by decide)⟩

/-! ## The icon file -/

theorem ICONDIRENTRY.bytes_length (e : ICONDIRENTRY) : e.bytes.length = 16 := by
  simp [ICONDIRENTRY.bytes, objectBytes_length]

/-- The directory loop of `saveAsICO`: one entry for each image, recording the length of
the image and the sum of the starting offset and the lengths of the images before it,
when the last offset fits 32 bits. -/
theorem icoEntries_spec (iconSizes : List Int) (vec : List (List Nat)) (i0 off : Nat)
    (h : off + (vec.map List.length).sum < 4294967296) :
    (icoEntries iconSizes i0 off vec).length = vec.length ∧
      ∀ i (hi : i < vec.length), ∃ e, (icoEntries iconSizes i0 off vec)[i]? = some e ∧
        e.dwBytesInRes = vec[i].length ∧
        e.dwImageOffset = off + ((vec.take i).map List.length).sum := by
  induction vec generalizing i0 off with
  | nil => exact ⟨rfl, fun i hi => absurd hi (Nat.not_lt_zero i)⟩
  | cons img rest ih =>
    simp only [List.map_cons, List.sum_cons] at h
    have e1 : img.length % 4294967296 = img.length := Nat.mod_eq_of_lt (by omega)
    have e2 : (off + img.length) % 4294967296 = off + img.length :=
      Nat.mod_eq_of_lt (by omega)
    obtain ⟨r1, r2⟩ := ih (i0 + 1) (off + img.length) (by omega)
    simp only [icoEntries, e1, e2]
    refine ⟨by simp [r1], ?_⟩
    intro i hi
    cases i with
    | zero => exact ⟨_, List.getElem?_cons_zero, rfl, by simp⟩
    | succ i =>
      obtain ⟨e, g1, g2, g3⟩ := r2 i (by simpa using hi)
      refine ⟨e, by simpa using g1, by simpa using g2, ?_⟩
      rw [g3]
      simp only [List.take_succ_cons, List.map_cons, List.sum_cons]
      omega

/-- An image is found in the concatenation of all images after the images before it. -/
theorem flatten_payload (vec : List (List Nat)) (i : Nat) (hi : i < vec.length) :
    (vec.flatten.drop ((vec.take i).map List.length).sum).take vec[i].length = vec[i] := by
  rw [List.map_take, List.drop_sum_flatten, List.drop_eq_getElem_cons hi, List.flatten_cons]
  exact List.take_left' rfl

/-- The length and offset fields of the 16 bytes of an entry, read back as 32-bit values. -/
theorem ICONDIRENTRY.bytes_fields (e : ICONDIRENTRY) (h1 : e.dwBytesInRes < 4294967296)
    (h2 : e.dwImageOffset < 4294967296) :
    objectValue ((e.bytes.drop 8).take 4) = e.dwBytesInRes ∧
      objectValue ((e.bytes.drop 12).take 4) = e.dwImageOffset := by
  have p4 : (256 : Nat) ^ 4 = 4294967296 := by norm_num
  have hb : e.bytes =
      ([e.bWidth, e.bHeight, e.bColorCount, e.bReserved] ++ objectBytes 2 e.wPlanes
        ++ objectBytes 2 e.wBitCount) ++
        (objectBytes 4 e.dwBytesInRes ++ objectBytes 4 e.dwImageOffset) := by
    simp only [ICONDIRENTRY.bytes, List.append_assoc]
  have hb2 : e.bytes =
      (([e.bWidth, e.bHeight, e.bColorCount, e.bReserved] ++ objectBytes 2 e.wPlanes
        ++ objectBytes 2 e.wBitCount) ++ objectBytes 4 e.dwBytesInRes) ++
        objectBytes 4 e.dwImageOffset := by
    simp only [ICONDIRENTRY.bytes, List.append_assoc]
  constructor
  · rw [hb, List.drop_left' (by simp [objectBytes_length]),
      List.take_left' (objectBytes_length 4 _), objectValue_objectBytes, p4,
      Nat.mod_eq_of_lt h1]
  · rw [hb2, List.drop_left' (by simp [objectBytes_length]),
      List.take_of_length_le (by rw [objectBytes_length]), objectValue_objectBytes, p4,
      Nat.mod_eq_of_lt h2]

/-- The lengths of the images before image `i` and of image `i` are part of the total. -/
theorem sum_take_le (vec : List (List Nat)) (i : Nat) (hi : i < vec.length) :
    ((vec.take i).map List.length).sum + vec[i].length ≤ (vec.map List.length).sum := by
  induction vec generalizing i with
  | nil => exact absurd hi (Nat.not_lt_zero i)
  | cons img rest ih =>
    cases i with
    | zero => simp
    | succ i =>
      have := ih i (by simpa using hi)
      simp only [List.take_succ_cons, List.map_cons, List.sum_cons, List.getElem_cons_succ]
      omega

/-- The bytes after a six-byte header and a directory of 16-byte entries. -/
theorem ico_split (hdr dir pay : List Nat) (hhdr : hdr.length = 6) :
    (∀ k, k + 16 ≤ dir.length →
      ((hdr ++ (dir ++ pay)).drop (6 + k)).take 16 = (dir.drop k).take 16) ∧
    (∀ k, (hdr ++ (dir ++ pay)).drop (6 + dir.length + k) = pay.drop k) := by
  constructor
  · intro k hk
    rw [← hhdr, List.drop_append, List.drop_append_of_le_length (by omega),
      List.take_append_of_le_length (by rw [List.length_drop]; omega)]
  · intro k
    rw [← hhdr, Nat.add_assoc, List.drop_append, List.drop_append]

/-- C20: in the bytes `saveAsICO` writes for `n` encoded images (any byte sequences) whose
file length `6 + 16 * n + (sum of the lengths)` fits 32 bits, the file has that length; the
16 bytes at `6 + 16 * i` are directory entry `i`, whose length field is the length of image
`i` and whose offset field is `6 + 16 * n` plus the lengths of the images before it; and
the bytes of the file from that offset, for that length, are exactly image `i`. -/
theorem icoFileBytes_layout (iconSizes : List Int) (vec : List (List Nat))
    (hfit : 6 + 16 * vec.length + (vec.map List.length).sum < 4294967296) :
    (icoFileBytes iconSizes vec).length = 6 + 16 * vec.length + (vec.map List.length).sum ∧
      ∀ i (hi : i < vec.length), ∃ e : ICONDIRENTRY,
        ((icoFileBytes iconSizes vec).drop (6 + 16 * i)).take 16 = e.bytes ∧
        e.dwBytesInRes = vec[i].length ∧
        e.dwImageOffset = 6 + 16 * vec.length + ((vec.take i).map List.length).sum ∧
        objectValue ((e.bytes.drop 8).take 4) = vec[i].length ∧
        objectValue ((e.bytes.drop 12).take 4) =
          6 + 16 * vec.length + ((vec.take i).map List.length).sum ∧
        ((icoFileBytes iconSizes vec).drop e.dwImageOffset).take e.dwBytesInRes = vec[i] := by
  have e0 : (6 + 16 * vec.length) % 4294967296 = 6 + 16 * vec.length :=
    Nat.mod_eq_of_lt (by omega)
  obtain ⟨r1, r2⟩ := icoEntries_spec iconSizes vec 0 (6 + 16 * vec.length) hfit
  obtain ⟨hdr, hhdrdef⟩ : ∃ hdr, hdr =
      objectBytes 2 0 ++ objectBytes 2 1 ++ objectBytes 2 (vec.length % 65536) := ⟨_, rfl⟩
  obtain ⟨R, hR⟩ : ∃ R, R = (icoEntries iconSizes 0 (6 + 16 * vec.length) vec).map
      ICONDIRENTRY.bytes := ⟨_, rfl⟩
  have hhdr : hdr.length = 6 := by
    rw [hhdrdef]
    simp [objectBytes_length]
  have hlenR : R.length = vec.length := by rw [hR, List.length_map, r1]
  have hrows : ∀ r ∈ R, r.length = 16 := by
    intro r hr
    rw [hR] at hr
    obtain ⟨e, _, rfl⟩ := List.mem_map.mp hr
    exact e.bytes_length
  have hdir : R.flatten.length = 16 * R.length := by
    clear hR hlenR
    induction R with
    | nil => rfl
    | cons r R ih =>
      rw [List.flatten_cons, List.length_append, hrows r (List.mem_cons_self _ _),
        ih (fun r' h' => hrows r' (List.mem_cons_of_mem _ h')), List.length_cons]
      omega
  have hfile : icoFileBytes iconSizes vec = hdr ++ (R.flatten ++ vec.flatten) := by
    rw [hhdrdef, hR]
    simp only [icoFileBytes, e0, List.append_assoc]
  obtain ⟨sp1, sp2⟩ := ico_split hdr R.flatten vec.flatten hhdr
  refine ⟨?_, ?_⟩
  · simp only [hfile, List.length_append, hhdr, hdir, hlenR, List.length_flatten]
    omega
  · intro i hi
    obtain ⟨e, g1, g2, g3⟩ := r2 i hi
    have hsum := sum_take_le vec i hi
    obtain ⟨f1, f2⟩ := e.bytes_fields (by omega) (by omega)
    refine ⟨e, ?_, g2, g3, by rw [f1, g2], by rw [f2, g3], ?_⟩
    · have hi' : i < R.length := by omega
      have hget : R[i] = e.bytes := by
        have := List.getElem?_map ICONDIRENTRY.bytes
          (icoEntries iconSizes 0 (6 + 16 * vec.length) vec) i
        rw [g1, Option.map_some', ← hR, List.getElem?_eq_getElem hi'] at this
        exact Option.some.inj this
      rw [hfile, Nat.mul_comm 16 i, sp1 (i * 16) (by omega), flatten_row 16 R hrows i hi', hget]
    · have hoff : e.dwImageOffset =
          6 + R.flatten.length + ((vec.take i).map List.length).sum := by
        rw [hdir, hlenR, g3]
      rw [hfile, hoff, sp2, g2]
      exact flatten_payload vec i hi

theorem icoFileBytes_layout_witness :
    6 + 16 * [[1, 2, 3], [4, 5]].length + ([[1, 2, 3], [4, 5]].map List.length).sum
        < 4294967296 ∧
    (icoFileBytes [16, 32, 48, 64, 128, 256] [[1, 2, 3], [4, 5]]).length =
      6 + 16 * [[1, 2, 3], [4, 5]].length + ([[1, 2, 3], [4, 5]].map List.length).sum ∧
    ∃ e : ICONDIRENTRY,
      ((icoFileBytes [16, 32, 48, 64, 128, 256] [[1, 2, 3], [4, 5]]).drop (6 + 16 * 1)).take 16
        = e.bytes ∧
      e.dwBytesInRes = 2 ∧ e.dwImageOffset = 41 ∧
      ((icoFileBytes [16, 32, 48, 64, 128, 256] [[1, 2, 3], [4, 5]]).drop
        e.dwImageOffset).take e.dwBytesInRes = [4, 5] :=
  ⟨by decide,
    (icoFileBytes_layout [16, 32, 48, 64, 128, 256] [[1, 2, 3], [4, 5]] (by decide)).1,
    match (icoFileBytes_layout [16, 32, 48, 64, 128, 256] [[1, 2, 3], [4, 5]] (by decide)).2 1
      (by decide) with
    | ⟨e, h1, h2, h3, _, _, h6⟩ => ⟨e, h1, h2, h3, h6⟩⟩

/-! ## ditherFloydSteinberg -/

theorem RGBFrom.refl (C lo : Nat) (d : List Nat) : RGBFrom C lo d d :=
  ⟨rfl, fun _ _ => rfl⟩

theorem RGBFrom.trans {C lo : Nat} {d d1 d2 : List Nat} (h1 : RGBFrom C lo d d1)
    (h2 : RGBFrom C lo d1 d2) : RGBFrom C lo d d2 :=
  ⟨h2.1.trans h1.1, fun q hq => (h2.2 q hq).trans (h1.2 q hq)⟩

theorem RGBFrom.mono {C lo lo' : Nat} {d d1 : List Nat} (hle : lo' ≤ lo)
    (h : RGBFrom C lo d d1) : RGBFrom C lo' d d1 :=
  ⟨h.1, fun q hq => h.2 q (fun m hm => hq m (Nat.le_trans hle hm))⟩

/-- A store of colour bytes at pixel `m` changes colour bytes of pixel `m` only. -/
theorem storeRGB_from (d : List Nat) (C m r g b a : Nat) (hC : C = 3 ∨ C = 4)
    (hm : m * C + C ≤ d.length) :
    RGBFrom C m d (storeRGB (C : Int) (m * C) r g b a d) := by
  obtain ⟨s1, _, _, _, s5⟩ := storeRGB_spec d C (m * C) r g b a hC hm
  exact ⟨s1, fun q hq => s5 q (hq m (Nat.le_refl m))⟩

theorem addError_nat (d : List Nat) (n W H C x y a0 : Nat) (eR eG eB f : Int) (hx : x < W)
    (hy : y < H) :
    _ditherFloydSteinbergAddError a0 x y eR eG eB f ⟨some d, n, (W : Int), (H : Int), (C : Int)⟩ =
      .returned ()
        ⟨some (storeRGB (C : Int) ((x + y * W) * C)
          (toUChar (stdClamp (((d.getD ((x + y * W) * C) 0 : Nat) : Int) + Int.tdiv (eR * f) 16)
            0 255))
          (toUChar (stdClamp (((d.getD ((x + y * W) * C + 1) 0 : Nat) : Int)
            + Int.tdiv (eG * f) 16) 0 255))
          (toUChar (stdClamp (((d.getD ((x + y * W) * C + 2) 0 : Nat) : Int)
            + Int.tdiv (eB * f) 16) 0 255)) a0 d),
          n, (W : Int), (H : Int), (C : Int)⟩ := by
  simp only [_ditherFloydSteinbergAddError, getPixel_nat d n W H C x y a0 hx hy,
    setPixel_nat d n W H C x y _ _ _ _ hx hy, storeRGB]

/-- One guarded call of `_ditherFloydSteinbergAddError`: whether the guard holds or not, the
call returns, and it changes colour bytes of the target pixel only, whose index is at least
`lo`. -/
theorem addError_step (cond : Prop) [Decidable cond] (d : List Nat) (n W H C x y lo a0 : Nat)
    (eR eG eB f : Int) (hC : C = 3 ∨ C = 4) (hd : d.length = W * H * C)
    (hcond : cond → x < W ∧ y < H ∧ lo ≤ x + y * W) :
    ∃ d', (if cond then
          _ditherFloydSteinbergAddError a0 x y eR eG eB f
            ⟨some d, n, (W : Int), (H : Int), (C : Int)⟩
        else .returned () ⟨some d, n, (W : Int), (H : Int), (C : Int)⟩) =
        .returned () ⟨some d', n, (W : Int), (H : Int), (C : Int)⟩ ∧
      RGBFrom C lo d d' := by
  by_cases hc : cond
  · obtain ⟨hx, hy, hlo⟩ := hcond hc
    have hb := pixel_in_bounds x y W H C hx hy
    refine ⟨_, by rw [if_pos hc, addError_nat d n W H C x y a0 eR eG eB f hx hy], ?_⟩
    exact (storeRGB_from d C (x + y * W) _ _ _ a0 hC (by omega)).mono hlo
  · exact ⟨d, by rw [if_neg hc], RGBFrom.refl C lo d⟩

theorem andThen_returned (img : CImage) (next : CImage → Outcome Unit) :
    (Outcome.returned () img).andThen next = next img := rfl

/-- The four guarded calls that hand the error of pixel `(x, y)` on: they return and
change colour bytes of later pixels only. -/
theorem diffuseError_spec (d : List Nat) (n W H C x y a0 : Nat) (eR eG eB : Int)
    (hC : C = 3 ∨ C = 4) (hd : d.length = W * H * C) (hx : x < W) (hy : y < H)
    (hW : W < 2147483648) :
    ∃ d', diffuseError a0 x y eR eG eB ⟨some d, n, (W : Int), (H : Int), (C : Int)⟩ =
        .returned () ⟨some d', n, (W : Int), (H : Int), (C : Int)⟩ ∧
      RGBFrom C (x + y * W + 1) d d' := by
  have hyW : (y + 1) * W = y * W + W := by ring
  obtain ⟨d2, h2, r2⟩ := addError_step ((x : Int) + 1 < (W : Int)) d n W H C (x + 1) y
    (x + y * W + 1) a0 eR eG eB 7 hC hd (by
      intro hc
      omega)
  obtain ⟨d3, h3, r3⟩ := addError_step ((x : Int) - 1 ≥ 0 ∧ (y : Int) + 1 < (H : Int)) d2 n
    W H C (toUInt ((x : Int) - 1)) (y + 1) (x + y * W + 1) a0 eR eG eB 3 hC
    (by rw [r2.1, hd]) (by
      intro hc
      have e : toUInt ((x : Int) - 1) = x - 1 := by
        have : (x : Int) - 1 = ((x - 1 : Nat) : Int) := by omega
        rw [this]
        exact toUInt_of_lt _ (by omega)
      rw [e, hyW]
      omega)
  obtain ⟨d4, h4, r4⟩ := addError_step ((y : Int) + 1 < (H : Int)) d3 n W H C x (y + 1)
    (x + y * W + 1) a0 eR eG eB 5 hC (by rw [r3.1, r2.1, hd]) (by
      intro hc
      rw [hyW]
      omega)
  obtain ⟨d5, h5, r5⟩ := addError_step
    ((x : Int) + 1 < (W : Int) ∧ (y : Int) + 1 < (H : Int)) d4 n W H C (x + 1) (y + 1)
    (x + y * W + 1) a0 eR eG eB 1 hC (by rw [r4.1, r3.1, r2.1, hd]) (by
      intro hc
      rw [hyW]
      omega)
  refine ⟨d5, ?_, ((r2.trans r3).trans r4).trans r5⟩
  unfold diffuseError
  simp only [h2, andThen_returned, h3, h4, h5]

/-- The body of the loops of `ditherFloydSteinberg` at a pixel inside the image: it returns,
the colour bytes of the pixel are 0 or 255 afterwards, and besides them only colour bytes of
later pixels have changed. -/
theorem ditherFloydSteinbergPixel_spec (d : List Nat) (n W H C x y a0 : Nat)
    (hC : C = 3 ∨ C = 4) (hd : d.length = W * H * C) (hx : x < W) (hy : y < H)
    (hW : W < 2147483648) :
    ∃ d', ditherFloydSteinbergPixel a0 x y ⟨some d, n, (W : Int), (H : Int), (C : Int)⟩ =
        .returned () ⟨some d', n, (W : Int), (H : Int), (C : Int)⟩ ∧
      RGBFrom C (x + y * W) d d' ∧
      ∀ k, k < 3 → d'[(x + y * W) * C + k]? = some 0 ∨ d'[(x + y * W) * C + k]? = some 255 := by
  have hb := pixel_in_bounds x y W H C hx hy
  obtain ⟨s1, s2, s3, s4, _⟩ := storeRGB_spec d C ((x + y * W) * C)
    (if d.getD ((x + y * W) * C) 0 > 127 then 255 else 0)
    (if d.getD ((x + y * W) * C + 1) 0 > 127 then 255 else 0)
    (if d.getD ((x + y * W) * C + 2) 0 > 127 then 255 else 0) a0 hC (by omega)
  have hfrom := storeRGB_from d C (x + y * W)
    (if d.getD ((x + y * W) * C) 0 > 127 then 255 else 0)
    (if d.getD ((x + y * W) * C + 1) 0 > 127 then 255 else 0)
    (if d.getD ((x + y * W) * C + 2) 0 > 127 then 255 else 0) a0 hC (by omega)
  obtain ⟨d', e, r⟩ := diffuseError_spec _ n W H C x y a0
    (((d.getD ((x + y * W) * C) 0 : Nat) : Int) -
      (((if d.getD ((x + y * W) * C) 0 > 127 then 255 else 0 : Nat) : Nat) : Int))
    (((d.getD ((x + y * W) * C + 1) 0 : Nat) : Int) -
      (((if d.getD ((x + y * W) * C + 1) 0 > 127 then 255 else 0 : Nat) : Nat) : Int))
    (((d.getD ((x + y * W) * C + 2) 0 : Nat) : Int) -
      (((if d.getD ((x + y * W) * C + 2) 0 > 127 then 255 else 0 : Nat) : Nat) : Int))
    hC (s1.trans hd) hx hy hW
  refine ⟨d', ?_, hfrom.trans (r.mono (Nat.le_succ _)), ?_⟩
  · simp only [ditherFloydSteinbergPixel, getPixel_nat d n W H C x y a0 hx hy,
      setPixel_nat d n W H C x y _ _ _ _ hx hy, andThen_returned]
    exact e
  · intro k hk
    have hkeep : d'[(x + y * W) * C + k]? =
        (storeRGB (C : Int) ((x + y * W) * C)
          (if d.getD ((x + y * W) * C) 0 > 127 then 255 else 0)
          (if d.getD ((x + y * W) * C + 1) 0 > 127 then 255 else 0)
          (if d.getD ((x + y * W) * C + 2) 0 > 127 then 255 else 0) a0 d)[(x + y * W) * C + k]? := by
      apply r.2
      intro m hm hF
      obtain ⟨h1, h2⟩ := hF
      have : (x + y * W + 1) * C ≤ m * C := Nat.mul_le_mul_right C hm
      rw [Nat.add_mul] at this
      omega
    rw [hkeep]
    have hk' : k = 0 ∨ k = 1 ∨ k = 2 := by omega
    rcases hk' with rfl | rfl | rfl
    · simp only [Nat.add_zero]
      rw [s2]
      split_ifs
      · exact Or.inr rfl
      · exact Or.inl rfl
    · rw [s3]
      split_ifs
      · exact Or.inr rfl
      · exact Or.inl rfl
    · rw [s4]
      split_ifs
      · exact Or.inr rfl
      · exact Or.inl rfl

/-- The loops of `ditherFloydSteinberg` over pixels in scan order: the loop returns, the
colour bytes of every visited pixel are 0 or 255 at the end, and a byte that is no colour
byte of a pixel at or after a visited one keeps its value. -/
theorem ditherFloydSteinbergLoop_spec (n W H C a0 : Nat) (hC : C = 3 ∨ C = 4)
    (hW : W < 2147483648) (L : List (Nat × Nat))
    (hsorted : L.Pairwise (fun a b => a.1 + a.2 * W < b.1 + b.2 * W))
    (hL : ∀ p ∈ L, p.1 < W ∧ p.2 < H) (d : List Nat) (hd : d.length = W * H * C) :
    ∃ d', forPixels (ditherFloydSteinbergPixel a0) L
        ⟨some d, n, (W : Int), (H : Int), (C : Int)⟩ =
        .returned () ⟨some d', n, (W : Int), (H : Int), (C : Int)⟩ ∧
      d'.length = d.length ∧
      (∀ p ∈ L, ∀ k, k < 3 →
        d'[(p.1 + p.2 * W) * C + k]? = some 0 ∨ d'[(p.1 + p.2 * W) * C + k]? = some 255) ∧
      (∀ q, (∀ p ∈ L, ∀ m, p.1 + p.2 * W ≤ m → ¬ rgbAt (m * C) q) → d'[q]? = d[q]?) := by
  induction L generalizing d with
  | nil =>
    exact ⟨d, rfl, rfl, fun p hp => absurd hp (List.not_mem_nil p), fun _ _ => rfl⟩
  | cons p L ih =>
    obtain ⟨x, y⟩ := p
    obtain ⟨hx, hy⟩ := hL (x, y) (List.mem_cons_self _ _)
    simp only at hx hy
    obtain ⟨hhead, htail⟩ := List.pairwise_cons.mp hsorted
    obtain ⟨d1, e1, r1, z1⟩ := ditherFloydSteinbergPixel_spec d n W H C x y a0 hC hd hx hy hW
    obtain ⟨d', e', l', z', k'⟩ := ih htail (fun p hp => hL p (List.mem_cons_of_mem _ hp)) d1
      (r1.1.trans hd)
    refine ⟨d', ?_, l'.trans r1.1, ?_, ?_⟩
    · simp only [forPixels, e1, andThen_returned]
      exact e'
    · intro p hp k hk
      rcases List.mem_cons.mp hp with h | h
      · subst h
        have hkeep : d'[(x + y * W) * C + k]? = d1[(x + y * W) * C + k]? := by
          apply k'
          intro p' hp' m hm hF
          obtain ⟨h1, h2⟩ := hF
          have hlt := hhead p' hp'
          simp only at hlt
          have : (x + y * W + 1) * C ≤ m * C := Nat.mul_le_mul_right C (by omega)
          rw [Nat.add_mul] at this
          omega
        rw [hkeep]
        exact z1 k hk
      · exact z' p h k hk
    · intro q hq
      rw [k' q (fun p' hp' => hq p' (List.mem_cons_of_mem _ hp'))]
      exact r1.2 q (hq (x, y) (List.mem_cons_self _ _))

/-- C12: on a non-empty buffer of any size `ditherFloydSteinberg` returns and changes nothing
but the bytes; afterwards every red, green and blue byte of every pixel is 0 or 255, and on
a 4-channel buffer every alpha byte has the value it had before. -/
theorem ditherFloydSteinberg_quantises (a0 : Nat) (self : CImage) (hi : IsImage self) :
    ∃ d d', self._mpData = some d ∧
      ditherFloydSteinberg a0 self = .returned () { self with _mpData := some d' } ∧
      d'.length = d.length ∧
      ∀ x y : Nat, (x : Int) < self._miWidth → (y : Int) < self._miHeight →
        (∀ k, k < 3 →
          d'.getD (pixelIndex self x y + k) 0 = 0 ∨ d'.getD (pixelIndex self x y + k) 0 = 255) ∧
        (self._miNumChannels = 4 →
          d'.getD (pixelIndex self x y + 3) 0 = d.getD (pixelIndex self x y + 3) 0) := by
  obtain ⟨d, W, H, C, rfl, hW, hH, hC, hlt, hd⟩ := hi.exists_nat
  obtain ⟨hWlt, _, _⟩ := factors_lt W H C hW hH (by omega) hlt
  obtain ⟨d', e, l, z, k⟩ := ditherFloydSteinbergLoop_spec (W * H * C) W H C a0 hC hWlt
    (scanPairs W H) (scanPairs_sorted W H) (fun p hp => (mem_scanPairs W H p).mp hp) d hd
  refine ⟨d, d', rfl, ?_, l, ?_⟩
  · simp only [ditherFloydSteinberg, Int.toNat_ofNat]
    exact e
  · intro x y hx hy
    simp only [pixelIndex, Int.toNat_ofNat] at hx hy ⊢
    have hmem : (x, y) ∈ scanPairs W H := (mem_scanPairs W H (x, y)).mpr ⟨by omega, by omega⟩
    constructor
    · intro j hj
      rw [List.getD_eq_getElem?_getD]
      rcases z (x, y) hmem j hj with h | h
      · exact Or.inl (by rw [h, Option.getD_some])
      · exact Or.inr (by rw [h, Option.getD_some])
    · intro h4
      have hC4 : C = 4 := by exact_mod_cast h4
      subst hC4
      rw [List.getD_eq_getElem?_getD, List.getD_eq_getElem?_getD, k ((x + y * W) * 4 + 3)]
      intro p _ m _ hF
      obtain ⟨h1, h2⟩ := hF
      omega

theorem ditherFloydSteinberg_quantises_witness :
    IsImage sampleAlpha ∧
    ∃ d d', sampleAlpha._mpData = some d ∧
      ditherFloydSteinberg 0 sampleAlpha = .returned () { sampleAlpha with _mpData := some d' } ∧
      d'.length = d.length ∧
      ∀ x y : Nat, (x : Int) < sampleAlpha._miWidth → (y : Int) < sampleAlpha._miHeight →
        (∀ k, k < 3 →
          d'.getD (pixelIndex sampleAlpha x y + k) 0 = 0 ∨
            d'.getD (pixelIndex sampleAlpha x y + k) 0 = 255) ∧
        (sampleAlpha._miNumChannels = 4 →
          d'.getD (pixelIndex sampleAlpha x y + 3) 0 =
            d.getD (pixelIndex sampleAlpha x y + 3) 0) :=
  ⟨by decide, ditherFloydSteinberg_quantises 0 sampleAlpha (by decide)⟩

/-! ## The Mandelbrot bands -/

/-- The loop that starts the workers, after `k` iterations with step `s`: band `i` is
`[i * s, (i + 1) * s)` and both counters hold `k * s`. -/
theorem mtBands_loop (s k : Nat) (hk : k * s < 4294967296) :
    (List.range k).foldl (fun st _ => mtBandsStep s st) ([], 0, 0) =
      ((List.range k).map (fun i => (i * s, (i + 1) * s)), k * s, k * s) := by
  induction k with
  | zero => simp
  | succ k ih =>
    have e : (k + 1) * s = k * s + s := by ring
    have hk1 : k * s < 4294967296 := by omega
    rw [List.range_succ, List.foldl_append, ih hk1]
    simp only [List.foldl_cons, List.foldl_nil, mtBandsStep, List.map_append, List.map_cons,
      List.map_nil]
    rw [Nat.mod_eq_of_lt (by omega), e]

/-- The bands of `fillMandelbrotMT` for a height `h` and `n ≥ 1` hardware threads. -/
theorem mtBands_eq (h n : Nat) (hlt : h < 2147483648) (hn : 1 ≤ n) :
    mtBands (h : Int) n = some ((List.range n).map (fun i => (i * (h / n), (i + 1) * (h / n)))
      ++ (if n * (h / n) < h then [(n * (h / n), h)] else [])) := by
  have hle : n * (h / n) ≤ h := Nat.mul_div_le h n
  have hn0 : ¬ n = 0 := by omega
  unfold mtBands
  rw [if_neg hn0, toUInt_of_lt h (by omega)]
  simp only
  have hle2 : n * (h / n) < 4294967296 := by omega
  rw [mtBands_loop (h / n) n hle2]
  simp only [Nat.mul_comm n (h / n)]
  split_ifs <;> simp

/-- C23: for a height `h ≥ 1` and `n ≥ 1` hardware threads, the row bands that
`fillMandelbrotMT` hands to its workers are `[i * s, (i + 1) * s)` for `i < n` with
`s = h / n`, followed by the band `[n * s, h)` exactly when `h` is not a multiple of `n`;
no row lies in two bands, and the rows that lie in a band are exactly the rows below `h`. -/
theorem mtBands_partition (h n : Nat) (hh : 1 ≤ h) (hlt : h < 2147483648) (hn : 1 ≤ n) :
    ∃ bands, mtBands (h : Int) n = some bands ∧
      bands = (List.range n).map (fun i => (i * (h / n), (i + 1) * (h / n)))
        ++ (if h % n = 0 then [] else [(n * (h / n), h)]) ∧
      bands.Pairwise (fun a b => ∀ y, ¬ ((a.1 ≤ y ∧ y < a.2) ∧ (b.1 ≤ y ∧ y < b.2))) ∧
      ∀ y, y < h ↔ ∃ b ∈ bands, b.1 ≤ y ∧ y < b.2 := by
  have hdm : n * (h / n) + h % n = h := Nat.div_add_mod h n
  have hiff : n * (h / n) < h ↔ ¬ h % n = 0 := by omega
  have hband : ∀ i, i < n → (i + 1) * (h / n) ≤ n * (h / n) := fun i hi =>
    Nat.mul_le_mul_right _ hi
  refine ⟨_, mtBands_eq h n hlt hn, ?_, ?_, ?_⟩
  · by_cases hm : h % n = 0
    · rw [if_pos hm, if_neg (by omega)]
    · rw [if_neg hm, if_pos (by omega)]
  · rw [List.pairwise_append]
    refine ⟨?_, ?_, ?_⟩
    · rw [List.pairwise_map]
      refine List.Pairwise.imp ?_ (List.pairwise_lt_range n)
      intro a b hab y hy
      have : (a + 1) * (h / n) ≤ b * (h / n) := Nat.mul_le_mul_right _ hab
      simp only at hy
      omega
    · split_ifs <;> simp
    · intro a ha b hb y hy
      simp only [List.mem_map, List.mem_range] at ha
      obtain ⟨i, hi, rfl⟩ := ha
      have := hband i hi
      split_ifs at hb with hlt2
      · simp only [List.mem_singleton] at hb
        subst hb
        simp only at hy
        omega
      · simp at hb
  · intro y
    constructor
    · intro hy
      by_cases hlow : y < n * (h / n)
      · have hs : 0 < h / n := by
          rcases Nat.eq_zero_or_pos (h / n) with h0 | h0
          · rw [h0] at hlow; simp at hlow
          · exact h0
        refine ⟨(y / (h / n) * (h / n), (y / (h / n) + 1) * (h / n)), ?_, ?_⟩
        · apply List.mem_append_left
          simp only [List.mem_map, List.mem_range]
          refine ⟨y / (h / n), ?_, rfl⟩
          rw [Nat.div_lt_iff_lt_mul hs]
          exact hlow
        · have h1 := Nat.div_add_mod y (h / n)
          have h2 := Nat.mod_lt y hs
          rw [Nat.mul_comm] at h1
          simp only [Nat.add_mul, Nat.one_mul]
          omega
      · refine ⟨(n * (h / n), h), ?_, ?_⟩
        · apply List.mem_append_right
          rw [if_pos (by omega)]
          exact List.mem_singleton.mpr rfl
        · simp only
          omega
    · rintro ⟨b, hb, hy⟩
      rw [List.mem_append] at hb
      rcases hb with hb | hb
      · simp only [List.mem_map, List.mem_range] at hb
        obtain ⟨i, hi, rfl⟩ := hb
        have := hband i hi
        simp only at hy
        omega
      · split_ifs at hb with hlt2
        · simp only [List.mem_singleton] at hb
          subst hb
          exact hy.2
        · simp at hb

/-- C23, at height 10 with 4 hardware threads: bands of 2 rows and the band `[8, 10)`. -/
theorem mtBands_partition_witness :
    ∃ bands, mtBands ((10 : Nat) : Int) 4 = some bands ∧
      bands = (List.range 4).map (fun i => (i * (10 / 4), (i + 1) * (10 / 4)))
        ++ (if 10 % 4 = 0 then [] else [(4 * (10 / 4), 10)]) ∧
      bands.Pairwise (fun a b => ∀ y, ¬ ((a.1 ≤ y ∧ y < a.2) ∧ (b.1 ≤ y ∧ y < b.2))) ∧
      ∀ y, y < 10 ↔ ∃ b ∈ bands, b.1 ≤ y ∧ y < b.2 :=
  mtBands_partition 10 4 (by decide) (by decide) (by decide)

/-! ## The Mandelbrot stores -/

/-- A pixel stored at offset `i` inside the storage: the length stays, channel `k` of the
pixel holds byte `k` of the colour, every byte outside the pixel keeps its value. -/
theorem storePixel_bytes (cur : List Nat) (C i : Nat) (col : Nat × Nat × Nat × Nat)
    (hC : C = 3 ∨ C = 4) (hi : i + C ≤ cur.length) :
    (storePixel (C : Int) i col.1 col.2.1 col.2.2.1 col.2.2.2 cur).length = cur.length ∧
    (∀ k, k < C →
      (storePixel (C : Int) i col.1 col.2.1 col.2.2.1 col.2.2.2 cur)[i + k]?
        = some (colourByte col k)) ∧
    (∀ q, (q < i ∨ i + C ≤ q) →
      (storePixel (C : Int) i col.1 col.2.1 col.2.2.1 col.2.2.2 cur)[q]? = cur[q]?) := by
  rcases hC with rfl | rfl
  · have h4 : ¬ ((3 : Nat) : Int) = 4 := by decide
    simp only [storePixel, h4, if_false, List.length_set, true_and]
    constructor
    · intro k hk
      have hk3 : k = 0 ∨ k = 1 ∨ k = 2 := by omega
      rcases hk3 with rfl | rfl | rfl
      · simp [List.getElem?_set, colourByte]; omega
      · simp [List.getElem?_set, colourByte]; omega
      · simp [List.getElem?_set, colourByte]; omega
    · intro q hq
      rw [List.getElem?_set_ne (by omega), List.getElem?_set_ne (by omega),
        List.getElem?_set_ne (by omega)]
  · have h4 : ((4 : Nat) : Int) = 4 := by decide
    simp only [storePixel, h4, if_true, List.length_set, true_and]
    constructor
    · intro k hk
      have hk3 : k = 0 ∨ k = 1 ∨ k = 2 ∨ k = 3 := by omega
      rcases hk3 with rfl | rfl | rfl | rfl
      · simp [List.getElem?_set, colourByte]; omega
      · simp [List.getElem?_set, colourByte]; omega
      · simp [List.getElem?_set, colourByte]; omega
      · simp [List.getElem?_set, colourByte]; omega
    · intro q hq
      rw [List.getElem?_set_ne (by omega), List.getElem?_set_ne (by omega),
        List.getElem?_set_ne (by omega), List.getElem?_set_ne (by omega)]

/-- `copyTo` from a source with storage, positive dimensions and 3 or 4 channels: it
returns, and the destination has the dimensions of the source. -/
theorem copyTo_nat (d : List Nat) (n W H C : Nat) (hW : 1 ≤ W) (hH : 1 ≤ H)
    (hWlt : W < 2147483648) (hHlt : H < 2147483648) (hC : C = 3 ∨ C = 4) (dest : CImage) :
    copyTo ⟨some d, n, (W : Int), (H : Int), (C : Int)⟩ false dest =
      .returned ()
        ⟨some (d.take n ++ (List.replicate (toUInt ((W : Int) * (H : Int) * (C : Int))) 0).drop n),
          toUInt ((W : Int) * (H : Int) * (C : Int)), (W : Int), (H : Int), (C : Int)⟩ := by
  have e := createBlank_returned W H C (free dest) hW hH hC
  rw [toInt_of_lt W hWlt, toInt_of_lt H hHlt] at e
  simp only [copyTo, Bool.false_eq_true, if_false, toUInt_of_lt W (by omega),
    toUInt_of_lt H (by omega), toUShort_of_lt C (by omega), e, Option.map_some']

/-- With a resampler that never fails, `resize` to a positive square size returns true on
every image with storage and 3 or 4 channels. -/
theorem resize_total (stbir : List Nat → Int → Int → Int → Int → Int → Option (List Nat))
    (hres : ∀ d w h w2 h2 c, stbir d w h w2 h2 c ≠ none) (d : List Nat) (n : Nat)
    (w h : Int) (C s : Nat) (hC : C = 3 ∨ C = 4) (hs : 1 ≤ s) (hslt : s < 2147483648) :
    ∃ out, resize stbir s s ⟨some d, n, w, h, (C : Int)⟩ = .returned true out := by
  have hC2 : (C : Int) = 3 ∨ (C : Int) = 4 := by
    rcases hC with h | h
    · exact Or.inl (by simp [h])
    · exact Or.inr (by simp [h])
  by_cases hsame : s = toUInt w ∧ s = toUInt h
  · exact ⟨_, by rw [resize]; exact if_pos hsame⟩
  · have hs1 : ¬ (s < 1 ∨ s < 1) := by omega
    have e := createBlank_returned s s C CImage.new hs hs hC
    rw [toInt_of_lt s hslt] at e
    obtain ⟨r, hr⟩ := Option.ne_none_iff_exists'.mp (hres d w h (s : Int) (s : Int) (C : Int))
    simp only [resize, hsame, if_false, hs1, hC2, if_true, toUShort_of_lt C (by omega), e,
      toInt_of_lt s hslt, hr, copyTo_nat r _ s s C hs hs hslt hslt hC]
    exact ⟨_, rfl⟩

/-- The icon sizes are positive and representable. -/
theorem iconSizes_bounds (size : Int) (h : size ∈ iconSizes) :
    1 ≤ toUInt size ∧ toUInt size < 2147483648 := by
  simp only [iconSizes, List.mem_cons, List.mem_singleton, List.not_mem_nil, or_false] at h
  rcases h with rfl | rfl | rfl | rfl | rfl | rfl <;> decide

/-- On a three-channel image `addAlphaChannel` returns an image of the same width and
height with four channels. -/
theorem addAlphaChannel_three (a : Nat) (d : List Nat) (n W H : Nat) (hW : 1 ≤ W)
    (hH : 1 ≤ H) (hWlt : W < 2147483648) (hHlt : H < 2147483648) :
    ∃ x m, addAlphaChannel a ⟨some d, n, (W : Int), (H : Int), 3⟩ =
      .returned () ⟨some x, m, (W : Int), (H : Int), 4⟩ := by
  have h34 : ¬ (3 : Int) = 4 := by decide
  have e := createBlank_returned W H 4 ⟨some d, n, (W : Int), (H : Int), 3⟩
    hW hH (Or.inr rfl)
  rw [toInt_of_lt W hWlt, toInt_of_lt H hHlt] at e
  have hc := copyTo_nat d n W H 3 hW hH hWlt hHlt (Or.inl rfl) CImage.new
  simp only [Nat.cast_ofNat] at e hc
  simp only [addAlphaChannel, h34, if_false, if_true, hc, toUInt_of_lt W (by omega),
    toUInt_of_lt H (by omega), e, Option.map_some']
  exact ⟨_, _, rfl⟩

/-- The header and the first eight bytes of each directory entry of the icon file of six
encoded images. -/
theorem icoFileBytes_six (vec : List (List Nat)) (hlen : vec.length = 6) :
    (icoFileBytes iconSizes vec).take 6 = [0, 0, 1, 0, 6, 0] ∧
    ∀ i, i < 6 →
      ((icoFileBytes iconSizes vec).drop (6 + 16 * i)).take 8 =
        [if iconSizes.getD i 0 = 256 then 0 else (iconSizes.getD i 0).toNat,
          if iconSizes.getD i 0 = 256 then 0 else (iconSizes.getD i 0).toNat,
          0, 0, 1, 0, 32, 0] := by
  match vec, hlen with
  | [p0, p1, p2, p3, p4, p5], _ =>
    constructor
    · simp [icoFileBytes, icoEntries, objectBytes, ICONDIRENTRY.bytes]
    · intro i hi
      have hi6 : i = 0 ∨ i = 1 ∨ i = 2 ∨ i = 3 ∨ i = 4 ∨ i = 5 := by omega
      rcases hi6 with rfl | rfl | rfl | rfl | rfl | rfl <;>
        simp [icoFileBytes, icoEntries, objectBytes, ICONDIRENTRY.bytes, iconSizes, toUChar]

/-! ## Buffers reached by successful calls -/

/-- A sound buffer is the empty one or is given by natural numbers. -/
theorem Sound.cases {img : CImage} (hs : Sound img) :
    img = ⟨none, 0, 0, 0, 0⟩ ∨
    ∃ (d : List Nat) (W H C : Nat),
      img = ⟨some d, W * H * C, (W : Int), (H : Int), (C : Int)⟩ ∧ 1 ≤ W ∧ 1 ≤ H ∧ 1 ≤ C ∧
      C ≤ 4 ∧ W * H * 4 < 2147483648 ∧ d.length = W * H * C := by
  rcases hs with hs | hs
  · exact Or.inl hs
  · right
    obtain ⟨d0, n, w, h, c⟩ := img
    obtain ⟨h1, h2, h3, h4, h5, h6, h7⟩ := hs
    simp only at h1 h2 h3 h4 h5 h6 h7
    cases d0 with
    | none => simp at h7
    | some d =>
      simp only [Option.map_some', Option.some.injEq] at h7
      obtain ⟨W, rfl⟩ := Int.eq_ofNat_of_zero_le (by omega : 0 ≤ w)
      obtain ⟨H, rfl⟩ := Int.eq_ofNat_of_zero_le (by omega : 0 ≤ h)
      obtain ⟨C, rfl⟩ := Int.eq_ofNat_of_zero_le (by omega : 0 ≤ c)
      have h5' : n = W * H * C := by exact_mod_cast h5
      have h6' : W * H * 4 < 2147483648 := by exact_mod_cast h6
      subst h5'
      exact ⟨d, W, H, C, rfl, by omega, by omega, by omega, by omega, h6', h7⟩

/-- A buffer given by natural numbers within the bounds is sound. -/
theorem Sound.of_dims (d : List Nat) (W H C : Nat) (hW : 1 ≤ W) (hH : 1 ≤ H) (hC1 : 1 ≤ C)
    (hC4 : C ≤ 4) (hlt : W * H * 4 < 2147483648) (hd : d.length = W * H * C) :
    Sound ⟨some d, W * H * C, (W : Int), (H : Int), (C : Int)⟩ := by
  right
  refine ⟨by simp; omega, by simp; omega, by simp; omega, by simp; omega, by push_cast; ring,
    by simp only; exact_mod_cast hlt, by simp [hd]⟩

/-- A sound buffer has the property the data model states. -/
theorem Sound.wellFormed {img : CImage} (hs : Sound img) : WellFormed img := by
  rcases hs.cases with rfl | ⟨d, W, H, C, rfl, hW, hH, hC1, hC4, hlt, hd⟩
  · decide
  · refine ⟨by push_cast; ring, by simp [hd], ?_⟩
    constructor
    · intro h
      cases h
    · rintro ⟨h, _⟩
      simp only at h
      have : W = 0 := by exact_mod_cast h
      omega

/-- Fewer than `2^29` pixels of at most 4 channels: the byte count is representable. -/
theorem small_bytes (W H C : Nat) (hC4 : C ≤ 4) (hlt : W * H * 4 < 2147483648) :
    W * H * C < 2147483648 := by
  have : W * H * C ≤ W * H * 4 := Nat.mul_le_mul_left _ hC4
  omega

/-- What a `createBlank` that returned was given, and what it left. -/
theorem createBlank_inv (w h c : Nat) (s out : CImage)
    (hret : createBlank w h c s = .returned () out) :
    1 ≤ w ∧ 1 ≤ h ∧ (c = 3 ∨ c = 4) ∧
      out = ⟨some (List.replicate (toUInt (toInt w * toInt h * (c : Int))) 0),
        toUInt (toInt w * toInt h * (c : Int)), toInt w, toInt h, (c : Int)⟩ := by
  unfold createBlank at hret
  split_ifs at hret with h1 h2 h3 h4
  simp only [Outcome.returned.injEq, true_and] at hret
  exact ⟨by omega, by omega, by omega, hret.symm⟩

/-- A `createBlank` of fewer than `2^29` pixels that returned leaves a sound buffer. -/
theorem createBlank_sound (w h c : Nat) (s out : CImage) (hsmall : w * h * 4 < 2147483648)
    (hret : createBlank w h c s = .returned () out) : Sound out := by
  obtain ⟨hw, hh, hc, rfl⟩ := createBlank_inv w h c s out hret
  obtain ⟨e1, e2, e3⟩ := createBlank_size w h c hw hh hc
    (small_bytes w h c (by omega) hsmall)
  rw [e3, e1, e2]
  exact Sound.of_dims _ w h c hw hh (by omega) (by omega) hsmall (by simp)

/-- Freeing a sound buffer leaves the empty buffer. -/
theorem free_sound (s : CImage) (hs : Sound s) : free s = ⟨none, 0, 0, 0, 0⟩ := by
  rcases hs.cases with rfl | ⟨d, W, H, C, rfl, _⟩ <;> rfl

/-- A source of one or two channels cannot be copied: `createBlank` refuses it. -/
theorem copyTo_fewChannels (d : List Nat) (n : Nat) (w h : Int) (C : Nat) (hC : C < 3)
    (dest out : CImage) :
    copyTo ⟨some d, n, w, h, (C : Int)⟩ false dest ≠ .returned () out := by
  intro hret
  unfold copyTo at hret
  simp only [Bool.false_eq_true, if_false] at hret
  split at hret
  · cases hret
  · rename_i img hcb
    obtain ⟨_, _, hc, _⟩ := createBlank_inv _ _ _ _ _ hcb
    rw [toUShort_of_lt C (by omega)] at hc
    omega

/-- A copy from a sound source that returned left the destination equal to the source,
which has 3 or 4 channels. -/
theorem copyFrom_sound (src dest out : CImage) (hs : Sound src)
    (hret : copyTo src false dest = .returned () out) :
    out = src ∧ Sound out ∧ (out._miNumChannels = 3 ∨ out._miNumChannels = 4) := by
  rcases hs.cases with rfl | ⟨d, W, H, C, rfl, hW, hH, hC1, hC4, hlt, hd⟩
  · simp [copyTo] at hret
  · by_cases hC : C = 3 ∨ C = 4
    · rw [copyTo_local d W H C hW hH hC (small_bytes W H C hC4 hlt) hd] at hret
      simp only [Outcome.returned.injEq, true_and] at hret
      subst hret
      refine ⟨rfl, hs, ?_⟩
      rcases hC with h | h
      · exact Or.inl (by simp [h])
      · exact Or.inr (by simp [h])
    · exact absurd hret (copyTo_fewChannels d _ _ _ C (by omega) dest out)

/-- A copy of an object onto itself that returned changed nothing. -/
theorem copySelf_inv (s out : CImage) (hret : copyTo s true s = .returned () out) :
    out = s := by
  unfold copyTo at hret
  split at hret
  · cases hret
  · simp only [if_true, Outcome.returned.injEq, true_and] at hret
    exact hret.symm

/-- A vertical flip of a sound buffer that returned leaves a sound buffer of the same
dimensions. -/
theorem flipVertically_sound (s out : CImage) (hs : Sound s)
    (hret : flipVertically s = .returned () out) :
    Sound out ∧ out._miNumChannels = s._miNumChannels := by
  rcases hs.cases with rfl | ⟨d, W, H, C, rfl, hW, hH, hC1, hC4, hlt, hd⟩
  · simp [flipVertically] at hret
  · have hb := small_bytes W H C hC4 hlt
    obtain ⟨_, _, hWC⟩ := factors_lt W H C hW hH hC1 hb
    rw [flipVertically_nat d W H C (by omega)] at hret
    simp only [Outcome.returned.injEq, true_and] at hret
    subst hret
    refine ⟨Sound.of_dims _ W H C hW hH hC1 hC4 hlt ?_, rfl⟩
    rw [flippedRows_length (W * C) H d (by rw [hd]; ring), hd]

/-- A rotation of a sound buffer that returned leaves a sound buffer with the same channel
count, which is 3 or 4. -/
theorem rotateClockwise_sound (col3 : Nat) (s out : CImage) (hs : Sound s)
    (hret : rotateClockwise col3 s = .returned () out) :
    Sound out ∧ (out._miNumChannels = 3 ∨ out._miNumChannels = 4) := by
  rcases hs.cases with rfl | ⟨d, W, H, C, rfl, hW, hH, hC1, hC4, hsm, hd⟩
  · simp [rotateClockwise, copyTo, CImage.new, free] at hret
  · by_cases hC : C = 3 ∨ C = 4
    · have hlt := small_bytes W H C hC4 hsm
      obtain ⟨hWlt, hHlt, _⟩ := factors_lt W H C hW hH hC1 hlt
      have hlt' : H * W * C < 2147483648 := by rw [Nat.mul_comm H W]; exact hlt
      have hL : ∀ p ∈ rectPairs W H, p.1 < W ∧ p.2 < H ∧ p.2 < H ∧ p.1 < W := by
        intro p hp
        obtain ⟨p1, p2⟩ := (mem_rectPairs W H p).mp hp
        exact ⟨p1, p2, p2, p1⟩
      have hdest : ∃ cur nd, cur.length = H * W * C ∧ nd = H * W * C ∧
          rotateClockwise col3 ⟨some d, W * H * C, (W : Int), (H : Int), (C : Int)⟩ =
            rotateLoop ⟨some d, W * H * C, (W : Int), (H : Int), (C : Int)⟩ (rectPairs W H)
              col3 ⟨some cur, nd, (H : Int), (W : Int), (C : Int)⟩ := by
        by_cases hsq : W = H
        · subst hsq
          refine ⟨d, W * W * C, hd, rfl, ?_⟩
          simp only [rotateClockwise, copyTo_local d W W C hW hH hC hlt hd, ne_eq,
            not_true_eq_false, if_false, Outcome.andThen, Int.toNat_ofNat]
        · have hne : (W : Int) ≠ (H : Int) := by omega
          refine ⟨List.replicate (H * W * C) 0, H * W * C, by simp, rfl, ?_⟩
          simp only [rotateClockwise, copyTo_local d W H C hW hH hC hlt hd, hne, ne_eq,
            not_false_eq_true, if_true, createBlank_of_dims H W C hH hW hC hlt',
            Outcome.andThen, Int.toNat_ofNat]
      obtain ⟨cur, nd, hcur, hnd, hrot⟩ := hdest
      subst hnd
      obtain ⟨o, e, o1, _, _⟩ := rotateLoop_spec d (W * H * C) (H * W * C) W H H W C hC hd
        hHlt hWlt (rectPairs W H) hL col3 cur hcur
      rw [hrot, e] at hret
      simp only [Outcome.returned.injEq, true_and] at hret
      subst hret
      refine ⟨Sound.of_dims o H W C hH hW hC1 hC4 (by rw [Nat.mul_comm H W]; exact hsm)
        (by rw [o1, hcur]), ?_⟩
      rcases hC with h | h
      · exact Or.inl (by simp [h])
      · exact Or.inr (by simp [h])
    · exfalso
      unfold rotateClockwise at hret
      split at hret
      · cases hret
      · rename_i old hcopy
        exact copyTo_fewChannels d _ _ _ C (by omega) _ _ hcopy

/-- The loop that sets the alpha bytes keeps the length of the storage. -/
theorem setAlpha_length (a : Nat) (L : List Nat) (d : List Nat) :
    (L.foldl (fun dd i => dd.set (i + 3) a) d).length = d.length := by
  induction L generalizing d with
  | nil => rfl
  | cons i L ih => rw [List.foldl_cons, ih, List.length_set]

/-- The copying loop of `addAlphaChannel` keeps the length of the new storage. -/
theorem addAlphaFill_length (old : List Nat) (a : Nat) (L : List Nat) (st : Nat × List Nat) :
    (L.foldl (addAlphaStep old a) st).2.length = st.2.length := by
  induction L generalizing st with
  | nil => rfl
  | cons i L ih => rw [List.foldl_cons, ih]; simp [addAlphaStep]

/-- The copying loop of `removeAlphaChannel` keeps the length of the new storage. -/
theorem removeAlphaFill_length (old : List Nat) (L : List Nat) (st st1 : Int × List Nat)
    (h : removeAlphaLoop old L st = some st1) : st1.2.length = st.2.length := by
  induction L generalizing st with
  | nil =>
    simp only [removeAlphaLoop, Option.some.injEq] at h
    rw [h]
  | cons i L ih =>
    unfold removeAlphaLoop at h
    cases hs : removeAlphaStep old st i with
    | none => rw [hs] at h; cases h
    | some s1 =>
      rw [hs] at h
      rw [ih s1 h]
      unfold removeAlphaStep at hs
      split_ifs at hs
      simp only [Option.some.injEq] at hs
      rw [← hs]
      simp

/-- An `addAlphaChannel` on a sound buffer that returned leaves a sound buffer of four
channels. -/
theorem addAlphaChannel_sound (a : Nat) (s out : CImage) (hs : Sound s)
    (hret : addAlphaChannel a s = .returned () out) :
    Sound out ∧ out._miNumChannels = 4 := by
  rcases hs.cases with rfl | ⟨d, W, H, C, rfl, hW, hH, hC1, hC4, hsm, hd⟩
  · simp [addAlphaChannel] at hret
  · have hC : C = 1 ∨ C = 2 ∨ C = 3 ∨ C = 4 := by omega
    rcases hC with rfl | rfl | rfl | rfl
    · simp [addAlphaChannel] at hret
    · simp [addAlphaChannel] at hret
    · have h34 : ¬ (3 : Int) = 4 := by decide
      have hc := copyTo_local d W H 3 hW hH (Or.inl rfl) (small_bytes W H 3 hC4 hsm) hd
        CImage.new
      have e := createBlank_of_dims W H 4 hW hH (Or.inr rfl) hsm
        ⟨some d, W * H * 3, (W : Int), (H : Int), 3⟩
      have e4 : toUShort 4 = 4 := by decide
      simp only [Nat.cast_ofNat, e4] at hc e
      simp only [addAlphaChannel, Nat.cast_ofNat, h34, if_false, if_true, hc, e,
        Option.map_some', Outcome.returned.injEq, true_and] at hret
      subst hret
      have := Sound.of_dims
        (((strideIndices (W * H * 4) 4).foldl (addAlphaStep d a)
          (0, List.replicate (W * H * 4) 0)).2) W H 4 hW hH (by omega) (by omega) hsm
        (by rw [addAlphaFill_length]; simp)
      simp only [Nat.cast_ofNat] at this
      exact ⟨this, rfl⟩
    · simp only [addAlphaChannel, Nat.cast_ofNat, if_true, Outcome.returned.injEq,
        true_and] at hret
      subst hret
      have := Sound.of_dims ((strideIndices (W * H * 4) 4).foldl (fun dd i => dd.set (i + 3) a) d)
        W H 4 hW hH (by omega) (by omega) hsm (by rw [setAlpha_length, hd])
      simp only [Nat.cast_ofNat] at this
      exact ⟨this, rfl⟩

/-- A `removeAlphaChannel` on a sound buffer that returned leaves a sound buffer of three
channels. -/
theorem removeAlphaChannel_sound (s out : CImage) (hs : Sound s)
    (hret : removeAlphaChannel s = some (.returned () out)) :
    Sound out ∧ out._miNumChannels = 3 := by
  rcases hs.cases with rfl | ⟨d, W, H, C, rfl, hW, hH, hC1, hC4, hsm, hd⟩
  · simp [removeAlphaChannel] at hret
  · have hC : C = 1 ∨ C = 2 ∨ C = 3 ∨ C = 4 := by omega
    rcases hC with rfl | rfl | rfl | rfl
    · simp [removeAlphaChannel] at hret
    · simp [removeAlphaChannel] at hret
    · simp [removeAlphaChannel] at hret
    · have hc := copyTo_local d W H 4 hW hH (Or.inr rfl) (small_bytes W H 4 hC4 hsm) hd
        CImage.new
      have e := createBlank_of_dims W H 3 hW hH (Or.inl rfl) (small_bytes W H 3 (by omega) hsm)
        ⟨some d, W * H * 4, (W : Int), (H : Int), 4⟩
      have e3 : toUShort 3 = 3 := by decide
      simp only [Nat.cast_ofNat, e3] at hc e
      simp only [removeAlphaChannel, Nat.cast_ofNat, ne_eq, not_true_eq_false, if_false, hc, e,
        Option.getD_some] at hret
      cases hl : removeAlphaLoop d (strideIndices (W * H * 3) 3)
          (0, List.replicate (W * H * 3) 0) with
      | none => rw [hl] at hret; cases hret
      | some st =>
        rw [hl] at hret
        simp only [Option.some.injEq, Outcome.returned.injEq, true_and] at hret
        subst hret
        have := Sound.of_dims st.2 W H 3 hW hH (by omega) (by omega) hsm
          (by rw [removeAlphaFill_length d _ _ st hl]; simp)
        simp only [Nat.cast_ofNat] at this
        exact ⟨this, rfl⟩

/-- A `resize` of a sound buffer to fewer than `2^29` pixels that returned true, with a
resampler that fills the destination storage, leaves a sound buffer: the buffer as it
was when the dimensions are the current ones, a buffer of 3 or 4 channels otherwise. -/
theorem resize_sound (stbir : List Nat → Int → Int → Int → Int → Int → Option (List Nat))
    (hfill : ∀ d w h w2 h2 c r, stbir d w h w2 h2 c = some r → r.length = (w2 * h2 * c).toNat)
    (w h : Nat) (s out : CImage) (hs : Sound s) (hsmall : w * h * 4 < 2147483648)
    (hret : resize stbir w h s = .returned true out) :
    Sound out ∧ (out = s ∨ out._miNumChannels = 3 ∨ out._miNumChannels = 4) := by
  rcases hs.cases with rfl | ⟨d, W, H, C, rfl, hW, hH, hC1, hC4, hsm, hd⟩
  · simp [resize] at hret
  · unfold resize at hret
    simp only at hret
    split_ifs at hret with h1 h2 h3
    · simp only [Outcome.returned.injEq, true_and] at hret
      subst hret
      exact ⟨hs, Or.inl rfl⟩
    · simp at hret
    · have hCnat : C = 3 ∨ C = 4 := by omega
      have hw1 : 1 ≤ w := by omega
      have hh1 : 1 ≤ h := by omega
      have hb := small_bytes w h C hC4 hsmall
      obtain ⟨e1, e2, e3⟩ := createBlank_size w h C hw1 hh1 hCnat hb
      have e := createBlank_returned w h C CImage.new hw1 hh1 hCnat
      rw [e3, e1, e2] at e
      rw [toUShort_of_lt C (by omega), e] at hret
      simp only at hret
      cases hst : stbir d (W : Int) (H : Int) (toInt w) (toInt h) (C : Int) with
      | none =>
        rw [hst] at hret
        simp at hret
      | some r =>
        rw [hst] at hret
        simp only at hret
        have hr := hfill _ _ _ _ _ _ _ hst
        rw [e1, e2] at hr
        have hr2 : r.length = w * h * C := by
          rw [hr]
          have : (w : Int) * (h : Int) * (C : Int) = ((w * h * C : Nat) : Int) := by
            push_cast; ring
          rw [this, Int.toNat_ofNat]
        rw [copyTo_local r w h C hw1 hh1 hCnat hb hr2] at hret
        simp only [Outcome.returned.injEq, true_and] at hret
        subst hret
        refine ⟨Sound.of_dims r w h C hw1 hh1 hC1 hC4 hsmall hr2, Or.inr ?_⟩
        rcases hCnat with hc | hc
        · exact Or.inl (by simp [hc])
        · exact Or.inr (by simp [hc])
    · simp at hret

/-- The bytes a `read` leaves in a destination of `n` bytes are `n` bytes. -/
theorem IfStream.read_length (s : IfStream) (old : List Nat) (n : Nat)
    (hold : old.length = n) : (s.read old n).1.length = n := by
  unfold IfStream.read
  split_ifs with h1 h2
  · simp only [List.length_take]
    omega
  · simp only [List.length_append, List.length_drop]
    omega
  · exact hold

/-- The length of an indeterminate region. -/
theorem Indeterminate.region_length (f : Nat → Nat) (n : Nat) :
    (Indeterminate.bytes f n).length = n := by
  simp [Indeterminate.bytes]

/-- The decoder on an opened file, written with the header fields of `difHeader`: the
marker test, the header check, the payload and trailer reads, the trailer test and the
optional flip. -/
theorem loadDIF_unfold (ws : Nat) (mem : Indeterminate) (content : List Nat) (f : Bool)
    (self : CImage) :
    _loadDIF ws mem (some content) f self =
      (let file0 : IfStream := { rest := content, good := true }
      let r1 := file0.read (Indeterminate.bytes mem.cMagic 4) 4
      let r2 := r1.2.read (Indeterminate.bytes mem.width ws) ws
      let r3 := r2.2.read (Indeterminate.bytes mem.height ws) ws
      let r4 := r3.2.read (Indeterminate.bytes mem.numChannels 1) 1
      let r5 := r4.2.read (Indeterminate.bytes mem.dataSize ws) ws
      let hdr := difHeader ws mem content
      if badMagic r1.1 then .returned false self
      else if headerRejected ws hdr.1 hdr.2.1 hdr.2.2.1 hdr.2.2.2 then .returned false self
      else
        let uiDataSize := toUInt (hdr.2.2.2 : Int)
        let r6 := r5.2.read (Indeterminate.bytes mem.heap uiDataSize) uiDataSize
        let r7 := r6.2.read r1.1 4
        let loaded : CImage :=
          { _mpData := some r6.1, _muiDataSize := uiDataSize, _miWidth := toInt hdr.1,
            _miHeight := toInt hdr.2.1, _miNumChannels := (hdr.2.2.1 : Int) }
        if badMagic r7.1 then .returned false { loaded with _mpData := none }
        else if f then
          match flipVertically loaded with
          | .thrown what img => .thrown what img
          | .returned _ img => .returned true img
        else .returned true loaded) := by
  rfl

/-- A vertical flip that returned kept the channel count. -/
theorem flipVertically_channels (s out : CImage) (hret : flipVertically s = .returned () out) :
    out._miNumChannels = s._miNumChannels := by
  unfold flipVertically at hret
  split at hret
  · cases hret
  · simp only [Outcome.returned.injEq, true_and] at hret
    subst hret
    rfl

/-- A stream the decoder accepts leaves a channel count of 1, 2, 3 or 4. -/
theorem loadDIF_channels (ws : Nat) (mem : Indeterminate) (content : List Nat) (f : Bool)
    (self out : CImage) (hret : _loadDIF ws mem (some content) f self = .returned true out) :
    1 ≤ out._miNumChannels ∧ out._miNumChannels ≤ 4 := by
  rw [loadDIF_unfold] at hret
  simp only at hret
  split_ifs at hret with hb hrej hb2 hf
  · simp at hret
  · simp at hret
  · simp at hret
  · have hc : 1 ≤ (difHeader ws mem content).2.2.1 ∧ (difHeader ws mem content).2.2.1 ≤ 4 := by
      unfold headerRejected at hrej
      omega
    split at hret
    · cases hret
    · rename_i img hflip
      simp only [Outcome.returned.injEq, true_and] at hret
      subst hret
      rw [flipVertically_channels _ _ hflip]
      simp only
      omega
  · have hc : 1 ≤ (difHeader ws mem content).2.2.1 ∧ (difHeader ws mem content).2.2.1 ≤ 4 := by
      unfold headerRejected at hrej
      omega
    simp only [Outcome.returned.injEq, true_and] at hret
    subst hret
    simp only
    omega

/-- A stream the decoder accepts, whose header holds fewer than `2^29` pixels and is read in
words of at least 4 bytes, leaves a sound buffer. -/
theorem loadDIF_sound (ws : Nat) (mem : Indeterminate) (content : List Nat) (f : Bool)
    (self out : CImage) (hws : 4 ≤ ws)
    (hsmall : (difHeader ws mem content).1 * (difHeader ws mem content).2.1 * 4 < 2147483648)
    (hret : _loadDIF ws mem (some content) f self = .returned true out) : Sound out := by
  rw [loadDIF_unfold] at hret
  simp only at hret
  generalize difHeader ws mem content = hdr at hret hsmall
  obtain ⟨width, height, nc, ds⟩ := hdr
  simp only at hret hsmall
  have hlen := IfStream.read_length
    (IfStream.read
      (IfStream.read
        (IfStream.read
          (IfStream.read
            (IfStream.read { rest := content, good := true }
              (Indeterminate.bytes mem.cMagic 4) 4).2
            (Indeterminate.bytes mem.width ws) ws).2
          (Indeterminate.bytes mem.height ws) ws).2
        (Indeterminate.bytes mem.numChannels 1) 1).2
      (Indeterminate.bytes mem.dataSize ws) ws).2
    (Indeterminate.bytes mem.heap (toUInt (ds : Int))) (toUInt (ds : Int))
    (Indeterminate.region_length _ _)
  generalize (IfStream.read
      (IfStream.read
        (IfStream.read
          (IfStream.read
            (IfStream.read
              (IfStream.read { rest := content, good := true }
                (Indeterminate.bytes mem.cMagic 4) 4).2
              (Indeterminate.bytes mem.width ws) ws).2
            (Indeterminate.bytes mem.height ws) ws).2
          (Indeterminate.bytes mem.numChannels 1) 1).2
        (Indeterminate.bytes mem.dataSize ws) ws).2
      (Indeterminate.bytes mem.heap (toUInt (ds : Int))) (toUInt (ds : Int))) = r6 at hret hlen
  have hloaded : ¬ headerRejected ws width height nc ds →
      (⟨some r6.1, toUInt (ds : Int), toInt width, toInt height, (nc : Int)⟩ : CImage) =
        ⟨some r6.1, width * height * nc, (width : Int), (height : Int), (nc : Int)⟩ ∧
      Sound ⟨some r6.1, width * height * nc, (width : Int), (height : Int), (nc : Int)⟩ := by
    intro hrej
    unfold headerRejected at hrej
    have hw : 1 ≤ width := by omega
    have hh : 1 ≤ height := by omega
    have hc1 : 1 ≤ nc := by omega
    have hc4 : nc ≤ 4 := by omega
    have hb := small_bytes width height nc hc4 hsmall
    obtain ⟨hwlt, hhlt, _⟩ := factors_lt width height nc hw hh hc1 hb
    have hds : ds = width * height * nc := by
      have := Nat.mod_eq_of_lt (lt_word ws (width * height * nc) hws (by omega))
      omega
    subst hds
    rw [toUInt_of_lt _ (by omega)] at hlen ⊢
    rw [toInt_of_lt width hwlt, toInt_of_lt height hhlt]
    exact ⟨rfl, Sound.of_dims r6.1 width height nc hw hh hc1 hc4 hsmall hlen⟩
  split_ifs at hret with hb hrej hb2 hf
  · simp at hret
  · simp at hret
  · simp at hret
  · obtain ⟨e, hsound⟩ := hloaded hrej
    rw [e] at hret
    split at hret
    · cases hret
    · rename_i img hflip
      simp only [Outcome.returned.injEq, true_and] at hret
      subst hret
      exact (flipVertically_sound _ _ hsound hflip).1
  · obtain ⟨e, hsound⟩ := hloaded hrej
    rw [e] at hret
    simp only [Outcome.returned.injEq, true_and] at hret
    subst hret
    exact hsound

/-- A call that completed successfully on a sound buffer, within the size bounds and with a
resampler that fills the destination storage, leaves a sound buffer. -/
theorem BufferOp.apply_sound
    (stbir : List Nat → Int → Int → Int → Int → Int → Option (List Nat))
    (hfill : ∀ d w h w2 h2 c r, stbir d w h w2 h2 c = some r → r.length = (w2 * h2 * c).toNat)
    (op : BufferOp) (s out : CImage) (hs : Sound s) (hop : op.small)
    (happ : op.apply stbir s = some out) : Sound out := by
  cases op with
  | createBlank w h c =>
    simp only [BufferOp.apply] at happ
    split at happ
    · simp only [Option.some.injEq] at happ
      subst happ
      rename_i img hret
      exact createBlank_sound w h c s _ hop hret
    · cases happ
  | free =>
    simp only [BufferOp.apply, Option.some.injEq] at happ
    subst happ
    rw [free_sound s hs]
    exact Or.inl rfl
  | copyFrom src =>
    simp only [BufferOp.apply] at happ
    split at happ
    · simp only [Option.some.injEq] at happ
      subst happ
      rename_i img hret
      exact (copyFrom_sound src s _ hop hret).2.1
    · cases happ
  | copySelf =>
    simp only [BufferOp.apply] at happ
    split at happ
    · simp only [Option.some.injEq] at happ
      subst happ
      rename_i img hret
      rw [copySelf_inv s _ hret]
      exact hs
    · cases happ
  | flipVertically =>
    simp only [BufferOp.apply] at happ
    split at happ
    · simp only [Option.some.injEq] at happ
      subst happ
      rename_i img hret
      exact (flipVertically_sound s _ hs hret).1
    · cases happ
  | rotateClockwise col3 =>
    simp only [BufferOp.apply] at happ
    split at happ
    · simp only [Option.some.injEq] at happ
      subst happ
      rename_i img hret
      exact (rotateClockwise_sound col3 s _ hs hret).1
    · cases happ
  | addAlphaChannel a =>
    simp only [BufferOp.apply] at happ
    split at happ
    · simp only [Option.some.injEq] at happ
      subst happ
      rename_i img hret
      exact (addAlphaChannel_sound a s _ hs hret).1
    · cases happ
  | removeAlphaChannel =>
    simp only [BufferOp.apply] at happ
    cases hr : X.removeAlphaChannel s with
    | none => rw [hr] at happ; cases happ
    | some o =>
      rw [hr] at happ
      cases o with
      | thrown what img => cases happ
      | returned u img =>
        simp only [Option.some.injEq] at happ
        subst happ
        exact (removeAlphaChannel_sound s _ hs hr).1
  | resize w h =>
    simp only [BufferOp.apply] at happ
    split at happ
    · simp only [Option.some.injEq] at happ
      subst happ
      rename_i img hret
      exact (resize_sound stbir hfill w h s _ hs hop hret).1
    · cases happ
  | loadDIF ws mem content f =>
    simp only [BufferOp.apply] at happ
    split at happ
    · simp only [Option.some.injEq] at happ
      subst happ
      rename_i img hret
      simp only [load, if_true] at hret
      exact loadDIF_sound ws mem content f _ _ hop.1 hop.2 hret
    · cases happ

/-- A sequence of calls that all completed successfully, from a sound buffer, leaves a
sound buffer. -/
theorem runOps_sound (stbir : List Nat → Int → Int → Int → Int → Int → Option (List Nat))
    (hfill : ∀ d w h w2 h2 c r, stbir d w h w2 h2 c = some r → r.length = (w2 * h2 * c).toNat)
    (ops : List BufferOp) (s out : CImage) (hs : Sound s) (hsmall : ∀ op ∈ ops, op.small)
    (hrun : runOps stbir ops s = some out) : Sound out := by
  induction ops generalizing s with
  | nil =>
    simp only [runOps, Option.some.injEq] at hrun
    subst hrun
    exact hs
  | cons op rest ih =>
    simp only [runOps] at hrun
    split at hrun
    · cases hrun
    · rename_i img happ
      exact ih img (BufferOp.apply_sound stbir hfill op s img hs
        (hsmall op (List.mem_cons_self _ _)) happ)
        (fun o ho => hsmall o (List.mem_cons_of_mem _ ho)) hrun

/-- C24: with 8-byte words the decoder accepts a DIF stream whose header says 65536 x 65536
pixels of three channels and payload length `3 * 2^32` and which holds no payload. The
header passes the size check, made in `size_t`, and the size is then narrowed to
`unsigned int`: the load, the only call of the sequence, succeeds from the empty buffer and
leaves width 65536, height 65536, three channels, recorded size 0 and an empty byte
sequence, so the recorded size is not `width * height * channels`. -/
theorem load_overflow_not_wellFormed :
    runOps stbirNone [.loadDIF 8 Indeterminate.zero overflowDif false] CImage.new
      = some ⟨some [], 0, 65536, 65536, 3⟩ ∧
    ¬ WellFormed ⟨some [], 0, 65536, 65536, 3⟩ := by
  constructor
  · decide
  · decide

/-- Sequences in which no size is large: from the empty buffer, after any sequence of
`createBlank`, `free`, `copyTo` (as destination), `flipVertically`, `rotateClockwise`,
`addAlphaChannel`, `removeAlphaChannel`, `resize` and DIF `load` calls that all completed
successfully, every size involved staying below `2^29` pixels and the resampler filling its
destination, the recorded size is `width * height * channels` and the length of the byte
sequence, and storage is absent exactly when width, height and channel count are all 0. -/
theorem runOps_wellFormed
    (stbir : List Nat → Int → Int → Int → Int → Int → Option (List Nat))
    (hfill : ∀ d w h w2 h2 c r, stbir d w h w2 h2 c = some r → r.length = (w2 * h2 * c).toNat)
    (ops : List BufferOp) (out : CImage) (hsmall : ∀ op ∈ ops, op.small)
    (hrun : runOps stbir ops CImage.new = some out) : WellFormed out :=
  (runOps_sound stbir hfill ops CImage.new out (Or.inl rfl) hsmall hrun).wellFormed

/-- A sequence of ten calls that ends with a copy from the 2 x 2 image. -/
theorem runOps_wellFormed_witness :
    ∃ out, runOps stbirBlack sampleOps CImage.new = some out ∧ WellFormed out :=
  have hrun : runOps stbirBlack sampleOps CImage.new = some sampleSquare := by decide
  ⟨sampleSquare, hrun,
    runOps_wellFormed stbirBlack
      (by
        intro d w h w2 h2 c r hr
        simp only [stbirBlack, Option.some.injEq] at hr
        subst hr
        simp)
      sampleOps sampleSquare
      (by
        intro op hop
        simp only [sampleOps, List.mem_cons, List.mem_singleton, List.not_mem_nil,
          or_false] at hop
        rcases hop with rfl | rfl | rfl | rfl | rfl | rfl | rfl | rfl | rfl | rfl <;>
          first
          | trivial
          | (simp only [BufferOp.small]; decide))
      hrun⟩

/-! ## Channel counts -/

/-- A `copyTo` onto another object that returned left a channel count of 3 or 4, the
channel count of the source converted to `unsigned short`. -/
theorem copyTo_channels (src dest out : CImage)
    (hret : copyTo src false dest = .returned () out) :
    (out._miNumChannels = 3 ∨ out._miNumChannels = 4) ∧
      out._miNumChannels = (toUShort src._miNumChannels : Int) := by
  unfold copyTo at hret
  split at hret
  · cases hret
  · simp only [Bool.false_eq_true, if_false] at hret
    split at hret
    · cases hret
    · rename_i img hcb
      obtain ⟨_, _, hc, rfl⟩ := createBlank_inv _ _ _ _ _ hcb
      simp only [Outcome.returned.injEq, true_and] at hret
      subst hret
      simp only [and_true]
      omega

/-- The loop of `rotateClockwise` keeps the channel count of the destination. -/
theorem rotateLoop_channels (old : CImage) (L : List (Nat × Nat)) (a : Nat) (s out : CImage)
    (hret : rotateLoop old L a s = .returned () out) :
    out._miNumChannels = s._miNumChannels := by
  induction L generalizing a s with
  | nil =>
    simp only [rotateLoop, Outcome.returned.injEq, true_and] at hret
    subst hret
    rfl
  | cons p L ih =>
    obtain ⟨x, y⟩ := p
    simp only [rotateLoop] at hret
    split at hret
    · cases hret
    · split at hret
      · cases hret
      · rename_i s1 hset
        rw [ih _ _ hret]
        unfold setPixel at hset
        split_ifs at hset
        simp only [Outcome.returned.injEq, true_and] at hset
        subst hset
        rfl

/-- An `addAlphaChannel` that returned left four channels. -/
theorem addAlphaChannel_channels (a : Nat) (s out : CImage)
    (hret : addAlphaChannel a s = .returned () out) : out._miNumChannels = 4 := by
  unfold addAlphaChannel at hret
  split at hret
  · cases hret
  · split_ifs at hret with h4 h3
    · simp only [Outcome.returned.injEq, true_and] at hret
      subst hret
      exact h4
    · split at hret
      · cases hret
      · split at hret
        · cases hret
        · rename_i img hcb
          obtain ⟨_, _, _, rfl⟩ := createBlank_inv _ _ _ _ _ hcb
          simp only [Outcome.returned.injEq, true_and] at hret
          subst hret
          rfl

/-- A `removeAlphaChannel` that returned left three channels. -/
theorem removeAlphaChannel_channels (s out : CImage)
    (hret : removeAlphaChannel s = some (.returned () out)) : out._miNumChannels = 3 := by
  unfold removeAlphaChannel at hret
  split at hret
  · cases hret
  · split_ifs at hret with h4
    · cases hret
    split at hret
    · cases hret
    · split at hret
      · cases hret
      · rename_i img hcb
        obtain ⟨_, _, _, rfl⟩ := createBlank_inv _ _ _ _ _ hcb
        split at hret
        · cases hret
        · simp only [Option.some.injEq, Outcome.returned.injEq, true_and] at hret
          subst hret
          rfl

/-- A `rotateClockwise` that returned, on a buffer whose channel count is at most 4, left
a channel count of 3 or 4. -/
theorem rotateClockwise_channels (col3 : Nat) (s out : CImage)
    (h0 : 0 ≤ s._miNumChannels) (h4 : s._miNumChannels ≤ 4)
    (hret : rotateClockwise col3 s = .returned () out) :
    out._miNumChannels = 3 ∨ out._miNumChannels = 4 := by
  have hus : (toUShort s._miNumChannels : Int) = s._miNumChannels := by
    unfold toUShort
    rw [Int.emod_eq_of_lt h0 (by omega), Int.toNat_of_nonneg h0]
  unfold rotateClockwise at hret
  split at hret
  · cases hret
  · rename_i old hcopy
    obtain ⟨hold, hold2⟩ := copyTo_channels _ _ _ hcopy
    rw [hold2, hus] at hold
    split_ifs at hret with hsq
    · cases hcb : createBlank (toUInt s._miHeight) (toUInt s._miWidth)
        (toUShort s._miNumChannels) s with
      | thrown what img =>
        rw [hcb] at hret
        cases hret
      | returned v img =>
        rw [hcb] at hret
        simp only [Outcome.andThen] at hret
        obtain ⟨_, _, _, rfl⟩ := createBlank_inv _ _ _ _ _ hcb
        rw [rotateLoop_channels _ _ _ _ _ hret]
        simp only
        rw [hus]
        exact hold
    · simp only [Outcome.andThen] at hret
      rw [rotateLoop_channels _ _ _ _ _ hret]
      exact hold

/-- A `resize` that returned true left the buffer as it was (the dimensions asked for
being the current ones) or left a channel count of 3 or 4. -/
theorem resize_channels (stbir : List Nat → Int → Int → Int → Int → Int → Option (List Nat))
    (w h : Nat) (s out : CImage) (hret : resize stbir w h s = .returned true out) :
    out = s ∨ out._miNumChannels = 3 ∨ out._miNumChannels = 4 := by
  unfold resize at hret
  split at hret
  · simp at hret
  · split_ifs at hret with h1 h2 h3
    · simp only [Outcome.returned.injEq, true_and] at hret
      exact Or.inl hret.symm
    · simp at hret
    · split at hret
      · cases hret
      · split at hret
        · simp at hret
        · split at hret
          · cases hret
          · rename_i img hcopy
            simp only [Outcome.returned.injEq, true_and] at hret
            subst hret
            exact Or.inr (copyTo_channels _ _ _ hcopy).1
    · simp at hret

/-- C25, counterexample: the decoder accepts a DIF stream of a 1 x 1 image with one
channel; the load succeeds and leaves a non-empty buffer whose channel count is 1. -/
theorem load_one_channel :
    load 8 Indeterminate.zero stbLoadNone true (some greyDif) false CImage.new
      = .returned true ⟨some [77], 1, 1, 1, 1⟩ := by
  decide

/-- C25: a `createBlank`, a `copyTo` onto another object, an `addAlphaChannel` (4) and a
`removeAlphaChannel` (3) that succeed leave a channel count of 3 or 4; so does a
`rotateClockwise` of a buffer of at most 4 channels; a `resize` that succeeds leaves the
buffer as it was or leaves 3 or 4 channels; decoding a DIF stream that the decoder accepts
leaves a channel count of 1, 2, 3 or 4. -/
theorem channel_count_after :
    (∀ w h c s out, createBlank w h c s = .returned () out →
      out._miNumChannels = 3 ∨ out._miNumChannels = 4) ∧
    (∀ src dest out, copyTo src false dest = .returned () out →
      out._miNumChannels = 3 ∨ out._miNumChannels = 4) ∧
    (∀ a s out, addAlphaChannel a s = .returned () out → out._miNumChannels = 4) ∧
    (∀ s out, removeAlphaChannel s = some (.returned () out) → out._miNumChannels = 3) ∧
    (∀ col3 s out, 0 ≤ s._miNumChannels → s._miNumChannels ≤ 4 →
      rotateClockwise col3 s = .returned () out →
      out._miNumChannels = 3 ∨ out._miNumChannels = 4) ∧
    (∀ stbir w h s out, resize stbir w h s = .returned true out →
      out = s ∨ out._miNumChannels = 3 ∨ out._miNumChannels = 4) ∧
    (∀ ws mem stbLoad content f s out,
      load ws mem stbLoad true (some content) f s = .returned true out →
      1 ≤ out._miNumChannels ∧ out._miNumChannels ≤ 4) := by
  refine ⟨?_, ?_, ?_, ?_, ?_, ?_, ?_⟩
  · intro w h c s out hret
    obtain ⟨_, _, hc, rfl⟩ := createBlank_inv w h c s out hret
    simp only
    omega
  · intro src dest out hret
    exact (copyTo_channels src dest out hret).1
  · exact addAlphaChannel_channels
  · exact removeAlphaChannel_channels
  · exact rotateClockwise_channels
  · exact resize_channels
  · intro ws mem stbLoad content f s out hret
    simp only [load, if_true] at hret
    exact loadDIF_channels ws mem content f _ out hret

/-- C26, counterexample: `createBlank(0, 1, 3)` on the 1 x 2 image throws and leaves the
buffer empty, not as it was. -/
theorem createBlank_failure_mutates :
    createBlank 0 1 3 sampleImage = .thrown "Given width < 1." ⟨none, 0, 0, 0, 0⟩ ∧
    (createBlank 0 1 3 sampleImage).image ≠ sampleImage := by
  constructor
  · decide
  · decide

/-- C26: `createBlank` with a width below 1, a height below 1 or a channel count other
than 3 or 4, on a non-empty buffer, throws and leaves the buffer empty: no storage, width,
height, channel count and recorded size 0. -/
theorem createBlank_failure_frees (w h c : Nat) (img : CImage) (hi : IsImage img)
    (hbad : w < 1 ∨ h < 1 ∨ c < 3 ∨ 4 < c) :
    ∃ what, createBlank w h c img = .thrown what ⟨none, 0, 0, 0, 0⟩ := by
  obtain ⟨d, W, H, C, rfl, _⟩ := hi.exists_nat
  unfold createBlank
  simp only [free]
  split_ifs with h1 h2 h3 h4
  · exact ⟨_, rfl⟩
  · exact ⟨_, rfl⟩
  · exact ⟨_, rfl⟩
  · exact ⟨_, rfl⟩
  · omega

/-- C26, on the 1 x 2 image with a channel count of 5. -/
theorem createBlank_failure_frees_witness :
    ∃ what, createBlank 4 4 5 sampleImage = .thrown what ⟨none, 0, 0, 0, 0⟩ :=
  createBlank_failure_frees 4 4 5 sampleImage (by decide) (by decide)

/-! ## The colour ramp -/

theorem CFloat.lt_fin (a b : Rat) : (CFloat.fin a).lt (.fin b) = decide (a < b) := rfl

theorem CFloat.le_fin (a b : Rat) : (CFloat.fin a).le (.fin b) = decide (a ≤ b) := rfl

/-- A position in `[0, 1]` is a finite value. -/
theorem unit_cases (f : CFloat)
    (h : (CFloat.fin 0).le f = true ∧ f.le (.fin 1) = true) :
    ∃ q : Rat, f = .fin q ∧ 0 ≤ q ∧ q ≤ 1 := by
  cases f with
  | nan => simp [CFloat.le] at h
  | negInf => simp [CFloat.le] at h
  | fin q =>
    simp only [CFloat.le_fin, decide_eq_true_eq] at h
    exact ⟨q, rfl, h.1, h.2⟩
  | posInf => simp [CFloat.le] at h

/-- A number clamped to `[0, 1]` lies in `[0, 1]`. -/
theorem clampFloat_unit (v : CFloat) (hv : v ≠ .nan) :
    (CFloat.fin 0).le (clampFloat v (.fin 0) (.fin 1)) = true ∧
      (clampFloat v (.fin 0) (.fin 1)).le (.fin 1) = true := by
  have h01 : (CFloat.fin 0).lt (.fin 1) = true := by
    rw [CFloat.lt_fin]
    exact decide_eq_true (by norm_num)
  cases v with
  | nan => exact absurd rfl hv
  | negInf =>
    have e : clampFloat .negInf (.fin 0) (.fin 1) = .fin 0 := by
      simp only [clampFloat, h01, if_true]
      rfl
    rw [e, CFloat.le_fin, CFloat.le_fin]
    exact ⟨decide_eq_true (by norm_num), decide_eq_true (by norm_num)⟩
  | fin q =>
    simp only [clampFloat, h01, if_true, CFloat.lt_fin, decide_eq_true_eq]
    split_ifs with h1 h2
    · rw [CFloat.le_fin, CFloat.le_fin]
      exact ⟨decide_eq_true (by norm_num), decide_eq_true (by norm_num)⟩
    · rw [CFloat.le_fin, CFloat.le_fin]
      exact ⟨decide_eq_true (by norm_num), decide_eq_true (by norm_num)⟩
    · rw [CFloat.le_fin, CFloat.le_fin]
      exact ⟨decide_eq_true (not_lt.mp h1), decide_eq_true (not_lt.mp h2)⟩
  | posInf =>
    have e : clampFloat .posInf (.fin 0) (.fin 1) = .fin 1 := by
      simp only [clampFloat, h01, if_true]
      rfl
    rw [e, CFloat.le_fin, CFloat.le_fin]
    exact ⟨decide_eq_true (by norm_num), decide_eq_true (by norm_num)⟩

theorem mem_insertPoint (np x : SPoint) (l : List SPoint) :
    x ∈ insertPoint np l ↔ x = np ∨ x ∈ l := by
  induction l with
  | nil => simp [insertPoint]
  | cons it rest ih =>
    simp only [insertPoint]
    split_ifs
    · simp only [List.mem_cons, ih]
      tauto
    · simp only [List.mem_cons]

/-- The insertion of `addPoint` keeps the ordering invariant. -/
theorem insertPoint_ordered (np : SPoint) (l : List SPoint) (hl : RampOrdered l)
    (hnp : (CFloat.fin 0).le np.fPosition = true ∧ np.fPosition.le (.fin 1) = true) :
    RampOrdered (insertPoint np l) := by
  obtain ⟨qn, hqn, _, _⟩ := unit_cases _ hnp
  obtain ⟨hsorted, hunit⟩ := hl
  refine ⟨?_, ?_⟩
  · induction l with
    | nil => simp [insertPoint]
    | cons it rest ih =>
      rw [List.pairwise_cons] at hsorted
      obtain ⟨qi, hqi, _, _⟩ := unit_cases _ (hunit it (List.mem_cons_self _ _))
      have hrest : ∀ p ∈ rest, (CFloat.fin 0).le p.fPosition = true ∧
          p.fPosition.le (.fin 1) = true := fun p hp => hunit p (List.mem_cons_of_mem _ hp)
      simp only [insertPoint]
      split_ifs with hlt
      · rw [List.pairwise_cons]
        refine ⟨?_, ih hsorted.2 hrest⟩
        intro x hx
        rcases (mem_insertPoint np x rest).mp hx with rfl | hx
        · rw [hqi, hqn] at hlt ⊢
          simp only [CFloat.lt_fin, CFloat.le_fin, decide_eq_true_eq] at hlt ⊢
          exact le_of_lt hlt
        · exact hsorted.1 x hx
      · rw [List.pairwise_cons]
        refine ⟨?_, List.pairwise_cons.mpr hsorted⟩
        have hni : np.fPosition.le it.fPosition = true := by
          rw [hqi, hqn] at hlt ⊢
          simp only [CFloat.lt_fin, CFloat.le_fin, decide_eq_true_eq] at hlt ⊢
          exact not_lt.mp hlt
        intro x hx
        rcases List.mem_cons.mp hx with rfl | hx
        · exact hni
        · obtain ⟨qx, hqx, _, _⟩ := unit_cases _ (hrest x hx)
          have hix := hsorted.1 x hx
          rw [hqi, hqn] at hni
          rw [hqi, hqx] at hix
          rw [hqn, hqx]
          simp only [CFloat.le_fin, decide_eq_true_eq] at hni hix ⊢
          exact le_trans hni hix
  · intro p hp
    rcases (mem_insertPoint np p l).mp hp with rfl | hp
    · exact hnp
    · exact hunit p hp

/-- Sorting points whose positions lie in `[0, 1]` establishes the ordering invariant. -/
theorem sortPoints_ordered (l : List SPoint)
    (hunit : ∀ p ∈ l, (CFloat.fin 0).le p.fPosition = true ∧ p.fPosition.le (.fin 1) = true) :
    RampOrdered (sortPoints l) := by
  induction l with
  | nil => exact ⟨List.Pairwise.nil, fun p hp => absurd hp (List.not_mem_nil p)⟩
  | cons a rest ih =>
    exact insertPoint_ordered a _ (ih (fun p hp => hunit p (List.mem_cons_of_mem _ hp)))
      (hunit a (List.mem_cons_self _ _))

/-- The points after an element is modified are old points or the image of an old point. -/
theorem mem_modifyPoint (f : SPoint → SPoint) (i : Nat) (l : List SPoint) (x : SPoint)
    (hx : x ∈ modifyPoint f i l) : x ∈ l ∨ ∃ p ∈ l, x = f p := by
  induction l generalizing i with
  | nil => simp [modifyPoint] at hx
  | cons a rest ih =>
    cases i with
    | zero =>
      simp only [modifyPoint, List.mem_cons] at hx
      rcases hx with rfl | hx
      · exact Or.inr ⟨a, List.mem_cons_self _ _, rfl⟩
      · exact Or.inl (List.mem_cons_of_mem _ hx)
    | succ i =>
      simp only [modifyPoint, List.mem_cons] at hx
      rcases hx with rfl | hx
      · exact Or.inl (List.mem_cons_self _ _)
      · rcases ih i hx with h | ⟨p, hp, rfl⟩
        · exact Or.inl (List.mem_cons_of_mem _ h)
        · exact Or.inr ⟨p, List.mem_cons_of_mem _ hp, rfl⟩

/-- A modification that keeps the position of the element keeps the positions. -/
theorem modifyPoint_positions (f : SPoint → SPoint) (hf : ∀ p, (f p).fPosition = p.fPosition)
    (i : Nat) (l : List SPoint) :
    (modifyPoint f i l).map (fun p => p.fPosition) = l.map (fun p => p.fPosition) := by
  induction l generalizing i with
  | nil => cases i <;> rfl
  | cons a rest ih =>
    cases i with
    | zero => simp [modifyPoint, hf]
    | succ i => simp [modifyPoint, ih]

/-- The ordering invariant depends on the positions only. -/
theorem rampOrdered_positions (l1 l2 : List SPoint)
    (h : l1.map (fun p => p.fPosition) = l2.map (fun p => p.fPosition))
    (h2 : RampOrdered l2) : RampOrdered l1 := by
  obtain ⟨hs, hu⟩ := h2
  have hs' : (l2.map (fun p => p.fPosition)).Pairwise (fun a b => a.le b = true) :=
    List.pairwise_map.mpr hs
  have hu' : ∀ f ∈ l2.map (fun p => p.fPosition),
      (CFloat.fin 0).le f = true ∧ f.le (.fin 1) = true := by
    intro f hf
    obtain ⟨p, hp, rfl⟩ := List.mem_map.mp hf
    exact hu p hp
  rw [← h] at hs' hu'
  refine ⟨List.pairwise_map.mp hs', ?_⟩
  intro p hp
  exact hu' _ (List.mem_map.mpr ⟨p, hp, rfl⟩)

/-- A call with positions that are numbers, which returned, keeps the ordering invariant. -/
theorem RampOp.apply_ordered (op : RampOp) (l out : List SPoint) (hl : RampOrdered l)
    (hop : op.numeric) (happ : op.apply l = .ok out) : RampOrdered out := by
  cases op with
  | setupColourRamp c0 c1 =>
    simp only [RampOp.apply, Except.ok.injEq] at happ
    subst happ
    refine ⟨?_, ?_⟩
    · simp [X.setupColourRamp, CFloat.le_fin]
    · intro p hp
      simp only [X.setupColourRamp, List.mem_cons, List.mem_singleton, List.not_mem_nil,
        or_false] at hp
      rcases hp with rfl | rfl <;> simp [CFloat.le_fin]
  | setupColourRampFire =>
    simp only [RampOp.apply, Except.ok.injEq] at happ
    subst happ
    refine ⟨?_, ?_⟩
    · simp [X.setupColourRampFire, CFloat.le_fin]
      norm_num
    · intro p hp
      simp only [X.setupColourRampFire, List.mem_cons, List.mem_singleton, List.not_mem_nil,
        or_false] at hp
      rcases hp with rfl | rfl | rfl
      · simp [CFloat.le_fin]
      · simp [CFloat.le_fin]
        norm_num
      · simp [CFloat.le_fin]
  | setupColourRampRGB =>
    simp only [RampOp.apply, Except.ok.injEq] at happ
    subst happ
    refine ⟨?_, ?_⟩
    · simp [X.setupColourRampRGB, CFloat.le_fin]
      norm_num
    · intro p hp
      simp only [X.setupColourRampRGB, List.mem_cons, List.mem_singleton, List.not_mem_nil,
        or_false] at hp
      rcases hp with rfl | rfl | rfl
      · simp [CFloat.le_fin]
      · simp [CFloat.le_fin]
        norm_num
      · simp [CFloat.le_fin]
  | removeAllPoints =>
    simp only [RampOp.apply, Except.ok.injEq] at happ
    subst happ
    exact ⟨List.Pairwise.nil, fun p hp => absurd hp (List.not_mem_nil p)⟩
  | addPoint f c =>
    simp only [RampOp.apply, Except.ok.injEq] at happ
    subst happ
    exact insertPoint_ordered _ l hl (clampFloat_unit f hop)
  | removePoint i =>
    simp only [RampOp.apply, X.removePoint] at happ
    split_ifs at happ
    simp only [Except.ok.injEq] at happ
    subst happ
    exact ⟨hl.1.sublist (List.eraseIdx_sublist l i),
      fun p hp => hl.2 p ((List.eraseIdx_sublist l i).subset hp)⟩
  | modifyPointColour i c =>
    simp only [RampOp.apply, X.modifyPointColour] at happ
    split_ifs at happ
    simp only [Except.ok.injEq] at happ
    subst happ
    exact rampOrdered_positions _ l
      (modifyPoint_positions (fun p => { p with colour := c }) (fun _ => rfl) i l) hl
  | modifyPointPosition i f =>
    simp only [RampOp.apply, X.modifyPointPosition] at happ
    split_ifs at happ
    simp only [Except.ok.injEq] at happ
    subst happ
    apply sortPoints_ordered
    intro p hp
    rcases mem_modifyPoint _ i l p hp with h | ⟨q, _, rfl⟩
    · exact hl.2 p h
    · exact clampFloat_unit f hop

/-- A sequence of calls with positions that are numbers, which all returned, keeps the
ordering invariant. -/
theorem runRamp_ordered_from (ops : List RampOp) (l out : List SPoint) (hl : RampOrdered l)
    (hops : ∀ op ∈ ops, op.numeric) (hrun : runRamp ops l = .ok out) : RampOrdered out := by
  induction ops generalizing l with
  | nil =>
    simp only [runRamp, Except.ok.injEq] at hrun
    subst hrun
    exact hl
  | cons op rest ih =>
    simp only [runRamp] at hrun
    split at hrun
    · cases hrun
    · rename_i l1 happ
      exact ih l1 (RampOp.apply_ordered op l l1 hl (hops op (List.mem_cons_self _ _)) happ)
        (fun o ho => hops o (List.mem_cons_of_mem _ ho)) hrun

/-- C30, counterexample: `addPoint` with a position that is not a number, on a newly
constructed ramp; `clamp` leaves the position as it is, the point is inserted at the front,
and its position does not lie in `[0, 1]`. -/
theorem addPoint_nan_not_ordered :
    runRamp [.addPoint .nan ⟨.fin 1, .fin 0, .fin 0, .fin 1⟩] CColourRamp.new
      = .ok (⟨⟨.fin 1, .fin 0, .fin 0, .fin 1⟩, .nan⟩ :: CColourRamp.new) ∧
    ¬ RampOrdered (⟨⟨.fin 1, .fin 0, .fin 0, .fin 1⟩, .nan⟩ :: CColourRamp.new) := by
  constructor
  · rfl
  · intro h
    have := (h.2 _ (List.mem_cons_self _ _)).1
    simp [CFloat.le] at this

/-- C30: starting from a constructed ramp, after any sequence of `setupColourRamp`,
`setupColourRampFire`, `setupColourRampRGB`, `removeAllPoints`, `addPoint`, `removePoint`,
`modifyPointColour` and `modifyPointPosition` calls that all returned (the indices were
valid) and whose position arguments are numbers, the points are sorted by non-decreasing
position and every position lies in `[0, 1]`. -/
theorem runRamp_ordered (ops : List RampOp) (out : List SPoint)
    (hops : ∀ op ∈ ops, op.numeric) (hrun : runRamp ops CColourRamp.new = .ok out) :
    RampOrdered out := by
  refine runRamp_ordered_from ops CColourRamp.new out ?_ hops hrun
  refine ⟨?_, ?_⟩
  · simp [CColourRamp.new, setupColourRamp, CFloat.le_fin]
  · intro p hp
    simp only [CColourRamp.new, setupColourRamp, List.mem_cons, List.mem_singleton,
      List.not_mem_nil, or_false] at hp
    rcases hp with rfl | rfl <;> simp [CFloat.le_fin]

/-- C30, on a sequence of four calls. -/
theorem runRamp_ordered_witness :
    ∃ out, runRamp sampleRampOps CColourRamp.new = .ok out ∧ RampOrdered out :=
  have hrun : runRamp sampleRampOps CColourRamp.new =
      .ok [⟨⟨.fin 1, .fin 0, .fin 0, .fin 1⟩, .fin 0⟩,
        ⟨⟨.fin 1, .fin 1, .fin 1, .fin 1⟩, .fin 1⟩] := by
    rfl
  ⟨_, hrun,
    runRamp_ordered sampleRampOps _
      (by
        intro op hop
        simp only [sampleRampOps, List.mem_cons, List.mem_singleton, List.not_mem_nil,
          or_false] at hop
        rcases hop with rfl | rfl | rfl | rfl <;>
          first
          | trivial
          | (simp only [RampOp.numeric]; decide))
      hrun⟩

/-! ## The colour wheel -/

theorem rectPairs_succ (W H : Nat) :
    rectPairs (W + 1) H = rectPairs W H ++ (List.range H).map (fun iy => (W, iy)) := by
  simp [rectPairs, List.range_succ, List.flatMap_append]

theorem rectPairs_length (W H : Nat) : (rectPairs W H).length = W * H := by
  induction W with
  | zero => simp [rectPairs]
  | succ W ih => rw [rectPairs_succ, List.length_append, ih, List.length_map,
      List.length_range, Nat.add_mul, Nat.one_mul]

/-- The loops `for ix ... for iy ...` visit the pair `(ix, iy)` in iteration
`ix * H + iy`. -/
theorem rectPairs_getElem? (W H ix iy : Nat) (hx : ix < W) (hy : iy < H) :
    (rectPairs W H)[ix * H + iy]? = some (ix, iy) := by
  induction W with
  | zero => omega
  | succ W ih =>
    rw [rectPairs_succ]
    by_cases h : ix < W
    · have hlt : ix * H + iy < (rectPairs W H).length := by
        rw [rectPairs_length]
        have : (ix + 1) * H ≤ W * H := Nat.mul_le_mul_right H h
        rw [Nat.add_mul] at this
        omega
      rw [List.getElem?_append_left hlt]
      exact ih h
    · have hW : ix = W := by omega
      subst hW
      rw [List.getElem?_append_right (by rw [rectPairs_length]; omega), rectPairs_length,
        Nat.add_sub_cancel_left, List.getElem?_map, List.getElem?_range hy]
      rfl

/-- The stores of the loops of `createColourWheel` over the positions `L`, from the counter
value `i0`: iteration `j` stores the colour of position `L[j]` at `i0 + 4 * j`. -/
theorem colourWheel_fold (wheelColour : Nat → Nat → Nat × Nat × Nat × Nat)
    (L : List (Nat × Nat)) (i0 : Nat) (d : List Nat) (hlen : i0 + 4 * L.length ≤ d.length)
    (h32 : d.length < 4294967296) :
    (L.foldl (colourWheelStep wheelColour) (i0, d)).2.length = d.length ∧
    (∀ j p, L[j]? = some p → ∀ c, c < 4 →
      (L.foldl (colourWheelStep wheelColour) (i0, d)).2[i0 + 4 * j + c]?
        = some (colourByte (wheelColour p.1 p.2) c)) ∧
    (∀ q, q < i0 → (L.foldl (colourWheelStep wheelColour) (i0, d)).2[q]? = d[q]?) := by
  induction L generalizing i0 d with
  | nil =>
    refine ⟨rfl, ?_, fun q _ => rfl⟩
    intro j p hj
    simp at hj
  | cons a L ih =>
    simp only [List.length_cons] at hlen
    obtain ⟨s1, s2, s3⟩ := storePixel_bytes d 4 i0 (wheelColour a.1 a.2) (Or.inr rfl)
      (by omega)
    simp only [Nat.cast_ofNat] at s1 s2 s3
    have hstep : colourWheelStep wheelColour (i0, d) a =
        (i0 + 4, storePixel 4 i0 (wheelColour a.1 a.2).1 (wheelColour a.1 a.2).2.1
          (wheelColour a.1 a.2).2.2.1 (wheelColour a.1 a.2).2.2.2 d) := by
      simp only [colourWheelStep]
      rw [Nat.mod_eq_of_lt (by omega)]
    rw [List.foldl_cons, hstep]
    obtain ⟨i1, i2, i3⟩ := ih (i0 + 4) _ (by rw [s1]; omega) (by rw [s1]; exact h32)
    refine ⟨by rw [i1, s1], ?_, ?_⟩
    · intro j p hj c hc
      cases j with
      | zero =>
        simp only [List.getElem?_cons_zero, Option.some.injEq] at hj
        subst hj
        have h3 := i3 (i0 + c) (by omega)
        simp only [Nat.mul_zero, Nat.add_zero]
        exact h3.trans (s2 c hc)
      | succ j =>
        simp only [List.getElem?_cons_succ] at hj
        have := i2 j p hj c hc
        have e : i0 + 4 * (j + 1) + c = i0 + 4 + 4 * j + c := by ring
        rw [e]
        exact this
    · intro q hq
      rw [i3 q (by omega)]
      exact s3 q (Or.inl hq)

/-- Four consecutive bytes that are known, as a list. -/
theorem window_four (l : List Nat) (i : Nat) (f : Nat → Nat)
    (h : ∀ c, c < 4 → l[i + c]? = some (f c)) :
    (l.drop i).take 4 = [f 0, f 1, f 2, f 3] := by
  apply List.ext_getElem?
  intro n
  simp only [List.getElem?_take, List.getElem?_drop]
  split_ifs with hn
  · have hn4 : n = 0 ∨ n = 1 ∨ n = 2 ∨ n = 3 := by omega
    rcases hn4 with rfl | rfl | rfl | rfl
    · rw [h 0 (by omega)]; rfl
    · rw [h 1 (by omega)]; rfl
    · rw [h 2 (by omega)]; rfl
    · rw [h 3 (by omega)]; rfl
  · have : ([f 0, f 1, f 2, f 3] : List Nat).length ≤ n := by simp; omega
    rw [List.getElem?_eq_none this]

/-- C27: for a size `n ≥ 1` and `x, y < n`, the pixel that `createColourWheel` leaves at
column `x`, row `y` (row-major byte offset `4 * (x + y * n)`) holds the colour computed for
the position `(y, x)`, the one `getColourWheelColour(y, x, n, b)` stands for: the image is
the transpose of the wheel, and the pixel equals the colour of its own position `(x, y)`
only where the colours of `(x, y)` and `(y, x)` agree. -/
theorem createColourWheel_transposed (wheelColour : Nat → Nat → Nat × Nat × Nat × Nat)
    (n : Nat) (self : CImage) (hn : 1 ≤ n) (hlt : n * n * 4 < 2147483648) :
    ∃ out, createColourWheel wheelColour n self = .returned () out ∧
      out._miWidth = (n : Int) ∧ out._miHeight = (n : Int) ∧ out._miNumChannels = 4 ∧
      ∀ x y, x < n → y < n →
        pixelIndex out x y = 4 * (x + y * n) ∧
        getColourWheelColour wheelColour y x n = .ok (wheelColour y x) ∧
        pixelBytes out x y =
          [(wheelColour y x).1, (wheelColour y x).2.1, (wheelColour y x).2.2.1,
            (wheelColour y x).2.2.2] := by
  have hn0 : ¬ n < 1 := by omega
  obtain ⟨e1, _, e3⟩ := createBlank_size n n 4 hn hn (Or.inr rfl) hlt
  have e := createBlank_returned n n 4 self hn hn (Or.inr rfl)
  rw [e3, e1] at e
  simp only [Nat.cast_ofNat] at e
  have hfold := colourWheel_fold wheelColour (rectPairs n n) 0 (List.replicate (n * n * 4) 0)
    (by rw [rectPairs_length, List.length_replicate]; omega)
    (by rw [List.length_replicate]; omega)
  obtain ⟨f1, f2, _⟩ := hfold
  have hrun : createColourWheel wheelColour n self = .returned ()
      ⟨some ((rectPairs n n).foldl (colourWheelStep wheelColour)
        (0, List.replicate (n * n * 4) 0)).2, n * n * 4, (n : Int), (n : Int), 4⟩ := by
    obtain ⟨hnlt, _, _⟩ := factors_lt n n 4 hn hn (by omega) hlt
    simp only [createColourWheel, hn0, if_false, e, toUInt_of_lt n (by omega),
      Option.map_some']
  refine ⟨_, hrun, ?_⟩
  · refine ⟨rfl, rfl, rfl, ?_⟩
    intro x y hx hy
    refine ⟨?_, ?_, ?_⟩
    · simp only [pixelIndex, Int.toNat_ofNat]
      show (x + y * n) * (4 : Int).toNat = 4 * (x + y * n)
      rw [show (4 : Int).toNat = 4 from rfl, Nat.mul_comm]
    · simp only [getColourWheelColour, hn0, if_false]
    · simp only [pixelBytes, pixelIndex, Int.toNat_ofNat, Option.getD_some]
      rw [show (4 : Int).toNat = 4 from rfl]
      apply window_four _ _ (fun c => colourByte (wheelColour y x) c)
      intro c hc
      have := f2 (y * n + x) (y, x) (rectPairs_getElem? n n y x hy hx) c hc
      have e2 : (x + y * n) * 4 + c = 0 + 4 * (y * n + x) + c := by ring
      rw [e2]
      exact this

/-- C27, at size 2 with a colour computation that tells the positions apart: the pixel at
column 1, row 0 holds `(0, 1, 0, 255)`, the colour of position `(0, 1)`, where the colour of
its own position `(1, 0)` is `(1, 0, 0, 255)`. -/
theorem createColourWheel_transposed_witness :
    ∃ out, createColourWheel wheelProbe 2 CImage.new = .returned () out ∧
      pixelIndex out 1 0 = 4 ∧
      pixelBytes out 1 0 = [0, 1, 0, 255] ∧
      getColourWheelColour wheelProbe 1 0 2 = .ok (1, 0, 0, 255) :=
  match createColourWheel_transposed wheelProbe 2 CImage.new (by decide) (by decide) with
  | ⟨out, hrun, _, _, _, hpx⟩ =>
    ⟨out, hrun, (hpx 1 0 (by decide) (by decide)).1, (hpx 1 0 (by decide) (by decide)).2.2, rfl⟩

/-! ## Copy with a border -/

/-- A sequence of pixel copies that stay inside both images and in which the destination
determines the source: it returns, the output keeps its length, a byte no destination
covers keeps its value, and every destination pixel holds the bytes of its source pixel. -/
theorem copyPixels_spec (ds : List Nat) (ns nd Ws Hs Wd Hd C : Nat)
    (hC : C = 3 ∨ C = 4) (hds : ds.length = Ws * Hs * C)
    (L : List ((Nat × Nat) × (Nat × Nat)))
    (hL : ∀ op ∈ L, op.1.1 < Ws ∧ op.1.2 < Hs ∧ op.2.1 < Wd ∧ op.2.2 < Hd)
    (hinj : ∀ op ∈ L, ∀ op' ∈ L, op.2 = op'.2 → op.1 = op'.1)
    (a : Nat) (cur : List Nat) (hcur : cur.length = Wd * Hd * C) :
    ∃ out, copyPixels ⟨some ds, ns, (Ws : Int), (Hs : Int), (C : Int)⟩ L a
        ⟨some cur, nd, (Wd : Int), (Hd : Int), (C : Int)⟩ =
        .returned () ⟨some out, nd, (Wd : Int), (Hd : Int), (C : Int)⟩ ∧
      out.length = cur.length ∧
      (∀ q, (∀ op ∈ L, ∀ k, k < C → q ≠ (op.2.1 + op.2.2 * Wd) * C + k) →
        out[q]? = cur[q]?) ∧
      (∀ op ∈ L, ∀ k, k < C →
        out[(op.2.1 + op.2.2 * Wd) * C + k]? = ds[(op.1.1 + op.1.2 * Ws) * C + k]?) := by
  induction L generalizing a cur with
  | nil =>
    exact ⟨cur, rfl, rfl, fun _ _ => rfl, fun p hp => absurd hp (List.not_mem_nil p)⟩
  | cons p L ih =>
    obtain ⟨⟨sx, sy⟩, ⟨tx, ty⟩⟩ := p
    obtain ⟨b1, b2, b3, b4⟩ := hL _ (List.mem_cons_self _ _)
    simp only at b1 b2 b3 b4
    have bS := pixel_in_bounds sx sy Ws Hs C b1 b2
    have bD := pixel_in_bounds tx ty Wd Hd C b3 b4
    obtain ⟨s1, s2, s3⟩ := storePixel_spec cur ds C ((tx + ty * Wd) * C)
      ((sx + sy * Ws) * C) a hC (by omega) (by omega)
    obtain ⟨out, e, o1, o2, o3⟩ := ih (fun p hp => hL p (List.mem_cons_of_mem _ hp))
      (fun p hp p' hp' => hinj p (List.mem_cons_of_mem _ hp) p' (List.mem_cons_of_mem _ hp'))
      (if (C : Int) = 4 then ds.getD ((sx + sy * Ws) * C + 3) 0 else a)
      _ (by rw [s1]; exact hcur)
    refine ⟨out, ?_, by rw [o1, s1], ?_, ?_⟩
    · simp only [copyPixels, getPixel_nat ds ns Ws Hs C _ _ a b1 b2,
        setPixel_nat cur nd Wd Hd C _ _ _ _ _ _ b3 b4]
      exact e
    · intro q hq
      rw [o2 q (fun p hp k hk => hq p (List.mem_cons_of_mem _ hp) k hk)]
      apply s3
      by_contra hcon
      have hk : q - (tx + ty * Wd) * C < C := by omega
      exact hq ((sx, sy), (tx, ty)) (List.mem_cons_self _ _) _ hk (by simp only; omega)
    · intro p hp k hk
      rcases List.mem_cons.mp hp with h1 | h1
      · subst h1
        simp only
        by_cases touched : ∃ p' ∈ L, ∃ k', k' < C ∧
            (tx + ty * Wd) * C + k = (p'.2.1 + p'.2.2 * Wd) * C + k'
        · obtain ⟨p', hp', k', hk', heq⟩ := touched
          obtain ⟨c1, c2, c3, c4⟩ := hL p' (List.mem_cons_of_mem _ hp')
          obtain ⟨u1, u2, u3⟩ := pixel_unique _ _ _ _ k k' Wd C b3 c3 hk hk' heq
          have hsame := hinj ((sx, sy), (tx, ty)) (List.mem_cons_self _ _) p'
            (List.mem_cons_of_mem _ hp') (Prod.ext u1 u2)
          simp only at hsame
          have := o3 p' hp' k' hk'
          rw [← hsame, ← u1, ← u2, ← u3] at this
          exact this
        · rw [o2 _ (fun p' hp' k' hk' heq => touched ⟨p', hp', k', hk', heq⟩)]
          exact s2 k hk
      · exact o3 p h1 k hk

theorem flatMap_congr_mem {α β : Type} (l : List α) (f g : α → List β)
    (h : ∀ a ∈ l, f a = g a) : l.flatMap f = l.flatMap g := by
  induction l with
  | nil => rfl
  | cons a l ih =>
    rw [List.flatMap_cons, List.flatMap_cons, h a (List.mem_cons_self _ _),
      ih (fun b hb => h b (List.mem_cons_of_mem _ hb))]

/-- The copies of the first loop of `copyToAddBorder`, for an image given by natural
numbers. -/
theorem borderRowCopies_nat (W H : Nat) (hH : 1 ≤ H) (hWlt : W < 2147483648)
    (hHlt : H < 2147483648) :
    borderRowCopies (W : Int) (H : Int) =
      (List.range W).flatMap (fun iX =>
        [((iX, 0), (iX + 1, 0)), ((iX, H - 1), (iX + 1, H + 1))]) := by
  unfold borderRowCopies
  rw [Int.toNat_ofNat]
  apply flatMap_congr_mem
  intro iX hiX
  rw [List.mem_range] at hiX
  have e1 : toUInt (iX : Int) = iX := toUInt_of_lt iX (by omega)
  have e2 : toUInt ((iX : Int) + 1) = iX + 1 := by
    have : (iX : Int) + 1 = ((iX + 1 : Nat) : Int) := by push_cast; rfl
    rw [this]
    exact toUInt_of_lt _ (by omega)
  have e3 : toUInt ((H : Int) - 1) = H - 1 := by
    have : (H : Int) - 1 = ((H - 1 : Nat) : Int) := by omega
    rw [this]
    exact toUInt_of_lt _ (by omega)
  have e4 : toUInt ((H : Int) + 2 - 1) = H + 1 := by
    have : (H : Int) + 2 - 1 = ((H + 1 : Nat) : Int) := by omega
    rw [this]
    exact toUInt_of_lt _ (by omega)
  rw [e1, e2, e3, e4]

/-- The copies of the second loop of `copyToAddBorder`, for an image given by natural
numbers. -/
theorem borderColumnCopies_nat (W H : Nat) (hW : 1 ≤ W) (hWlt : W < 2147483648)
    (hHlt : H < 2147483648) :
    borderColumnCopies (W : Int) (H : Int) =
      (List.range H).flatMap (fun iY =>
        [((0, iY), (0, iY + 1)), ((W - 1, iY), (W + 1, iY + 1))]) := by
  unfold borderColumnCopies
  rw [Int.toNat_ofNat]
  apply flatMap_congr_mem
  intro iY hiY
  rw [List.mem_range] at hiY
  have e1 : toUInt (iY : Int) = iY := toUInt_of_lt iY (by omega)
  have e2 : toUInt ((iY : Int) + 1) = iY + 1 := by
    have : (iY : Int) + 1 = ((iY + 1 : Nat) : Int) := by push_cast; rfl
    rw [this]
    exact toUInt_of_lt _ (by omega)
  have e3 : toUInt ((W : Int) - 1) = W - 1 := by
    have : (W : Int) - 1 = ((W - 1 : Nat) : Int) := by omega
    rw [this]
    exact toUInt_of_lt _ (by omega)
  have e4 : toUInt ((W : Int) + 2 - 1) = W + 1 := by
    have : (W : Int) + 2 - 1 = ((W + 1 : Nat) : Int) := by omega
    rw [this]
    exact toUInt_of_lt _ (by omega)
  rw [e1, e2, e3, e4]

/-- The copies of the two loops of `copyToAddBorder`: which they are. -/
theorem mem_borderCopies (W H : Nat) (op : (Nat × Nat) × (Nat × Nat)) :
    op ∈ (List.range W).flatMap (fun iX =>
        [((iX, 0), (iX + 1, 0)), ((iX, H - 1), (iX + 1, H + 1))])
      ++ (List.range H).flatMap (fun iY =>
        [((0, iY), (0, iY + 1)), ((W - 1, iY), (W + 1, iY + 1))]) ↔
    (∃ iX, iX < W ∧ (op = ((iX, 0), (iX + 1, 0)) ∨ op = ((iX, H - 1), (iX + 1, H + 1)))) ∨
    (∃ iY, iY < H ∧ (op = ((0, iY), (0, iY + 1)) ∨ op = ((W - 1, iY), (W + 1, iY + 1)))) := by
  simp only [List.mem_append, List.mem_flatMap, List.mem_range, List.mem_cons,
    List.mem_singleton, List.not_mem_nil, or_false]

/-- The bytes of `copyToAddBorder`'s output for a source given by natural numbers: the
output storage `out` has `(W + 2) * (H + 2) * C` bytes; the interior holds the source; the
top and bottom rows and the left and right columns of the border, corners excluded, hold
the nearest source pixel; every byte of the four corner pixels is 0. -/
theorem copyToAddBorder_nat (a0 colTmp3 : Nat) (ds : List Nat) (W H C : Nat) (hW : 1 ≤ W)
    (hH : 1 ≤ H) (hC : C = 3 ∨ C = 4) (hds : ds.length = W * H * C)
    (hrep : (W + 2) * (H + 2) * C < 2147483648) (outputImage : CImage) :
    ∃ out, copyToAddBorder a0 colTmp3 ⟨some ds, W * H * C, (W : Int), (H : Int), (C : Int)⟩
        outputImage = .returned ()
          ⟨some out, (W + 2) * (H + 2) * C, ((W + 2 : Nat) : Int), ((H + 2 : Nat) : Int),
            (C : Int)⟩ ∧
      out.length = (W + 2) * (H + 2) * C ∧
      (∀ x y k, x < W → y < H → k < C →
        out[((x + 1) + (y + 1) * (W + 2)) * C + k]? = ds[(x + y * W) * C + k]?) ∧
      (∀ x k, x < W → k < C →
        out[((x + 1) + 0 * (W + 2)) * C + k]? = ds[(x + 0 * W) * C + k]? ∧
        out[((x + 1) + (H + 1) * (W + 2)) * C + k]? = ds[(x + (H - 1) * W) * C + k]?) ∧
      (∀ y k, y < H → k < C →
        out[(0 + (y + 1) * (W + 2)) * C + k]? = ds[(0 + y * W) * C + k]? ∧
        out[((W + 1) + (y + 1) * (W + 2)) * C + k]? = ds[((W - 1) + y * W) * C + k]?) ∧
      (∀ k, k < C →
        out[(0 + 0 * (W + 2)) * C + k]? = some 0 ∧
        out[((W + 1) + 0 * (W + 2)) * C + k]? = some 0 ∧
        out[(0 + (H + 1) * (W + 2)) * C + k]? = some 0 ∧
        out[((W + 1) + (H + 1) * (W + 2)) * C + k]? = some 0) := by
  have hC1 : 1 ≤ C := by omega
  obtain ⟨hNWlt, hNHlt, _⟩ := factors_lt (W + 2) (H + 2) C (by omega) (by omega) hC1 hrep
  have hWlt : W < 2147483648 := by omega
  have hHlt : H < 2147483648 := by omega
  -- the blank output
  have c1 : (W : Int) + 2 = ((W + 2 : Nat) : Int) := by push_cast; rfl
  have c2 : (H : Int) + 2 = ((H + 2 : Nat) : Int) := by push_cast; rfl
  have ecb := createBlank_of_dims (W + 2) (H + 2) C (by omega) (by omega) hC hrep outputImage
  -- the copy of the interior
  have m1 : min W (min (W - 0) (W + 2 - 1)) = W := by omega
  have m2 : min H (min (H - 0) (H + 2 - 1)) = H := by omega
  have ecr := copyRectTo_nat ds (List.replicate ((W + 2) * (H + 2) * C) 0) (W * H * C)
    ((W + 2) * (H + 2) * C) W H (W + 2) (H + 2) C C 0 0 W H 1 1 colTmp3 (by omega) (by omega)
    (by omega) (by omega) hWlt hHlt hNWlt hNHlt (by omega) (by omega) (by omega) (by omega)
  rw [m1, m2, if_neg (by omega)] at ecr
  have hL1 : ∀ p ∈ rectPairs W H, 0 + p.1 < W ∧ 0 + p.2 < H ∧ 1 + p.1 < W + 2 ∧
      1 + p.2 < H + 2 := by
    intro p hp
    obtain ⟨p1, p2⟩ := (mem_rectPairs W H p).mp hp
    omega
  obtain ⟨o2, e2, l2, u2, v2⟩ := copyRectLoop_spec ds (W * H * C) ((W + 2) * (H + 2) * C) W H
    (W + 2) (H + 2) C 0 0 1 1 hC hds hWlt hHlt hNWlt hNHlt (rectPairs W H) hL1 colTmp3
    (List.replicate ((W + 2) * (H + 2) * C) 0) (by simp)
  rw [← ecr] at e2
  simp only [Nat.cast_zero, Nat.cast_one] at e2
  -- the copies of the two loops
  have hL3 : ∀ op ∈ (List.range W).flatMap (fun iX =>
        [((iX, 0), (iX + 1, 0)), ((iX, H - 1), (iX + 1, H + 1))])
      ++ (List.range H).flatMap (fun iY =>
        [((0, iY), (0, iY + 1)), ((W - 1, iY), (W + 1, iY + 1))]),
      op.1.1 < W ∧ op.1.2 < H ∧ op.2.1 < W + 2 ∧ op.2.2 < H + 2 := by
    intro op hop
    rcases (mem_borderCopies W H op).mp hop with ⟨i, hi, rfl | rfl⟩ | ⟨i, hi, rfl | rfl⟩ <;>
      simp only <;> omega
  have hinj : ∀ op ∈ (List.range W).flatMap (fun iX =>
        [((iX, 0), (iX + 1, 0)), ((iX, H - 1), (iX + 1, H + 1))])
      ++ (List.range H).flatMap (fun iY =>
        [((0, iY), (0, iY + 1)), ((W - 1, iY), (W + 1, iY + 1))]),
      ∀ op' ∈ (List.range W).flatMap (fun iX =>
        [((iX, 0), (iX + 1, 0)), ((iX, H - 1), (iX + 1, H + 1))])
      ++ (List.range H).flatMap (fun iY =>
        [((0, iY), (0, iY + 1)), ((W - 1, iY), (W + 1, iY + 1))]),
      op.2 = op'.2 → op.1 = op'.1 := by
    intro op hop op' hop' heq
    rcases (mem_borderCopies W H op).mp hop with ⟨i, hi, rfl | rfl⟩ | ⟨i, hi, rfl | rfl⟩ <;>
      rcases (mem_borderCopies W H op').mp hop' with ⟨j, hj, rfl | rfl⟩ | ⟨j, hj, rfl | rfl⟩ <;>
      simp only [Prod.mk.injEq, and_true, true_and] at heq ⊢ <;> omega
  obtain ⟨o3, e3, l3, u3, v3⟩ := copyPixels_spec ds (W * H * C) ((W + 2) * (H + 2) * C) W H
    (W + 2) (H + 2) C hC hds _ hL3 hinj a0 o2 (by rw [l2]; simp)
  have hrun : copyToAddBorder a0 colTmp3 ⟨some ds, W * H * C, (W : Int), (H : Int), (C : Int)⟩
      outputImage = .returned ()
        ⟨some o3, (W + 2) * (H + 2) * C, ((W + 2 : Nat) : Int), ((H + 2 : Nat) : Int),
          (C : Int)⟩ := by
    simp only [copyToAddBorder, c1, c2, ecb, Outcome.andThen, e2,
      borderRowCopies_nat W H hH hWlt hHlt, borderColumnCopies_nat W H hW hWlt hHlt]
    exact e3
  -- a byte of a pixel of the output is covered by no other pixel
  have huniq : ∀ x y k x' y' k', x < W + 2 → x' < W + 2 → k < C → k' < C →
      (x + y * (W + 2)) * C + k = (x' + y' * (W + 2)) * C + k' → x = x' ∧ y = y' := by
    intro x y k x' y' k' hx hx' hk hk' heq
    obtain ⟨a1, a2, _⟩ := pixel_unique x y x' y' k k' (W + 2) C hx hx' hk hk' heq
    exact ⟨a1, a2⟩
  -- bytes the two loops do not touch
  have keep3 : ∀ x y k, x < W + 2 → k < C →
      (∀ op ∈ (List.range W).flatMap (fun iX =>
          [((iX, 0), (iX + 1, 0)), ((iX, H - 1), (iX + 1, H + 1))])
        ++ (List.range H).flatMap (fun iY =>
          [((0, iY), (0, iY + 1)), ((W - 1, iY), (W + 1, iY + 1))]), op.2 ≠ (x, y)) →
      o3[(x + y * (W + 2)) * C + k]? = o2[(x + y * (W + 2)) * C + k]? := by
    intro x y k hx hk hne
    apply u3
    intro op hop k' hk' heq
    obtain ⟨a1, a2⟩ := huniq x y k op.2.1 op.2.2 k' hx (hL3 op hop).2.2.1 hk hk' heq
    exact hne op hop (Prod.ext a1.symm a2.symm)
  -- bytes the copy of the interior does not touch
  have keep2 : ∀ x y k, x < W + 2 → k < C → (x = 0 ∨ y = 0 ∨ x = W + 1 ∨ y = H + 1) →
      o2[(x + y * (W + 2)) * C + k]? =
        (List.replicate ((W + 2) * (H + 2) * C) 0)[(x + y * (W + 2)) * C + k]? := by
    intro x y k hx hk hedge
    apply u2
    intro p hp k' hk' heq
    obtain ⟨p1, p2⟩ := (mem_rectPairs W H p).mp hp
    obtain ⟨a1, a2⟩ := huniq x y k (1 + p.1) (1 + p.2) k' hx (by omega) hk hk' heq
    omega
  refine ⟨o3, hrun, by rw [l3, l2]; simp, ?_, ?_, ?_, ?_⟩
  · intro x y k hx hy hk
    rw [keep3 (x + 1) (y + 1) k (by omega) hk]
    · have := v2 (x, y) ((mem_rectPairs W H (x, y)).mpr ⟨hx, hy⟩) k hk
      simp only [Nat.zero_add] at this
      rw [Nat.add_comm x 1, Nat.add_comm y 1]
      exact this
    · intro op hop heq
      rcases (mem_borderCopies W H op).mp hop with ⟨i, hi, rfl | rfl⟩ | ⟨i, hi, rfl | rfl⟩ <;>
        simp only [Prod.mk.injEq] at heq <;> omega
  · intro x k hx hk
    constructor
    · exact v3 ((x, 0), (x + 1, 0))
        ((mem_borderCopies W H _).mpr (Or.inl ⟨x, hx, Or.inl rfl⟩)) k hk
    · exact v3 ((x, H - 1), (x + 1, H + 1))
        ((mem_borderCopies W H _).mpr (Or.inl ⟨x, hx, Or.inr rfl⟩)) k hk
  · intro y k hy hk
    constructor
    · exact v3 ((0, y), (0, y + 1))
        ((mem_borderCopies W H _).mpr (Or.inr ⟨y, hy, Or.inl rfl⟩)) k hk
    · exact v3 ((W - 1, y), (W + 1, y + 1))
        ((mem_borderCopies W H _).mpr (Or.inr ⟨y, hy, Or.inr rfl⟩)) k hk
  · intro k hk
    have hzero : ∀ x y, x < W + 2 → y < H + 2 →
        (List.replicate ((W + 2) * (H + 2) * C) 0)[(x + y * (W + 2)) * C + k]? = some 0 := by
      intro x y hx hy
      have hb := pixel_in_bounds x y (W + 2) (H + 2) C hx hy
      rw [List.getElem?_replicate, if_pos (by omega)]
    have hcorner : ∀ x y, (x = 0 ∨ x = W + 1) → (y = 0 ∨ y = H + 1) →
        o3[(x + y * (W + 2)) * C + k]? = some 0 := by
      intro x y hx hy
      rw [keep3 x y k (by omega) hk, keep2 x y k (by omega) hk (by omega),
        hzero x y (by omega) (by omega)]
      intro op hop heq
      rcases (mem_borderCopies W H op).mp hop with ⟨i, hi, rfl | rfl⟩ | ⟨i, hi, rfl | rfl⟩ <;>
        simp only [Prod.mk.injEq] at heq <;> omega
    exact ⟨hcorner 0 0 (Or.inl rfl) (Or.inl rfl), hcorner (W + 1) 0 (Or.inr rfl) (Or.inl rfl),
      hcorner 0 (H + 1) (Or.inl rfl) (Or.inr rfl),
      hcorner (W + 1) (H + 1) (Or.inr rfl) (Or.inr rfl)⟩

/-- Consecutive bytes that are all 0, as a list. -/
theorem window_zero (l : List Nat) (i C : Nat) (h : ∀ k, k < C → l[i + k]? = some 0) :
    (l.drop i).take C = List.replicate C 0 := by
  apply List.ext_getElem?
  intro n
  simp only [List.getElem?_take, List.getElem?_drop, List.getElem?_replicate]
  split_ifs with hn
  · exact h n hn
  · rfl

/-- C29: for a non-empty `W x H` source (the output size being representable),
`copyToAddBorder` returns and leaves a non-empty `(W + 2) x (H + 2)` buffer of the same
channel count in which pixel `(x + 1, y + 1)` is source pixel `(x, y)`; the border pixels of
the top and bottom rows and of the left and right columns, corners excluded, are the
nearest source pixels; and every byte of the four corner pixels is 0, as `createBlank` left
it: no call writes a corner. -/
theorem copyToAddBorder_border (a0 colTmp3 : Nat) (self outputImage : CImage)
    (hi : IsImage self)
    (hrep : (self._miWidth + 2) * (self._miHeight + 2) * self._miNumChannels < 2147483648) :
    ∃ out, copyToAddBorder a0 colTmp3 self outputImage = .returned () out ∧ IsImage out ∧
      out._miWidth = self._miWidth + 2 ∧ out._miHeight = self._miHeight + 2 ∧
      out._miNumChannels = self._miNumChannels ∧
      (∀ x y : Nat, (x : Int) < self._miWidth → (y : Int) < self._miHeight →
        pixelBytes out (x + 1) (y + 1) = pixelBytes self x y) ∧
      (∀ x : Nat, (x : Int) < self._miWidth →
        pixelBytes out (x + 1) 0 = pixelBytes self x 0 ∧
        pixelBytes out (x + 1) (self._miHeight.toNat + 1)
          = pixelBytes self x (self._miHeight.toNat - 1)) ∧
      (∀ y : Nat, (y : Int) < self._miHeight →
        pixelBytes out 0 (y + 1) = pixelBytes self 0 y ∧
        pixelBytes out (self._miWidth.toNat + 1) (y + 1)
          = pixelBytes self (self._miWidth.toNat - 1) y) ∧
      pixelBytes out 0 0 = List.replicate self._miNumChannels.toNat 0 ∧
      pixelBytes out (self._miWidth.toNat + 1) 0
        = List.replicate self._miNumChannels.toNat 0 ∧
      pixelBytes out 0 (self._miHeight.toNat + 1)
        = List.replicate self._miNumChannels.toNat 0 ∧
      pixelBytes out (self._miWidth.toNat + 1) (self._miHeight.toNat + 1)
        = List.replicate self._miNumChannels.toNat 0 := by
  obtain ⟨ds, W, H, C, rfl, hW, hH, hC, hlt, hds⟩ := hi.exists_nat
  simp only at hrep
  have hrep' : (W + 2) * (H + 2) * C < 2147483648 := by
    have : ((W : Int) + 2) * ((H : Int) + 2) * (C : Int) = (((W + 2) * (H + 2) * C : Nat) : Int) := by
      push_cast; ring
    rw [this] at hrep
    exact_mod_cast hrep
  obtain ⟨o, hrun, hlen, hin, hrow, hcol, hcor⟩ :=
    copyToAddBorder_nat a0 colTmp3 ds W H C hW hH hC hds hrep' outputImage
  refine ⟨_, hrun, IsImage.of_nat o (W + 2) (H + 2) C (by omega) (by omega) hC hrep' hlen,
    by push_cast; rfl, by push_cast; rfl, rfl, ?_, ?_, ?_, ?_, ?_, ?_, ?_⟩
  · intro x y hx hy
    simp only at hx hy
    simp only [pixelBytes, pixelIndex, Option.getD_some, Int.toNat_ofNat]
    exact window_ext _ _ _ _ C (fun k hk => hin x y k (by omega) (by omega) hk)
  · intro x hx
    simp only at hx
    simp only [pixelBytes, pixelIndex, Option.getD_some, Int.toNat_ofNat]
    exact ⟨window_ext _ _ _ _ C (fun k hk => (hrow x k (by omega) hk).1),
      window_ext _ _ _ _ C (fun k hk => (hrow x k (by omega) hk).2)⟩
  · intro y hy
    simp only at hy
    simp only [pixelBytes, pixelIndex, Option.getD_some, Int.toNat_ofNat]
    exact ⟨window_ext _ _ _ _ C (fun k hk => (hcol y k (by omega) hk).1),
      window_ext _ _ _ _ C (fun k hk => (hcol y k (by omega) hk).2)⟩
  · simp only [pixelBytes, pixelIndex, Option.getD_some, Int.toNat_ofNat]
    exact window_zero _ _ C (fun k hk => (hcor k hk).1)
  · simp only [pixelBytes, pixelIndex, Option.getD_some, Int.toNat_ofNat]
    exact window_zero _ _ C (fun k hk => (hcor k hk).2.1)
  · simp only [pixelBytes, pixelIndex, Option.getD_some, Int.toNat_ofNat]
    exact window_zero _ _ C (fun k hk => (hcor k hk).2.2.1)
  · simp only [pixelBytes, pixelIndex, Option.getD_some, Int.toNat_ofNat]
    exact window_zero _ _ C (fun k hk => (hcor k hk).2.2.2)

/-- C29, on the 1 x 2 image of three channels: the corner pixel `(0, 0)` of the output is
`(0, 0, 0)`, where the nearest source pixel `(0, 0)` is `(1, 2, 3)`. -/
theorem copyToAddBorder_border_witness :
    ∃ out, copyToAddBorder 0 0 sampleImage CImage.new = .returned () out ∧
      pixelBytes out 0 0 = [0, 0, 0] ∧ pixelBytes sampleImage 0 0 = [1, 2, 3] :=
  match copyToAddBorder_border 0 0 sampleImage CImage.new (by decide) (by decide) with
  | ⟨out, hrun, _, _, _, _, _, _, _, hcorner, _⟩ => ⟨out, hrun, hcorner, rfl⟩

/-! ## The normal map -/

theorem truncRat_natCast (n : Nat) : truncRat (n : Rat) = (n : Int) := by
  simp [truncRat]

/-- The conversion of the components 1, 0 and -1 of a normal: 254, 127 and 0. -/
theorem normalByte_values : normalByte 1 = 254 ∧ normalByte 0 = 127 ∧ normalByte (-1) = 0 := by
  have e1 : ((1 : Rat) + 1) * 127 = ((254 : Nat) : Rat) := by norm_num
  have e2 : ((0 : Rat) + 1) * 127 = ((127 : Nat) : Rat) := by norm_num
  have e3 : ((-1 : Rat) + 1) * 127 = ((0 : Nat) : Rat) := by norm_num
  refine ⟨?_, ?_, ?_⟩
  · rw [normalByte, e1, truncRat_natCast]; rfl
  · rw [normalByte, e2, truncRat_natCast]; rfl
  · rw [normalByte, e3, truncRat_natCast]; rfl

/-- The bytes of the normal of a flat neighbourhood at scale 1. -/
theorem normalBytes_flat (sqrtf : Rat → Rat) (hsqrt : sqrtf 1 = 1) (v : Nat) :
    normalBytes sqrtf 1 v v v = (127, 127, 254) := by
  have hne : areFloatsEqual 1 0 = false := by
    unfold areFloatsEqual kfEpsilon
    rw [decide_eq_false_iff_not]
    norm_num
  unfold normalBytes
  simp only [sub_self, Int.cast_zero, zero_div, mul_zero, zero_add, mul_one, hsqrt, hne,
    Bool.false_eq_true, if_false, div_one]
  rw [normalByte_values.1, normalByte_values.2.1]

theorem clampRat_one : clampRat 1 0 1 = 1 := by
  unfold clampRat
  norm_num

/-- The loop of `greyscaleSimple` over the first `n` of `M` pixels of `C ≥ 3` bytes: the
length stays, the red byte of each pixel visited is the grey value of its three colour
bytes, and the bytes from pixel `n` on are untouched. -/
theorem greyscale_fold (B : List Nat) (C M : Nat) (hC : 3 ≤ C) (hB : B.length = M * C)
    (n : Nat) (hn : n ≤ M) :
    (((List.range n).map (fun k => k * C)).foldl greyscaleStep B).length = M * C ∧
    (∀ k, k < n →
      (((List.range n).map (fun k => k * C)).foldl greyscaleStep B)[k * C]? =
        some (toUChar (truncRat (((B.getD (k * C) 0 : Nat) + (B.getD (k * C + 1) 0 : Nat)
          + (B.getD (k * C + 2) 0 : Nat)) * f1Over3)))) ∧
    (∀ q, n * C ≤ q →
      (((List.range n).map (fun k => k * C)).foldl greyscaleStep B)[q]? = B[q]?) := by
  induction n with
  | zero =>
    refine ⟨hB, fun k hk => absurd hk (Nat.not_lt_zero k), fun q _ => rfl⟩
  | succ n ih =>
    obtain ⟨i1, i2, i3⟩ := ih (by omega)
    have hbound : (n + 1) * C ≤ M * C := Nat.mul_le_mul_right C hn
    rw [Nat.add_mul, Nat.one_mul] at hbound
    have g0 : (((List.range n).map (fun k => k * C)).foldl greyscaleStep B).getD (n * C) 0
        = B.getD (n * C) 0 := by
      rw [List.getD_eq_getElem?_getD, List.getD_eq_getElem?_getD, i3 _ (Nat.le_refl _)]
    have g1 : (((List.range n).map (fun k => k * C)).foldl greyscaleStep B).getD (n * C + 1) 0
        = B.getD (n * C + 1) 0 := by
      rw [List.getD_eq_getElem?_getD, List.getD_eq_getElem?_getD, i3 _ (by omega)]
    have g2 : (((List.range n).map (fun k => k * C)).foldl greyscaleStep B).getD (n * C + 2) 0
        = B.getD (n * C + 2) 0 := by
      rw [List.getD_eq_getElem?_getD, List.getD_eq_getElem?_getD, i3 _ (by omega)]
    rw [List.range_succ, List.map_append, List.foldl_append]
    simp only [List.map_cons, List.map_nil, List.foldl_cons, List.foldl_nil, greyscaleStep,
      g0, g1, g2]
    refine ⟨by simp only [List.length_set]; exact i1, ?_, ?_⟩
    · intro k hk
      by_cases hkn : k < n
      · have : (k + 1) * C ≤ n * C := Nat.mul_le_mul_right C hkn
        rw [Nat.add_mul, Nat.one_mul] at this
        rw [List.getElem?_set_ne (by omega), List.getElem?_set_ne (by omega),
          List.getElem?_set_ne (by omega)]
        exact i2 k hkn
      · have hk2 : k = n := by omega
        subst hk2
        rw [List.getElem?_set_ne (by omega), List.getElem?_set_ne (by omega),
          List.getElem?_set_self (by rw [i1]; omega)]
    · intro q hq
      rw [Nat.add_mul, Nat.one_mul] at hq
      rw [List.getElem?_set_ne (by omega), List.getElem?_set_ne (by omega),
        List.getElem?_set_ne (by omega)]
      exact i3 q (by omega)

/-- The loops of `normalmap` at scale 1 over a bordered greyscale image whose height value
is the same at every pixel that is not a corner: the loop returns, the output keeps its
length, and every byte of a pixel visited, like every byte that held it before, holds the
byte of the normal `(127, 127, 254)`. -/
theorem normalLoop_flat (sqrtf : Rat → Rat) (hsqrt : sqrtf 1 = 1) (G : List Nat)
    (ng nd W H C gv : Nat) (hNW : W + 2 < 2147483648) (hNH : H + 2 < 2147483648)
    (hG : ∀ x y, x < W + 2 → y < H + 2 → ¬ ((x = 0 ∨ x = W + 1) ∧ (y = 0 ∨ y = H + 1)) →
      G.getD ((x + y * (W + 2)) * C) 0 = gv)
    (L : List (Nat × Nat)) (hL : ∀ p ∈ L, p.1 < W ∧ p.2 < H) (Done : Nat → Prop)
    (a : Nat) (cur : List Nat) (hcur : cur.length = W * H * 3)
    (hdone : ∀ q, Done q → cur[q]? = ([127, 127, 254] : List Nat)[q % 3]?) :
    ∃ out, normalLoop sqrtf 1 ⟨some G, ng, ((W + 2 : Nat) : Int), ((H + 2 : Nat) : Int), (C : Int)⟩
        L a ⟨some cur, nd, (W : Int), (H : Int), ((3 : Nat) : Int)⟩ =
        .returned () ⟨some out, nd, (W : Int), (H : Int), ((3 : Nat) : Int)⟩ ∧
      out.length = cur.length ∧
      ∀ q, (Done q ∨ ∃ p ∈ L, ∃ k, k < 3 ∧ q = (p.1 + p.2 * W) * 3 + k) →
        out[q]? = ([127, 127, 254] : List Nat)[q % 3]? := by
  induction L generalizing a cur Done with
  | nil =>
    refine ⟨cur, rfl, rfl, ?_⟩
    intro q hq
    rcases hq with hq | ⟨p, hp, _⟩
    · exact hdone q hq
    · exact absurd hp (List.not_mem_nil p)
  | cons p L ih =>
    obtain ⟨ix, y⟩ := p
    obtain ⟨b1, b2⟩ := hL (ix, y) (List.mem_cons_self _ _)
    simp only at b1 b2
    have e1 : toUInt ((ix : Int) + 1) = ix + 1 := by
      have : (ix : Int) + 1 = ((ix + 1 : Nat) : Int) := by push_cast; rfl
      rw [this]; exact toUInt_of_lt _ (by omega)
    have e2 : toUInt ((y : Int) + 1) = y + 1 := by
      have : (y : Int) + 1 = ((y + 1 : Nat) : Int) := by push_cast; rfl
      rw [this]; exact toUInt_of_lt _ (by omega)
    have e3 : toUInt ((y : Int) + 2) = y + 2 := by
      have : (y : Int) + 2 = ((y + 2 : Nat) : Int) := by push_cast; rfl
      rw [this]; exact toUInt_of_lt _ (by omega)
    have e4 : toUInt (ix : Int) = ix := toUInt_of_lt _ (by omega)
    have e5 : toUInt (y : Int) = y := toUInt_of_lt _ (by omega)
    have g0 := fun a' => getPixel_nat G ng (W + 2) (H + 2) C (ix + 1) (y + 1) a'
      (by omega) (by omega)
    have g1 := fun a' => getPixel_nat G ng (W + 2) (H + 2) C ix (y + 1) a'
      (by omega) (by omega)
    have g2 := fun a' => getPixel_nat G ng (W + 2) (H + 2) C (ix + 1) (y + 2) a'
      (by omega) (by omega)
    have h0 := hG (ix + 1) (y + 1) (by omega) (by omega) (by omega)
    have h1 := hG ix (y + 1) (by omega) (by omega) (by omega)
    have h2 := hG (ix + 1) (y + 2) (by omega) (by omega) (by omega)
    have bD := pixel_in_bounds ix y W H 3 b1 b2
    have hset := fun a' => setPixel_nat cur nd W H 3 ix y 127 127 254 a' b1 b2
    have hstep : ∃ a' , normalLoop sqrtf 1
        ⟨some G, ng, ((W + 2 : Nat) : Int), ((H + 2 : Nat) : Int), (C : Int)⟩ ((ix, y) :: L) a
        ⟨some cur, nd, (W : Int), (H : Int), ((3 : Nat) : Int)⟩ =
        normalLoop sqrtf 1
          ⟨some G, ng, ((W + 2 : Nat) : Int), ((H + 2 : Nat) : Int), (C : Int)⟩ L a'
          ⟨some (storePixel ((3 : Nat) : Int) ((ix + y * W) * 3) 127 127 254 a' cur), nd,
            (W : Int), (H : Int), ((3 : Nat) : Int)⟩ := by
      simp only [normalLoop, e1, e2, e3, e4, e5, g0, g1, g2, h0, h1, h2,
        normalBytes_flat sqrtf hsqrt gv, hset]
      exact ⟨_, rfl⟩
    obtain ⟨a', hstep⟩ := hstep
    obtain ⟨s1, s2, s3⟩ := storePixel_bytes cur 3 ((ix + y * W) * 3) (127, 127, 254, a')
      (Or.inl rfl) (by omega)
    simp only at s1 s2 s3
    obtain ⟨out, e, o1, o2⟩ := ih (fun p hp => hL p (List.mem_cons_of_mem _ hp))
      (fun q => Done q ∨ ∃ k, k < 3 ∧ q = (ix + y * W) * 3 + k) a' _ (by rw [s1]; exact hcur)
      (by
        intro q hq
        by_cases hin : ∃ k, k < 3 ∧ q = (ix + y * W) * 3 + k
        · obtain ⟨k, hk, rfl⟩ := hin
          rw [s2 k hk]
          have hk3 : k = 0 ∨ k = 1 ∨ k = 2 := by omega
          have hm : ((ix + y * W) * 3 + k) % 3 = k := by omega
          rw [hm]
          rcases hk3 with rfl | rfl | rfl <;> rfl
        · rcases hq with hq | hq
          · rw [s3 q (by
              by_contra hcon
              exact hin ⟨q - (ix + y * W) * 3, by omega, by omega⟩)]
            exact hdone q hq
          · exact absurd hq hin)
    refine ⟨out, by rw [hstep]; exact e, by rw [o1, s1], ?_⟩
    intro q hq
    apply o2
    rcases hq with hq | ⟨p, hp, k, hk, rfl⟩
    · exact Or.inl (Or.inl hq)
    · rcases List.mem_cons.mp hp with rfl | hp
      · exact Or.inl (Or.inr ⟨k, hk, rfl⟩)
      · exact Or.inr ⟨p, hp, k, hk, rfl⟩

/-- C28: the conversion of `normalmap` stores the component 1 as 254 and the component -1
as 0. For a non-empty source of constant colour (the bordered copy being representable),
Z-scale 1 and a square root with `sqrt 1 = 1`, `normalmap` returns and leaves a
three-channel image of the size of the source in which every pixel is `(127, 127, 254)`:
the blue byte is 254, not 255. -/
theorem normalmap_flat (sqrtf : Rat → Rat) (hsqrt : sqrtf 1 = 1) (a0 aB colTmp3 : Nat)
    (self outputImage : CImage) (hi : IsImage self)
    (hrep : (self._miWidth + 2) * (self._miHeight + 2) * self._miNumChannels < 2147483648)
    (hconst : ∀ x y : Nat, (x : Int) < self._miWidth → (y : Int) < self._miHeight →
      pixelBytes self x y = pixelBytes self 0 0) :
    normalByte 1 = 254 ∧ normalByte (-1) = 0 ∧
    ∃ out, normalmap sqrtf a0 aB colTmp3 1 self outputImage = .returned () out ∧
      out._miWidth = self._miWidth ∧ out._miHeight = self._miHeight ∧
      out._miNumChannels = 3 ∧
      ∀ x y : Nat, (x : Int) < self._miWidth → (y : Int) < self._miHeight →
        pixelBytes out x y = [127, 127, 254] := by
  refine ⟨normalByte_values.1, normalByte_values.2.2, ?_⟩
  obtain ⟨ds, W, H, C, rfl, hW, hH, hC, hlt, hds⟩ := hi.exists_nat
  simp only at hrep hconst
  have hrep' : (W + 2) * (H + 2) * C < 2147483648 := by
    have : ((W : Int) + 2) * ((H : Int) + 2) * (C : Int) = (((W + 2) * (H + 2) * C : Nat) : Int) := by
      push_cast; ring
    rw [this] at hrep
    exact_mod_cast hrep
  have hC3 : 3 ≤ C := by omega
  obtain ⟨hNWlt, hNHlt, _⟩ := factors_lt (W + 2) (H + 2) C (by omega) (by omega) (by omega) hrep'
  -- the source is constant
  have hsrc : ∀ x y k, x < W → y < H → k < C → ds[(x + y * W) * C + k]? = ds[k]? := by
    intro x y k hx hy hk
    have h := hconst x y (by omega) (by omega)
    simp only [pixelBytes, pixelIndex, Option.getD_some, Int.toNat_ofNat] at h
    have h2 := congrArg (fun l => l[k]?) h
    simp only [List.getElem?_take, List.getElem?_drop, hk, if_true, Nat.zero_mul, Nat.add_zero,
      Nat.zero_add] at h2
    exact h2
  -- the bordered copy
  obtain ⟨B, hborder, hBlen, hin, hrow, hcol, _⟩ :=
    copyToAddBorder_nat aB colTmp3 ds W H C hW hH hC hds hrep' CImage.new
  have hB : ∀ x y, x < W + 2 → y < H + 2 → ¬ ((x = 0 ∨ x = W + 1) ∧ (y = 0 ∨ y = H + 1)) →
      ∀ k, k < C → B[(x + y * (W + 2)) * C + k]? = ds[k]? := by
    intro x y hx hy hnc k hk
    by_cases hy0 : y = 0
    · subst hy0
      have h := (hrow (x - 1) k (by omega) hk).1
      rw [show x - 1 + 1 = x by omega] at h
      rw [h]
      exact hsrc (x - 1) 0 k (by omega) (by omega) hk
    · by_cases hyH : y = H + 1
      · subst hyH
        have h := (hrow (x - 1) k (by omega) hk).2
        rw [show x - 1 + 1 = x by omega] at h
        rw [h]
        exact hsrc (x - 1) (H - 1) k (by omega) (by omega) hk
      · by_cases hx0 : x = 0
        · subst hx0
          have h := (hcol (y - 1) k (by omega) hk).1
          rw [show y - 1 + 1 = y by omega] at h
          rw [h]
          exact hsrc 0 (y - 1) k (by omega) (by omega) hk
        · by_cases hxW : x = W + 1
          · subst hxW
            have h := (hcol (y - 1) k (by omega) hk).2
            rw [show y - 1 + 1 = y by omega] at h
            rw [h]
            exact hsrc (W - 1) (y - 1) k (by omega) (by omega) hk
          · have h := hin (x - 1) (y - 1) k (by omega) (by omega) hk
            rw [show x - 1 + 1 = x by omega, show y - 1 + 1 = y by omega] at h
            rw [h]
            exact hsrc (x - 1) (y - 1) k (by omega) (by omega) hk
  -- the greyscale image
  have hidx : strideIndices ((W + 2) * (H + 2) * C) (toUInt (C : Int)) =
      (List.range ((W + 2) * (H + 2))).map (fun k => k * C) := by
    rw [toUInt_of_lt C (by omega)]
    exact strideIndices_pixels ((W + 2) * (H + 2)) C (by omega)
  obtain ⟨_, gf2, _⟩ := greyscale_fold B C ((W + 2) * (H + 2)) hC3 hBlen ((W + 2) * (H + 2))
    (Nat.le_refl _)
  have hgrey : greyscaleSimple
      ⟨some B, (W + 2) * (H + 2) * C, ((W + 2 : Nat) : Int), ((H + 2 : Nat) : Int), (C : Int)⟩ =
      .returned ()
        ⟨some (((List.range ((W + 2) * (H + 2))).map (fun k => k * C)).foldl greyscaleStep B),
          (W + 2) * (H + 2) * C, ((W + 2 : Nat) : Int), ((H + 2 : Nat) : Int), (C : Int)⟩ := by
    simp only [greyscaleSimple, hidx]
  have hG : ∀ x y, x < W + 2 → y < H + 2 → ¬ ((x = 0 ∨ x = W + 1) ∧ (y = 0 ∨ y = H + 1)) →
      (((List.range ((W + 2) * (H + 2))).map (fun k => k * C)).foldl greyscaleStep B).getD
        ((x + y * (W + 2)) * C) 0 =
      toUChar (truncRat (((ds.getD 0 0 : Nat) + (ds.getD 1 0 : Nat) + (ds.getD 2 0 : Nat))
        * f1Over3)) := by
    intro x y hx hy hnc
    have hk : x + y * (W + 2) < (W + 2) * (H + 2) := by
      have : (y + 1) * (W + 2) ≤ (H + 2) * (W + 2) := Nat.mul_le_mul_right _ hy
      rw [Nat.add_mul, Nat.one_mul, Nat.mul_comm (H + 2)] at this
      omega
    have b0 : B.getD ((x + y * (W + 2)) * C) 0 = ds.getD 0 0 := by
      rw [List.getD_eq_getElem?_getD, List.getD_eq_getElem?_getD]
      have := hB x y hx hy hnc 0 (by omega)
      rw [Nat.add_zero] at this
      rw [this]
    have b1 : B.getD ((x + y * (W + 2)) * C + 1) 0 = ds.getD 1 0 := by
      rw [List.getD_eq_getElem?_getD, List.getD_eq_getElem?_getD,
        hB x y hx hy hnc 1 (by omega)]
    have b2 : B.getD ((x + y * (W + 2)) * C + 2) 0 = ds.getD 2 0 := by
      rw [List.getD_eq_getElem?_getD, List.getD_eq_getElem?_getD,
        hB x y hx hy hnc 2 (by omega)]
    rw [List.getD_eq_getElem?_getD, gf2 (x + y * (W + 2)) hk, Option.getD_some, b0, b1, b2]
  -- the blank output and the loops
  have e3 : toUShort 3 = 3 := by decide
  have ecb := createBlank_of_dims W H 3 hW hH (Or.inl rfl)
    (by
      have : W * H * 3 ≤ W * H * C := Nat.mul_le_mul_left _ hC3
      omega) outputImage
  simp only [Nat.cast_ofNat, e3] at ecb
  obtain ⟨out, e, o1, o2⟩ := normalLoop_flat sqrtf hsqrt _ ((W + 2) * (H + 2) * C) (W * H * 3)
    W H C _ hNWlt hNHlt hG (scanPairs W H) (fun p hp => (mem_scanPairs W H p).mp hp)
    (fun _ => False) a0 (List.replicate (W * H * 3) 0) (by simp)
    (fun q hq => absurd hq not_false)
  simp only [Nat.cast_ofNat] at e
  have hrun : normalmap sqrtf a0 aB colTmp3 1
      ⟨some ds, W * H * C, (W : Int), (H : Int), (C : Int)⟩ outputImage =
      .returned () ⟨some out, W * H * 3, (W : Int), (H : Int), 3⟩ := by
    obtain ⟨hWlt, hHlt, _⟩ := factors_lt W H C hW hH (by omega) hlt
    rw [toUInt_of_lt W (by omega), toUInt_of_lt H (by omega)] at ecb
    simp only [normalmap, clampRat_one, hborder, hgrey, toUInt_of_lt W (by omega),
      toUInt_of_lt H (by omega), ecb, Outcome.andThen, Int.toNat_ofNat]
    exact e
  refine ⟨_, hrun, rfl, rfl, rfl, ?_⟩
  intro x y hx hy
  simp only at hx hy
  simp only [pixelBytes, pixelIndex, Option.getD_some, Int.toNat_ofNat]
  rw [show (3 : Int).toNat = 3 from rfl]
  have hw := window_ext out [127, 127, 254] ((x + y * W) * 3) 0 3 (by
    intro k hk
    have := o2 ((x + y * W) * 3 + k) (Or.inr ⟨(x, y),
      (mem_scanPairs W H (x, y)).mpr ⟨by omega, by omega⟩, k, hk, rfl⟩)
    rw [this]
    have hm : ((x + y * W) * 3 + k) % 3 = k := by omega
    rw [hm, Nat.zero_add])
  rw [hw]
  rfl

/-- C28, on the 2 x 2 image whose pixels are all `(127, 127, 127)`: the output pixel
`(0, 0)` is `(127, 127, 254)`. -/
theorem normalmap_flat_witness :
    normalByte 1 = 254 ∧
    ∃ out, normalmap sqrtUnit 0 0 0 1 midGrey CImage.new = .returned () out ∧
      pixelBytes out 0 0 = [127, 127, 254] :=
  match normalmap_flat sqrtUnit rfl 0 0 0 midGrey CImage.new (by decide) (by decide)
    (by
      intro x y hx hy
      have hx2 : x = 0 ∨ x = 1 := by
        have : (x : Int) < 2 := hx
        omega
      have hy2 : y = 0 ∨ y = 1 := by
        have : (y : Int) < 2 := hy
        omega
      rcases hx2 with rfl | rfl <;> rcases hy2 with rfl | rfl <;> rfl) with
  | ⟨h1, _, out, hrun, _, _, _, hpx⟩ => ⟨h1, out, hrun, hpx 0 0 (by decide) (by decide)⟩

/-! ## The thread count reported as zero -/

/-- C39: the division `_miHeight / num_threads` of `fillMandelbrotMT` has a defined result
exactly when the reported thread count is not 0; with the count 0, a value that
`std::thread::hardware_concurrency()` may return, a call on a created image with at least
one iteration reaches the division by zero, whatever the image. -/
theorem fillMandelbrotMT_zero_threads (colour : Nat → Nat → Nat × Nat × Nat × Nat)
    (uiMaxIterations : Nat) (d : List Nat) (n : Nat) (w h c : Int) (iHeight : Int)
    (num_threads : Nat) :
    (mtBands iHeight num_threads = none ↔ num_threads = 0) ∧
      fillMandelbrotMT colour (uiMaxIterations + 1) 0 ⟨some d, n, w, h, c⟩ = none := by
  constructor
  · unfold mtBands
    constructor
    · intro hnone
      by_contra hne
      rw [if_neg hne] at hnone
      simp only at hnone
      split_ifs at hnone
    · intro h0
      rw [if_pos h0]
  · simp [fillMandelbrotMT, mtBands]

/-! ## A stream cut short inside the trailing marker -/

/-- The trailer read of `_loadDIF` on a stream that ends after the first `4 - k` bytes of
the trailing marker: the array still holds the leading marker, and holds it afterwards. -/
theorem read_cut_trailer (k : Nat) :
    (IfStream.read { rest := cMagicDIF.take (4 - k), good := true } cMagicDIF 4).1 =
      cMagicDIF := by
  have hk : k = 0 ∨ k = 1 ∨ k = 2 ∨ k = 3 ∨ 4 ≤ k := by omega
  rcases hk with rfl | rfl | rfl | rfl | h
  · decide
  · decide
  · decide
  · decide
  · have e : 4 - k = 0 := by omega
    rw [e]
    decide

/-- A stream with the leading marker, a full header that passes the check, the payload and
the first `4 - k` bytes of the trailing marker decodes as the complete stream does. -/
theorem loadDIF_cut_stream (ws : Nat) (mem : Indeterminate) (f : Bool) (self : CImage)
    (W H S D : List Nat) (c k : Nat) (hW : W.length = ws) (hH : H.length = ws)
    (hS : S.length = ws) (hD : D.length = toUInt ((objectValue S : Nat) : Int))
    (hok : ¬ headerRejected ws (objectValue W) (objectValue H) (objectValue [c])
      (objectValue S)) :
    _loadDIF ws mem
        (some (cMagicDIF ++ (W ++ (H ++ ([c] ++ (S ++ (D ++ cMagicDIF.take (4 - k)))))))) f self =
      _loadDIF ws mem (some (cMagicDIF ++ (W ++ (H ++ ([c] ++ (S ++ (D ++ cMagicDIF))))))) f
        self := by
  have h4 : cMagicDIF.length = 4 := rfl
  have h1 : [c].length = 1 := rfl
  have hT : IfStream.read { rest := cMagicDIF, good := true } cMagicDIF 4 =
      (cMagicDIF, { rest := [], good := true }) := by decide
  simp only [_loadDIF, IfStream.read_append _ _ _ _ h4, IfStream.read_append _ _ _ _ hW,
    IfStream.read_append _ _ _ _ hH, IfStream.read_append _ _ _ _ hS,
    IfStream.read_append _ _ _ _ h1, IfStream.read_append _ _ _ _ hD,
    badMagic_cMagicDIF, Bool.false_eq_true, if_false, hok, hT, read_cut_trailer k]

/-- Cutting the last `k` bytes off a sequence that ends with `T`. -/
theorem take_cut (A T : List Nat) (k : Nat) (hk : k ≤ T.length) :
    (A ++ T).take ((A ++ T).length - k) = A ++ T.take (T.length - k) := by
  rw [List.take_append_eq_append_take, List.length_append,
    List.take_of_length_le (by omega)]
  congr 2
  omega

/-- The bytes written for a non-empty buffer, without their last `k` bytes, decode as the
bytes written do, when `k` is at most 4. -/
theorem loadDIF_difBytes_cut (ws : Nat) (hws : 4 ≤ ws) (mem : Indeterminate) (f : Bool)
    (s : CImage) (d : List Nat) (W H C : Nat) (hW : 1 ≤ W) (hH : 1 ≤ H) (hC : C = 3 ∨ C = 4)
    (hlt : W * H * C < 2147483648) (hd : d.length = W * H * C) (k : Nat) (hk : k ≤ 4) :
    _loadDIF ws mem
        (some ((difBytes ws ⟨some d, W * H * C, (W : Int), (H : Int), (C : Int)⟩).take
          ((difBytes ws ⟨some d, W * H * C, (W : Int), (H : Int), (C : Int)⟩).length - k)))
        f s =
      _loadDIF ws mem (some (difBytes ws ⟨some d, W * H * C, (W : Int), (H : Int), (C : Int)⟩))
        f s := by
  obtain ⟨hWlt, hHlt, _⟩ := factors_lt W H C hW hH (by omega) hlt
  have eW : W % 256 ^ ws = W := Nat.mod_eq_of_lt (lt_word ws W hws (by omega))
  have eH : H % 256 ^ ws = H := Nat.mod_eq_of_lt (lt_word ws H hws (by omega))
  have eS : (W * H * C) % 256 ^ ws = W * H * C :=
    Nat.mod_eq_of_lt (lt_word ws _ hws (by omega))
  have eC : C % 256 = C := Nat.mod_eq_of_lt (by omega)
  have vC : objectValue [C] = C := by simp [objectValue, eC]
  have vW : objectValue (objectBytes ws W) = W := by rw [objectValue_objectBytes, eW]
  have vH : objectValue (objectBytes ws H) = H := by rw [objectValue_objectBytes, eH]
  have vS : objectValue (objectBytes ws (W * H * C)) = W * H * C := by
    rw [objectValue_objectBytes, eS]
  have uS : toUInt ((W * H * C : Nat) : Int) = W * H * C := toUInt_of_lt _ (by omega)
  have hok : ¬ headerRejected ws (objectValue (objectBytes ws W))
      (objectValue (objectBytes ws H)) (objectValue [C])
      (objectValue (objectBytes ws (W * H * C))) := by
    rw [vW, vH, vC, vS]
    unfold headerRejected
    rw [eS]
    omega
  rw [difBytes_nat ws d W H C hd, eW, eH, eS, eC]
  have hre : cMagicDIF ++ (objectBytes ws W ++ (objectBytes ws H ++ ([C] ++
      (objectBytes ws (W * H * C) ++ (d ++ cMagicDIF))))) =
      (cMagicDIF ++ (objectBytes ws W ++ (objectBytes ws H ++ ([C] ++
      (objectBytes ws (W * H * C) ++ d))))) ++ cMagicDIF := by
    simp only [List.append_assoc]
  have h4 : cMagicDIF.length - k = 4 - k := rfl
  rw [hre, take_cut _ cMagicDIF k hk, h4]
  have hre2 : (cMagicDIF ++ (objectBytes ws W ++ (objectBytes ws H ++ ([C] ++
      (objectBytes ws (W * H * C) ++ d))))) ++ cMagicDIF.take (4 - k) =
      cMagicDIF ++ (objectBytes ws W ++ (objectBytes ws H ++ ([C] ++
      (objectBytes ws (W * H * C) ++ (d ++ cMagicDIF.take (4 - k)))))) := by
    simp only [List.append_assoc]
  rw [hre2, ← hre]
  exact loadDIF_cut_stream ws mem f s _ _ _ d C k (objectBytes_length _ _)
    (objectBytes_length _ _) (objectBytes_length _ _) (by rw [vS, uS, hd]) hok

/-- C34: a buffer is saved and the last `k` bytes of the file, for `k` from 1 to 4, are cut
off, so that the trailing marker is missing in part or altogether. Decoding the shortened
stream does not fail: `load` returns true and leaves exactly the saved buffer, as it does
on the complete file. The trailer test is made on the array that still holds the leading
marker. -/
theorem load_cut_trailer (ws : Nat) (hws : 4 ≤ ws) (mem : Indeterminate)
    (stbLoad : CImage → Outcome Bool) (strFilename : String) (f : Bool)
    (self prev : CImage) (hi : IsImage self) (k : Nat) (hk1 : 1 ≤ k) (hk4 : k ≤ 4) :
    ∃ written, saveAsDIF ws strFilename true f self = .returned written self ∧
      (written.take (written.length - k)).length + k = written.length ∧
      load ws mem stbLoad true (some (written.take (written.length - k))) f prev =
        .returned true self := by
  obtain ⟨d, W, H, C, rfl, hW, hH, hC, hlt, hd⟩ := hi.exists_nat
  obtain ⟨_, _, hWC⟩ := factors_lt W H C hW hH (by omega) hlt
  have hrows : d.length = H * (W * C) := by rw [hd]; ring
  have hlen : ∀ img : CImage, 4 ≤ (difBytes ws img).length := by
    intro img
    simp only [difBytes, List.length_append]
    have : cMagicDIF.length = 4 := rfl
    omega
  cases f with
  | false =>
    refine ⟨difBytes ws ⟨some d, W * H * C, (W : Int), (H : Int), (C : Int)⟩, ?_, ?_, ?_⟩
    · simp [saveAsDIF]
    · have := hlen ⟨some d, W * H * C, (W : Int), (H : Int), (C : Int)⟩
      rw [List.length_take]
      omega
    · simp only [load, if_true]
      rw [loadDIF_difBytes_cut ws hws mem false _ d W H C hW hH hC hlt hd k hk4,
        loadDIF_difBytes ws hws mem false _ d W H C hW hH hC hlt hd]
      simp
  | true =>
    have hfl : ((flippedRows d (W * C) H).flatten).length = W * H * C := by
      rw [flippedRows_length (W * C) H d hrows, hd]
    have hback := flippedRows_flippedRows (W * C) H d hrows
    refine ⟨difBytes ws ⟨some (flippedRows d (W * C) H).flatten, W * H * C, (W : Int),
      (H : Int), (C : Int)⟩, ?_, ?_, ?_⟩
    · simp [saveAsDIF, flipVertically_nat _ W H C (by omega : W * C < 4294967296), hback]
    · have := hlen ⟨some (flippedRows d (W * C) H).flatten, W * H * C, (W : Int),
        (H : Int), (C : Int)⟩
      rw [List.length_take]
      omega
    · simp only [load, if_true]
      rw [loadDIF_difBytes_cut ws hws mem true _ _ W H C hW hH hC hlt hfl k hk4,
        loadDIF_difBytes ws hws mem true _ _ W H C hW hH hC hlt hfl]
      simp [flipVertically_nat _ W H C (by omega : W * C < 4294967296), hback]

theorem load_cut_trailer_witness :
    4 ≤ 8 ∧ IsImage sampleImage ∧ 1 ≤ 4 ∧ 4 ≤ 4 ∧
    ∃ written, saveAsDIF 8 "a.dif" true false sampleImage = .returned written sampleImage ∧
      (written.take (written.length - 4)).length + 4 = written.length ∧
      load 8 Indeterminate.zero stbLoadNone true (some (written.take (written.length - 4)))
        false CImage.new = .returned true sampleImage :=
  ⟨by decide, by decide, by decide, by decide,
    load_cut_trailer 8 (by decide) Indeterminate.zero stbLoadNone "a.dif" false sampleImage
      CImage.new (by decide) 4 (by decide) (by decide)⟩

/-! ## Strings -/

theorem stdFind_zero (s str : List Char) : stdFind s str = some 0 ↔ str <+: s := by
  cases s with
  | nil =>
    cases str with
    | nil => simp [stdFind]
    | cons a t => simp [stdFind]
  | cons c rest =>
    unfold stdFind
    by_cases h : str.isPrefixOf (c :: rest) = true
    · rw [if_pos h]
      exact ⟨fun _ => List.isPrefixOf_iff_prefix.mp h, fun _ => rfl⟩
    · rw [if_neg h]
      constructor
      · intro h2
        cases hf : stdFind rest str with
        | none => rw [hf] at h2; simp at h2
        | some p => rw [hf] at h2; simp at h2
      · intro h2
        exact absurd (List.isPrefixOf_iff_prefix.mpr h2) h

/-- The search finds an occurrence exactly when there is one. -/
theorem stdFind_isSome (s str : List Char) : (stdFind s str).isSome = true ↔ str <:+: s := by
  induction s with
  | nil =>
    cases str with
    | nil => simp [stdFind]
    | cons a t => simp [stdFind]
  | cons c rest ih =>
    unfold stdFind
    by_cases h : str.isPrefixOf (c :: rest) = true
    · rw [if_pos h]
      exact ⟨fun _ => (List.isPrefixOf_iff_prefix.mp h).isInfix, fun _ => rfl⟩
    · rw [if_neg h, Option.isSome_map', ih]
      constructor
      · intro h2
        exact List.infix_cons h2
      · intro h2
        rcases List.infix_cons_iff.mp h2 with h3 | h3
        · exact absurd (List.isPrefixOf_iff_prefix.mpr h3) h
        · exact h3

/-- C33: `bc` is not empty and is contained in `abc`, at position 1, and `partialMatch`
returns false, where the comment of its declaration promises true. -/
theorem partialMatch_inner_occurrence :
    "bc".length ≠ 0 ∧ "bc".data <:+: "abc".data ∧ partialMatch "abc" "bc" = false := by
  decide

/-- What `partialMatch` computes: it returns true if and only if the partial word is not
empty and the full word starts with it. The search of the source finds the first
occurrence, and every position other than 0 is then refused. -/
theorem partialMatch_iff_prefix (strFullWord strPartialWord : String) :
    partialMatch strFullWord strPartialWord = true ↔
      strPartialWord.length ≠ 0 ∧ strPartialWord.data <+: strFullWord.data := by
  unfold partialMatch
  by_cases he : strPartialWord.length = 0
  · rw [if_pos he]
    simp [he]
  · rw [if_neg he, ← stdFind_zero]
    cases hf : stdFind strFullWord.data strPartialWord.data with
    | none => simp [he]
    | some pos =>
      by_cases hp : pos = 0
      · simp [hp, he]
      · simp [hp, he]

/-! ## File name extensions -/

theorem toNat_ofNat_small (n : Nat) (h : n < 55296) : (Char.ofNat n).toNat = n := by
  have hv : n.isValidChar := Or.inl h
  unfold Char.ofNat
  rw [dif_pos hv]
  rfl

/-- Lower case yields a full stop from a full stop only. -/
theorem toLower_eq_dot (c : Char) : c.toLower = '.' ↔ c = '.' := by
  unfold Char.toLower
  simp only
  split_ifs with h
  · constructor
    · intro h2
      exfalso
      have h3 := congrArg Char.toNat h2
      rw [toNat_ofNat_small _ (by omega)] at h3
      have : ('.' : Char).toNat = 46 := rfl
      omega
    · rintro rfl
      have : ('.' : Char).toNat = 46 := rfl
      omega
  · rfl

theorem toLower_toLower (c : Char) : c.toLower.toLower = c.toLower := by
  by_cases h : c.toNat ≥ 65 ∧ c.toNat ≤ 90
  · have e : c.toLower = Char.ofNat (c.toNat + 32) := by
      unfold Char.toLower
      simp only
      rw [if_pos h]
    have e2 : c.toLower.toNat = c.toNat + 32 := by
      rw [e, toNat_ofNat_small _ (by omega)]
    generalize c.toLower = l at e2
    unfold Char.toLower
    simp only
    rw [if_neg (by omega)]
  · have e : c.toLower = c := by
      unfold Char.toLower
      simp only
      rw [if_neg h]
    rw [e, e]

theorem findLastOf_none (c : Char) (l : List Char) (h : c ∉ l) : findLastOf c l = none := by
  induction l with
  | nil => rfl
  | cons x rest ih =>
    have h1 : ¬ x = c := fun e => h (e ▸ List.mem_cons_self _ _)
    have h2 : c ∉ rest := fun e => h (List.mem_cons_of_mem _ e)
    simp only [findLastOf, ih h2, if_neg h1]

/-- The last occurrence of a character that does not occur after position `A.length`. -/
theorem findLastOf_append (c : Char) (A B : List Char) (h : c ∉ B) :
    findLastOf c (A ++ c :: B) = some A.length := by
  induction A with
  | nil => simp only [List.nil_append, findLastOf, findLastOf_none c B h, if_true, List.length_nil]
  | cons x rest ih =>
    have e : findLastOf c (x :: (rest ++ c :: B)) = some (rest.length + 1) := by
      rw [findLastOf, ih]
    exact e

/-- The extension `addFilenameExtension` appends, for an extension with no full stop after
its first character: a full stop followed by characters that are not full stops. -/
theorem strExt_form (e : List Char) (he : e ≠ []) (hdot : '.' ∉ e.tail) :
    ∃ t, (if e.head? ≠ some '.' then '.' :: e else e) = '.' :: t ∧ '.' ∉ t := by
  cases e with
  | nil => exact absurd rfl he
  | cons x rest =>
    simp only [List.tail_cons] at hdot
    by_cases hx : x = '.'
    · subst hx
      exact ⟨rest, by simp, hdot⟩
    · refine ⟨x :: rest, by simp [hx], ?_⟩
      intro hmem
      rcases List.mem_cons.mp hmem with h | h
      · exact hx h.symm
      · exact hdot h

/-- The name `addFilenameExtension` returns, and the name it returns for that name. -/
theorem addFilenameExtension_twice (e f : String) (he : e.length ≠ 0) (hf : f.length ≠ 0)
    (hdot : '.' ∉ e.data.tail) :
    ∃ r, addFilenameExtension e f = .ok r ∧ addFilenameExtension e r = .ok r := by
  have he' : e.data ≠ [] := fun h => he (by rw [String.length, h]; rfl)
  obtain ⟨t, hext, ht⟩ := strExt_form e.data he' hdot
  have ht' : '.' ∉ t.map Char.toLower := by
    intro hmem
    obtain ⟨c, hc, hl⟩ := List.mem_map.mp hmem
    exact ht (((toLower_eq_dot c).mp hl) ▸ hc)
  have hlow : ∀ S : List Char, (S ++ '.' :: t).map Char.toLower =
      S.map Char.toLower ++ '.' :: t.map Char.toLower := by
    intro S
    rw [List.map_append, List.map_cons]
    rfl
  have hidem : ∀ S : List Char, (S.map Char.toLower).map Char.toLower = S.map Char.toLower := by
    intro S
    rw [List.map_map]
    exact List.map_congr_left (fun c _ => toLower_toLower c)
  have hfirst : ∀ S : List Char, ∀ g : String, g.length ≠ 0 →
      (match findLastOf '.' g.data with
        | some pos => g.data.take pos
        | none => g.data) = S →
      addFilenameExtension e g =
        .ok (String.mk (S.map Char.toLower ++ '.' :: t.map Char.toLower)) := by
    intro S g hg hS
    subst hS
    unfold addFilenameExtension
    rw [if_neg he, if_neg hg]
    simp only [hext, stringToLowercase, hlow]
  generalize hS : (match findLastOf '.' f.data with
        | some pos => f.data.take pos
        | none => f.data) = S
  refine ⟨String.mk (S.map Char.toLower ++ '.' :: t.map Char.toLower), hfirst S f hf hS, ?_⟩
  have h2 := hfirst (S.map Char.toLower)
    (String.mk (S.map Char.toLower ++ '.' :: t.map Char.toLower))
    (by simp [String.length]) (by
      simp only [findLastOf_append '.' _ _ ht', List.take_left'])
  rw [h2, hidem]

/-- C40: for a non-empty file name and a non-empty extension with no full stop after its
first character, `addFilenameExtension` returns a name, and called again on that name with
the same extension it returns the same name. Hence, for a non-empty program argument, the
name `main` records after adding `.ico` is the name of the file `saveAsICO` opens when it
adds `.ico` again. -/
theorem addFilenameExtension_idempotent (strFilenameExtension strFilename argv1 : String)
    (he : strFilenameExtension.length ≠ 0) (hf : strFilename.length ≠ 0)
    (hdot : '.' ∉ strFilenameExtension.data.tail) (harg : argv1.length ≠ 0) :
    (∃ r, addFilenameExtension strFilenameExtension strFilename = .ok r ∧
      addFilenameExtension strFilenameExtension r = .ok r) ∧
    (∃ name, mainIconName argv1 = .ok name ∧ strOutputFilename name = .ok name) := by
  refine ⟨addFilenameExtension_twice _ _ he hf hdot, ?_⟩
  unfold mainIconName strOutputFilename
  exact addFilenameExtension_twice ".ico" (stringToLowercase argv1) (by decide)
    (by
      show (argv1.data.map Char.toLower).length ≠ 0
      rw [List.length_map]
      exact harg) (by decide)

theorem addFilenameExtension_idempotent_witness :
    "ico".length ≠ 0 ∧ "My.Icon.PNG".length ≠ 0 ∧ '.' ∉ "ico".data.tail ∧
    "Logo.png".length ≠ 0 ∧
    (∃ r, addFilenameExtension "ico" "My.Icon.PNG" = .ok r ∧
      addFilenameExtension "ico" r = .ok r) ∧
    (∃ name, mainIconName "Logo.png" = .ok name ∧ strOutputFilename name = .ok name) :=
  ⟨by decide, by decide, by decide, by decide,
    addFilenameExtension_idempotent "ico" "My.Icon.PNG" "Logo.png" (by decide) (by decide)
      (by decide) (by decide)⟩

/-! ## The hue -/

/-! ### Rounding to the nearest `float` -/

theorem roundHalfEven_bounds (q : Rat) :
    (⌊q⌋ ≤ roundHalfEven q ∧ roundHalfEven q ≤ ⌊q⌋ + 1) := by
  unfold roundHalfEven
  split_ifs <;> omega

theorem roundHalfEven_intCast (n : Int) : roundHalfEven (n : Rat) = n := by
  unfold roundHalfEven
  simp

theorem roundHalfEven_mono (x y : Rat) (h : x ≤ y) : roundHalfEven x ≤ roundHalfEven y := by
  have hf : ⌊x⌋ ≤ ⌊y⌋ := Int.floor_mono h
  rcases hf.lt_or_eq with hlt | heq
  · have := (roundHalfEven_bounds x).2
    have := (roundHalfEven_bounds y).1
    omega
  · unfold roundHalfEven
    rw [heq]
    have hxy : x - ⌊y⌋ ≤ y - ⌊y⌋ := by linarith
    split_ifs <;> first | omega | linarith

theorem roundFloat_zero : roundFloat 0 = 0 := by
  unfold roundFloat
  rw [zero_div]
  have : roundHalfEven 0 = 0 := by
    have := roundHalfEven_intCast 0
    simpa using this
  rw [this]
  simp

/-- The unit in the last place at a magnitude of which the binade is known. -/
theorem ulpExponent_of_binade (q : Rat) (e : Int) (he : -126 ≤ e) (h1 : (2 : Rat) ^ e ≤ q)
    (h2 : q < (2 : Rat) ^ (e + 1)) : ulpExponent q = e - 23 := by
  have hpos : 0 < q := lt_of_lt_of_le (zpow_pos (by norm_num) e) h1
  have hlog : Int.log 2 |q| = e := by
    rw [abs_of_pos hpos]
    apply le_antisymm
    · have := (Int.lt_zpow_iff_log_lt (b := 2) (by norm_num) hpos).1
        (by exact_mod_cast h2 : q < ((2 : Nat) : Rat) ^ (e + 1))
      omega
    · exact (Int.zpow_le_iff_le_log (b := 2) (by norm_num) hpos).1 (by exact_mod_cast h1)
  unfold ulpExponent
  rw [hlog, max_eq_left he]

theorem ulpExponent_mono (x y : Rat) (hx : 0 < x) (h : x ≤ y) :
    ulpExponent x ≤ ulpExponent y := by
  unfold ulpExponent
  have hy : 0 < y := lt_of_lt_of_le hx h
  rw [abs_of_pos hx, abs_of_pos hy]
  have := Int.log_mono_right (b := 2) hx h
  omega

/-- A positive rational is at least the power of two of its binade, when the exponent of
the last place was not raised to the least one. -/
theorem binade_le (y : Rat) (hy : 0 < y) (h : -126 - 23 < ulpExponent y) :
    (2 : Rat) ^ (ulpExponent y + 23) ≤ y := by
  unfold ulpExponent at h ⊢
  rw [abs_of_pos hy] at h ⊢
  have e : max (Int.log 2 y) (-126) = Int.log 2 y := by omega
  rw [e, sub_add_cancel]
  have := Int.zpow_log_le_self (b := 2) (by norm_num) hy
  exact_mod_cast this

theorem lt_binade (x : Rat) : |x| < (2 : Rat) ^ (ulpExponent x + 23 + 1) := by
  unfold ulpExponent
  rw [sub_add_cancel]
  have h1 := Int.lt_zpow_succ_log_self (b := 2) (by norm_num) |x|
  have h2 : ((2 : Nat) : Rat) ^ (Int.log 2 |x| + 1) ≤
      ((2 : Nat) : Rat) ^ (max (Int.log 2 |x|) (-126) + 1) :=
    zpow_le_zpow_right₀ (by norm_num) (by omega)
  exact_mod_cast lt_of_lt_of_le h1 h2

theorem roundFloat_nonneg (x : Rat) (hx : 0 ≤ x) : 0 ≤ roundFloat x := by
  unfold roundFloat
  have hp : (0 : Rat) < 2 ^ ulpExponent x := zpow_pos (by norm_num) _
  have h0 : roundHalfEven 0 ≤ roundHalfEven (x / 2 ^ ulpExponent x) :=
    roundHalfEven_mono _ _ (div_nonneg hx hp.le)
  have e0 : roundHalfEven 0 = 0 := by
    have := roundHalfEven_intCast 0
    simpa using this
  rw [e0] at h0
  exact mul_nonneg (by exact_mod_cast h0) hp.le

/-- Rounding to the nearest `float` is monotone on the non-negative rationals. -/
theorem roundFloat_mono (x y : Rat) (hx : 0 ≤ x) (h : x ≤ y) :
    roundFloat x ≤ roundFloat y := by
  rcases hx.lt_or_eq with hpos | h0
  · have hy : 0 < y := lt_of_lt_of_le hpos h
    have he := ulpExponent_mono x y hpos h
    rcases he.lt_or_eq with hlt | heq
    · -- different binades
      have hpx : (0 : Rat) < 2 ^ ulpExponent x := zpow_pos (by norm_num) _
      have hpy : (0 : Rat) < 2 ^ ulpExponent y := zpow_pos (by norm_num) _
      have hlow : -126 - 23 ≤ ulpExponent x := by unfold ulpExponent; omega
      have a1 : roundFloat x ≤ (2 : Rat) ^ (ulpExponent x + 23 + 1) := by
        unfold roundFloat
        have hlt2 := lt_binade x
        rw [abs_of_pos hpos] at hlt2
        have hq : x / 2 ^ ulpExponent x ≤ ((2 ^ 24 : Int) : Rat) := by
          rw [div_le_iff₀ hpx]
          have : ((2 ^ 24 : Int) : Rat) * 2 ^ ulpExponent x =
              (2 : Rat) ^ (ulpExponent x + 23 + 1) := by
            rw [show ulpExponent x + 23 + 1 = 24 + ulpExponent x by ring,
              zpow_add₀ (by norm_num)]
            norm_num
          rw [this]
          exact hlt2.le
        have hr := roundHalfEven_mono _ _ hq
        rw [roundHalfEven_intCast] at hr
        have : (roundHalfEven (x / 2 ^ ulpExponent x) : Rat) ≤ ((2 ^ 24 : Int) : Rat) := by
          exact_mod_cast hr
        calc (roundHalfEven (x / 2 ^ ulpExponent x) : Rat) * 2 ^ ulpExponent x
            ≤ ((2 ^ 24 : Int) : Rat) * 2 ^ ulpExponent x :=
              mul_le_mul_of_nonneg_right this hpx.le
          _ = (2 : Rat) ^ (ulpExponent x + 23 + 1) := by
            rw [show ulpExponent x + 23 + 1 = 24 + ulpExponent x by ring,
              zpow_add₀ (by norm_num)]
            norm_num
      have a2 : (2 : Rat) ^ (ulpExponent y + 23) ≤ roundFloat y := by
        unfold roundFloat
        have hge := binade_le y hy (by omega)
        have hq : ((2 ^ 23 : Int) : Rat) ≤ y / 2 ^ ulpExponent y := by
          rw [le_div_iff₀ hpy]
          have : ((2 ^ 23 : Int) : Rat) * 2 ^ ulpExponent y =
              (2 : Rat) ^ (ulpExponent y + 23) := by
            rw [show ulpExponent y + 23 = 23 + ulpExponent y by ring,
              zpow_add₀ (by norm_num)]
            norm_num
          rw [this]
          exact hge
        have hr := roundHalfEven_mono _ _ hq
        rw [roundHalfEven_intCast] at hr
        have : ((2 ^ 23 : Int) : Rat) ≤ (roundHalfEven (y / 2 ^ ulpExponent y) : Rat) := by
          exact_mod_cast hr
        calc (2 : Rat) ^ (ulpExponent y + 23)
            = ((2 ^ 23 : Int) : Rat) * 2 ^ ulpExponent y := by
              rw [show ulpExponent y + 23 = 23 + ulpExponent y by ring,
                zpow_add₀ (by norm_num)]
              norm_num
          _ ≤ (roundHalfEven (y / 2 ^ ulpExponent y) : Rat) * 2 ^ ulpExponent y :=
              mul_le_mul_of_nonneg_right this hpy.le
      have a3 : (2 : Rat) ^ (ulpExponent x + 23 + 1) ≤ (2 : Rat) ^ (ulpExponent y + 23) :=
        zpow_le_zpow_right₀ (by norm_num) (by omega)
      exact a1.trans (a3.trans a2)
    · unfold roundFloat
      rw [heq]
      have hpy : (0 : Rat) < 2 ^ ulpExponent y := zpow_pos (by norm_num) _
      have hq : x / 2 ^ ulpExponent y ≤ y / 2 ^ ulpExponent y :=
        div_le_div_of_nonneg_right h hpy.le
      have hr := roundHalfEven_mono _ _ hq
      exact mul_le_mul_of_nonneg_right (by exact_mod_cast hr) hpy.le
  · rw [← h0, roundFloat_zero]
    exact roundFloat_nonneg y (h0 ▸ h)

/-- A rational that is a multiple of the unit in the last place of its binade is a
`float`: rounding leaves it as it is. -/
theorem roundFloat_exact (q : Rat) (e m : Int) (he : -126 ≤ e) (h1 : (2 : Rat) ^ e ≤ q)
    (h2 : q < (2 : Rat) ^ (e + 1)) (hm : q = (m : Rat) * 2 ^ (e - 23)) : roundFloat q = q := by
  unfold roundFloat
  rw [ulpExponent_of_binade q e he h1 h2]
  have hp : (0 : Rat) < 2 ^ (e - 23) := zpow_pos (by norm_num) _
  have : q / 2 ^ (e - 23) = (m : Rat) := by
    rw [hm, mul_div_assoc, div_self hp.ne', mul_one]
  rw [this, roundHalfEven_intCast, ← hm]

theorem roundFloat_one : roundFloat 1 = 1 :=
  roundFloat_exact 1 0 8388608 (by norm_num) (by norm_num) (by norm_num) (by norm_num)

theorem roundFloat_sixty : roundFloat 60 = 60 :=
  roundFloat_exact 60 5 15728640 (by norm_num) (by norm_num) (by norm_num) (by norm_num)

theorem roundFloat_threeSixty : roundFloat 360 = 360 :=
  roundFloat_exact 360 8 11796480 (by norm_num) (by norm_num) (by norm_num) (by norm_num)

/-- A rational less than one half above an integer is rounded to that integer. -/
theorem roundHalfEven_down (q : Rat) (n : Int) (h1 : (n : Rat) ≤ q)
    (h2 : q < (n : Rat) + 1 / 2) : roundHalfEven q = n := by
  have hf : ⌊q⌋ = n := Int.floor_eq_iff.2 ⟨h1, by linarith⟩
  unfold roundHalfEven
  rw [hf, if_pos (by linarith)]

/-! ### The branches of `getHueColour` -/

/-- An operation whose exact result lies between 0 and a `float` of at most 360 yields a
number between 0 and that `float`. -/
theorem CFloat.round_between (x hi : Rat) (h0 : 0 ≤ x) (h1 : x ≤ hi)
    (hfix : roundFloat hi = hi) (hhi : hi ≤ 360) :
    CFloat.round x = .fin (roundFloat x) ∧ 0 ≤ roundFloat x ∧ roundFloat x ≤ hi := by
  have a1 : roundFloat x ≤ hi := hfix ▸ roundFloat_mono x hi h0 h1
  have a0 := roundFloat_nonneg x h0
  refine ⟨?_, a0, a1⟩
  have b1 : ¬ ((2 : Rat) ^ 128 ≤ roundFloat x) := by
    have : (360 : Rat) < 2 ^ 128 := by norm_num
    intro h
    linarith
  have b2 : ¬ (roundFloat x ≤ -((2 : Rat) ^ 128)) := by
    have : (0 : Rat) < 2 ^ 128 := by norm_num
    intro h
    linarith
  unfold CFloat.round
  rw [if_neg b1, if_neg b2]

theorem CFloat.round_zero : CFloat.round 0 = .fin 0 := by
  have := (CFloat.round_between 0 1 (le_refl _) (by norm_num) roundFloat_one (by norm_num)).1
  rw [this, roundFloat_zero]

theorem CFloat.round_one : CFloat.round 1 = .fin 1 := by
  have := (CFloat.round_between 1 1 (by norm_num) (le_refl _) roundFloat_one (by norm_num)).1
  rw [this, roundFloat_one]

theorem CFloat.round_sixty : CFloat.round 60 = .fin 60 := by
  have := (CFloat.round_between 60 60 (by norm_num) (le_refl _) roundFloat_sixty
    (by norm_num)).1
  rw [this, roundFloat_sixty]

theorem CFloat.round_threeSixty : CFloat.round 360 = .fin 360 := by
  have := (CFloat.round_between 360 360 (by norm_num) (le_refl _) roundFloat_threeSixty
    (by norm_num)).1
  rw [this, roundFloat_threeSixty]

theorem CFloat.div_sixty (a : Rat) : (CFloat.fin a).div (.fin 60) = CFloat.round (a / 60) := by
  have h : ¬ ((60 : Rat) = 0) := by norm_num
  simp only [CFloat.div, if_neg h]

/-- The rising component of a sector that begins at the angle `a`: a number in `[0, 1]`. -/
theorem hue_rise (h a : Rat) (ha : a ≤ h) (hb : h ≤ a + 60) :
    ∃ u, ((CFloat.fin h).sub (.fin a)).div (.fin 60) = .fin u ∧ 0 ≤ u ∧ u ≤ 1 := by
  obtain ⟨s1, s2, s3⟩ := CFloat.round_between (h - a) 60 (by linarith) (by linarith)
    roundFloat_sixty (by norm_num)
  obtain ⟨d1, d2, d3⟩ := CFloat.round_between (roundFloat (h - a) / 60) 1
    (by linarith) (by linarith) roundFloat_one (by norm_num)
  refine ⟨_, ?_, d2, d3⟩
  rw [show (CFloat.fin h).sub (.fin a) = CFloat.round (h - a) from rfl, s1,
    CFloat.div_sixty, d1]

/-- The falling component of a sector that begins at the angle `a`: a number in `[0, 1]`. -/
theorem hue_fall (h a : Rat) (ha : a ≤ h) (hb : h ≤ a + 60) :
    ∃ v, (CFloat.fin 1).sub (((CFloat.fin h).sub (.fin a)).div (.fin 60)) = .fin v ∧
      0 ≤ v ∧ v ≤ 1 := by
  obtain ⟨u, e, u0, u1⟩ := hue_rise h a ha hb
  obtain ⟨d1, d2, d3⟩ := CFloat.round_between (1 - u) 1
    (by linarith) (by linarith) roundFloat_one (by norm_num)
  refine ⟨_, ?_, d2, d3⟩
  rw [e, show (CFloat.fin 1).sub (.fin u) = CFloat.round (1 - u) from rfl, d1]

/-- C35, counterexample: for a hue that is not a number the blue component is not a number,
so it does not lie in `[0, 1]`. -/
theorem getHueColour_nan :
    getHueColour .nan = (.fin 1, .fin 0, .nan) ∧
      ((CFloat.fin 0).le (getHueColour .nan).2.2 = false) := by
  constructor <;> rfl

/-- C35, amended: for every hue that is a number (an infinity included), `getHueColour`
yields three numbers in `[0, 1]`, one of which at least is 1 and one at least 0. The
branches of two neighbouring sectors make the same assignments at the angle where they
meet (60, 120, 180, 240 and 300 degrees), and hue 0 and hue 1 both give `(1, 0, 0)`. -/
theorem getHueColour_range (fHueAmount : CFloat) (hv : fHueAmount ≠ .nan) :
    (∃ r g b : Rat, getHueColour fHueAmount = (.fin r, .fin g, .fin b) ∧
      0 ≤ r ∧ r ≤ 1 ∧ 0 ≤ g ∧ g ≤ 1 ∧ 0 ≤ b ∧ b ≤ 1 ∧
      (r = 1 ∨ g = 1 ∨ b = 1) ∧ (r = 0 ∨ g = 0 ∨ b = 0)) ∧
    hueSector 0 (.fin 60) = hueSector 1 (.fin 60) ∧
    hueSector 1 (.fin 120) = hueSector 2 (.fin 120) ∧
    hueSector 2 (.fin 180) = hueSector 3 (.fin 180) ∧
    hueSector 3 (.fin 240) = hueSector 4 (.fin 240) ∧
    hueSector 4 (.fin 300) = hueSector 5 (.fin 300) ∧
    getHueColour (.fin 0) = (.fin 1, .fin 0, .fin 0) ∧
    getHueColour (.fin 1) = (.fin 1, .fin 0, .fin 0) := by
  have esub : ∀ a b : Rat, (CFloat.fin a).sub (.fin b) = CFloat.round (a - b) :=
    fun _ _ => rfl
  have emul : ∀ a b : Rat, (CFloat.fin a).mul (.fin b) = CFloat.round (a * b) :=
    fun _ _ => rfl
  refine ⟨?_, ?_, ?_, ?_, ?_, ?_, ?_, ?_⟩
  · obtain ⟨q, hq, h0, h1⟩ := unit_cases _ (clampFloat_unit fHueAmount hv)
    obtain ⟨m1, m2, m3⟩ := CFloat.round_between (q * 360) 360 (by linarith) (by linarith)
      roundFloat_threeSixty (le_refl _)
    simp only [getHueColour, hq, emul, m1, CFloat.le_fin, decide_eq_true_eq]
    generalize roundFloat (q * 360) = h at m2 m3
    split_ifs with c1 c2 c3 c4 c5
    · obtain ⟨d1, d2, d3⟩ := CFloat.round_between (h / 60) 1 (by linarith) (by linarith)
        roundFloat_one (by norm_num)
      refine ⟨1, roundFloat (h / 60), 0, ?_, ?_⟩
      · simp only [hueSector, CFloat.div_sixty, d1]
      · exact ⟨by norm_num, by norm_num, d2, d3, by norm_num, by norm_num,
          Or.inl rfl, Or.inr (Or.inr rfl)⟩
    · obtain ⟨v, e, v0, v1⟩ := hue_fall h 60 (by linarith) (by linarith)
      refine ⟨v, 1, 0, ?_, ?_⟩
      · simp only [hueSector, e]
      · exact ⟨v0, v1, by norm_num, by norm_num, by norm_num, by norm_num,
          Or.inr (Or.inl rfl), Or.inr (Or.inr rfl)⟩
    · obtain ⟨u, e, u0, u1⟩ := hue_rise h 120 (by linarith) (by linarith)
      refine ⟨0, 1, u, ?_, ?_⟩
      · simp only [hueSector, e]
      · exact ⟨by norm_num, by norm_num, by norm_num, by norm_num, u0, u1,
          Or.inr (Or.inl rfl), Or.inl rfl⟩
    · obtain ⟨v, e, v0, v1⟩ := hue_fall h 180 (by linarith) (by linarith)
      refine ⟨0, v, 1, ?_, ?_⟩
      · simp only [hueSector, e]
      · exact ⟨by norm_num, by norm_num, v0, v1, by norm_num, by norm_num,
          Or.inr (Or.inr rfl), Or.inl rfl⟩
    · obtain ⟨u, e, u0, u1⟩ := hue_rise h 240 (by linarith) (by linarith)
      refine ⟨u, 0, 1, ?_, ?_⟩
      · simp only [hueSector, e]
      · exact ⟨u0, u1, by norm_num, by norm_num, by norm_num, by norm_num,
          Or.inr (Or.inr rfl), Or.inr (Or.inl rfl)⟩
    · obtain ⟨v, e, v0, v1⟩ := hue_fall h 300 (by linarith) (by linarith)
      refine ⟨1, 0, v, ?_, ?_⟩
      · simp only [hueSector, e]
      · exact ⟨by norm_num, by norm_num, by norm_num, by norm_num, v0, v1,
          Or.inl rfl, Or.inr (Or.inl rfl)⟩
  · norm_num [hueSector, CFloat.div_sixty, esub, CFloat.round_zero, CFloat.round_one,
      CFloat.round_sixty]
  · norm_num [hueSector, CFloat.div_sixty, esub, CFloat.round_zero, CFloat.round_one,
      CFloat.round_sixty]
  · norm_num [hueSector, CFloat.div_sixty, esub, CFloat.round_zero, CFloat.round_one,
      CFloat.round_sixty]
  · norm_num [hueSector, CFloat.div_sixty, esub, CFloat.round_zero, CFloat.round_one,
      CFloat.round_sixty]
  · norm_num [hueSector, CFloat.div_sixty, esub, CFloat.round_zero, CFloat.round_one,
      CFloat.round_sixty]
  · have hc : clampFloat (.fin 0) (.fin 0) (.fin 1) = .fin 0 := by
      simp [clampFloat, CFloat.lt_fin]
    simp only [getHueColour, hc, emul]
    norm_num [CFloat.round_zero, CFloat.le_fin, hueSector, CFloat.div_sixty]
  · have hc : clampFloat (.fin 1) (.fin 0) (.fin 1) = .fin 1 := by
      simp [clampFloat, CFloat.lt_fin]
    simp only [getHueColour, hc, emul]
    norm_num [CFloat.round_threeSixty, CFloat.round_zero, CFloat.round_one,
      CFloat.round_sixty, CFloat.le_fin, hueSector, CFloat.div_sixty, esub]

theorem getHueColour_range_witness :
    CFloat.fin f1Over3 ≠ .nan ∧
    ((∃ r g b : Rat, getHueColour (.fin f1Over3) = (.fin r, .fin g, .fin b) ∧
      0 ≤ r ∧ r ≤ 1 ∧ 0 ≤ g ∧ g ≤ 1 ∧ 0 ≤ b ∧ b ≤ 1 ∧
      (r = 1 ∨ g = 1 ∨ b = 1) ∧ (r = 0 ∨ g = 0 ∨ b = 0)) ∧
    hueSector 0 (.fin 60) = hueSector 1 (.fin 60) ∧
    hueSector 1 (.fin 120) = hueSector 2 (.fin 120) ∧
    hueSector 2 (.fin 180) = hueSector 3 (.fin 180) ∧
    hueSector 3 (.fin 240) = hueSector 4 (.fin 240) ∧
    hueSector 4 (.fin 300) = hueSector 5 (.fin 300) ∧
    getHueColour (.fin 0) = (.fin 1, .fin 0, .fin 0) ∧
    getHueColour (.fin 1) = (.fin 1, .fin 0, .fin 0)) :=
  ⟨fun h => CFloat.noConfusion h,
    getHueColour_range (.fin f1Over3) (fun h => CFloat.noConfusion h)⟩

/-- The hue `1.0f / 3.0f`: it is a `float` a little above one third, its product with 360
is rounded to 120, the branch of the second sector is taken and the colour is `(0, 1, 0)`. -/
theorem getHueColour_third :
    roundFloat f1Over3 = f1Over3 ∧ 120 < f1Over3 * 360 ∧
      (CFloat.fin f1Over3).mul (.fin 360) = .fin 120 ∧
      getHueColour (.fin f1Over3) = (.fin 0, .fin 1, .fin 0) := by
  have hfix : roundFloat f1Over3 = f1Over3 :=
    roundFloat_exact f1Over3 (-2) 11184811 (by norm_num) (by norm_num [f1Over3])
      (by norm_num [f1Over3]) (by norm_num [f1Over3])
  have hr : roundFloat (f1Over3 * 360) = 120 := by
    unfold roundFloat
    rw [ulpExponent_of_binade (f1Over3 * 360) 6 (by norm_num) (by norm_num [f1Over3])
      (by norm_num [f1Over3]),
      roundHalfEven_down _ 15728640 (by norm_num [f1Over3]) (by norm_num [f1Over3])]
    norm_num
  have hmul : (CFloat.fin f1Over3).mul (.fin 360) = .fin 120 := by
    show CFloat.round (f1Over3 * 360) = .fin 120
    unfold CFloat.round
    rw [hr]
    norm_num
  have hc : clampFloat (.fin f1Over3) (.fin 0) (.fin 1) = .fin f1Over3 := by
    norm_num [clampFloat, CFloat.lt_fin, f1Over3]
  refine ⟨hfix, by norm_num [f1Over3], hmul, ?_⟩
  have esub : ∀ a b : Rat, (CFloat.fin a).sub (.fin b) = CFloat.round (a - b) :=
    fun _ _ => rfl
  simp only [getHueColour, hc, hmul]
  norm_num [CFloat.le_fin, hueSector, CFloat.div_sixty, esub, CFloat.round_zero,
    CFloat.round_one, CFloat.round_sixty]

/-! ## Evaluating the colour ramp -/

theorem rampScan_le (p : CFloat) (l : List SPoint) : rampScan p l ≤ l.length := by
  induction l with
  | nil => exact Nat.le_refl 0
  | cons it rest ih =>
    unfold rampScan
    split_ifs
    · simp only [List.length_cons]; omega
    · omega

/-- Every element before the one the loop stops at is less than the ramp position. -/
theorem rampScan_before (p : CFloat) (l : List SPoint) (i : Nat) (hi : i < rampScan p l) :
    ∃ pt, l[i]? = some pt ∧ pt.fPosition.lt p = true := by
  induction l generalizing i with
  | nil => exact absurd hi (Nat.not_lt_zero i)
  | cons it rest ih =>
    unfold rampScan at hi
    split_ifs at hi with hlt
    · cases i with
      | zero => exact ⟨it, List.getElem?_cons_zero, hlt⟩
      | succ j =>
        obtain ⟨pt, h1, h2⟩ := ih j (by omega)
        exact ⟨pt, by simpa using h1, h2⟩
    · omega

/-- The element the loop stops at is not less than the ramp position. -/
theorem rampScan_at (p : CFloat) (l : List SPoint) (h : rampScan p l < l.length) :
    ∃ pt, l[rampScan p l]? = some pt ∧ pt.fPosition.lt p = false := by
  induction l with
  | nil => exact absurd h (Nat.not_lt_zero _)
  | cons it rest ih =>
    unfold rampScan at h ⊢
    by_cases hlt : it.fPosition.lt p = true
    · rw [if_pos hlt] at h ⊢
      simp only [List.length_cons] at h
      obtain ⟨pt, h1, h2⟩ := ih (by omega)
      exact ⟨pt, by simpa using h1, h2⟩
    · rw [if_neg hlt]
      exact ⟨it, List.getElem?_cons_zero, by simpa using hlt⟩

/-- The indices `getAdjacentPointIndicies` yields on a list of at least two points. -/
theorem getAdjacentPointIndicies_eq (p : CFloat) (points : List SPoint)
    (hn : 2 ≤ points.length) (hlt : points.length < 4294967296) :
    getAdjacentPointIndicies p points =
      .ok (if rampScan p points = 0 then (0, 1)
        else if rampScan p points ≥ points.length then (points.length - 2, points.length - 1)
        else (rampScan p points - 1, rampScan p points)) := by
  have hk := rampScan_le p points
  have e1 : toUInt (rampScan p points : Int) = rampScan p points := toUInt_of_lt _ (by omega)
  have e2 : toUInt (points.length : Int) = points.length := toUInt_of_lt _ hlt
  unfold getAdjacentPointIndicies
  rw [if_neg (by omega)]
  simp only [e1, e2]
  by_cases h0 : rampScan p points = 0
  · rw [if_pos h0, if_pos h0, h0]
    rfl
  · rw [if_neg h0, if_neg h0]
    by_cases hge : rampScan p points ≥ points.length
    · rw [if_pos hge, if_pos hge]
      have a1 : toUInt ((points.length : Int) - 1) = points.length - 1 := by
        have : (points.length : Int) - 1 = ((points.length - 1 : Nat) : Int) := by omega
        rw [this]
        exact toUInt_of_lt _ (by omega)
      have a2 : toUInt (((points.length - 1 : Nat) : Int) - 1) = points.length - 2 := by
        have : ((points.length - 1 : Nat) : Int) - 1 = ((points.length - 2 : Nat) : Int) := by
          omega
        rw [this]
        exact toUInt_of_lt _ (by omega)
      rw [a1, a2]
    · rw [if_neg hge, if_neg hge]
      have a1 : toUInt ((rampScan p points : Int) - 1) = rampScan p points - 1 := by
        have : (rampScan p points : Int) - 1 = ((rampScan p points - 1 : Nat) : Int) := by
          omega
        rw [this]
        exact toUInt_of_lt _ (by omega)
      rw [a1]

/-- The two indices are neighbours and both are indices of points. -/
theorem adjacent_valid (p : CFloat) (points : List SPoint)
    (hn : 2 ≤ points.length) (hlt : points.length < 4294967296) :
    ∃ l, getAdjacentPointIndicies p points = .ok (l, l + 1) ∧ l + 1 < points.length ∧
      l = (if rampScan p points = 0 then 0
        else if rampScan p points ≥ points.length then points.length - 2
        else rampScan p points - 1) := by
  rw [getAdjacentPointIndicies_eq p points hn hlt]
  by_cases h0 : rampScan p points = 0
  · exact ⟨0, by rw [if_pos h0], by omega, by rw [if_pos h0]⟩
  · by_cases hge : rampScan p points ≥ points.length
    · refine ⟨points.length - 2, ?_, by omega, by rw [if_neg h0, if_pos hge]⟩
      rw [if_neg h0, if_pos hge]
      have : points.length - 2 + 1 = points.length - 1 := by omega
      rw [this]
    · refine ⟨rampScan p points - 1, ?_, by omega, by rw [if_neg h0, if_neg hge]⟩
      rw [if_neg h0, if_neg hge]
      have : rampScan p points - 1 + 1 = rampScan p points := by omega
      rw [this]

/-- C31: `getRampColour`, for every ramp position. On a ramp without points it returns
opaque white; on a ramp with one point it throws, the exception being that of
`getAdjacentPointIndicies`; on a ramp with two or more points it returns a colour: no
exception is thrown and both iterators point to elements of the list. The number of points
is one that the `unsigned int` indices can hold. -/
theorem getRampColour_total (interpolate : CColourf → CColourf → CFloat → CColourf)
    (fRampPosition : CFloat) (points : List SPoint) (hlt : points.length < 4294967296) :
    (points.length = 0 →
      getRampColour interpolate fRampPosition points =
        some (.ok ⟨.fin 1, .fin 1, .fin 1, .fin 1⟩)) ∧
    (points.length = 1 →
      getRampColour interpolate fRampPosition points =
        some (.error "Less than two points in the ramp")) ∧
    (2 ≤ points.length →
      ∃ colour, getRampColour interpolate fRampPosition points = some (.ok colour)) := by
  refine ⟨?_, ?_, ?_⟩
  · intro h0
    unfold getRampColour
    simp only [h0, if_true]
  · intro h1
    have hadj : getAdjacentPointIndicies (clampFloat fRampPosition (.fin 0) (.fin 1)) points =
        .error "Less than two points in the ramp" := by
      unfold getAdjacentPointIndicies
      rw [if_pos (by omega)]
    have hne : ¬ points.length = 0 := by omega
    unfold getRampColour
    simp only [hne, if_false, hadj]
  · intro h2
    obtain ⟨l, hadj, hl, _⟩ := adjacent_valid (clampFloat fRampPosition (.fin 0) (.fin 1))
      points h2 hlt
    have hpl : points[l]? = some points[l] := List.getElem?_eq_getElem (by omega)
    have hpr : points[l + 1]? = some points[l + 1] := List.getElem?_eq_getElem hl
    have hne : ¬ points.length = 0 := by omega
    unfold getRampColour
    simp only [hne, if_false, hadj, hpl, hpr]
    exact ⟨_, rfl⟩

theorem getRampColour_total_witness :
    setupColourRampFire.length < 4294967296 ∧
    ((setupColourRampFire.length = 0 →
      getRampColour interpolateLeft (.fin (1 / 4)) setupColourRampFire =
        some (.ok ⟨.fin 1, .fin 1, .fin 1, .fin 1⟩)) ∧
    (setupColourRampFire.length = 1 →
      getRampColour interpolateLeft (.fin (1 / 4)) setupColourRampFire =
        some (.error "Less than two points in the ramp")) ∧
    (2 ≤ setupColourRampFire.length →
      ∃ colour, getRampColour interpolateLeft (.fin (1 / 4)) setupColourRampFire =
        some (.ok colour))) :=
  ⟨by decide, getRampColour_total interpolateLeft (.fin (1 / 4)) setupColourRampFire
    (by decide)⟩

/-! ## The order of the positions -/

theorem CFloat.le_ne_nan (a b : CFloat) (h : a.le b = true) : a ≠ .nan ∧ b ≠ .nan := by
  cases a <;> cases b <;> simp_all [CFloat.le]

theorem CFloat.le_of_lt (a b : CFloat) (h : a.lt b = true) : a.le b = true := by
  cases a <;> cases b <;> simp_all [CFloat.lt, CFloat.le]
  exact h.le

theorem CFloat.not_le_of_lt (a b : CFloat) (h : a.lt b = true) : b.le a = false := by
  cases a <;> cases b <;> simp_all [CFloat.lt, CFloat.le]

theorem CFloat.le_of_not_lt (a b : CFloat) (ha : a ≠ .nan) (hb : b ≠ .nan)
    (h : a.lt b = false) : b.le a = true := by
  cases a <;> cases b <;> simp_all [CFloat.lt, CFloat.le]

theorem CFloat.le_trans (a b c : CFloat) (h1 : a.le b = true) (h2 : b.le c = true) :
    a.le c = true := by
  cases a <;> cases b <;> cases c <;> simp_all [CFloat.le]
  exact h1.trans h2

/-- The elements of a sorted list at two indices in increasing order. -/
theorem sorted_getElem? (points : List SPoint)
    (hs : points.Pairwise (fun a b => a.fPosition.le b.fPosition = true)) (i j : Nat)
    (a b : SPoint) (hi : points[i]? = some a) (hj : points[j]? = some b) (hij : i < j) :
    a.fPosition.le b.fPosition = true := by
  obtain ⟨h1, rfl⟩ := List.getElem?_eq_some.mp hi
  obtain ⟨h2, rfl⟩ := List.getElem?_eq_some.mp hj
  exact List.pairwise_iff_getElem.mp hs i j h1 h2 hij

/-- C32: on a ramp of at least two points, for every ramp position,
`getAdjacentPointIndicies` returns two indices, the right one the successor of the left one
and at most the last index, so that both are indices of points. When the points are sorted
by position and the ramp position lies between the positions of the first and of the last
point, both included, the position of the left point is at most the ramp position, which is
at most the position of the right point. The number of points is one that the
`unsigned int` indices can hold. -/
theorem getAdjacentPointIndicies_brackets (fRampPosition : CFloat) (points : List SPoint)
    (hn : 2 ≤ points.length) (hlt : points.length < 4294967296) :
    ∃ uiPointIndexLeft uiPointIndexRight,
      getAdjacentPointIndicies fRampPosition points =
        .ok (uiPointIndexLeft, uiPointIndexRight) ∧
      uiPointIndexRight = uiPointIndexLeft + 1 ∧ uiPointIndexRight ≤ points.length - 1 ∧
      (points.Pairwise (fun a b => a.fPosition.le b.fPosition = true) →
        ∀ first last, points.head? = some first → points.getLast? = some last →
          first.fPosition.le fRampPosition = true → fRampPosition.le last.fPosition = true →
          ∃ pointLeft pointRight, points[uiPointIndexLeft]? = some pointLeft ∧
            points[uiPointIndexRight]? = some pointRight ∧
            pointLeft.fPosition.le fRampPosition = true ∧
            fRampPosition.le pointRight.fPosition = true) := by
  obtain ⟨l, hadj, hl, hval⟩ := adjacent_valid fRampPosition points hn hlt
  refine ⟨l, l + 1, hadj, rfl, by omega, ?_⟩
  intro hs first last hfirst hlast hlo hhi
  have hpl : points[l]? = some points[l] := List.getElem?_eq_getElem (by omega)
  have hpr : points[l + 1]? = some points[l + 1] := List.getElem?_eq_getElem hl
  have hp := (CFloat.le_ne_nan _ _ hlo).2
  have hf0 : points[0]? = some first := by rw [← List.head?_eq_getElem?]; exact hfirst
  have hlast' : points[points.length - 1]? = some last := by
    rw [← List.getLast?_eq_getElem?]; exact hlast
  have hk := rampScan_le fRampPosition points
  refine ⟨points[l], points[l + 1], hpl, hpr, ?_, ?_⟩
  · by_cases h0 : rampScan fRampPosition points = 0
    · rw [if_pos h0] at hval
      subst hval
      rw [hf0] at hpl
      rw [← Option.some.inj hpl]
      exact hlo
    · by_cases hge : rampScan fRampPosition points ≥ points.length
      · obtain ⟨pt, e1, e2⟩ := rampScan_before fRampPosition points (points.length - 1)
          (by omega)
        rw [hlast'] at e1
        rw [← Option.some.inj e1] at e2
        rw [CFloat.not_le_of_lt _ _ e2] at hhi
        exact absurd hhi (by decide)
      · rw [if_neg h0, if_neg hge] at hval
        obtain ⟨pt, e1, e2⟩ := rampScan_before fRampPosition points l (by omega)
        rw [hpl] at e1
        rw [Option.some.inj e1]
        exact CFloat.le_of_lt _ _ e2
  · by_cases h0 : rampScan fRampPosition points = 0
    · rw [if_pos h0] at hval
      subst hval
      obtain ⟨pt, e1, e2⟩ := rampScan_at fRampPosition points (by omega)
      rw [h0, hf0] at e1
      rw [← Option.some.inj e1] at e2
      have h1 := CFloat.le_of_not_lt _ _ (CFloat.le_ne_nan _ _ hlo).1 hp e2
      exact CFloat.le_trans _ _ _ h1 (sorted_getElem? points hs 0 1 _ _ hf0 hpr (by omega))
    · by_cases hge : rampScan fRampPosition points ≥ points.length
      · obtain ⟨pt, e1, e2⟩ := rampScan_before fRampPosition points (points.length - 1)
          (by omega)
        rw [hlast'] at e1
        rw [← Option.some.inj e1] at e2
        rw [CFloat.not_le_of_lt _ _ e2] at hhi
        exact absurd hhi (by decide)
      · rw [if_neg h0, if_neg hge] at hval
        obtain ⟨pt, e1, e2⟩ := rampScan_at fRampPosition points (by omega)
        have hidx : rampScan fRampPosition points = l + 1 := by omega
        rw [hidx, hpr] at e1
        rw [← Option.some.inj e1] at e2
        have hnn := (CFloat.le_ne_nan _ _
          (sorted_getElem? points hs l (l + 1) _ _ hpl hpr (by omega))).2
        exact CFloat.le_of_not_lt _ _ hnn hp e2

theorem getAdjacentPointIndicies_brackets_witness :
    2 ≤ setupColourRampFire.length ∧ setupColourRampFire.length < 4294967296 ∧
    ∃ uiPointIndexLeft uiPointIndexRight,
      getAdjacentPointIndicies (.fin (3 / 4)) setupColourRampFire =
        .ok (uiPointIndexLeft, uiPointIndexRight) ∧
      uiPointIndexRight = uiPointIndexLeft + 1 ∧
      uiPointIndexRight ≤ setupColourRampFire.length - 1 ∧
      (setupColourRampFire.Pairwise (fun a b => a.fPosition.le b.fPosition = true) →
        ∀ first last, setupColourRampFire.head? = some first →
          setupColourRampFire.getLast? = some last →
          first.fPosition.le (.fin (3 / 4)) = true →
          (CFloat.fin (3 / 4)).le last.fPosition = true →
          ∃ pointLeft pointRight, setupColourRampFire[uiPointIndexLeft]? = some pointLeft ∧
            setupColourRampFire[uiPointIndexRight]? = some pointRight ∧
            pointLeft.fPosition.le (.fin (3 / 4)) = true ∧
            (CFloat.fin (3 / 4)).le pointRight.fPosition = true) :=
  ⟨by decide, by decide,
    getAdjacentPointIndicies_brackets (.fin (3 / 4)) setupColourRampFire (by decide)
      (by decide)⟩

/-! ## Adding and removing the alpha channel -/

/-- `addAlphaChannel` on a three-channel buffer given by natural numbers. -/
theorem addAlphaChannel_three_fold (a : Nat) (d : List Nat) (W H : Nat) (hW : 1 ≤ W)
    (hH : 1 ≤ H) (hlt : W * H * 3 < 2147483648) (hd : d.length = W * H * 3) :
    addAlphaChannel a ⟨some d, W * H * 3, (W : Int), (H : Int), 3⟩ =
      .returned ()
        ⟨some (((List.range (W * H)).map (fun k => k * 4)).foldl (addAlphaStep d a)
          (0, List.replicate (W * H * 4) 0)).2, W * H * 4, (W : Int), (H : Int), 4⟩ := by
  obtain ⟨hWlt, hHlt, _⟩ := factors_lt W H 3 hW hH (by omega) hlt
  have n4 : ¬ ((3 : Int) = 4) := by decide
  have hbig : W * H * 4 < 4294967296 := by omega
  have hcopy := copyTo_local d W H 3 hW hH (Or.inl rfl) hlt hd CImage.new
  simp only [Nat.cast_ofNat] at hcopy
  have hcb : createBlank (toUInt (W : Int)) (toUInt (H : Int)) 4
      ⟨some d, W * H * 3, (W : Int), (H : Int), 3⟩ =
      .returned () ⟨some (List.replicate (W * H * 4) 0), W * H * 4, (W : Int), (H : Int),
        4⟩ := by
    rw [toUInt_of_lt W (by omega), toUInt_of_lt H (by omega),
      createBlank_returned W H 4 _ hW hH (Or.inr rfl), toInt_of_lt W hWlt,
      toInt_of_lt H hHlt]
    have : (W : Int) * (H : Int) * ((4 : Nat) : Int) = ((W * H * 4 : Nat) : Int) := by
      push_cast; ring
    rw [this, toUInt_of_lt _ hbig]
    rfl
  simp only [addAlphaChannel, n4, if_false, if_true, hcopy, hcb, Option.map_some',
    Option.getD_some, strideIndices_pixels (W * H) 4 (by decide)]

/-- The copying loop of `removeAlphaChannel` over two runs of indices. -/
theorem removeAlphaLoop_append (old : List Nat) (L1 L2 : List Nat) (st : Int × List Nat) :
    removeAlphaLoop old (L1 ++ L2) st =
      (removeAlphaLoop old L1 st).bind (removeAlphaLoop old L2) := by
  induction L1 generalizing st with
  | nil => rfl
  | cons i L1 ih =>
    rw [List.cons_append, removeAlphaLoop, removeAlphaLoop]
    cases removeAlphaStep old st i with
    | none => rfl
    | some s1 => exact ih s1

/-- The copying loop of `removeAlphaChannel`, after `N` pixels whose source index stays an
`int` inside the old storage: the counter is `4 * N` and the first `N` pixels of the new
storage hold the colour bytes of the old pixels. -/
theorem removeAlpha_fold (old : List Nat) (M : Nat) (nd : List Nat) (hnd : nd.length = M * 3)
    (N : Nat) (hN : N ≤ M) (hold : N * 4 ≤ old.length) (hlt : N * 4 < 2147483648) :
    ∃ D, removeAlphaLoop old ((List.range N).map (fun k => k * 3)) (0, nd) =
        some (((N * 4 : Nat) : Int), D) ∧
      D.length = M * 3 ∧
      (∀ p, p < N → ∀ k, k < 3 → D[p * 3 + k]? = some (old.getD (p * 4 + k) 0)) := by
  induction N with
  | zero => exact ⟨nd, rfl, hnd, fun p hp => absurd hp (Nat.not_lt_zero p)⟩
  | succ N ih =>
    obtain ⟨D, i1, i2, i3⟩ := ih (by omega) (by omega) (by omega)
    have hcond : 0 ≤ ((N * 4 : Nat) : Int) ∧
        ((N * 4 : Nat) : Int) + 2 < (old.length : Int) := by omega
    have hadd : addInt ((N * 4 : Nat) : Int) 4 = (((N + 1) * 4 : Nat) : Int) := by
      unfold addInt
      have e : ((N * 4 : Nat) : Int) + 4 = (((N + 1) * 4 : Nat) : Int) := by push_cast; ring
      rw [e, toUInt_of_lt _ (by omega), toInt_of_lt _ hlt]
    rw [List.range_succ, List.map_append, removeAlphaLoop_append, i1, Option.some_bind,
      List.map_cons, List.map_nil, removeAlphaLoop, removeAlphaStep, if_pos hcond]
    simp only [removeAlphaLoop, hadd, Int.toNat_natCast]
    refine ⟨_, rfl, by simp [i2], ?_⟩
    intro p hp k hk
    by_cases hpN : p = N
    · subst hpN
      have hk' : k = 0 ∨ k = 1 ∨ k = 2 := by omega
      rcases hk' with rfl | rfl | rfl
      · simp only [List.getElem?_set, List.length_set, Nat.add_zero]
        rw [if_neg (by omega), if_neg (by omega), if_pos trivial, if_pos (by omega)]
      · simp only [List.getElem?_set, List.length_set]
        rw [if_neg (by omega), if_pos trivial, if_pos (by omega)]
      · simp only [List.getElem?_set, List.length_set]
        rw [if_pos trivial, if_pos (by omega)]
    · simp only [List.getElem?_set, List.length_set]
      rw [if_neg (by omega), if_neg (by omega), if_neg (by omega)]
      exact i3 p (by omega) k hk

/-- The copying loop of `removeAlphaChannel` on more than `2^29` pixels: after `2^29`
pixels the source index has left the range of `int`, and the next read is outside the old
storage. -/
theorem removeAlphaLoop_wraps (old : List Nat) (M : Nat) (nd : List Nat)
    (hnd : nd.length = M * 3) (N : Nat) (hN : N * 4 = 2147483644) (hM : N + 2 ≤ M)
    (hold : (N + 2) * 4 ≤ old.length) :
    removeAlphaLoop old ((List.range (N + 2)).map (fun k => k * 3)) (0, nd) = none := by
  obtain ⟨D, i1, -, -⟩ := removeAlpha_fold old M nd hnd N (by omega) (by omega) (by omega)
  have hcond : 0 ≤ ((N * 4 : Nat) : Int) ∧
      ((N * 4 : Nat) : Int) + 2 < (old.length : Int) := by omega
  have hadd : addInt ((N * 4 : Nat) : Int) 4 = -2147483648 := by
    rw [hN]
    decide
  have hneg : ¬ (0 ≤ (-2147483648 : Int) ∧ (-2147483648 : Int) + 2 < (old.length : Int)) := by
    omega
  rw [List.range_succ, List.range_succ, List.map_append, List.map_append,
    removeAlphaLoop_append, removeAlphaLoop_append, i1, Option.some_bind,
    List.map_cons, List.map_nil, removeAlphaLoop, removeAlphaStep, if_pos hcond]
  simp only [removeAlphaLoop, hadd, Option.some_bind]
  rw [removeAlphaStep, if_neg hneg]

/-- What `removeAlphaChannel` does on a four-channel buffer given by natural numbers, of
fewer than `2^32` bytes: the copying loop is run on the blank three-channel storage. -/
theorem removeAlphaChannel_loop (d4 : List Nat) (W H : Nat) (hW : 1 ≤ W) (hH : 1 ≤ H)
    (hlt : W * H * 3 < 2147483648) (hd : d4.length = W * H * 4) :
    removeAlphaChannel ⟨some d4, W * H * 4, (W : Int), (H : Int), 4⟩ =
      match removeAlphaLoop d4 ((List.range (W * H)).map (fun k => k * 3))
          (0, List.replicate (W * H * 3) 0) with
      | none => none
      | some st => some (.returned () ⟨some st.2, W * H * 3, (W : Int), (H : Int), 3⟩) := by
  obtain ⟨hWlt, hHlt, _⟩ := factors_lt W H 3 hW hH (by omega) hlt
  have n4 : ¬ ((4 : Int) ≠ 4) := by decide
  have hbig : W * H * 4 < 4294967296 := by omega
  have e4 : toUInt ((W : Int) * (H : Int) * 4) = W * H * 4 := by
    have : (W : Int) * (H : Int) * 4 = ((W * H * 4 : Nat) : Int) := by push_cast; ring
    rw [this, toUInt_of_lt _ hbig]
  have hcopy := copyTo_nat d4 (W * H * 4) W H 4 hW hH hWlt hHlt (Or.inr rfl) CImage.new
  simp only [Nat.cast_ofNat, e4] at hcopy
  have etake : List.take (W * H * 4) d4 = d4 := List.take_of_length_le (by omega)
  rw [etake, List.drop_replicate, Nat.sub_self, List.replicate_zero, List.append_nil] at hcopy
  have hcb : createBlank (toUInt (W : Int)) (toUInt (H : Int)) 3
      ⟨some d4, W * H * 4, (W : Int), (H : Int), 4⟩ =
      .returned () ⟨some (List.replicate (W * H * 3) 0), W * H * 3, (W : Int), (H : Int),
        3⟩ := by
    rw [toUInt_of_lt W (by omega), toUInt_of_lt H (by omega),
      createBlank_returned W H 3 _ hW hH (Or.inl rfl), toInt_of_lt W hWlt,
      toInt_of_lt H hHlt]
    have : (W : Int) * (H : Int) * ((3 : Nat) : Int) = ((W * H * 3 : Nat) : Int) := by
      push_cast; ring
    rw [this, toUInt_of_lt _ (by omega)]
    rfl
  simp only [removeAlphaChannel, n4, if_false, hcopy, hcb, Option.getD_some,
    strideIndices_pixels (W * H) 3 (by decide)]

/-- C37, amended: on a non-empty three-channel buffer of fewer than `2^29` pixels (the
four-channel buffer has fewer than `2^31` bytes, so the `int` source index of
`removeAlphaChannel` stays in range), for every alpha value, `addAlphaChannel` returns,
`removeAlphaChannel` called next returns, and the buffer is then the one before the two
calls: the same width, height, channel count 3, size and bytes. -/
theorem addAlpha_removeAlpha (ucAlpha : Nat) (self : CImage) (hi : IsImage self)
    (h3 : self._miNumChannels = 3)
    (hsize : self._miWidth * self._miHeight * 4 < 2147483648) :
    ∃ img4, addAlphaChannel ucAlpha self = .returned () img4 ∧
      removeAlphaChannel img4 = some (.returned () self) := by
  obtain ⟨d, W, H, C, rfl, hW, hH, hC, hlt, hd⟩ := hi.exists_nat
  simp only at h3 hsize
  have hC3 : C = 3 := by exact_mod_cast h3
  subst hC3
  have hsz : W * H * 4 < 2147483648 := by exact_mod_cast hsize
  simp only [Nat.cast_ofNat]
  obtain ⟨f1, f2, f3⟩ := addAlpha_fold d ucAlpha (W * H) (List.replicate (W * H * 4) 0)
    (by simp) (W * H) (Nat.le_refl _)
  obtain ⟨D, g1, g2, g3⟩ := removeAlpha_fold
    (((List.range (W * H)).map (fun k => k * 4)).foldl (addAlphaStep d ucAlpha)
      (0, List.replicate (W * H * 4) 0)).2 (W * H) (List.replicate (W * H * 3) 0)
    (by simp) (W * H) (Nat.le_refl _) (by omega) hsz
  refine ⟨_, addAlphaChannel_three_fold ucAlpha d W H hW hH hlt hd, ?_⟩
  rw [removeAlphaChannel_loop _ W H hW hH hlt f2, g1]
  simp only
  congr 4
  apply List.ext_getElem?
  intro q
  by_cases hq : q < W * H * 3
  · have hq' : q = q / 3 * 3 + q % 3 := by omega
    have hp : q / 3 < W * H := by omega
    have hk : q % 3 < 3 := by omega
    rw [hq', g3 (q / 3) hp (q % 3) hk, List.getD_eq_getElem?_getD,
      (f3 (q / 3) hp).1 (q % 3) hk, Option.getD_some, List.getD_eq_getElem?_getD, ← hq',
      List.getElem?_eq_getElem (by omega), Option.getD_some]
  · rw [List.getElem?_eq_none (by omega), List.getElem?_eq_none (by omega)]

theorem addAlpha_removeAlpha_witness :
    IsImage sampleSquare ∧ sampleSquare._miNumChannels = 3 ∧
    sampleSquare._miWidth * sampleSquare._miHeight * 4 < 2147483648 ∧
    ∃ img4, addAlphaChannel 255 sampleSquare = .returned () img4 ∧
      removeAlphaChannel img4 = some (.returned () sampleSquare) :=
  ⟨by decide, by decide, by decide,
    addAlpha_removeAlpha 255 sampleSquare (by decide) (by decide) (by decide)⟩

/-- `removeAlphaChannel` on a four-channel buffer of more than `2^29` pixels has no defined
result. -/
theorem removeAlphaChannel_wraps (d4 : List Nat) (W H : Nat) (hW : 1 ≤ W) (hH : 1 ≤ H)
    (hlt : W * H * 3 < 2147483648) (hd : d4.length = W * H * 4)
    (hbig : 536870913 ≤ W * H) :
    removeAlphaChannel ⟨some d4, W * H * 4, (W : Int), (H : Int), 4⟩ = none := by
  obtain ⟨r, hr⟩ : ∃ r, W * H = (536870911 + 2) + r := ⟨W * H - 536870913, by omega⟩
  rw [removeAlphaChannel_loop d4 W H hW hH hlt hd, hr, List.range_add, List.map_append,
    removeAlphaLoop_append,
    removeAlphaLoop_wraps d4 (536870911 + 2 + r) _ (by simp) 536870911 (by decide)
      (by omega) (by omega)]
  rfl

/-- C37, counterexample: a three-channel image of `2^29 + 1` pixels in one row is a
non-empty buffer; `addAlphaChannel` returns on it, and `removeAlphaChannel` on the result
has no defined result, because its `int` source index leaves the range of `int` after
`2^29` pixels. -/
theorem addAlpha_removeAlpha_overflow :
    IsImage wideImage ∧ wideImage._miNumChannels = 3 ∧
    ∃ img4, addAlphaChannel 255 wideImage = .returned () img4 ∧
      img4._muiDataSize = 2147483652 ∧ removeAlphaChannel img4 = none := by
  have hd : (List.replicate 1610612739 0).length = 536870913 * 1 * 3 :=
    List.length_replicate _ _
  obtain ⟨f1, f2, f3⟩ := addAlpha_fold (List.replicate 1610612739 0) 255 (536870913 * 1)
    (List.replicate (536870913 * 1 * 4) 0) (List.length_replicate _ _) (536870913 * 1)
    (Nat.le_refl _)
  refine ⟨IsImage.of_nat _ 536870913 1 3 (by decide) (by decide) (Or.inl rfl) (by decide) hd,
    rfl, _, addAlphaChannel_three_fold 255 _ 536870913 1 (by decide) (by decide) (by decide)
      hd, rfl, ?_⟩
  exact removeAlphaChannel_wraps _ 536870913 1 (by decide) (by decide) (by decide) f2
    (by decide)

/-! ## Repeated rotation -/

/-- `rotateClockwise` on a non-empty buffer given by natural numbers: the buffer returned
has the exchanged dimensions, and the byte `k` of the source pixel `(x, y)` is byte `k` of
the pixel at column `y` and row `W - 1 - x`. -/
theorem rotateClockwise_nat (col3 : Nat) (d : List Nat) (W H C : Nat) (hW : 1 ≤ W)
    (hH : 1 ≤ H) (hC : C = 3 ∨ C = 4) (hlt : W * H * C < 2147483648)
    (hd : d.length = W * H * C) :
    ∃ out, rotateClockwise col3 ⟨some d, W * H * C, (W : Int), (H : Int), (C : Int)⟩ =
        .returned () ⟨some out, H * W * C, (H : Int), (W : Int), (C : Int)⟩ ∧
      out.length = H * W * C ∧
      ∀ x y k, x < W → y < H → k < C →
        out[(y + (W - 1 - x) * H) * C + k]? = d[(x + y * W) * C + k]? := by
  obtain ⟨hWlt, hHlt, _⟩ := factors_lt W H C hW hH (by omega) hlt
  have hlt' : H * W * C < 2147483648 := by rw [Nat.mul_comm H W]; exact hlt
  have hL : ∀ p ∈ rectPairs W H, p.1 < W ∧ p.2 < H ∧ p.2 < H ∧ p.1 < W := by
    intro p hp
    obtain ⟨p1, p2⟩ := (mem_rectPairs W H p).mp hp
    exact ⟨p1, p2, p2, p1⟩
  have hdest : ∃ cur, cur.length = H * W * C ∧
      rotateClockwise col3 ⟨some d, W * H * C, (W : Int), (H : Int), (C : Int)⟩ =
        rotateLoop ⟨some d, W * H * C, (W : Int), (H : Int), (C : Int)⟩ (rectPairs W H) col3
          ⟨some cur, H * W * C, (H : Int), (W : Int), (C : Int)⟩ := by
    by_cases hsq : W = H
    · subst hsq
      refine ⟨d, hd, ?_⟩
      simp only [rotateClockwise, copyTo_local d W W C hW hH hC hlt hd, ne_eq,
        not_true_eq_false, if_false, Outcome.andThen, Int.toNat_ofNat]
    · have hne : (W : Int) ≠ (H : Int) := by omega
      refine ⟨List.replicate (H * W * C) 0, by simp, ?_⟩
      simp only [rotateClockwise, copyTo_local d W H C hW hH hC hlt hd, hne, ne_eq,
        not_false_eq_true, if_true, createBlank_of_dims H W C hH hW hC hlt', Outcome.andThen,
        Int.toNat_ofNat]
  obtain ⟨cur, hcur, hrot⟩ := hdest
  obtain ⟨out, e, o1, _, o3⟩ := rotateLoop_spec d (W * H * C) (H * W * C) W H H W C hC hd
    hHlt hWlt (rectPairs W H) hL col3 cur hcur
  refine ⟨out, by rw [hrot]; exact e, by rw [o1, hcur], ?_⟩
  intro x y k hx hy hk
  exact o3 (x, y) ((mem_rectPairs W H (x, y)).mpr ⟨hx, hy⟩) k hk

/-- Two calls of `rotateClockwise` on a non-empty buffer given by natural numbers. -/
theorem rotateClockwise_twice_nat (c1 c2 : Nat) (d : List Nat) (W H C : Nat) (hW : 1 ≤ W)
    (hH : 1 ≤ H) (hC : C = 3 ∨ C = 4) (hlt : W * H * C < 2147483648)
    (hd : d.length = W * H * C) :
    ∃ out, (rotateClockwise c1 ⟨some d, W * H * C, (W : Int), (H : Int), (C : Int)⟩).andThen
          (rotateClockwise c2) =
        .returned () ⟨some out, W * H * C, (W : Int), (H : Int), (C : Int)⟩ ∧
      out.length = W * H * C ∧
      ∀ x y k, x < W → y < H → k < C →
        out[((W - 1 - x) + (H - 1 - y) * W) * C + k]? = d[(x + y * W) * C + k]? := by
  have hlt' : H * W * C < 2147483648 := by rw [Nat.mul_comm H W]; exact hlt
  obtain ⟨o1, e1, l1, p1⟩ := rotateClockwise_nat c1 d W H C hW hH hC hlt hd
  obtain ⟨o2, e2, l2, p2⟩ := rotateClockwise_nat c2 o1 H W C hH hW hC hlt' l1
  refine ⟨o2, by rw [e1, andThen_returned, e2], l2, ?_⟩
  intro x y k hx hy hk
  have h := p2 y (W - 1 - x) k hy (by omega) hk
  rw [p1 x y k hx hy hk] at h
  exact h

/-- Every byte offset inside the storage is that of a byte of a pixel. -/
theorem offset_pixel (W H C q : Nat) (hq : q < W * H * C) :
    ∃ x y k, x < W ∧ y < H ∧ k < C ∧ q = (x + y * W) * C + k := by
  have hC : 0 < C := by
    rcases Nat.eq_zero_or_pos C with h | h
    · rw [h] at hq; simp at hq
    · exact h
  have hW : 0 < W := by
    rcases Nat.eq_zero_or_pos W with h | h
    · rw [h] at hq; simp at hq
    · exact h
  have hm : q / C < W * H := by
    rw [Nat.div_lt_iff_lt_mul hC]
    exact hq
  refine ⟨q / C % W, q / C / W, q % C, Nat.mod_lt _ hW, ?_, Nat.mod_lt _ hC, ?_⟩
  · rw [Nat.div_lt_iff_lt_mul hW, Nat.mul_comm H W]
    exact hm
  · have h1 : q / C % W + q / C / W * W = q / C := by
      rw [Nat.mul_comm]
      exact Nat.mod_add_div _ _
    rw [h1, Nat.mul_comm]
    exact (Nat.div_add_mod q C).symm

/-- C36: on a non-empty buffer, square or not, two calls of `rotateClockwise` return and
leave a buffer of the same width, height, channel count and size in which the pixel at
column `x`, row `y` of the source is found at column `W - 1 - x`, row `H - 1 - y`; and four
calls return and leave exactly the buffer they started from. -/
theorem rotateClockwise_four (c1 c2 c3 c4 : Nat) (self : CImage) (hi : IsImage self) :
    (∃ out, (rotateClockwise c1 self).andThen (rotateClockwise c2) = .returned () out ∧
      out._miWidth = self._miWidth ∧ out._miHeight = self._miHeight ∧
      out._miNumChannels = self._miNumChannels ∧ out._muiDataSize = self._muiDataSize ∧
      ∀ x y : Nat, (x : Int) < self._miWidth → (y : Int) < self._miHeight →
        pixelBytes out (self._miWidth.toNat - 1 - x) (self._miHeight.toNat - 1 - y) =
          pixelBytes self x y) ∧
    (((rotateClockwise c1 self).andThen (rotateClockwise c2)).andThen
        (rotateClockwise c3)).andThen (rotateClockwise c4) = .returned () self := by
  obtain ⟨d, W, H, C, rfl, hW, hH, hC, hlt, hd⟩ := hi.exists_nat
  obtain ⟨o2, e2, l2, p2⟩ := rotateClockwise_twice_nat c1 c2 d W H C hW hH hC hlt hd
  obtain ⟨o4, e4, l4, p4⟩ := rotateClockwise_twice_nat c3 c4 o2 W H C hW hH hC hlt l2
  constructor
  · refine ⟨_, e2, rfl, rfl, rfl, rfl, ?_⟩
    intro x y hx hy
    simp only at hx hy
    simp only [pixelBytes, pixelIndex, Option.getD_some, Int.toNat_ofNat]
    apply window_ext
    intro k hk
    exact p2 x y k (by omega) (by omega) hk
  · have e34 : ((Outcome.returned () ⟨some o2, W * H * C, (W : Int), (H : Int),
        (C : Int)⟩).andThen (rotateClockwise c3)).andThen (rotateClockwise c4) =
        .returned () ⟨some o4, W * H * C, (W : Int), (H : Int), (C : Int)⟩ := by
      rw [andThen_returned]
      exact e4
    rw [e2, e34]
    congr 3
    apply List.ext_getElem?
    intro q
    by_cases hq : q < W * H * C
    · obtain ⟨x, y, k, hx, hy, hk, rfl⟩ := offset_pixel W H C q hq
      have h1 := p4 (W - 1 - x) (H - 1 - y) k (by omega) (by omega) hk
      have h2 := p2 x y k hx hy hk
      have ex : W - 1 - (W - 1 - x) = x := by omega
      have ey : H - 1 - (H - 1 - y) = y := by omega
      rw [ex, ey] at h1
      rw [h1, h2]
    · rw [List.getElem?_eq_none (by omega), List.getElem?_eq_none (by omega)]

theorem rotateClockwise_four_witness :
    IsImage sampleImage ∧
    (∃ out, (rotateClockwise 0 sampleImage).andThen (rotateClockwise 0) = .returned () out ∧
      out._miWidth = sampleImage._miWidth ∧ out._miHeight = sampleImage._miHeight ∧
      out._miNumChannels = sampleImage._miNumChannels ∧
      out._muiDataSize = sampleImage._muiDataSize ∧
      ∀ x y : Nat, (x : Int) < sampleImage._miWidth → (y : Int) < sampleImage._miHeight →
        pixelBytes out (sampleImage._miWidth.toNat - 1 - x)
            (sampleImage._miHeight.toNat - 1 - y) =
          pixelBytes sampleImage x y) ∧
    (((rotateClockwise 0 sampleImage).andThen (rotateClockwise 0)).andThen
        (rotateClockwise 0)).andThen (rotateClockwise 0) = .returned () sampleImage :=
  ⟨by decide, rotateClockwise_four 0 0 0 0 sampleImage (by decide)⟩

/-! ## Floyd–Steinberg on an image that is already quantised -/

/-- A store of the colour bytes that the pixel already holds changes nothing. -/
theorem storeRGB_same (d : List Nat) (C i r g b a : Nat) (hC : C = 3 ∨ C = 4)
    (hi : i + C ≤ d.length) (hr : d[i]? = some r) (hg : d[i + 1]? = some g)
    (hb : d[i + 2]? = some b) : storeRGB (C : Int) i r g b a d = d := by
  obtain ⟨s1, s2, s3, s4, s5⟩ := storeRGB_spec d C i r g b a hC hi
  apply List.ext_getElem?
  intro q
  by_cases h0 : q = i
  · rw [h0, s2, hr]
  · by_cases h1 : q = i + 1
    · rw [h1, s3, hg]
    · by_cases h2 : q = i + 2
      · rw [h2, s4, hb]
      · exact s5 q (fun hF => by
          obtain ⟨u1, u2⟩ := hF
          omega)

/-- A guarded call of `_ditherFloydSteinbergAddError` with no error to add, on an image
whose colour bytes are all 0 or 255: the image is left as it was. -/
theorem addError_zero (cond : Prop) [Decidable cond] (d : List Nat) (n W H C x y a0 : Nat)
    (f : Int) (hC : C = 3 ∨ C = 4) (hd : d.length = W * H * C)
    (hQ : ∀ x y k, x < W → y < H → k < 3 →
      d[(x + y * W) * C + k]? = some 0 ∨ d[(x + y * W) * C + k]? = some 255)
    (hcond : cond → x < W ∧ y < H) :
    (if cond then
        _ditherFloydSteinbergAddError a0 x y 0 0 0 f
          ⟨some d, n, (W : Int), (H : Int), (C : Int)⟩
      else .returned () ⟨some d, n, (W : Int), (H : Int), (C : Int)⟩) =
      .returned () ⟨some d, n, (W : Int), (H : Int), (C : Int)⟩ := by
  by_cases hc : cond
  · obtain ⟨hx, hy⟩ := hcond hc
    have hb := pixel_in_bounds x y W H C hx hy
    have hval : ∀ k, k < 3 → d[(x + y * W) * C + k]? = some (d.getD ((x + y * W) * C + k) 0) ∧
        (d.getD ((x + y * W) * C + k) 0 = 0 ∨ d.getD ((x + y * W) * C + k) 0 = 255) := by
      intro k hk
      rw [List.getD_eq_getElem?_getD]
      rcases hQ x y k hx hy hk with h | h
      · rw [h]; exact ⟨rfl, Or.inl rfl⟩
      · rw [h]; exact ⟨rfl, Or.inr rfl⟩
    obtain ⟨v0, q0⟩ := hval 0 (by omega)
    obtain ⟨v1, q1⟩ := hval 1 (by omega)
    obtain ⟨v2, q2⟩ := hval 2 (by omega)
    rw [Nat.add_zero] at v0 q0
    have z : ∀ v : Nat, v = 0 ∨ v = 255 →
        toUChar (stdClamp ((v : Int) + Int.tdiv (0 * f) 16) 0 255) = v := by
      intro v hv
      rw [zero_mul]
      rcases hv with rfl | rfl
      · decide
      · decide
    rw [if_pos hc, addError_nat d n W H C x y a0 0 0 0 f hx hy, z _ q0, z _ q1, z _ q2,
      storeRGB_same d C _ _ _ _ a0 hC (by omega) v0 v1 v2]
  · rw [if_neg hc]

/-- The body of the loops of `ditherFloydSteinberg` at a pixel of an image whose colour
bytes are all 0 or 255: the image is left as it was. -/
theorem ditherFloydSteinbergPixel_fixed (d : List Nat) (n W H C x y a0 : Nat)
    (hC : C = 3 ∨ C = 4) (hd : d.length = W * H * C) (hx : x < W) (hy : y < H)
    (hW : W < 2147483648)
    (hQ : ∀ x y k, x < W → y < H → k < 3 →
      d[(x + y * W) * C + k]? = some 0 ∨ d[(x + y * W) * C + k]? = some 255) :
    ditherFloydSteinbergPixel a0 x y ⟨some d, n, (W : Int), (H : Int), (C : Int)⟩ =
      .returned () ⟨some d, n, (W : Int), (H : Int), (C : Int)⟩ := by
  have hb := pixel_in_bounds x y W H C hx hy
  have hval : ∀ k, k < 3 → d[(x + y * W) * C + k]? = some (d.getD ((x + y * W) * C + k) 0) ∧
      (d.getD ((x + y * W) * C + k) 0 = 0 ∨ d.getD ((x + y * W) * C + k) 0 = 255) := by
    intro k hk
    rw [List.getD_eq_getElem?_getD]
    rcases hQ x y k hx hy hk with h | h
    · rw [h]; exact ⟨rfl, Or.inl rfl⟩
    · rw [h]; exact ⟨rfl, Or.inr rfl⟩
  obtain ⟨v0, q0⟩ := hval 0 (by omega)
  obtain ⟨v1, q1⟩ := hval 1 (by omega)
  obtain ⟨v2, q2⟩ := hval 2 (by omega)
  rw [Nat.add_zero] at v0 q0
  have n0 : ∀ v : Nat, v = 0 ∨ v = 255 → (if v > 127 then 255 else 0) = v := by
    intro v hv
    rcases hv with rfl | rfl <;> rfl
  have hstore : storePixel (C : Int) ((x + y * W) * C)
      (d.getD ((x + y * W) * C) 0) (d.getD ((x + y * W) * C + 1) 0)
      (d.getD ((x + y * W) * C + 2) 0)
      (if (C : Int) = 4 then d.getD ((x + y * W) * C + 3) 0 else a0) d = d :=
    storeRGB_same d C ((x + y * W) * C) _ _ _ a0 hC (by omega) v0 v1 v2
  have hdiff : diffuseError a0 x y 0 0 0 ⟨some d, n, (W : Int), (H : Int), (C : Int)⟩ =
      .returned () ⟨some d, n, (W : Int), (H : Int), (C : Int)⟩ := by
    have h2 := addError_zero ((x : Int) + 1 < (W : Int)) d n W H C (x + 1) y a0 7 hC hd hQ
      (by intro hc; omega)
    have h3 := addError_zero ((x : Int) - 1 ≥ 0 ∧ (y : Int) + 1 < (H : Int)) d n W H C
      (toUInt ((x : Int) - 1)) (y + 1) a0 3 hC hd hQ (by
        intro hc
        have e : toUInt ((x : Int) - 1) = x - 1 := by
          have : (x : Int) - 1 = ((x - 1 : Nat) : Int) := by omega
          rw [this]
          exact toUInt_of_lt _ (by omega)
        rw [e]
        omega)
    have h4 := addError_zero ((y : Int) + 1 < (H : Int)) d n W H C x (y + 1) a0 5 hC hd hQ
      (by intro hc; omega)
    have h5 := addError_zero ((x : Int) + 1 < (W : Int) ∧ (y : Int) + 1 < (H : Int)) d n W H C
      (x + 1) (y + 1) a0 1 hC hd hQ (by intro hc; omega)
    unfold diffuseError
    simp only [h2, andThen_returned, h3, h4, h5]
  simp only [ditherFloydSteinbergPixel, getPixel_nat d n W H C x y a0 hx hy,
    setPixel_nat d n W H C x y _ _ _ _ hx hy, andThen_returned, hstore, n0 _ q0, n0 _ q1,
    n0 _ q2, sub_self]
  exact hdiff

/-- The loops of `ditherFloydSteinberg` over pixels inside an image whose colour bytes are
all 0 or 255: the image is left as it was. -/
theorem ditherFloydSteinbergLoop_fixed (n W H C a0 : Nat) (hC : C = 3 ∨ C = 4)
    (hW : W < 2147483648) (L : List (Nat × Nat)) (hL : ∀ p ∈ L, p.1 < W ∧ p.2 < H)
    (d : List Nat) (hd : d.length = W * H * C)
    (hQ : ∀ x y k, x < W → y < H → k < 3 →
      d[(x + y * W) * C + k]? = some 0 ∨ d[(x + y * W) * C + k]? = some 255) :
    forPixels (ditherFloydSteinbergPixel a0) L ⟨some d, n, (W : Int), (H : Int), (C : Int)⟩ =
      .returned () ⟨some d, n, (W : Int), (H : Int), (C : Int)⟩ := by
  induction L with
  | nil => rfl
  | cons p L ih =>
    obtain ⟨x, y⟩ := p
    obtain ⟨hx, hy⟩ := hL (x, y) (List.mem_cons_self _ _)
    simp only at hx hy
    simp only [forPixels, ditherFloydSteinbergPixel_fixed d n W H C x y a0 hC hd hx hy hW hQ,
      andThen_returned]
    exact ih (fun p hp => hL p (List.mem_cons_of_mem _ hp))

/-- C38: on a non-empty buffer `ditherFloydSteinberg` returns, and a second call on the
buffer the first one left returns and leaves that buffer as it is: no byte and no other
member changes. An alpha argument that is indeterminate may differ between the calls. -/
theorem ditherFloydSteinberg_idempotent (a0 a1 : Nat) (self : CImage) (hi : IsImage self) :
    ∃ out, ditherFloydSteinberg a0 self = .returned () out ∧
      ditherFloydSteinberg a1 out = .returned () out := by
  obtain ⟨d, W, H, C, rfl, hW, hH, hC, hlt, hd⟩ := hi.exists_nat
  obtain ⟨hWlt, _, _⟩ := factors_lt W H C hW hH (by omega) hlt
  obtain ⟨d', e, l, z, _⟩ := ditherFloydSteinbergLoop_spec (W * H * C) W H C a0 hC hWlt
    (scanPairs W H) (scanPairs_sorted W H) (fun p hp => (mem_scanPairs W H p).mp hp) d hd
  refine ⟨⟨some d', W * H * C, (W : Int), (H : Int), (C : Int)⟩, ?_, ?_⟩
  · simp only [ditherFloydSteinberg, Int.toNat_ofNat]
    exact e
  · simp only [ditherFloydSteinberg, Int.toNat_ofNat]
    exact ditherFloydSteinbergLoop_fixed (W * H * C) W H C a1 hC hWlt (scanPairs W H)
      (fun p hp => (mem_scanPairs W H p).mp hp) d' (l.trans hd)
      (fun x y k hx hy hk => z (x, y) ((mem_scanPairs W H (x, y)).mpr ⟨hx, hy⟩) k hk)

theorem ditherFloydSteinberg_idempotent_witness :
    IsImage sampleAlpha ∧
    ∃ out, ditherFloydSteinberg 0 sampleAlpha = .returned () out ∧
      ditherFloydSteinberg 7 out = .returned () out :=
  ⟨by decide, ditherFloydSteinberg_idempotent 0 7 sampleAlpha (by decide)⟩

/-! ## The directory of the icon file -/

/-- The source of the icon images for a non-empty buffer: a four-channel image of the same
width and height, whose copy is equal to it. -/
theorem icoSourceWithAlpha_nat (d : List Nat) (W H C : Nat) (hW : 1 ≤ W) (hH : 1 ≤ H)
    (hC : C = 3 ∨ C = 4) (hlt : W * H * C < 2147483648) (hd : d.length = W * H * C) :
    ∃ d4, icoSourceWithAlpha ⟨some d, W * H * C, (W : Int), (H : Int), (C : Int)⟩ =
        .returned () ⟨some d4, W * H * 4, (W : Int), (H : Int), 4⟩ ∧
      copyTo ⟨some d4, W * H * 4, (W : Int), (H : Int), 4⟩ false CImage.new =
        .returned () ⟨some d4, W * H * 4, (W : Int), (H : Int), 4⟩ := by
  obtain ⟨hWlt, hHlt, _⟩ := factors_lt W H C hW hH (by omega) hlt
  have hcopy := copyTo_local d W H C hW hH hC hlt hd CImage.new
  have h3 : W * H * 3 ≤ W * H * C := Nat.mul_le_mul_left _ (by omega)
  have hbig : W * H * 4 < 4294967296 := by omega
  have e4 : toUInt ((W : Int) * (H : Int) * 4) = W * H * 4 := by
    have : (W : Int) * (H : Int) * 4 = ((W * H * 4 : Nat) : Int) := by push_cast; ring
    rw [this, toUInt_of_lt _ hbig]
  have hcp : ∀ d4 : List Nat, d4.length = W * H * 4 →
      copyTo ⟨some d4, W * H * 4, (W : Int), (H : Int), 4⟩ false CImage.new =
        .returned () ⟨some d4, W * H * 4, (W : Int), (H : Int), 4⟩ := by
    intro d4 hd4
    have h := copyTo_nat d4 (W * H * 4) W H 4 hW hH hWlt hHlt (Or.inr rfl) CImage.new
    simp only [Nat.cast_ofNat, e4] at h
    have etake : List.take (W * H * 4) d4 = d4 := List.take_of_length_le (by omega)
    rw [etake, List.drop_replicate, Nat.sub_self, List.replicate_zero, List.append_nil] at h
    exact h
  rcases hC with rfl | rfl
  · obtain ⟨_, f2, _⟩ := addAlpha_fold d 255 (W * H) (List.replicate (W * H * 4) 0)
      (by simp) (W * H) (Nat.le_refl _)
    refine ⟨_, ?_, hcp _ f2⟩
    simp only [Nat.cast_ofNat] at hcopy
    simp only [icoSourceWithAlpha, Nat.cast_ofNat, hcopy, if_true,
      addAlphaChannel_three_fold 255 d W H hW hH hlt hd]
  · refine ⟨d, ?_, hcp d hd⟩
    have h43 : ¬ (4 : Int) = 3 := by decide
    simp only [Nat.cast_ofNat] at hcopy
    simp only [icoSourceWithAlpha, Nat.cast_ofNat, hcopy, h43, if_false]

/-- `saveAsICO` in terms of the source of the icon images. -/
theorem saveAsICO_source
    (stbir : List Nat → Int → Int → Int → Int → Int → Option (List Nat))
    (stbiWritePng : List Nat → Int → Int → List Nat) (strFilename : String) (bCanOpen : Bool)
    (d : List Nat) (n : Nat) (w h c : Int) (src : CImage)
    (hsrc : icoSourceWithAlpha ⟨some d, n, w, h, c⟩ = .returned () src) :
    saveAsICO stbir stbiWritePng strFilename bCanOpen ⟨some d, n, w, h, c⟩ =
      match icoEncodeLoop stbir stbiWritePng ⟨some d, n, w, h, c⟩ src iconSizes with
      | .thrown what _ => .thrown what ⟨some d, n, w, h, c⟩
      | .returned none _ => .returned none ⟨some d, n, w, h, c⟩
      | .returned (some vecIcoDataForImages) _ =>
        if strFilename.length = 0 then
          .thrown "Given file name of zero length." ⟨some d, n, w, h, c⟩
        else if !bCanOpen then .returned none ⟨some d, n, w, h, c⟩
        else .returned (some (icoFileBytes iconSizes vecIcoDataForImages))
          ⟨some d, n, w, h, c⟩ := by
  unfold icoSourceWithAlpha at hsrc
  unfold saveAsICO
  simp only
  cases hc : copyTo ⟨some d, n, w, h, c⟩ false CImage.new with
  | thrown what img => rw [hc] at hsrc; simp at hsrc
  | returned u copied =>
    rw [hc] at hsrc
    simp only at hsrc ⊢
    rw [hsrc]
    try rfl

/-- The loop of `saveAsICO` over sizes for each of which the resize of the source returns
true: it yields one encoded image for each size. -/
theorem icoEncodeLoop_ok
    (stbir : List Nat → Int → Int → Int → Int → Int → Option (List Nat))
    (stbiWritePng : List Nat → Int → Int → List Nat) (self src : CImage)
    (hcp : copyTo src false CImage.new = .returned () src) (sizes : List Int)
    (hres : ∀ size ∈ sizes,
      ∃ out, resize stbir (toUInt size) (toUInt size) src = .returned true out) :
    ∃ vec, icoEncodeLoop stbir stbiWritePng self src sizes = .returned (some vec) self ∧
      vec.length = sizes.length := by
  induction sizes with
  | nil => exact ⟨[], rfl, rfl⟩
  | cons size rest ih =>
    obtain ⟨vec, hvec, hlen⟩ := ih (fun s hs => hres s (List.mem_cons_of_mem _ hs))
    obtain ⟨out, hout⟩ := hres size (List.mem_cons_self _ _)
    refine ⟨stbiWritePng (out._mpData.getD []) size size :: vec, ?_, by simp [hlen]⟩
    simp only [icoEncodeLoop, hcp, hout, hvec]

/-- C21: for a non-empty source image for which the six resizes succeed (each call of
`resize` on the source of the icon images, for the sizes of `iconSizes`, returns true), a
non-empty file name and an output file that can be opened, `saveAsICO` writes a file whose
header is reserved = 0, type = 1, count = 6 (16-bit little-endian words), and whose
directory entry `i`, at offset `6 + 16 * i`, starts with width byte and height byte equal
to the size (0 for size 256), colour count 0, reserved 0, planes 1 and bit count 32, for
the sizes 16, 32, 48, 64, 128, 256 in this order. -/
theorem saveAsICO_directory
    (stbir : List Nat → Int → Int → Int → Int → Int → Option (List Nat))
    (stbiWritePng : List Nat → Int → Int → List Nat) (strFilename : String) (img : CImage)
    (hi : IsImage img)
    (hres : ∀ src, icoSourceWithAlpha img = .returned () src → ∀ size ∈ iconSizes,
      ∃ out, resize stbir (toUInt size) (toUInt size) src = .returned true out)
    (hname : strFilename.length ≠ 0) :
    iconSizes = [16, 32, 48, 64, 128, 256] ∧
    ∃ file, saveAsICO stbir stbiWritePng strFilename true img = .returned (some file) img ∧
      file.take 6 = [0, 0, 1, 0, 6, 0] ∧
      ∀ i, i < 6 →
        (file.drop (6 + 16 * i)).take 8 =
          [if iconSizes.getD i 0 = 256 then 0 else (iconSizes.getD i 0).toNat,
            if iconSizes.getD i 0 = 256 then 0 else (iconSizes.getD i 0).toNat,
            0, 0, 1, 0, 32, 0] := by
  obtain ⟨d, W, H, C, rfl, hW, hH, hC, hlt, hd⟩ := hi.exists_nat
  obtain ⟨d4, hsrc, hcp⟩ := icoSourceWithAlpha_nat d W H C hW hH hC hlt hd
  obtain ⟨vec, hvec, hlen⟩ := icoEncodeLoop_ok stbir stbiWritePng
    ⟨some d, W * H * C, (W : Int), (H : Int), (C : Int)⟩ _ hcp iconSizes (hres _ hsrc)
  obtain ⟨h1, h2⟩ := icoFileBytes_six vec hlen
  refine ⟨rfl, icoFileBytes iconSizes vec, ?_, h1, h2⟩
  rw [saveAsICO_source stbir stbiWritePng strFilename true d _ _ _ _ _ hsrc, hvec]
  simp only [hname, if_false, Bool.not_true, Bool.false_eq_true]

/-- C21, on the 1 x 2 image of three channels with a resampler that succeeds on it. -/
theorem saveAsICO_directory_witness :
    IsImage sampleImage ∧
    (∀ src, icoSourceWithAlpha sampleImage = .returned () src → ∀ size ∈ iconSizes,
      ∃ out, resize stbirBlack (toUInt size) (toUInt size) src = .returned true out) ∧
    "icon".length ≠ 0 ∧
    iconSizes = [16, 32, 48, 64, 128, 256] ∧
    ∃ file, saveAsICO stbirBlack stbiWriteRaw "icon" true sampleImage
        = .returned (some file) sampleImage ∧
      file.take 6 = [0, 0, 1, 0, 6, 0] ∧
      ∀ i, i < 6 →
        (file.drop (6 + 16 * i)).take 8 =
          [if iconSizes.getD i 0 = 256 then 0 else (iconSizes.getD i 0).toNat,
            if iconSizes.getD i 0 = 256 then 0 else (iconSizes.getD i 0).toNat,
            0, 0, 1, 0, 32, 0] :=
  have hres : ∀ src, icoSourceWithAlpha sampleImage = .returned () src → ∀ size ∈ iconSizes,
      ∃ out, resize stbirBlack (toUInt size) (toUInt size) src = .returned true out := by
    intro src hsrc size hsize
    have e : icoSourceWithAlpha sampleImage =
        .returned () ⟨some [1, 2, 3, 255, 4, 5, 6, 255], 8, 1, 2, 4⟩ := by decide
    rw [e] at hsrc
    injection hsrc with _ hsrc
    subst hsrc
    obtain ⟨b1, b2⟩ := iconSizes_bounds size hsize
    exact resize_total stbirBlack (fun _ _ _ _ _ _ => Option.some_ne_none _) _ 8 1 2 4
      (toUInt size) (Or.inr rfl) b1 b2
  ⟨by decide, hres, by decide,
    saveAsICO_directory stbirBlack stbiWriteRaw "icon" sampleImage (by decide) hres
      (by decide)⟩

end X
